import Mathlib

/-!
Verification of the on-disk B+Tree storage engine (`src/btree.rs`, `src/node.rs`,
`src/page_layout.rs`).

The tree engine (`btree.rs`) is embedded directly from the source: `is_node_full`,
`is_node_underflow`, `insert`, `insert_non_full`, `search`, `search_node` and the
builder are translated function by function.  Rust's non-structural recursion through
disk offsets is made total with an explicit fuel argument; the public entry points pass
`pages.length + 1` fuel, which is shown to be sufficient on well-formed trees.

Modules of the repository that are declared or called but whose code is absent from
`src/` (`pager.rs`, `page.rs`, `node_type.rs`, `error.rs`, the body of `Node::split`,
and the body of `delete_key_from_subtree`) are modelled from the specification; every
such definition carries a doc comment starting with `Modelled from the spec:`.
-/

namespace BTV

/-- Modelled from the spec: `node_type.rs` is absent from `src/`.  A `Key` is an
"ordered, fixed-maximum-length string/byte-sequence used for comparison"; ordering is
byte-lexicographic.  We represent a key by its byte sequence. -/
abbrev Key := List Nat

/-- Byte-lexicographic three-way comparison of byte sequences (Rust's `Ord` on
`String`/byte strings). -/
def cmpBytes : List Nat → List Nat → Ordering
  | [], [] => .eq
  | [], _ :: _ => .lt
  | _ :: _, [] => .gt
  | a :: as, b :: bs => if a < b then .lt else if b < a then .gt else cmpBytes as bs

/-- Strict byte-lexicographic order, `a < b`. -/
def keyLtB (a b : Key) : Bool := decide (cmpBytes a b = .lt)

/-- Byte-lexicographic `a <= b` (Rust's `kv.key <= median.0`). -/
def keyLeB (a b : Key) : Bool := !(decide (cmpBytes a b = .gt))

/-- Modelled from the spec: `node_type.rs` is absent from `src/`.  A `KeyValuePair` is
"(Key, Value), Value a fixed-maximum-length byte-sequence.  Ordered by Key only". -/
structure KeyValuePair where
  key : Key
  value : List Nat
deriving DecidableEq, Repr

/-- Modelled from the spec: `error.rs` is absent from `src/`.  Only the two variants
used by `btree.rs` are needed. -/
inductive Error where
  | UnexpectedError
  | KeyNotFound
deriving DecidableEq, Repr

/-- Modelled from the spec: an `Offset` is "an unsigned integer identifying a page's
position (page index, or byte address — consistent choice required)".  We use the page
index. -/
abbrev Offset := Nat

/-- The tagged node variant of `node_type.rs` as used by `btree.rs`:
`Leaf(pairs)`, `Internal(children, keys)` or `Unexpected`. -/
inductive NodeType where
  | Internal (children : List Offset) (keys : List Key)
  | Leaf (pairs : List KeyValuePair)
  | Unexpected
deriving DecidableEq, Repr

/-- The in-memory decoded form of a page (`node.rs`). -/
structure Node where
  node_type : NodeType
  is_root : Bool
  parent_offset : Option Offset
deriving DecidableEq, Repr

/-- Modelled from the spec: the body of `Node::new` in `src/node.rs` is empty; it is
the evident constructor. -/
def Node.new (node_type : NodeType) (is_root : Bool) (parent_offset : Option Offset) :
    Node :=
  ⟨node_type, is_root, parent_offset⟩

/-- Modelled from the spec: `Node::split` is called by `btree.rs` but absent from
`src/`.  Splitting a node at parameter `b` (spec §4.6 and the source comment
"split will split the child at b leaving the [0, b-1] keys while moving the set of
[b, 2b-1] keys to the sibling"): a Leaf keeps its first `b` pairs and promotes a copy
of the key of pair `b-1` (values stay in leaves); an Internal node keeps keys
`[0, b-2]` and children `[0, b-1]`, promotes key `b-1`, and moves keys `[b, 2b-2]` and
children `[b, 2b-1]` to the sibling.  The sibling inherits the parent pointer and is
not a root.  Returns `(median, left-half, sibling)`. -/
def Node.split (n : Node) (b : Nat) : Except Error (Key × Node × Node) :=
  match n.node_type with
  | .Internal children keys =>
    match keys[b - 1]? with
    | none => .error .UnexpectedError
    | some median =>
      .ok (median,
        ⟨.Internal (children.take b) (keys.take (b - 1)), n.is_root, n.parent_offset⟩,
        ⟨.Internal (children.drop b) (keys.drop b), false, n.parent_offset⟩)
  | .Leaf pairs =>
    match pairs[b - 1]? with
    | none => .error .UnexpectedError
    | some median =>
      .ok (median.key,
        ⟨.Leaf (pairs.take b), n.is_root, n.parent_offset⟩,
        ⟨.Leaf (pairs.drop b), false, n.parent_offset⟩)
  | .Unexpected => .error .UnexpectedError

/-- Modelled from the spec: `pager.rs` and `page.rs` are absent from `src/`.  Since
node encoding/decoding is specified as a "pure, total, round-trip-exact
transformation" (spec §2, proved below as the `encodeNode`/`decodeNode` round trip),
the page store is modelled as the sequence of decoded nodes of the backing file, one
per page, indexed by page offset. -/
structure Pager where
  pages : List Node
deriving DecidableEq, Repr

/-- Modelled from the spec: `get_page(offset)` "reads exactly PAGE_SIZE bytes starting
at offset; fails with IoError if the read is short". -/
def Pager.get_page (p : Pager) (off : Offset) : Except Error Node :=
  match p.pages[off]? with
  | some n => .ok n
  | none => .error .UnexpectedError

/-- Modelled from the spec: `write_page(page)` "appends page at the current
end-of-file, advances the allocation cursor by PAGE_SIZE, returns the offset it was
written at.  This is the only way new pages are created." -/
def Pager.write_page (p : Pager) (n : Node) : Offset × Pager :=
  (p.pages.length, ⟨p.pages ++ [n]⟩)

/-- Modelled from the spec: `write_page_at_offset(page, offset)` "overwrites the
PAGE_SIZE bytes at offset in place ... Must not change file length". -/
def Pager.write_page_at_offset (p : Pager) (n : Node) (off : Offset) : Pager :=
  ⟨p.pages.set off n⟩

/-- `get_page` in state-threading form, used by `search`, which takes `&mut self` in
the source: the call returns the possibly-updated pager alongside the result, so that
"search mutates nothing" is a theorem rather than a typing accident. -/
def Pager.get_pageS (p : Pager) (off : Offset) : Except Error Node × Pager :=
  (p.get_page off, p)

/-- The BTree struct of `btree.rs`: pager, branching parameter `b`, root offset. -/
structure BTree where
  pager : Pager
  b : Nat
  root_offset : Offset
deriving DecidableEq, Repr

/-- The builder struct of `btree.rs` (the path is the file-system path string). -/
structure BTreeBuilder where
  path : String
  b : Nat
deriving DecidableEq, Repr

/-- `BTreeBuilder::new`. -/
def BTreeBuilder.new : BTreeBuilder := ⟨"", 0⟩

/-- `BTreeBuilder::path` (setter). -/
def BTreeBuilder.withPath (bld : BTreeBuilder) (p : String) : BTreeBuilder :=
  ⟨p, bld.b⟩

/-- `BTreeBuilder::b_parameter` (setter). -/
def BTreeBuilder.b_parameter (bld : BTreeBuilder) (b : Nat) : BTreeBuilder :=
  ⟨bld.path, b⟩

/-- `BTreeBuilder::default`. -/
def BTreeBuilder.default : BTreeBuilder := ⟨"/tmp/db", 200⟩

/-- `BTreeBuilder::build` from `btree.rs`: reject an empty path, then reject `b == 0`,
both before any file I/O; then open the backing file (`file` is the pager state of the
already-existing file, possibly non-empty — `Pager::new` is modelled from the spec as
"opens or creates the backing file; computes the current allocation cursor from file
length") and append a single empty root Leaf via `write_page`. -/
def BTreeBuilder.build (bld : BTreeBuilder) (file : Pager) : Except Error BTree :=
  if bld.path = "" then .error .UnexpectedError
  else if bld.b = 0 then .error .UnexpectedError
  else
    let root : Node := Node.new (.Leaf []) true none
    let alloc := file.write_page root
    .ok ⟨alloc.2, bld.b, alloc.1⟩

/-- `MAX_BRANCHING_FACTOR` from `btree.rs`. -/
def MAX_BRANCHING_FACTOR : Nat := 200

/-- `NODE_KEYS_LIMIT` from `btree.rs`. -/
def NODE_KEYS_LIMIT : Nat := MAX_BRANCHING_FACTOR - 1

/-- The loop of Rust's `slice::binary_search_by` (the `base`/`size` formulation of the
standard library): while `size > 1`, probe `mid = base + size/2`, move `base` to `mid`
unless the probe compares `Greater`, and shrink `size` by `half`. -/
def bsLoop (f : Nat → Ordering) (base : Nat) (size : Nat) : Nat :=
  if 1 < size then
    bsLoop f (if f (base + size / 2) = .gt then base else base + size / 2)
      (size - size / 2)
  else base
termination_by size
decreasing_by
  omega

/-- Rust's `slice::binary_search_by` over an index comparator `f` (where `f i` is
`element i` compared to the target) on a slice of length `len`: empty slices report
insertion point `0`; otherwise run `bsLoop` and classify the final probe, yielding
`Ok(base)` on an exact match and `Err(insertion point)` otherwise. -/
def binarySearchBy (f : Nat → Ordering) (len : Nat) : Except Nat Nat :=
  if len = 0 then .error 0
  else
    match f (bsLoop f 0 len) with
    | .eq => .ok (bsLoop f 0 len)
    | .lt => .error (bsLoop f 0 len + 1)
    | .gt => .error (bsLoop f 0 len)

/-- Rust's `.unwrap_or_else(|x| x)` on a binary-search result. -/
def unwrapIdx : Except Nat Nat → Nat
  | .ok i => i
  | .error i => i

/-- `keys.binary_search(&Key(...))` from `btree.rs`: binary search of a key in a key
vector by byte-lexicographic order. -/
def binSearchKeys (ks : List Key) (k : Key) : Except Nat Nat :=
  binarySearchBy (fun i => match ks[i]? with | some a => cmpBytes a k | none => .gt)
    ks.length

/-- `pairs.binary_search(&kv)` / `pairs.binary_search_by_key(...)` from `btree.rs`:
binary search among key-value pairs.  The comparator is by key only (`KeyValuePair` is
"Ordered by Key only", spec §3; `node_type.rs` is absent from `src/`). -/
def binSearchPairs (ps : List KeyValuePair) (k : Key) : Except Nat Nat :=
  binarySearchBy
    (fun i => match ps[i]? with | some p => cmpBytes p.key k | none => .gt)
    ps.length

/-- `BTree::is_node_full`: a Leaf is full iff it holds exactly `2b-1` pairs, an
Internal node iff it holds exactly `2b-1` keys. -/
def is_node_full (b : Nat) (n : Node) : Except Error Bool :=
  match n.node_type with
  | .Leaf pairs => .ok (decide (pairs.length = 2 * b - 1))
  | .Internal _ keys => .ok (decide (keys.length = 2 * b - 1))
  | .Unexpected => .error .UnexpectedError

/-- `BTree::is_node_underflow`: a non-root node underflows when it holds fewer than
`b-1` entries; a root never underflows. -/
def is_node_underflow (b : Nat) (n : Node) : Except Error Bool :=
  match n.node_type with
  | .Leaf pairs => .ok (decide (pairs.length < b - 1) && !n.is_root)
  | .Internal _ keys => .ok (decide (keys.length < b - 1) && !n.is_root)
  | .Unexpected => .error .UnexpectedError

/-- `BTree::insert_non_full` from `btree.rs`, with an explicit fuel for the recursion
through child offsets.  Leaf: binary-search the insertion index and insert the pair
(unconditionally — `unwrap_or_else(|x| x)` merges the found and not-found cases), then
persist in place.  Internal: locate the child; if full, split it, persist the left
half at the child's offset, append the sibling, insert the promoted median key at the
child index and the sibling offset at the next index, persist this node, then recurse
into the left half when `kv.key <= median` and into the sibling otherwise; if not
full, recurse directly. -/
def insert_non_full (b : Nat) :
    Nat → Pager → Node → Offset → KeyValuePair → Except Error Pager
  | 0, _, _, _, _ => .error .UnexpectedError
  | fuel + 1, pager, node, node_offset, kv =>
    match node.node_type with
    | .Leaf pairs =>
      let idx := unwrapIdx (binSearchPairs pairs kv.key)
      let pairs' := pairs.insertIdx idx kv
      .ok (pager.write_page_at_offset
        ⟨.Leaf pairs', node.is_root, node.parent_offset⟩ node_offset)
    | .Internal children keys =>
      let idx := unwrapIdx (binSearchKeys keys kv.key)
      match children[idx]? with
      | none => .error .UnexpectedError
      | some child_offset =>
        match pager.get_page child_offset with
        | .error e => .error e
        | .ok child =>
          match is_node_full b child with
          | .error e => .error e
          | .ok true =>
            match child.split b with
            | .error e => .error e
            | .ok (median, childL, sibling) =>
              let pager1 := pager.write_page_at_offset childL child_offset
              let alloc := pager1.write_page sibling
              let sibling_offset := alloc.1
              let pager2 := alloc.2
              let children' := children.insertIdx (idx + 1) sibling_offset
              let keys' := keys.insertIdx idx median
              let pager3 := pager2.write_page_at_offset
                ⟨.Internal children' keys', node.is_root, node.parent_offset⟩
                node_offset
              if keyLeB kv.key median then
                insert_non_full b fuel pager3 childL child_offset kv
              else
                insert_non_full b fuel pager3 sibling sibling_offset kv
          | .ok false => insert_non_full b fuel pager child child_offset kv
    | .Unexpected => .error .UnexpectedError

/-- `BTree::insert` from `btree.rs`.  Fetch and decode the root; if it is full, append
a brand-new empty Internal root, mark the old root non-root and reparent it to the new
root's offset, split it, write the left half back at the old root's original offset,
append the sibling, fill the new root with `Internal([old, sibling], [median])`,
persist it at the new root offset (which becomes the tree's root offset), and continue
with `insert_non_full` on the new root; otherwise `insert_non_full` on the root
directly. -/
def BTree.insert (t : BTree) (kv : KeyValuePair) : Except Error BTree :=
  let fuel := t.pager.pages.length + 1
  match t.pager.get_page t.root_offset with
  | .error e => .error e
  | .ok root =>
    match is_node_full t.b root with
    | .error e => .error e
    | .ok true =>
      let old_root_offset := t.root_offset
      let alloc := t.pager.write_page (Node.new (.Internal [] []) true none)
      let new_root_offset := alloc.1
      let pager1 := alloc.2
      let old_root : Node := ⟨root.node_type, false, some new_root_offset⟩
      match old_root.split t.b with
      | .error e => .error e
      | .ok (median, old_root', sibling) =>
        let pager2 := pager1.write_page_at_offset old_root' old_root_offset
        let alloc2 := pager2.write_page sibling
        let sibling_offset := alloc2.1
        let pager3 := alloc2.2
        let new_root : Node :=
          ⟨.Internal [old_root_offset, sibling_offset] [median], true, none⟩
        let pager4 := pager3.write_page_at_offset new_root new_root_offset
        match insert_non_full t.b fuel pager4 new_root new_root_offset kv with
        | .error e => .error e
        | .ok pager5 => .ok ⟨pager5, t.b, new_root_offset⟩
    | .ok false =>
      match insert_non_full t.b fuel t.pager root t.root_offset kv with
      | .error e => .error e
      | .ok pager' => .ok ⟨pager', t.b, t.root_offset⟩

/-- `BTree::search_node` from `btree.rs`, with fuel and with the pager state threaded
through every page access.  Internal: binary-search the child index, fetch the child,
recurse.  Leaf: binary-search the pairs by key; return the matching pair or
`KeyNotFound`. -/
def search_node :
    Nat → Pager → Node → Key → (Except Error KeyValuePair) × Pager
  | 0, pager, _, _ => (.error .UnexpectedError, pager)
  | fuel + 1, pager, node, key =>
    match node.node_type with
    | .Internal children keys =>
      let idx := unwrapIdx (binSearchKeys keys key)
      match children[idx]? with
      | none => (.error .UnexpectedError, pager)
      | some child_offset =>
        match pager.get_pageS child_offset with
        | (.error e, pager') => (.error e, pager')
        | (.ok child, pager') => search_node fuel pager' child key
    | .Leaf pairs =>
      match binSearchPairs pairs key with
      | .ok idx =>
        match pairs[idx]? with
        | some p => (.ok p, pager)
        | none => (.error .UnexpectedError, pager)
      | .error _ => (.error .KeyNotFound, pager)
    | .Unexpected => (.error .UnexpectedError, pager)

/-- `BTree::search` from `btree.rs`: fetch and decode the root, then `search_node`.
The final pager state is returned alongside the result. -/
def BTree.search (t : BTree) (key : Key) : (Except Error KeyValuePair) × BTree :=
  let fuel := t.pager.pages.length + 1
  match t.pager.get_pageS t.root_offset with
  | (.error e, p') => (.error e, ⟨p', t.b, t.root_offset⟩)
  | (.ok root, p') =>
    let r := search_node fuel p' root key
    (r.1, ⟨r.2, t.b, t.root_offset⟩)

/-! ### Node encoding (spec §4.3, `page_layout.rs`)

`page.rs` and the `TryFrom` conversions are absent from `src/`; `page_layout.rs` is
present but truncated.  The byte layout below follows spec §4.3 together with the
constants and comments that survive in `src/page_layout.rs`: a 10-byte common header
(`is_root` at byte 0, node-type tag at byte 1, parent pointer at bytes 2..10), an
8-byte count at bytes 10..18, `KEY_SIZE = 10` and `VALUE_SIZE = 10` byte cells
(null-padded; "4076 / keys_limit = 20 (ten for key and 10 for value)").  Where the
spec leaves a choice we fix one: counts and offsets are little-endian, keys and
values are null-padded, children offsets precede the key run, and an all-zero parent
pointer is the "absent" sentinel. -/

/-- `PAGE_SIZE` from `page_layout.rs`. -/
def PAGE_SIZE : Nat := 4096

/-- `PTR_SIZE` from `page_layout.rs` (`size_of::<usize>()` on a 64-bit target). -/
def PTR_SIZE : Nat := 8

/-- Key cell width in bytes (`page_layout.rs` comment: "ten for key"). -/
def KEY_SIZE : Nat := 10

/-- Value cell width in bytes (`page_layout.rs` comment: "10 for value"). -/
def VALUE_SIZE : Nat := 10

/-- Common node header size: `is_root` byte, node-type byte, parent pointer
(`page_layout.rs`: "Common Node header layout (ten bytes in total)"). -/
def COMMON_NODE_HEADER_SIZE : Nat := 1 + 1 + PTR_SIZE

/-- Leaf node header size (`page_layout.rs`: "eighteen bytes in total"). -/
def LEAF_NODE_HEADER_SIZE : Nat := COMMON_NODE_HEADER_SIZE + PTR_SIZE

/-- Internal node header size (header plus the `num_children` count). -/
def INTERNAL_NODE_HEADER_SIZE : Nat := COMMON_NODE_HEADER_SIZE + PTR_SIZE

/-- A fixed-width little-endian encoding of a natural number. -/
def natToBytesLE : Nat → Nat → List Nat
  | 0, _ => []
  | w + 1, n => n % 256 :: natToBytesLE w (n / 256)

/-- Little-endian decoding of a byte sequence. -/
def bytesToNatLE : List Nat → Nat
  | [] => 0
  | b :: bs => b + 256 * bytesToNatLE bs

/-- Null-pad a byte string to a fixed cell width. -/
def padTo (w : Nat) (s : List Nat) : List Nat := s ++ List.replicate (w - s.length) 0

/-- Strip the null padding of a fixed-width cell ("decoder must strip padding
deterministically", spec §4.3). -/
def stripPadding (s : List Nat) : List Nat := s.takeWhile (fun x => x != 0)

/-- Encoded parent pointer: all-zero denotes absent (spec §4.3, "a sentinel value,
e.g. all-zero ... denotes absent"). -/
def parentRep : Option Offset → Nat
  | none => 0
  | some o => o

/-- One leaf cell: null-padded key bytes then null-padded value bytes. -/
def encodeKV (p : KeyValuePair) : List Nat :=
  padTo KEY_SIZE p.key ++ padTo VALUE_SIZE p.value

/-- Read `c` leaf cells off a byte stream. -/
def readPairs : Nat → List Nat → List KeyValuePair
  | 0, _ => []
  | c + 1, bytes =>
    ⟨stripPadding (bytes.take KEY_SIZE),
     stripPadding ((bytes.drop KEY_SIZE).take VALUE_SIZE)⟩ ::
      readPairs c (bytes.drop (KEY_SIZE + VALUE_SIZE))

/-- Read `c` child-offset cells off a byte stream. -/
def readOffsets : Nat → List Nat → List Offset
  | 0, _ => []
  | c + 1, bytes =>
    bytesToNatLE (bytes.take PTR_SIZE) :: readOffsets c (bytes.drop PTR_SIZE)

/-- Read `c` key cells off a byte stream. -/
def readKeys : Nat → List Nat → List Key
  | 0, _ => []
  | c + 1, bytes =>
    stripPadding (bytes.take KEY_SIZE) :: readKeys c (bytes.drop KEY_SIZE)

/-- Zero-pad an encoded node up to `PAGE_SIZE` bytes. -/
def padPage (l : List Nat) : List Nat := l ++ List.replicate (PAGE_SIZE - l.length) 0

/-- Modelled from the spec: `Page::try_from(&Node)` (encoding) is absent from `src/`.
Header bytes, count, then the cell runs; encoding fails when the declared count
exceeds the capacity implied by `PAGE_SIZE` and the fixed cell sizes (spec §4.3). -/
def encodeNode (n : Node) : Except Error (List Nat) :=
  match n.node_type with
  | .Leaf ps =>
    if LEAF_NODE_HEADER_SIZE + ps.length * (KEY_SIZE + VALUE_SIZE) ≤ PAGE_SIZE then
      .ok (padPage ((if n.is_root then 1 else 0) :: 1 ::
        natToBytesLE PTR_SIZE (parentRep n.parent_offset) ++
        natToBytesLE PTR_SIZE ps.length ++ ps.flatMap encodeKV))
    else .error .UnexpectedError
  | .Internal cs ks =>
    if INTERNAL_NODE_HEADER_SIZE + cs.length * PTR_SIZE + (cs.length - 1) * KEY_SIZE
        ≤ PAGE_SIZE then
      .ok (padPage ((if n.is_root then 1 else 0) :: 0 ::
        natToBytesLE PTR_SIZE (parentRep n.parent_offset) ++
        natToBytesLE PTR_SIZE cs.length ++ cs.flatMap (natToBytesLE PTR_SIZE) ++
        ks.flatMap (padTo KEY_SIZE)))
    else .error .UnexpectedError
  | .Unexpected => .error .UnexpectedError

/-- Modelled from the spec: `Node::try_from(Page)` (decoding) is absent from `src/`.
Decoding is total and fails with a distinguished error if the tag byte is neither 0
nor 1 or if the declared count would overflow `PAGE_SIZE` (spec §4.3). -/
def decodeNode (page : List Nat) : Except Error Node :=
  match page with
  | rootByte :: tag :: rest =>
    let parent := bytesToNatLE (rest.take PTR_SIZE)
    let parent_offset : Option Offset := if parent = 0 then none else some parent
    let afterParent := rest.drop PTR_SIZE
    let count := bytesToNatLE (afterParent.take PTR_SIZE)
    let body := afterParent.drop PTR_SIZE
    if tag = 1 then
      if LEAF_NODE_HEADER_SIZE + count * (KEY_SIZE + VALUE_SIZE) ≤ PAGE_SIZE then
        .ok ⟨.Leaf (readPairs count body), rootByte == 1, parent_offset⟩
      else .error .UnexpectedError
    else if tag = 0 then
      if INTERNAL_NODE_HEADER_SIZE + count * PTR_SIZE + (count - 1) * KEY_SIZE
          ≤ PAGE_SIZE then
        .ok ⟨.Internal (readOffsets count body)
              (readKeys (count - 1) (body.drop (count * PTR_SIZE))),
             rootByte == 1, parent_offset⟩
      else .error .UnexpectedError
    else .error .UnexpectedError
  | _ => .error .UnexpectedError

/-- A byte string fits a fixed cell: at most `w` bytes, each a non-zero byte value
(null-padding must be strippable). -/
def fitsCell (w : Nat) (s : List Nat) : Bool :=
  decide (s.length ≤ w) && s.all (fun x => decide (0 < x) && decide (x < 256))

/-- A valid encodable parent pointer: absent, or a nonzero offset below `2^64`. -/
def parentOk (p : Option Offset) : Bool :=
  match p with
  | none => true
  | some o => decide (0 < o) && decide (o < 256 ^ PTR_SIZE)

/-- A `Node` value that is "valid" and "encodable within `PAGE_SIZE`" (spec §8
round-trip property): keys and values fit their cells, the structural field
relations of spec §3 hold (`len(children) = len(keys) + 1`), counts fit the page,
children offsets fit the pointer width, and the parent pointer is representable. -/
def validNode (n : Node) : Bool :=
  parentOk n.parent_offset &&
  match n.node_type with
  | .Leaf ps =>
    ps.all (fun p => fitsCell KEY_SIZE p.key && fitsCell VALUE_SIZE p.value) &&
    decide (LEAF_NODE_HEADER_SIZE + ps.length * (KEY_SIZE + VALUE_SIZE) ≤ PAGE_SIZE)
  | .Internal cs ks =>
    decide (cs.length = ks.length + 1) &&
    cs.all (fun o => decide (o < 256 ^ PTR_SIZE)) &&
    ks.all (fitsCell KEY_SIZE) &&
    decide (INTERNAL_NODE_HEADER_SIZE + cs.length * PTR_SIZE +
      (cs.length - 1) * KEY_SIZE ≤ PAGE_SIZE)
  | .Unexpected => false

/-! ### Decoded-subtree semantics

`OTree` is the tree of decoded nodes hanging off an offset, with each node annotated
by the offset it was decoded from.  All semantic notions (the in-order pair sequence,
height, footprint, well-formedness) are structural functions on `OTree`. -/

/-- The decoded subtree at an offset: each node remembers its offset, root flag and
parent pointer. -/
inductive OTree where
  | leaf (off : Offset) (isRoot : Bool) (parent : Option Offset)
      (pairs : List KeyValuePair)
  | internal (off : Offset) (isRoot : Bool) (parent : Option Offset)
      (children : List OTree) (keys : List Key)

/-- The offset a subtree was decoded from. -/
def offOf : OTree → Offset
  | .leaf o _ _ _ => o
  | .internal o _ _ _ _ => o

/-- The root flag of the top node of a subtree. -/
def isRootOf : OTree → Bool
  | .leaf _ r _ _ => r
  | .internal _ r _ _ _ => r

/-- The parent pointer of the top node of a subtree. -/
def parentOf : OTree → Option Offset
  | .leaf _ _ p _ => p
  | .internal _ _ p _ _ => p

/-- The `Node` stored at the top of a decoded subtree. -/
def headNode : OTree → Node
  | .leaf _ r p ps => ⟨.Leaf ps, r, p⟩
  | .internal _ r p cs ks => ⟨.Internal (cs.map offOf) ks, r, p⟩

/-- The entry count of the top node (pairs of a Leaf, keys of an Internal node). -/
def sizeEntries : OTree → Nat
  | .leaf _ _ _ ps => ps.length
  | .internal _ _ _ _ ks => ks.length

mutual
/-- In-order concatenation of all leaf pairs of a subtree. -/
def pairsA : OTree → List KeyValuePair
  | .leaf _ _ _ ps => ps
  | .internal _ _ _ cs _ => pairsL cs
/-- In-order concatenation of all leaf pairs of a forest. -/
def pairsL : List OTree → List KeyValuePair
  | [] => []
  | c :: cs => pairsA c ++ pairsL cs
end

mutual
/-- The footprint of a subtree: all offsets it occupies, in preorder. -/
def offsA : OTree → List Offset
  | .leaf o _ _ _ => [o]
  | .internal o _ _ cs _ => o :: offsL cs
/-- The footprint of a forest. -/
def offsL : List OTree → List Offset
  | [] => []
  | c :: cs => offsA c ++ offsL cs
end

mutual
/-- Height of a decoded subtree (a leaf has height 1). -/
def heightA : OTree → Nat
  | .leaf _ _ _ _ => 1
  | .internal _ _ _ cs _ => heightMaxL cs + 1
/-- Maximum height over a forest (0 when empty). -/
def heightMaxL : List OTree → Nat
  | [] => 0
  | c :: cs => max (heightA c) (heightMaxL cs)
end

/-- Bound check `lo < k` against an optional lower bound. -/
def loLtB (lo : Option Key) (k : Key) : Bool :=
  match lo with
  | none => true
  | some l => keyLtB l k

/-- Bound check `k ≤ hi` against an optional upper bound. -/
def leHiB (k : Key) (hi : Option Key) : Bool :=
  match hi with
  | none => true
  | some h => keyLeB k h

/-- `k` lies in the half-open key range `(lo, hi]`. -/
def inRangeB (lo hi : Option Key) (k : Key) : Bool := loLtB lo k && leHiB k hi

/-- Strict ascending order of a key sequence (adjacent comparisons). -/
def sortedB : List Key → Bool
  | [] => true
  | [_] => true
  | a :: b :: r => keyLtB a b && sortedB (b :: r)

/-- All keys of a sequence lie in `(lo, hi]`. -/
def allInRangeB (lo hi : Option Key) (ks : List Key) : Bool :=
  ks.all (inRangeB lo hi)

/-- All subtrees of a forest have equal height. -/
def uniformHeights : List OTree → Bool
  | [] => true
  | c :: cs => cs.all (fun d => heightA d == heightA c)

mutual
/-- Well-formedness of a decoded subtree as a B+Tree of parameter `b` over key range
`(lo, hi]` (spec §3): correct root flag; a Leaf holds between `b-1` and `2b-1` pairs
(`0` to `2b-1` for the root), strictly ascending and within range; an Internal node
holds between `b-1` and `2b-1` keys (`1` to `2b-1` for the root), strictly ascending
and within range, with `len(children) = len(keys) + 1`, children of equal height, and
child `i` well-formed over `(keys[i-1], keys[i]]` with the outer bounds at the ends. -/
def wfB (b : Nat) (rt : Bool) (lo hi : Option Key) : OTree → Bool
  | .leaf _ isR _ ps =>
    (isR == rt) && (rt || decide (b - 1 ≤ ps.length)) &&
    decide (ps.length ≤ 2 * b - 1) &&
    sortedB (ps.map (fun p => p.key)) && allInRangeB lo hi (ps.map (fun p => p.key))
  | .internal _ isR _ cs ks =>
    (isR == rt) && decide (cs.length = ks.length + 1) &&
    (if rt then decide (1 ≤ ks.length) else decide (b - 1 ≤ ks.length)) &&
    decide (ks.length ≤ 2 * b - 1) &&
    sortedB ks && allInRangeB lo hi ks &&
    uniformHeights cs &&
    wfChildrenB b lo ks cs hi
/-- Well-formedness of the children run of an Internal node: one more child than
separator keys, child `i` over `(keys[i-1], keys[i]]`. -/
def wfChildrenB (b : Nat) : Option Key → List Key → List OTree → Option Key → Bool
  | lo, [], [c], hi => wfB b false lo hi c
  | lo, k :: ks, c :: cs, hi => wfB b false lo (some k) c && wfChildrenB b k ks cs hi
  | _, _, _, _ => false
end

/-- Like `wfB` but the top node may hold one entry fewer than the minimum (the state
of a node right after a deletion, before underflow repair). -/
def wfDel (b : Nat) (rt : Bool) (lo hi : Option Key) : OTree → Bool
  | .leaf _ isR _ ps =>
    (isR == rt) && (rt || decide (b - 2 ≤ ps.length)) &&
    decide (ps.length ≤ 2 * b - 1) &&
    sortedB (ps.map (fun p => p.key)) && allInRangeB lo hi (ps.map (fun p => p.key))
  | .internal _ isR _ cs ks =>
    (isR == rt) && decide (cs.length = ks.length + 1) &&
    (rt || decide (b - 2 ≤ ks.length)) &&
    decide (ks.length ≤ 2 * b - 1) &&
    sortedB ks && allInRangeB lo hi ks &&
    uniformHeights cs &&
    wfChildrenB b lo ks cs hi

mutual
/-- Decode the subtree hanging off an offset, with fuel bounding the depth. -/
def decodeT : Nat → Pager → Offset → Option OTree
  | 0, _, _ => none
  | fuel + 1, pager, off =>
    match pager.pages[off]? with
    | none => none
    | some n =>
      match n.node_type with
      | .Leaf ps => some (.leaf off n.is_root n.parent_offset ps)
      | .Internal cs ks =>
        match decodeL fuel pager cs with
        | none => none
        | some ts => some (.internal off n.is_root n.parent_offset ts ks)
      | .Unexpected => none
termination_by fuel _ _ => (fuel, 0)
/-- Decode a run of child offsets. -/
def decodeL : Nat → Pager → List Offset → Option (List OTree)
  | _, _, [] => some []
  | fuel, pager, c :: cs =>
    match decodeT fuel pager c with
    | none => none
    | some t =>
      match decodeL fuel pager cs with
      | none => none
      | some ts => some (t :: ts)
termination_by fuel _ cs => (fuel, cs.length + 1)
end

/-- Lower key bound of child slot `i` of an Internal node with separators `ks` whose
own range is `(lo, hi]`. -/
def childLo (lo : Option Key) (ks : List Key) (i : Nat) : Option Key :=
  if i = 0 then lo else ks[i - 1]?

/-- Upper key bound of child slot `i`. -/
def childHi (hi : Option Key) (ks : List Key) (i : Nat) : Option Key :=
  if i = ks.length then hi else ks[i]?

/-! ### Deletion (spec §4.7)

The body of `delete_key_from_subtree` in `src/btree.rs` is empty, so deletion is
modelled from the spec: locate the key exactly as in search, remove the entry at the
leaf, then, ascending from the leaf's parent upward, repair underflow by borrowing
from a sibling holding more than `b-1` entries (left first, then right) or else by
merging with a sibling (the left one when both exist), absorbing the separator for
Internal merges and concatenating pair runs for Leaf merges; a root Internal node
left with zero keys is collapsed onto its single child.  The recursion below works on
the decoded subtree and performs the underflow check for each child on the way out of
the recursive call, which is exactly the bottom-up repair sweep of §4.7; every node of
the resulting subtree is then persisted in place at its recorded offset. -/

/-- Underflow of the top node of a decoded subtree (`BTree::is_node_underflow`):
fewer than `b-1` entries and not the root. -/
def underflowA (b : Nat) (t : OTree) : Bool :=
  decide (sizeEntries t < b - 1) && !(isRootOf t)

/-- Modelled from the spec: borrow the last entry of the left sibling (spec §4.7
case 1).  For Leaf siblings the last pair moves to the front of the underflowed node
and the separator becomes the new last key of the left sibling; for Internal siblings
the parent separator rotates down into the underflowed node together with the left
sibling's last child, and the left sibling's last key rotates up.  Returns
`(new left sibling, new child, new separator)`. -/
def borrowFromLeft (ci lsib : OTree) (sep : Key) : Option (OTree × OTree × Key) :=
  match lsib, ci with
  | .leaf lo lr lp lps, .leaf co cr cp cps =>
    match lps.getLast? with
    | none => none
    | some p =>
      match (lps.dropLast.getLast?).map (fun q => q.key) with
      | none => none
      | some newSep =>
        some (.leaf lo lr lp lps.dropLast, .leaf co cr cp (p :: cps), newSep)
  | .internal lo lr lp lcs lks, .internal co cr cp ccs cks =>
    match lks.getLast?, lcs.getLast? with
    | some lastKey, some lastChild =>
      some (.internal lo lr lp lcs.dropLast lks.dropLast,
            .internal co cr cp (lastChild :: ccs) (sep :: cks), lastKey)
    | _, _ => none
  | _, _ => none

/-- Modelled from the spec: borrow the first entry of the right sibling (spec §4.7
case 2), symmetrically.  Returns `(new child, new right sibling, new separator)`. -/
def borrowFromRight (ci rsib : OTree) (sep : Key) : Option (OTree × OTree × Key) :=
  match ci, rsib with
  | .leaf co cr cp cps, .leaf ro rr rp rps =>
    match rps with
    | [] => none
    | p :: rest => some (.leaf co cr cp (cps ++ [p]), .leaf ro rr rp rest, p.key)
  | .internal co cr cp ccs cks, .internal ro rr rp rcs rks =>
    match rcs, rks with
    | firstChild :: rcs', firstKey :: rks' =>
      some (.internal co cr cp (ccs ++ [firstChild]) (cks ++ [sep]),
            .internal ro rr rp rcs' rks', firstKey)
    | _, _ => none
  | _, _ => none

/-- Modelled from the spec: merge two adjacent siblings (spec §4.7 case 3), the
merged node living at the left node's offset; a Leaf merge concatenates the pair
runs, an Internal merge absorbs the separator key. -/
def mergeNodes (l r : OTree) (sep : Key) : Option OTree :=
  match l, r with
  | .leaf lo lr lp lps, .leaf _ _ _ rps => some (.leaf lo lr lp (lps ++ rps))
  | .internal lo lr lp lcs lks, .internal _ _ _ rcs rks =>
    some (.internal lo lr lp (lcs ++ rcs) (lks ++ sep :: rks))
  | _, _ => none

/-- Modelled from the spec: repair the underflowed child at slot `i` of an Internal
node (spec §4.7): borrow from the left sibling if it can spare an entry, else from
the right sibling, else merge with the left sibling when one exists and with the
right sibling otherwise, removing the consumed separator and child pointer. -/
def repair (b : Nat) (off : Offset) (r : Bool) (par : Option Offset)
    (cs : List OTree) (ks : List Key) (i : Nat) (ci : OTree) :
    Except Error OTree :=
  if 0 < i &&
      (match cs[i - 1]? with
       | some l => decide (b - 1 < sizeEntries l)
       | none => false) then
    match cs[i - 1]?, ks[i - 1]? with
    | some lsib, some sep =>
      match borrowFromLeft ci lsib sep with
      | some x =>
        .ok (.internal off r par ((cs.set (i - 1) x.1).set i x.2.1)
          (ks.set (i - 1) x.2.2))
      | none => .error .UnexpectedError
    | _, _ => .error .UnexpectedError
  else if (match cs[i + 1]? with
           | some rs => decide (b - 1 < sizeEntries rs)
           | none => false) then
    match cs[i + 1]?, ks[i]? with
    | some rsib, some sep =>
      match borrowFromRight ci rsib sep with
      | some x =>
        .ok (.internal off r par ((cs.set i x.1).set (i + 1) x.2.1)
          (ks.set i x.2.2))
      | none => .error .UnexpectedError
    | _, _ => .error .UnexpectedError
  else if 0 < i then
    match cs[i - 1]?, ks[i - 1]? with
    | some lsib, some sep =>
      match mergeNodes lsib ci sep with
      | some m =>
        .ok (.internal off r par (cs.take (i - 1) ++ m :: cs.drop (i + 1))
          (ks.take (i - 1) ++ ks.drop i))
      | none => .error .UnexpectedError
    | _, _ => .error .UnexpectedError
  else
    match cs[1]?, ks[0]? with
    | some rsib, some sep =>
      match mergeNodes ci rsib sep with
      | some m => .ok (.internal off r par (m :: cs.drop 2) (ks.drop 1))
      | none => .error .UnexpectedError
    | _, _ => .error .UnexpectedError

/-- Modelled from the spec: deletion on the decoded subtree (spec §4.7).  At a Leaf,
binary-search the key and remove the found pair (`KeyNotFound` on a miss); at an
Internal node, descend into the child selected exactly as in search, then repair that
child on the way back up if it underflowed. -/
def delA (b : Nat) : Nat → OTree → Key → Except Error OTree
  | 0, _, _ => .error .UnexpectedError
  | fuel + 1, t, k =>
    match t with
    | .leaf off r par ps =>
      match binSearchPairs ps k with
      | .ok idx => .ok (.leaf off r par (ps.eraseIdx idx))
      | .error _ => .error .KeyNotFound
    | .internal off r par cs ks =>
      let i := unwrapIdx (binSearchKeys ks k)
      match cs[i]? with
      | none => .error .UnexpectedError
      | some ci =>
        match delA b fuel ci k with
        | .error e => .error e
        | .ok ci' =>
          if underflowA b ci' then repair b off r par cs ks i ci'
          else .ok (.internal off r par (cs.set i ci') ks)

/-- Mark the top node of a subtree as the root (used when the root collapses onto its
single child, spec §4.7). -/
def setRootFlag : OTree → OTree
  | .leaf o _ p ps => .leaf o true p ps
  | .internal o _ p cs ks => .internal o true p cs ks

mutual
/-- Persist every node of a decoded subtree in place at its recorded offset. -/
def writeBack (p : Pager) : OTree → Pager
  | .leaf off r par ps => p.write_page_at_offset ⟨.Leaf ps, r, par⟩ off
  | .internal off r par cs ks =>
    writeBackL (p.write_page_at_offset ⟨.Internal (cs.map offOf) ks, r, par⟩ off) cs
/-- Persist a forest. -/
def writeBackL (p : Pager) : List OTree → Pager
  | [] => p
  | c :: cs => writeBackL (writeBack p c) cs
end

/-- Modelled from the spec: `BTree::delete` / `delete_key_from_subtree` (the body in
`src/btree.rs` is empty).  Decode the tree, delete on the decoded subtree, collapse a
root Internal node left with zero keys onto its single child (which becomes the new
root), and persist every node of the result in place. -/
def BTree.delete (t : BTree) (k : Key) : Except Error BTree :=
  let fuel := t.pager.pages.length + 1
  match decodeT fuel t.pager t.root_offset with
  | none => .error .UnexpectedError
  | some td =>
    match delA t.b fuel td k with
    | .error e => .error e
    | .ok td' =>
      let tfin :=
        match td' with
        | .internal _ _ _ [c] [] => setRootFlag c
        | _ => td'
      .ok ⟨writeBack t.pager tfin, t.b, offOf tfin⟩

/-! ### Tree-level invariant and observable state -/

/-- The fuel every public entry point uses: one more than the page count (shown
sufficient on well-formed trees, whose height cannot exceed the page count). -/
def treeFuel (t : BTree) : Nat := t.pager.pages.length + 1

/-- The decoded tree hanging off the root offset. -/
def decodedRoot (t : BTree) : Option OTree := decodeT (treeFuel t) t.pager t.root_offset

/-- All key-value pairs currently stored, in leaf order. -/
def pairsOf (t : BTree) : List KeyValuePair :=
  match decodedRoot t with
  | none => []
  | some td => pairsA td

/-- All keys currently stored, in leaf order. -/
def keysOf (t : BTree) : List Key := (pairsOf t).map (fun p => p.key)

/-- Height of the tree (0 if the root fails to decode). -/
def heightOf (t : BTree) : Nat :=
  match decodedRoot t with
  | none => 0
  | some td => heightA td

/-- The whole-tree invariant: branching parameter at least 2, the root decodes within
`treeFuel`, the decoded tree is well-formed, and its footprint consists of distinct
in-bounds offsets. -/
def invB (t : BTree) : Bool :=
  decide (2 ≤ t.b) &&
  match decodedRoot t with
  | none => false
  | some td =>
    wfB t.b true none none td &&
    decide (offsA td).Nodup &&
    (offsA td).all (fun o => decide (o < t.pager.pages.length))

/-- Whether the root node is currently full (`insert`'s split trigger). -/
def rootFullB (t : BTree) : Bool :=
  match t.pager.get_page t.root_offset with
  | .error _ => false
  | .ok root =>
    match is_node_full t.b root with
    | .ok v => v
    | .error _ => false

/-- Insert a batch of pairs left to right, stopping at the first error. -/
def insertAll : BTree → List KeyValuePair → Except Error BTree
  | t, [] => .ok t
  | t, kv :: kvs =>
    match t.insert kv with
    | .ok t' => insertAll t' kvs
    | .error e => .error e

/-- A public mutating operation. -/
inductive Op where
  | ins (kv : KeyValuePair)
  | del (k : Key)

/-- Apply one operation; a failed operation leaves the tree unchanged. -/
def applyOp (t : BTree) : Op → BTree
  | .ins kv => match t.insert kv with | .ok t' => t' | .error _ => t
  | .del k => match t.delete k with | .ok t' => t' | .error _ => t

/-- Apply a sequence of operations. -/
def applyOps (t : BTree) : List Op → BTree
  | [] => t
  | op :: ops => applyOps (applyOp t op) ops

/-- The operations of a sequence are valid for a starting tree when every inserted
key is absent from the tree at the moment of its insert (inserting an already-present
key is "undefined behavior", spec §3). -/
def validOpsB (t : BTree) : List Op → Bool
  | [] => true
  | .ins kv :: ops =>
    !(decide (kv.key ∈ keysOf t)) && validOpsB (applyOp t (.ins kv)) ops
  | .del k :: ops => validOpsB (applyOp t (.del k)) ops

/-- The order invariant of spec §8: the in-order traversal of all leaves yields a
strictly ascending key sequence. -/
def orderInvB (t : BTree) : Bool := sortedB (keysOf t)

mutual
/-- The branching invariant of spec §8 on a decoded subtree: every non-root Internal
node has between `b-1` and `2b-1` keys and `len(children) = len(keys)+1`; every
non-root Leaf has between `b-1` and `2b-1` pairs. -/
def branchOKB (b : Nat) (rt : Bool) : OTree → Bool
  | .leaf _ _ _ ps =>
    rt || (decide (b - 1 ≤ ps.length) && decide (ps.length ≤ 2 * b - 1))
  | .internal _ _ _ cs ks =>
    (rt || (decide (b - 1 ≤ ks.length) && decide (ks.length ≤ 2 * b - 1) &&
      decide (cs.length = ks.length + 1))) && branchLB b cs
/-- The branching invariant over a forest of non-root subtrees. -/
def branchLB (b : Nat) : List OTree → Bool
  | [] => true
  | c :: cs => branchOKB b false c && branchLB b cs
end

/-- The branching invariant at the whole-tree level. -/
def branchingInvB (t : BTree) : Bool :=
  match decodedRoot t with
  | none => false
  | some td => branchOKB t.b true td

/-- Number of keys of a key sequence strictly below `k`. -/
def countLtK (ks : List Key) (k : Key) : Nat := ks.countP (fun a => keyLtB a k)

/-- Number of pairs of a pair sequence whose key is strictly below `k`. -/
def countLtP (ps : List KeyValuePair) (k : Key) : Nat :=
  ps.countP (fun p => keyLtB p.key k)

/-- The pairs with key strictly below `k`. -/
def lowerPart (ps : List KeyValuePair) (k : Key) : List KeyValuePair :=
  ps.filter (fun p => keyLtB p.key k)

/-- The pairs with key strictly above `k`. -/
def upperPart (ps : List KeyValuePair) (k : Key) : List KeyValuePair :=
  ps.filter (fun p => keyLtB k p.key)

/-- The pairs whose key differs from `k`. -/
def eraseKeyP (ps : List KeyValuePair) (k : Key) : List KeyValuePair :=
  ps.filter (fun p => !(p.key == k))

/-! ## Theorems

Everything below this point is proof; no further definitions are introduced. -/

/-! ### The byte-lexicographic key order -/

theorem cmpBytes_self : ∀ a : List Nat, cmpBytes a a = .eq
  | [] => rfl
  | x :: xs => by simp [cmpBytes, cmpBytes_self xs]

theorem cmpBytes_eq_iff : ∀ a b : List Nat, cmpBytes a b = .eq ↔ a = b
  | [], [] => by simp [cmpBytes]
  | [], _ :: _ => by simp [cmpBytes]
  | _ :: _, [] => by simp [cmpBytes]
  | x :: xs, y :: ys => by
    simp only [cmpBytes, List.cons.injEq]
    rcases Nat.lt_trichotomy x y with h | h | h
    · simp only [if_pos h]
      constructor
      · intro hc
        exact absurd hc (by simp)
      · rintro ⟨rfl, -⟩
        exact absurd h (Nat.lt_irrefl _)
    · subst h
      simp [Nat.lt_irrefl, cmpBytes_eq_iff xs ys]
    · rw [if_neg (Nat.not_lt.mpr (Nat.le_of_lt h)), if_pos h]
      constructor
      · intro hc
        exact absurd hc (by simp)
      · rintro ⟨rfl, -⟩
        exact absurd h (Nat.lt_irrefl _)

theorem cmpBytes_swap : ∀ a b : List Nat, cmpBytes b a = (cmpBytes a b).swap
  | [], [] => rfl
  | [], _ :: _ => rfl
  | _ :: _, [] => rfl
  | x :: xs, y :: ys => by
    simp only [cmpBytes]
    rcases Nat.lt_trichotomy x y with h | h | h
    · simp [h, Nat.lt_asymm h, Ordering.swap]
    · subst h
      simp [Nat.lt_irrefl, cmpBytes_swap xs ys]
    · simp [h, Nat.lt_asymm h, Ordering.swap]

theorem cmpBytes_lt_trans :
    ∀ a b c : List Nat, cmpBytes a b = .lt → cmpBytes b c = .lt → cmpBytes a c = .lt
  | [], _ :: _, _ :: _, _, _ => rfl
  | [], [], _, h, _ => by simp [cmpBytes] at h
  | [], _ :: _, [], _, h => by simp [cmpBytes] at h
  | _ :: _, [], _, h, _ => by simp [cmpBytes] at h
  | _ :: _, _ :: _, [], _, h => by simp [cmpBytes] at h
  | x :: xs, y :: ys, z :: zs, h1, h2 => by
    simp only [cmpBytes] at h1 h2 ⊢
    by_cases hxy : x < y
    · have hyz : y ≤ z := by
        by_contra hc
        push_neg at hc
        rw [if_neg (by omega), if_pos (by omega)] at h2
        exact absurd h2 (by simp)
      rw [if_pos (by omega)]
    · by_cases hyx : y < x
      · rw [if_neg hxy, if_pos hyx] at h1
        exact absurd h1 (by simp)
      · have hxy' : x = y := by omega
        subst hxy'
        rw [if_neg hxy, if_neg hyx] at h1
        by_cases hxz : x < z
        · rw [if_pos hxz]
        · by_cases hzx : z < x
          · rw [if_neg hxz, if_pos hzx] at h2
            exact absurd h2 (by simp)
          · rw [if_neg hxz, if_neg hzx] at h2 ⊢
            exact cmpBytes_lt_trans xs ys zs h1 h2

theorem cmpBytes_gt_iff {a b : List Nat} : cmpBytes a b = .gt ↔ cmpBytes b a = .lt := by
  rw [cmpBytes_swap b a]
  cases hc : cmpBytes b a <;> simp [Ordering.swap]

theorem keyLt_irrefl (a : Key) : keyLtB a a = false := by
  simp [keyLtB, cmpBytes_self]

theorem keyLt_trans {a b c : Key} (h1 : keyLtB a b = true) (h2 : keyLtB b c = true) :
    keyLtB a c = true := by
  simp only [keyLtB, decide_eq_true_eq] at h1 h2 ⊢
  exact cmpBytes_lt_trans a b c h1 h2

theorem keyLt_asymm {a b : Key} (h : keyLtB a b = true) : keyLtB b a = false := by
  simp only [keyLtB, decide_eq_true_eq, decide_eq_false_iff_not] at h ⊢
  rw [cmpBytes_swap, h]
  simp [Ordering.swap]

theorem keyLt_antisymm {a b : Key} (h1 : keyLtB a b = false)
    (h2 : keyLtB b a = false) : a = b := by
  simp only [keyLtB, decide_eq_false_iff_not] at h1 h2
  rcases hc : cmpBytes a b
  · exact absurd hc h1
  · exact (cmpBytes_eq_iff a b).mp hc
  · exact absurd (cmpBytes_gt_iff.mp hc) h2

theorem keyLt_ne {a b : Key} (h : keyLtB a b = true) : a ≠ b := by
  intro hab
  subst hab
  rw [keyLt_irrefl] at h
  exact absurd h (by simp)

theorem keyLe_iff {a b : Key} :
    keyLeB a b = true ↔ (keyLtB a b = true ∨ a = b) := by
  simp only [keyLeB, keyLtB, Bool.not_eq_true', decide_eq_true_eq,
    decide_eq_false_iff_not]
  rcases hc : cmpBytes a b
  · simp
  · simp [(cmpBytes_eq_iff a b).mp hc]
  · constructor
    · intro h
      exact absurd rfl h
    · rintro (h | rfl)
      · simp at h
      · rw [cmpBytes_self] at hc
        exact absurd hc (by simp)

theorem keyLe_of_lt {a b : Key} (h : keyLtB a b = true) : keyLeB a b = true :=
  keyLe_iff.mpr (Or.inl h)

theorem keyLe_refl (a : Key) : keyLeB a a = true := keyLe_iff.mpr (Or.inr rfl)

theorem keyLe_eq_not_lt (a b : Key) : keyLeB a b = !keyLtB b a := by
  simp only [keyLeB, keyLtB]
  rw [cmpBytes_swap a b]
  cases hc : cmpBytes a b <;> rfl

theorem keyLt_iff_not_le {a b : Key} : keyLtB a b = true ↔ keyLeB b a = false := by
  rw [keyLe_eq_not_lt]
  cases h : keyLtB a b <;> simp

theorem keyLt_of_le_of_lt {a b c : Key} (h1 : keyLeB a b = true)
    (h2 : keyLtB b c = true) : keyLtB a c = true := by
  rcases keyLe_iff.mp h1 with h | rfl
  · exact keyLt_trans h h2
  · exact h2

theorem keyLt_of_lt_of_le {a b c : Key} (h1 : keyLtB a b = true)
    (h2 : keyLeB b c = true) : keyLtB a c = true := by
  rcases keyLe_iff.mp h2 with h | rfl
  · exact keyLt_trans h1 h
  · exact h1

theorem keyLe_trans {a b c : Key} (h1 : keyLeB a b = true) (h2 : keyLeB b c = true) :
    keyLeB a c = true := by
  rcases keyLe_iff.mp h1 with h | rfl
  · exact keyLe_of_lt (keyLt_of_lt_of_le h h2)
  · exact h2

theorem keyLt_or_ge (a b : Key) : keyLtB a b = true ∨ keyLeB b a = true := by
  cases h : keyLtB a b
  · right
    rw [keyLe_eq_not_lt, h]
    rfl
  · left
    rfl

/-! ### Sorted key sequences -/

theorem sortedB_cons {a : Key} {l : List Key} :
    sortedB (a :: l) = true ↔
      (∀ x ∈ l, keyLtB a x = true) ∧ sortedB l = true := by
  induction l generalizing a with
  | nil => simp [sortedB]
  | cons b r ih =>
    constructor
    · intro h
      have h1 : keyLtB a b = true ∧ sortedB (b :: r) = true := by
        simpa [sortedB, Bool.and_eq_true] using h
      rcases ih.mp h1.2 with ⟨hb, _⟩
      refine ⟨?_, h1.2⟩
      intro x hx
      rcases List.mem_cons.mp hx with rfl | hx
      · exact h1.1
      · exact keyLt_trans h1.1 (hb x hx)
    · rintro ⟨hall, hsb⟩
      have h1 : keyLtB a b = true ∧ sortedB (b :: r) = true :=
        ⟨hall b (List.mem_cons_self _ _), hsb⟩
      simpa [sortedB, Bool.and_eq_true] using h1

theorem sortedB_tail {a : Key} {l : List Key} (h : sortedB (a :: l) = true) :
    sortedB l = true := (sortedB_cons.mp h).2

theorem sortedB_append {l₁ l₂ : List Key} :
    sortedB (l₁ ++ l₂) = true ↔
      sortedB l₁ = true ∧ sortedB l₂ = true ∧
        ∀ x ∈ l₁, ∀ y ∈ l₂, keyLtB x y = true := by
  induction l₁ with
  | nil => simp [sortedB]
  | cons a r ih =>
    simp only [List.cons_append]
    rw [sortedB_cons, sortedB_cons, ih]
    constructor
    · rintro ⟨hall, hr, h₂, hcross⟩
      refine ⟨⟨fun x hx => hall x (List.mem_append_left _ hx), hr⟩, h₂, ?_⟩
      intro x hx y hy
      rcases List.mem_cons.mp hx with rfl | hx
      · exact hall y (List.mem_append_right _ hy)
      · exact hcross x hx y hy
    · rintro ⟨⟨ha, hr⟩, h₂, hcross⟩
      refine ⟨?_, hr, h₂, fun x hx y hy => hcross x (List.mem_cons_of_mem _ hx) y hy⟩
      intro x hx
      rcases List.mem_append.mp hx with hx | hx
      · exact ha x hx
      · exact hcross a (List.mem_cons_self _ _) x hx

theorem sortedB_nodup {l : List Key} (h : sortedB l = true) : l.Nodup := by
  induction l with
  | nil => exact List.nodup_nil
  | cons a r ih =>
    rcases sortedB_cons.mp h with ⟨hall, hr⟩
    refine List.nodup_cons.mpr ⟨fun hmem => ?_, ih hr⟩
    exact keyLt_ne (hall a hmem) rfl

theorem sortedB_pairwise {l : List Key} :
    sortedB l = true ↔ l.Pairwise (fun a b => keyLtB a b = true) := by
  induction l with
  | nil => simp [sortedB]
  | cons a r ih => rw [sortedB_cons, List.pairwise_cons, ih, and_comm]

theorem sortedB_getElem_lt {l : List Key} (h : sortedB l = true) {i j : Nat}
    (hij : i < j) (hj : j < l.length) : keyLtB l[i] l[j] = true := by
  exact List.pairwise_iff_getElem.mp (sortedB_pairwise.mp h) i j
    (Nat.lt_trans hij hj) hj hij

/-! ### Counting below a key in a sorted sequence -/

theorem countP_eq_boundary {α : Type} {p : α → Bool} :
    ∀ {l : List α} {m : Nat}, m ≤ l.length →
      (∀ j (hj : j < l.length), (p l[j] = true ↔ j < m)) → l.countP p = m := by
  intro l
  induction l with
  | nil =>
    intro m hm _
    simp only [List.countP_nil, List.length_nil] at hm ⊢
    omega
  | cons a r ih =>
    intro m hm hiff
    rcases m with _ | s
    · have ha : p a = false := by
        have := hiff 0 (by simp)
        simpa using this
      rw [List.countP_cons, ih (Nat.zero_le _) ?_]
      · simp [ha]
      · intro j hj
        have := hiff (j + 1) (by simpa using Nat.succ_lt_succ hj)
        simpa using this
    · have ha : p a = true := (hiff 0 (by simp)).mpr (Nat.succ_pos _)
      rw [List.countP_cons, ih (by simpa using hm) ?_]
      · simp [ha]
      · intro j hj
        have := hiff (j + 1) (by simpa using Nat.succ_lt_succ hj)
        simpa [Nat.succ_lt_succ_iff] using this

theorem countLtK_le (ks : List Key) (k : Key) : countLtK ks k ≤ ks.length :=
  List.countP_le_length _

theorem sorted_lt_boundary {ks : List Key} (hs : sortedB ks = true) (k : Key) :
    ∀ j (hj : j < ks.length), (keyLtB ks[j] k = true ↔ j < countLtK ks k) := by
  induction ks with
  | nil => intro j hj; simp at hj
  | cons a r ih =>
    rcases sortedB_cons.mp hs with ⟨hall, hr⟩
    intro j hj
    by_cases ha : keyLtB a k = true
    · have hc : countLtK (a :: r) k = countLtK r k + 1 := by
        simp [countLtK, List.countP_cons, ha]
      rcases j with _ | j
      · simpa [hc] using ha
      · have := ih hr j (by simpa using Nat.lt_of_succ_lt_succ hj)
        simp only [List.getElem_cons_succ, hc]
        rw [this]
        omega
    · have hza : ∀ x ∈ a :: r, ¬(keyLtB x k = true) := by
        intro x hx hxk
        rcases List.mem_cons.mp hx with rfl | hx
        · exact ha hxk
        · have hax : keyLtB a x = true := hall x hx
          exact ha (keyLt_trans hax hxk)
      have hc : countLtK (a :: r) k = 0 := by
        simp only [countLtK, List.countP_eq_zero]
        intro x hx
        simpa using hza x hx
      rw [hc]
      simp only [Nat.not_lt_zero, iff_false]
      exact fun hlt => hza _ (List.getElem_mem hj) hlt

theorem sorted_found {ks : List Key} (hs : sortedB ks = true) {k : Key}
    (hk : k ∈ ks) :
    countLtK ks k < ks.length ∧ ks[countLtK ks k]? = some k := by
  rcases List.getElem_of_mem hk with ⟨i, hi, hik⟩
  have hcnt : countLtK ks k = i := by
    refine countP_eq_boundary (Nat.le_of_lt hi) ?_
    intro j hj
    constructor
    · intro hlt
      by_contra hc
      push_neg at hc
      rcases Nat.lt_or_ge i j with hij | hij
      · have h2 := sortedB_getElem_lt hs hij hj
        rw [hik] at h2
        have h3 := keyLt_asymm h2
        rw [hlt] at h3
        exact absurd h3 (by simp)
      · have hji : i = j := Nat.le_antisymm hc hij
        subst hji
        rw [← hik, keyLt_irrefl] at hlt
        exact absurd hlt (by simp)
    · intro hji
      have h2 := sortedB_getElem_lt hs hji hi
      rw [hik] at h2
      exact h2
  rw [hcnt]
  refine ⟨hi, ?_⟩
  rw [List.getElem?_eq_getElem hi, hik]

theorem sorted_gt_boundary {ks : List Key} (hs : sortedB ks = true) (k : Key) :
    ∀ j (hj : j < ks.length),
      (cmpBytes ks[j] k = .gt ↔
        countLtK ks k + (if k ∈ ks then 1 else 0) ≤ j) := by
  intro j hj
  have hgt_iff : cmpBytes ks[j] k = .gt ↔ (keyLtB ks[j] k = false ∧ ks[j] ≠ k) := by
    constructor
    · intro h
      refine ⟨?_, ?_⟩
      · simp only [keyLtB, decide_eq_false_iff_not]
        intro hc
        rw [hc] at h
        exact absurd h (by simp)
      · intro hc
        rw [hc, cmpBytes_self] at h
        exact absurd h (by simp)
    · rintro ⟨h1, h2⟩
      rcases hc : cmpBytes ks[j] k
      · simp only [keyLtB, decide_eq_false_iff_not] at h1
        exact absurd hc h1
      · exact absurd ((cmpBytes_eq_iff _ _).mp hc) h2
      · rfl
  rw [hgt_iff]
  have hlt := sorted_lt_boundary hs k j hj
  by_cases hk : k ∈ ks
  · rcases sorted_found hs hk with ⟨hclen, hcget⟩
    have hceq : ks[countLtK ks k] = k := by
      have := List.getElem?_eq_getElem hclen
      rw [this] at hcget
      exact Option.some.inj hcget
    simp only [if_pos hk]
    constructor
    · rintro ⟨h1, h2⟩
      have hjge : countLtK ks k ≤ j := by
        by_contra hc
        push_neg at hc
        exact absurd (hlt.mpr hc) (by simp [h1])
      rcases Nat.eq_or_lt_of_le hjge with heq | hlt2
      · exact absurd (heq ▸ hceq) h2
      · omega
    · intro hge
      have hjgt : countLtK ks k < j := by omega
      refine ⟨?_, ?_⟩
      · by_contra hc
        have : j < countLtK ks k := hlt.mp (by
          cases hb : keyLtB ks[j] k
          · exact absurd hb hc
          · rfl)
        omega
      · intro hc
        have h4 := sortedB_getElem_lt hs hjgt hj
        rw [hc, hceq, keyLt_irrefl] at h4
        exact absurd h4 (by simp)
  · simp only [if_neg hk, Nat.add_zero]
    constructor
    · rintro ⟨h1, -⟩
      by_contra hc
      push_neg at hc
      exact absurd (hlt.mpr hc) (by simp [h1])
    · intro hge
      have h1 : keyLtB ks[j] k = false := by
        cases hb : keyLtB ks[j] k
        · rfl
        · have := hlt.mp hb
          omega
      refine ⟨h1, fun hc => hk (hc ▸ List.getElem_mem hj)⟩

/-! ### Rust binary search on a sorted slice -/

theorem bsLoop_spec (f : Nat → Ordering) (len : Nat)
    (hmono : ∀ i j, i ≤ j → j < len → f i = .gt → f j = .gt) :
    ∀ size base, 0 < size → base + size ≤ len →
      base ≤ bsLoop f base size ∧ bsLoop f base size < base + size ∧
      (∀ j, bsLoop f base size < j → j < base + size → f j = .gt) ∧
      (f (bsLoop f base size) = .gt → bsLoop f base size = base) := by
  intro size
  induction size using Nat.strong_induction_on with
  | _ size ih =>
    intro base hpos hbound
    rw [bsLoop]
    by_cases h : 1 < size
    · rw [if_pos h]
      have hlt : size - size / 2 < size := by omega
      by_cases hgt : f (base + size / 2) = Ordering.gt
      · rw [if_pos hgt]
        obtain ⟨h1, h2, h3, h4⟩ := ih (size - size / 2) hlt base (by omega) (by omega)
        refine ⟨h1, by omega, ?_, h4⟩
        intro j hj1 hj2
        by_cases hj3 : j < base + (size - size / 2)
        · exact h3 j hj1 hj3
        · exact hmono (base + size / 2) j (by omega) (by omega) hgt
      · rw [if_neg hgt]
        obtain ⟨h1, h2, h3, h4⟩ :=
          ih (size - size / 2) hlt (base + size / 2) (by omega) (by omega)
        refine ⟨by omega, by omega, ?_, ?_⟩
        · intro j hj1 hj2
          exact h3 j hj1 (by omega)
        · intro hgt2
          exact absurd (h4 hgt2 ▸ hgt2) hgt
    · rw [if_neg h]
      have hs1 : size = 1 := by omega
      subst hs1
      exact ⟨Nat.le_refl _, by omega, by omega, fun _ => rfl⟩

theorem binarySearchBy_spec (f : Nat → Ordering) (len a e : Nat)
    (he : e ≤ 1) (halen : a + e ≤ len)
    (hlt : ∀ j, j < len → (f j = .lt ↔ j < a))
    (hgt : ∀ j, j < len → (f j = .gt ↔ a + e ≤ j)) :
    binarySearchBy f len = if e = 1 then .ok a else .error a := by
  by_cases hlen : len = 0
  · subst hlen
    have ha : a = 0 := by omega
    have he0 : e = 0 := by omega
    subst ha
    subst he0
    simp [binarySearchBy]
  · have hmono : ∀ i j, i ≤ j → j < len → f i = .gt → f j = .gt := by
      intro i j hij hj hfi
      have hi : i < len := Nat.lt_of_le_of_lt hij hj
      exact (hgt j hj).mpr (Nat.le_trans ((hgt i hi).mp hfi) hij)
    have hspec := bsLoop_spec f len hmono len 0 (by omega) (by omega)
    rcases hspec with ⟨-, hr2, hr3, hr4⟩
    simp only [Nat.zero_add] at hr2 hr3 hr4
    set r := bsLoop f 0 len with hrdef
    unfold binarySearchBy
    rw [if_neg hlen]
    by_cases hae : a + e = 0
    · have hfr : f r = .gt := (hgt r hr2).mpr (by omega)
      have hr0 : r = 0 := hr4 hfr
      rw [← hrdef, hfr, hr0]
      have ha0 : a = 0 := by omega
      have he0 : e = 0 := by omega
      subst ha0
      subst he0
      simp
    · have hub : a + e - 1 ≤ r := by
        by_contra hc
        push_neg at hc
        have hj2 : a + e - 1 < len := by omega
        have := hr3 (a + e - 1) (by omega) hj2
        have h2 := (hgt _ hj2).mp this
        omega
      have hlb : r ≤ a + e - 1 := by
        by_contra hc
        push_neg at hc
        have hfr : f r = .gt := (hgt r hr2).mpr (by omega)
        have := hr4 hfr
        omega
      have hreq : r = a + e - 1 := Nat.le_antisymm hlb hub
      rcases Nat.eq_or_lt_of_le he with he1 | he0
      · -- e = 1, key present: r = a and f a = eq
        subst he1
        have hra : r = a := by omega
        have hfa : f r = .eq := by
          have h1 : ¬(f r = .lt) := by
            rw [hlt r hr2]
            omega
          have h2 : ¬(f r = .gt) := by
            rw [hgt r hr2]
            omega
          rcases hfr : f r
          · exact absurd hfr h1
          · rfl
          · exact absurd hfr h2
        rw [← hrdef, hfa, hra]
        simp
      · -- e = 0, key absent
        have he0' : e = 0 := by omega
        subst he0'
        have hra : r = a - 1 := by omega
        have ha1 : 1 ≤ a := by omega
        have hfa : f r = .lt := by
          rw [hlt r hr2]
          omega
        rw [← hrdef, hfa]
        simp only [if_neg (by omega : ¬(0 = 1))]
        have : r + 1 = a := by omega
        rw [this]

theorem binSearchKeys_eq {ks : List Key} (k : Key) (hs : sortedB ks = true) :
    binSearchKeys ks k =
      if k ∈ ks then .ok (countLtK ks k) else .error (countLtK ks k) := by
  have hcomp : ∀ j (hj : j < ks.length),
      (match ks[j]? with | some a => cmpBytes a k | none => Ordering.gt) =
        cmpBytes ks[j] k := by
    intro j hj
    rw [List.getElem?_eq_getElem hj]
  have hbody := binarySearchBy_spec
    (fun i => match ks[i]? with | some a => cmpBytes a k | none => Ordering.gt)
    ks.length (countLtK ks k) (if k ∈ ks then 1 else 0)
    (by split <;> omega)
    ?_ ?_ ?_
  · unfold binSearchKeys
    rw [hbody]
    by_cases hk : k ∈ ks <;> simp [hk]
  · by_cases hk : k ∈ ks
    · rw [if_pos hk]
      exact (sorted_found hs hk).1
    · rw [if_neg hk, Nat.add_zero]
      exact countLtK_le ks k
  · intro j hj
    simp only []
    rw [hcomp j hj]
    constructor
    · intro h
      refine (sorted_lt_boundary hs k j hj).mp ?_
      simp [keyLtB, h]
    · intro h
      have := (sorted_lt_boundary hs k j hj).mpr h
      simpa [keyLtB] using this
  · intro j hj
    simp only []
    rw [hcomp j hj]
    exact sorted_gt_boundary hs k j hj

theorem binSearchKeys_idx {ks : List Key} (k : Key) (hs : sortedB ks = true) :
    unwrapIdx (binSearchKeys ks k) = countLtK ks k := by
  rw [binSearchKeys_eq k hs]
  by_cases hk : k ∈ ks <;> simp [hk, unwrapIdx]

theorem binSearchPairs_eq_keys (ps : List KeyValuePair) (k : Key) :
    binSearchPairs ps k = binSearchKeys (ps.map (fun p => p.key)) k := by
  unfold binSearchPairs binSearchKeys
  rw [List.length_map]
  congr 1
  funext i
  rw [List.getElem?_map]
  cases ps[i]? <;> rfl

theorem countLtP_eq_keys (ps : List KeyValuePair) (k : Key) :
    countLtP ps k = countLtK (ps.map (fun p => p.key)) k := by
  unfold countLtP countLtK
  rw [List.countP_map]
  rfl

theorem binSearchPairs_eq {ps : List KeyValuePair} (k : Key)
    (hs : sortedB (ps.map (fun p => p.key)) = true) :
    binSearchPairs ps k =
      if k ∈ ps.map (fun p => p.key) then .ok (countLtP ps k)
      else .error (countLtP ps k) := by
  rw [binSearchPairs_eq_keys, binSearchKeys_eq k hs, countLtP_eq_keys]

theorem binSearchPairs_idx {ps : List KeyValuePair} (k : Key)
    (hs : sortedB (ps.map (fun p => p.key)) = true) :
    unwrapIdx (binSearchPairs ps k) = countLtP ps k := by
  rw [binSearchPairs_eq k hs]
  by_cases hk : k ∈ ps.map (fun p => p.key) <;> simp [hk, unwrapIdx]

/-! ### Pager operations -/

theorem write_at_length (p : Pager) (n : Node) (off : Offset) :
    (p.write_page_at_offset n off).pages.length = p.pages.length := by
  simp [Pager.write_page_at_offset]

theorem write_at_get_self {p : Pager} {n : Node} {off : Offset}
    (h : off < p.pages.length) :
    (p.write_page_at_offset n off).pages[off]? = some n := by
  simp [Pager.write_page_at_offset, List.getElem?_set_self h]

theorem write_at_get_ne {p : Pager} {n : Node} {off o : Offset} (h : o ≠ off) :
    (p.write_page_at_offset n off).pages[o]? = p.pages[o]? := by
  simp [Pager.write_page_at_offset, List.getElem?_set_ne (fun hc => h hc.symm)]

theorem write_page_fst (p : Pager) (n : Node) :
    (p.write_page n).1 = p.pages.length := rfl

theorem write_page_length (p : Pager) (n : Node) :
    (p.write_page n).2.pages.length = p.pages.length + 1 := by
  simp [Pager.write_page]

theorem write_page_get_lt {p : Pager} {n : Node} {o : Offset}
    (h : o < p.pages.length) :
    (p.write_page n).2.pages[o]? = p.pages[o]? := by
  simp [Pager.write_page, List.getElem?_append_left h]

theorem write_page_get_new (p : Pager) (n : Node) :
    (p.write_page n).2.pages[p.pages.length]? = some n := by
  simp [Pager.write_page]

theorem get_page_eq {p : Pager} {off : Offset} {n : Node}
    (h : p.pages[off]? = some n) : p.get_page off = .ok n := by
  simp [Pager.get_page, h]

/-! ### Decoded subtrees: basic facts -/

theorem decodeT_succ (fuel : Nat) (pager : Pager) (off : Offset) :
    decodeT (fuel + 1) pager off =
      match pager.pages[off]? with
      | none => none
      | some n =>
        match n.node_type with
        | .Leaf ps => some (.leaf off n.is_root n.parent_offset ps)
        | .Internal cs ks =>
          match decodeL fuel pager cs with
          | none => none
          | some ts => some (.internal off n.is_root n.parent_offset ts ks)
        | .Unexpected => none := by
  rw [decodeT]

theorem decodeL_nil (fuel : Nat) (pager : Pager) :
    decodeL fuel pager [] = some [] := by
  rw [decodeL]

theorem decodeL_cons (fuel : Nat) (pager : Pager) (c : Offset) (cs : List Offset) :
    decodeL fuel pager (c :: cs) =
      match decodeT fuel pager c with
      | none => none
      | some t =>
        match decodeL fuel pager cs with
        | none => none
        | some ts => some (t :: ts) := by
  rw [decodeL]

theorem decodeT_pos {fuel : Nat} {pager : Pager} {off : Offset} {t : OTree}
    (h : decodeT fuel pager off = some t) : 0 < fuel := by
  cases fuel with
  | zero => rw [decodeT] at h; exact absurd h (by simp)
  | succ f => exact Nat.succ_pos _

theorem decodeL_length : ∀ {fuel : Nat} {pager : Pager} {cs : List Offset}
    {ts : List OTree}, decodeL fuel pager cs = some ts → ts.length = cs.length := by
  intro fuel pager cs
  induction cs with
  | nil =>
    intro ts h
    rw [decodeL_nil] at h
    cases h
    rfl
  | cons c cs ih =>
    intro ts h
    rw [decodeL_cons] at h
    cases hT : decodeT fuel pager c with
    | none => rw [hT] at h; exact absurd h (by simp)
    | some t =>
      rw [hT] at h
      cases hL : decodeL fuel pager cs with
      | none => rw [hL] at h; exact absurd h (by simp)
      | some ts' =>
        rw [hL] at h
        cases h
        simp [ih hL]

theorem decodeL_append : ∀ {fuel : Nat} {pager : Pager} {cs₁ cs₂ : List Offset}
    {ts₁ ts₂ : List OTree}, decodeL fuel pager cs₁ = some ts₁ →
    decodeL fuel pager cs₂ = some ts₂ →
    decodeL fuel pager (cs₁ ++ cs₂) = some (ts₁ ++ ts₂) := by
  intro fuel pager cs₁
  induction cs₁ with
  | nil =>
    intro cs₂ ts₁ ts₂ h1 h2
    rw [decodeL_nil] at h1
    cases h1
    simpa using h2
  | cons c cs ih =>
    intro cs₂ ts₁ ts₂ h1 h2
    rw [decodeL_cons] at h1
    cases hT : decodeT fuel pager c with
    | none => rw [hT] at h1; exact absurd h1 (by simp)
    | some t =>
      rw [hT] at h1
      cases hL : decodeL fuel pager cs with
      | none => rw [hL] at h1; exact absurd h1 (by simp)
      | some ts' =>
        rw [hL] at h1
        cases h1
        rw [List.cons_append, decodeL_cons, hT, ih hL h2]
        rfl

theorem offsL_append (l₁ l₂ : List OTree) :
    offsL (l₁ ++ l₂) = offsL l₁ ++ offsL l₂ := by
  induction l₁ with
  | nil => simp [offsL]
  | cons c cs ih => simp [offsL, ih]

theorem pairsL_append (l₁ l₂ : List OTree) :
    pairsL (l₁ ++ l₂) = pairsL l₁ ++ pairsL l₂ := by
  induction l₁ with
  | nil => simp [pairsL]
  | cons c cs ih => simp [pairsL, ih]

theorem decodeL_cons_some {fuel : Nat} {pager : Pager} {c : Offset}
    {cs : List Offset} {ts : List OTree} :
    decodeL fuel pager (c :: cs) = some ts ↔
      ∃ t ts', decodeT fuel pager c = some t ∧ decodeL fuel pager cs = some ts' ∧
        ts = t :: ts' := by
  rw [decodeL_cons]
  constructor
  · intro h
    cases hT : decodeT fuel pager c with
    | none => rw [hT] at h; exact absurd h (by simp)
    | some t =>
      rw [hT] at h
      cases hL : decodeL fuel pager cs with
      | none => rw [hL] at h; exact absurd h (by simp)
      | some ts' =>
        rw [hL] at h
        cases h
        exact ⟨t, ts', rfl, rfl, rfl⟩
  · rintro ⟨t, ts', h1, h2, rfl⟩
    rw [h1, h2]

theorem decodeT_some {fuel : Nat} {pager : Pager} {off : Offset} {t : OTree} :
    decodeT (fuel + 1) pager off = some t ↔
      ∃ n, pager.pages[off]? = some n ∧
        ((∃ ps, n.node_type = .Leaf ps ∧ t = .leaf off n.is_root n.parent_offset ps) ∨
         (∃ cs ks ts, n.node_type = .Internal cs ks ∧
            decodeL fuel pager cs = some ts ∧
            t = .internal off n.is_root n.parent_offset ts ks)) := by
  rw [decodeT_succ]
  constructor
  · intro h
    split at h
    · exact absurd h (by simp)
    · rename_i n hp
      split at h
      · rename_i ps hn
        cases h
        exact ⟨n, hp, Or.inl ⟨ps, hn, rfl⟩⟩
      · rename_i cs ks hn
        split at h
        · exact absurd h (by simp)
        · rename_i ts hL
          cases h
          exact ⟨n, hp, Or.inr ⟨cs, ks, ts, hn, hL, rfl⟩⟩
      · exact absurd h (by simp)
  · rintro ⟨n, hp, (⟨ps, hn, rfl⟩ | ⟨cs, ks, ts, hn, hL, rfl⟩)⟩
    · simp [hp, hn]
    · simp [hp, hn, hL]

theorem decode_mono_all (fuel : Nat) :
    (∀ pager off t, decodeT fuel pager off = some t →
      ∀ fuel', fuel ≤ fuel' → decodeT fuel' pager off = some t) ∧
    (∀ pager cs ts, decodeL fuel pager cs = some ts →
      ∀ fuel', fuel ≤ fuel' → decodeL fuel' pager cs = some ts) := by
  induction fuel with
  | zero =>
    constructor
    · intro pager off t h
      rw [decodeT] at h
      exact absurd h (by simp)
    · intro pager cs ts h fuel' _
      cases cs with
      | nil =>
        rw [decodeL_nil] at h
        cases h
        exact decodeL_nil _ _
      | cons c cs =>
        rcases decodeL_cons_some.mp h with ⟨t, ts', hT, -, -⟩
        rw [decodeT] at hT
        exact absurd hT (by simp)
  | succ f ih =>
    have hT : ∀ pager off t, decodeT (f + 1) pager off = some t →
        ∀ fuel', f + 1 ≤ fuel' → decodeT fuel' pager off = some t := by
      intro pager off t h fuel' hle
      obtain ⟨f', rfl⟩ : ∃ f', fuel' = f' + 1 := ⟨fuel' - 1, by omega⟩
      rcases decodeT_some.mp h with ⟨n, hp, (⟨ps, hn, rfl⟩ | ⟨cs, ks, ts, hn, hL, rfl⟩)⟩
      · exact decodeT_some.mpr ⟨n, hp, Or.inl ⟨ps, hn, rfl⟩⟩
      · exact decodeT_some.mpr ⟨n, hp,
          Or.inr ⟨cs, ks, ts, hn, ih.2 pager cs ts hL f' (by omega), rfl⟩⟩
    refine ⟨hT, ?_⟩
    intro pager cs
    induction cs with
    | nil =>
      intro ts h fuel' _
      rw [decodeL_nil] at h
      cases h
      exact decodeL_nil _ _
    | cons c cs ihc =>
      intro ts h fuel' hle
      rcases decodeL_cons_some.mp h with ⟨t, ts', h1, h2, rfl⟩
      exact decodeL_cons_some.mpr
        ⟨t, ts', hT pager c t h1 fuel' hle, ihc ts' h2 fuel' hle, rfl⟩

theorem decodeT_mono {fuel fuel' : Nat} {pager : Pager} {off : Offset} {t : OTree}
    (h : decodeT fuel pager off = some t) (hle : fuel ≤ fuel') :
    decodeT fuel' pager off = some t :=
  (decode_mono_all fuel).1 pager off t h fuel' hle

theorem decodeL_mono {fuel fuel' : Nat} {pager : Pager} {cs : List Offset}
    {ts : List OTree} (h : decodeL fuel pager cs = some ts) (hle : fuel ≤ fuel') :
    decodeL fuel' pager cs = some ts :=
  (decode_mono_all fuel).2 pager cs ts h fuel' hle

theorem decode_shape_all (fuel : Nat) :
    (∀ pager off t, decodeT fuel pager off = some t →
      offOf t = off ∧ pager.pages[off]? = some (headNode t)) ∧
    (∀ pager cs ts, decodeL fuel pager cs = some ts →
      ts.map offOf = cs) := by
  induction fuel with
  | zero =>
    constructor
    · intro pager off t h
      rw [decodeT] at h
      exact absurd h (by simp)
    · intro pager cs ts h
      cases cs with
      | nil =>
        rw [decodeL_nil] at h
        cases h
        rfl
      | cons c cs =>
        rcases decodeL_cons_some.mp h with ⟨t, ts', hT, -, -⟩
        rw [decodeT] at hT
        exact absurd hT (by simp)
  | succ f ih =>
    have hT : ∀ pager off t, decodeT (f + 1) pager off = some t →
        offOf t = off ∧ pager.pages[off]? = some (headNode t) := by
      intro pager off t h
      rcases decodeT_some.mp h with ⟨n, hp, (⟨ps, hn, rfl⟩ | ⟨cs, ks, ts, hn, hL, rfl⟩)⟩
      · refine ⟨rfl, ?_⟩
        rw [hp]
        simp only [headNode]
        congr 1
        cases n with
        | mk nt ir po =>
          simp only at hn
          rw [hn]
      · refine ⟨rfl, ?_⟩
        rw [hp]
        simp only [headNode]
        rw [ih.2 pager cs ts hL]
        congr 1
        cases n with
        | mk nt ir po =>
          simp only at hn
          rw [hn]
    refine ⟨hT, ?_⟩
    intro pager cs
    induction cs with
    | nil =>
      intro ts h
      rw [decodeL_nil] at h
      cases h
      rfl
    | cons c cs ihc =>
      intro ts h
      rcases decodeL_cons_some.mp h with ⟨t, ts', h1, h2, rfl⟩
      simp only [List.map_cons]
      rw [(hT pager c t h1).1, ihc ts' h2]

theorem decodeT_offOf {fuel : Nat} {pager : Pager} {off : Offset} {t : OTree}
    (h : decodeT fuel pager off = some t) : offOf t = off :=
  ((decode_shape_all fuel).1 pager off t h).1

theorem decodeT_headNode {fuel : Nat} {pager : Pager} {off : Offset} {t : OTree}
    (h : decodeT fuel pager off = some t) :
    pager.pages[off]? = some (headNode t) :=
  ((decode_shape_all fuel).1 pager off t h).2

theorem decodeL_map_offOf {fuel : Nat} {pager : Pager} {cs : List Offset}
    {ts : List OTree} (h : decodeL fuel pager cs = some ts) : ts.map offOf = cs :=
  (decode_shape_all fuel).2 pager cs ts h

theorem decode_frame_all (fuel : Nat) :
    (∀ pager pager' off t, decodeT fuel pager off = some t →
      (∀ o, o ∈ offsA t → pager'.pages[o]? = pager.pages[o]?) →
      decodeT fuel pager' off = some t) ∧
    (∀ pager pager' cs ts, decodeL fuel pager cs = some ts →
      (∀ o, o ∈ offsL ts → pager'.pages[o]? = pager.pages[o]?) →
      decodeL fuel pager' cs = some ts) := by
  induction fuel with
  | zero =>
    constructor
    · intro pager pager' off t h
      rw [decodeT] at h
      exact absurd h (by simp)
    · intro pager pager' cs ts h hagree
      cases cs with
      | nil =>
        rw [decodeL_nil] at h
        cases h
        exact decodeL_nil _ _
      | cons c cs =>
        rcases decodeL_cons_some.mp h with ⟨t, ts', hT, -, -⟩
        rw [decodeT] at hT
        exact absurd hT (by simp)
  | succ f ih =>
    have hT : ∀ pager pager' off t, decodeT (f + 1) pager off = some t →
        (∀ o, o ∈ offsA t → pager'.pages[o]? = pager.pages[o]?) →
        decodeT (f + 1) pager' off = some t := by
      intro pager pager' off t h hagree
      rcases decodeT_some.mp h with ⟨n, hp, (⟨ps, hn, rfl⟩ | ⟨cs, ks, ts, hn, hL, rfl⟩)⟩
      · refine decodeT_some.mpr ⟨n, ?_, Or.inl ⟨ps, hn, rfl⟩⟩
        rw [hagree off (by simp [offsA])]
        exact hp
      · refine decodeT_some.mpr ⟨n, ?_, Or.inr ⟨cs, ks, ts, hn, ?_, rfl⟩⟩
        · rw [hagree off (by simp [offsA])]
          exact hp
        · refine ih.2 pager pager' cs ts hL ?_
          intro o ho
          exact hagree o (by simp [offsA, ho])
    refine ⟨hT, ?_⟩
    intro pager pager' cs
    induction cs with
    | nil =>
      intro ts h _
      rw [decodeL_nil] at h
      cases h
      exact decodeL_nil _ _
    | cons c cs ihc =>
      intro ts h hagree
      rcases decodeL_cons_some.mp h with ⟨t, ts', h1, h2, rfl⟩
      refine decodeL_cons_some.mpr ⟨t, ts', ?_, ?_, rfl⟩
      · refine hT pager pager' c t h1 ?_
        intro o ho
        exact hagree o (by simp [offsL, offsL_append, ho])
      · refine ihc ts' h2 ?_
        intro o ho
        exact hagree o (by simp [offsL, offsL_append, ho])

theorem decodeT_frame {fuel : Nat} {pager pager' : Pager} {off : Offset} {t : OTree}
    (h : decodeT fuel pager off = some t)
    (hagree : ∀ o, o ∈ offsA t → pager'.pages[o]? = pager.pages[o]?) :
    decodeT fuel pager' off = some t :=
  (decode_frame_all fuel).1 pager pager' off t h hagree

theorem decodeL_frame {fuel : Nat} {pager pager' : Pager} {cs : List Offset}
    {ts : List OTree} (h : decodeL fuel pager cs = some ts)
    (hagree : ∀ o, o ∈ offsL ts → pager'.pages[o]? = pager.pages[o]?) :
    decodeL fuel pager' cs = some ts :=
  (decode_frame_all fuel).2 pager pager' cs ts h hagree

/-! ### Well-formedness: characterizations -/

theorem wfB_leaf_iff {b : Nat} {rt : Bool} {lo hi : Option Key} {o : Offset}
    {isR : Bool} {par : Option Offset} {ps : List KeyValuePair} :
    wfB b rt lo hi (.leaf o isR par ps) = true ↔
      isR = rt ∧ (rt = true ∨ b - 1 ≤ ps.length) ∧ ps.length ≤ 2 * b - 1 ∧
      sortedB (ps.map (fun p => p.key)) = true ∧
      (∀ p ∈ ps, inRangeB lo hi p.key = true) := by
  rw [wfB]
  simp only [Bool.and_eq_true, beq_iff_eq, Bool.or_eq_true, decide_eq_true_eq,
    allInRangeB, List.all_eq_true, List.mem_map, and_assoc]
  constructor
  · rintro ⟨h1, h2, h3, h4, h5⟩
    refine ⟨h1, ?_, h3, h4, ?_⟩
    · rcases h2 with h2 | h2
      · exact Or.inl h2
      · exact Or.inr h2
    · intro p hp
      exact h5 _ ⟨p, hp, rfl⟩
  · rintro ⟨h1, h2, h3, h4, h5⟩
    refine ⟨h1, ?_, h3, h4, ?_⟩
    · rcases h2 with h2 | h2
      · exact Or.inl h2
      · exact Or.inr h2
    · rintro x ⟨p, hp, rfl⟩
      exact h5 p hp

theorem wfB_internal_iff {b : Nat} {rt : Bool} {lo hi : Option Key} {o : Offset}
    {isR : Bool} {par : Option Offset} {cs : List OTree} {ks : List Key} :
    wfB b rt lo hi (.internal o isR par cs ks) = true ↔
      isR = rt ∧ cs.length = ks.length + 1 ∧
      (if rt = true then 1 ≤ ks.length else b - 1 ≤ ks.length) ∧
      ks.length ≤ 2 * b - 1 ∧ sortedB ks = true ∧
      (∀ k ∈ ks, inRangeB lo hi k = true) ∧
      uniformHeights cs = true ∧ wfChildrenB b lo ks cs hi = true := by
  rw [wfB]
  simp only [Bool.and_eq_true, beq_iff_eq, decide_eq_true_eq, allInRangeB,
    List.all_eq_true, and_assoc]
  cases rt <;> simp [-Bool.if_false_right, -Bool.if_true_left]

theorem wfChildrenB_nil_iff {b : Nat} {lo hi : Option Key} {cs : List OTree} :
    wfChildrenB b lo [] cs hi = true ↔
      ∃ c, cs = [c] ∧ wfB b false lo hi c = true := by
  cases cs with
  | nil => simp [wfChildrenB]
  | cons c cs' =>
    cases cs' with
    | nil =>
      simp only [wfChildrenB]
      constructor
      · intro h
        exact ⟨c, rfl, h⟩
      · rintro ⟨c', hc, h⟩
        cases hc
        exact h
    | cons d cs'' => simp [wfChildrenB]

theorem wfChildrenB_cons_iff {b : Nat} {lo hi : Option Key} {k : Key}
    {ks : List Key} {cs : List OTree} :
    wfChildrenB b lo (k :: ks) cs hi = true ↔
      ∃ c cs', cs = c :: cs' ∧ wfB b false lo (some k) c = true ∧
        wfChildrenB b (some k) ks cs' hi = true := by
  cases cs with
  | nil => simp [wfChildrenB]
  | cons c cs' =>
    simp only [wfChildrenB, Bool.and_eq_true]
    constructor
    · rintro ⟨h1, h2⟩
      exact ⟨c, cs', rfl, h1, h2⟩
    · rintro ⟨c', cs'', hc, h1, h2⟩
      cases hc
      exact ⟨h1, h2⟩

theorem wfChildrenB_len {b : Nat} {lo hi : Option Key} :
    ∀ {ks : List Key} {cs : List OTree}, wfChildrenB b lo ks cs hi = true →
      cs.length = ks.length + 1 := by
  intro ks
  induction ks generalizing lo with
  | nil =>
    intro cs h
    rcases wfChildrenB_nil_iff.mp h with ⟨c, rfl, -⟩
    rfl
  | cons k ks ih =>
    intro cs h
    rcases wfChildrenB_cons_iff.mp h with ⟨c, cs', rfl, -, h2⟩
    simp [ih h2]

theorem childLo_zero (lo : Option Key) (ks : List Key) : childLo lo ks 0 = lo := by
  simp [childLo]

theorem childLo_succ (lo : Option Key) (k : Key) (ks : List Key) (j : Nat) :
    childLo lo (k :: ks) (j + 1) = childLo (some k) ks j := by
  simp only [childLo]
  rcases j with _ | m <;> simp

theorem childHi_cons_zero (hi : Option Key) (k : Key) (ks : List Key) :
    childHi hi (k :: ks) 0 = some k := by
  simp only [childHi, List.length_cons]
  rw [if_neg (by omega)]
  simp

theorem childHi_succ (hi : Option Key) (k : Key) (ks : List Key) (j : Nat) :
    childHi hi (k :: ks) (j + 1) = childHi hi ks j := by
  simp only [childHi, List.length_cons]
  by_cases hj2 : j = ks.length
  · rw [if_pos (by omega), if_pos hj2]
  · rw [if_neg (by omega), if_neg hj2]
    simp

theorem childHi_nil (hi : Option Key) : childHi hi [] 0 = hi := by
  simp [childHi]

theorem wfChildrenB_get {b : Nat} :
    ∀ {ks : List Key} {cs : List OTree} {lo hi : Option Key},
      wfChildrenB b lo ks cs hi = true →
      ∀ i (hil : i < cs.length),
        wfB b false (childLo lo ks i) (childHi hi ks i) cs[i] = true := by
  intro ks
  induction ks with
  | nil =>
    intro cs lo hi h i hil
    rcases wfChildrenB_nil_iff.mp h with ⟨c, rfl, hc⟩
    simp only [List.length_singleton] at hil
    have hi0 : i = 0 := by omega
    subst hi0
    simpa [childLo_zero, childHi_nil] using hc
  | cons k ks ih =>
    intro cs lo hi h i hil
    rcases wfChildrenB_cons_iff.mp h with ⟨c, cs', rfl, hc, hrest⟩
    cases i with
    | zero =>
      rw [childLo_zero, childHi_cons_zero]
      simpa using hc
    | succ j =>
      have hj : j < cs'.length := by simpa using hil
      rw [childLo_succ, childHi_succ]
      simpa using ih hrest j hj

theorem wfChildrenB_set {b : Nat} :
    ∀ {ks : List Key} {cs : List OTree} {lo hi : Option Key} {i : Nat} {c' : OTree},
      wfChildrenB b lo ks cs hi = true → i < cs.length →
      wfB b false (childLo lo ks i) (childHi hi ks i) c' = true →
      wfChildrenB b lo ks (cs.set i c') hi = true := by
  intro ks
  induction ks with
  | nil =>
    intro cs lo hi i c' h hil hc'
    rcases wfChildrenB_nil_iff.mp h with ⟨c, rfl, -⟩
    simp only [List.length_singleton] at hil
    have hi0 : i = 0 := by omega
    subst hi0
    refine wfChildrenB_nil_iff.mpr ⟨c', by simp, ?_⟩
    simpa [childLo_zero, childHi_nil] using hc'
  | cons k ks ih =>
    intro cs lo hi i c' h hil hc'
    rcases wfChildrenB_cons_iff.mp h with ⟨c, cs', rfl, hc, hrest⟩
    cases i with
    | zero =>
      rw [childLo_zero, childHi_cons_zero] at hc'
      exact wfChildrenB_cons_iff.mpr ⟨c', cs', by simp, hc', hrest⟩
    | succ j =>
      have hj : j < cs'.length := by simpa using hil
      rw [childLo_succ, childHi_succ] at hc'
      exact wfChildrenB_cons_iff.mpr
        ⟨c, cs'.set j c', by simp, hc, ih hrest hj hc'⟩

theorem wfChildrenB_splitIns {b : Nat} :
    ∀ {ks : List Key} {cs : List OTree} {lo hi : Option Key} {i : Nat}
      {m : Key} {l' r' : OTree},
      wfChildrenB b lo ks cs hi = true → i < cs.length →
      wfB b false (childLo lo ks i) (some m) l' = true →
      wfB b false (some m) (childHi hi ks i) r' = true →
      wfChildrenB b lo (ks.insertIdx i m) ((cs.set i l').insertIdx (i + 1) r') hi
        = true := by
  intro ks
  induction ks with
  | nil =>
    intro cs lo hi i m l' r' h hil hl hr
    rcases wfChildrenB_nil_iff.mp h with ⟨c, rfl, -⟩
    simp only [List.length_singleton] at hil
    have hi0 : i = 0 := by omega
    subst hi0
    rw [childLo_zero] at hl
    rw [childHi_nil] at hr
    simp only [List.insertIdx_zero, List.set]
    refine wfChildrenB_cons_iff.mpr ⟨l', [r'], rfl, hl, ?_⟩
    exact wfChildrenB_nil_iff.mpr ⟨r', rfl, hr⟩
  | cons k ks ih =>
    intro cs lo hi i m l' r' h hil hl hr
    rcases wfChildrenB_cons_iff.mp h with ⟨c, cs', rfl, hc, hrest⟩
    cases i with
    | zero =>
      rw [childLo_zero] at hl
      rw [childHi_cons_zero] at hr
      simp only [List.insertIdx_zero, List.set]
      refine wfChildrenB_cons_iff.mpr ⟨l', r' :: cs', rfl, hl, ?_⟩
      exact wfChildrenB_cons_iff.mpr ⟨r', cs', rfl, hr, hrest⟩
    | succ j =>
      have hj : j < cs'.length := by simpa using hil
      rw [childLo_succ] at hl
      rw [childHi_succ] at hr
      have hrec := ih hrest hj hl hr
      refine wfChildrenB_cons_iff.mpr ⟨c, (cs'.set j l').insertIdx (j + 1) r', ?_, hc, hrec⟩
      simp [List.insertIdx_succ_cons, List.set]

theorem wfChildrenB_prefix {b : Nat} :
    ∀ {ks : List Key} {cs : List OTree} {lo hi : Option Key} {j : Nat}
      (hj : j < ks.length),
      wfChildrenB b lo ks cs hi = true →
      wfChildrenB b lo (ks.take j) (cs.take (j + 1)) (some ks[j]) = true := by
  intro ks
  induction ks with
  | nil =>
    intro cs lo hi j hj
    simp at hj
  | cons k ks ih =>
    intro cs lo hi j hj h
    rcases wfChildrenB_cons_iff.mp h with ⟨c, cs', rfl, hc, hrest⟩
    cases j with
    | zero =>
      simp only [List.take_zero, List.take_succ_cons, List.getElem_cons_zero]
      exact wfChildrenB_nil_iff.mpr ⟨c, by simp, hc⟩
    | succ j2 =>
      have hj2 : j2 < ks.length := by simpa using hj
      simp only [List.take_succ_cons, List.getElem_cons_succ]
      exact wfChildrenB_cons_iff.mpr ⟨c, cs'.take (j2 + 1), by simp, hc, ih hj2 hrest⟩

theorem wfChildrenB_suffix {b : Nat} :
    ∀ {ks : List Key} {cs : List OTree} {lo hi : Option Key} {j : Nat}
      (hj : j < ks.length),
      wfChildrenB b lo ks cs hi = true →
      wfChildrenB b (some ks[j]) (ks.drop (j + 1)) (cs.drop (j + 1)) hi = true := by
  intro ks
  induction ks with
  | nil =>
    intro cs lo hi j hj
    simp at hj
  | cons k ks ih =>
    intro cs lo hi j hj h
    rcases wfChildrenB_cons_iff.mp h with ⟨c, cs', rfl, hc, hrest⟩
    cases j with
    | zero =>
      simpa using hrest
    | succ j2 =>
      have hj2 : j2 < ks.length := by simpa using hj
      simpa using ih hj2 hrest

theorem wfChildrenB_concat {b : Nat} :
    ∀ {lks cks : List Key} {lcs ccs : List OTree} {lo hi : Option Key} {sep : Key},
      wfChildrenB b lo lks lcs (some sep) = true →
      wfChildrenB b (some sep) cks ccs hi = true →
      wfChildrenB b lo (lks ++ sep :: cks) (lcs ++ ccs) hi = true := by
  intro lks
  induction lks with
  | nil =>
    intro cks lcs ccs lo hi sep h1 h2
    rcases wfChildrenB_nil_iff.mp h1 with ⟨c, rfl, hc⟩
    exact wfChildrenB_cons_iff.mpr ⟨c, ccs, rfl, hc, h2⟩
  | cons k lks ih =>
    intro cks lcs ccs lo hi sep h1 h2
    rcases wfChildrenB_cons_iff.mp h1 with ⟨c, cs', rfl, hc, hrest⟩
    exact wfChildrenB_cons_iff.mpr
      ⟨c, cs' ++ ccs, by simp, hc, ih hrest h2⟩

theorem wfChildrenB_dropLast {b : Nat} :
    ∀ {ks : List Key} {cs : List OTree} {lo hi : Option Key} {lk : Key}
      (hlast : ks.getLast? = some lk),
      wfChildrenB b lo ks cs hi = true →
      wfChildrenB b lo ks.dropLast cs.dropLast (some lk) = true := by
  intro ks
  induction ks with
  | nil =>
    intro cs lo hi lk hlast
    simp at hlast
  | cons k ks ih =>
    intro cs lo hi lk hlast h
    rcases wfChildrenB_cons_iff.mp h with ⟨c, cs', rfl, hc, hrest⟩
    cases ks with
    | nil =>
      rcases wfChildrenB_nil_iff.mp hrest with ⟨c2, rfl, hc2⟩
      simp only [List.getLast?_singleton] at hlast
      cases hlast
      simp only [List.dropLast_single, List.dropLast_cons₂, List.dropLast_single]
      exact wfChildrenB_nil_iff.mpr ⟨c, rfl, hc⟩
    | cons k2 ks2 =>
      have hlast2 : (k2 :: ks2).getLast? = some lk := by
        rw [← hlast]
        exact List.getLast?_cons_cons.symm
      have hlen : cs'.length = ks2.length + 2 := wfChildrenB_len hrest
      have hcs' : cs' ≠ [] := by
        intro hc0
        rw [hc0] at hlen
        simp at hlen
      have hd : (c :: cs').dropLast = c :: cs'.dropLast :=
        List.dropLast_cons_of_ne_nil hcs'
      rw [hd]
      have hkd : (k :: k2 :: ks2).dropLast = k :: (k2 :: ks2).dropLast := by
        simp
      rw [hkd]
      exact wfChildrenB_cons_iff.mpr ⟨c, cs'.dropLast, rfl, hc, ih hlast2 hrest⟩

/-! ### Heights -/

theorem uniform_cons_iff {c : OTree} {cs : List OTree} :
    uniformHeights (c :: cs) = true ↔ ∀ d ∈ cs, heightA d = heightA c := by
  simp [uniformHeights, List.all_eq_true]

theorem uniform_iff_all_eq : ∀ {cs : List OTree},
    uniformHeights cs = true ↔ ∀ c ∈ cs, ∀ d ∈ cs, heightA c = heightA d := by
  intro cs
  cases cs with
  | nil => simp [uniformHeights]
  | cons c cs =>
    rw [uniform_cons_iff]
    constructor
    · intro h x hx y hy
      have hx' : x = c ∨ x ∈ cs := List.mem_cons.mp hx
      have hy' : y = c ∨ y ∈ cs := List.mem_cons.mp hy
      rcases hx' with hx' | hx' <;> rcases hy' with hy' | hy'
      · rw [hx', hy']
      · rw [hx', h y hy']
      · rw [hy', h x hx']
      · rw [h x hx', h y hy']
    · intro h d hd
      exact h d (List.mem_cons_of_mem _ hd) c (List.mem_cons_self _ _)

theorem heightMaxL_of_all : ∀ {cs : List OTree} {H : Nat},
    (∀ c ∈ cs, heightA c = H) → cs ≠ [] → heightMaxL cs = H := by
  intro cs
  induction cs with
  | nil => intro H _ hne; exact absurd rfl hne
  | cons c cs ih =>
    intro H h _
    rw [heightMaxL]
    cases cs with
    | nil =>
      rw [heightMaxL]
      rw [h c (List.mem_cons_self _ _)]
      omega
    | cons d ds =>
      rw [ih (fun x hx => h x (List.mem_cons_of_mem _ hx)) (by simp),
        h c (List.mem_cons_self _ _)]
      omega

theorem uniform_heights_eq {cs : List OTree} (h : uniformHeights cs = true)
    {c : OTree} (hc : c ∈ cs) : heightA c = heightMaxL cs := by
  cases cs with
  | nil => simp at hc
  | cons c0 cs0 =>
    have hall : ∀ d ∈ c0 :: cs0, heightA d = heightA c0 := by
      intro d hd
      rcases List.mem_cons.mp hd with rfl | hd
      · rfl
      · exact (uniform_cons_iff.mp h) d hd
    rw [hall c hc, heightMaxL_of_all hall (by simp)]

/-! ### Range utilities -/

theorem inRangeB_mp {lo hi : Option Key} {k : Key} (h : inRangeB lo hi k = true) :
    loLtB lo k = true ∧ leHiB k hi = true := by
  simpa [inRangeB, Bool.and_eq_true] using h

theorem inRangeB_mk {lo hi : Option Key} {k : Key} (h1 : loLtB lo k = true)
    (h2 : leHiB k hi = true) : inRangeB lo hi k = true := by
  simp [inRangeB, h1, h2]

theorem leHi_of_le {x k : Key} {hi : Option Key} (h1 : keyLeB x k = true)
    (h2 : leHiB k hi = true) : leHiB x hi = true := by
  cases hi with
  | none => rfl
  | some h => exact keyLe_trans h1 h2

theorem loLt_of_lt {lo : Option Key} {k x : Key} (h1 : loLtB lo k = true)
    (h2 : keyLtB k x = true) : loLtB lo x = true := by
  cases lo with
  | none => rfl
  | some l => exact keyLt_trans h1 h2

theorem loLt_of_le {lo : Option Key} {k x : Key} (h1 : loLtB lo k = true)
    (h2 : keyLeB k x = true) : loLtB lo x = true := by
  cases lo with
  | none => rfl
  | some l => exact keyLt_of_lt_of_le h1 h2

theorem leHi_of_lt {x k : Key} {hi : Option Key} (h1 : keyLtB x k = true)
    (h2 : leHiB k hi = true) : leHiB x hi = true :=
  leHi_of_le (keyLe_of_lt h1) h2

/-! ### Pairs of a well-formed subtree -/

mutual
theorem wf_pairs : ∀ (t : OTree) (b : Nat) (rt : Bool) (lo hi : Option Key),
    wfB b rt lo hi t = true →
    sortedB ((pairsA t).map (fun p => p.key)) = true ∧
    (∀ p ∈ pairsA t, inRangeB lo hi p.key = true)
  | .leaf o isR par ps, b, rt, lo, hi, h => by
    rcases wfB_leaf_iff.mp h with ⟨-, -, -, h4, h5⟩
    exact ⟨h4, h5⟩
  | .internal o isR par cs ks, b, rt, lo, hi, h => by
    rcases wfB_internal_iff.mp h with ⟨-, -, -, -, h5, h6, -, h8⟩
    exact wf_pairs_children cs b lo ks hi h8 h5 h6
theorem wf_pairs_children : ∀ (cs : List OTree) (b : Nat) (lo : Option Key)
    (ks : List Key) (hi : Option Key),
    wfChildrenB b lo ks cs hi = true → sortedB ks = true →
    (∀ k ∈ ks, inRangeB lo hi k = true) →
    sortedB ((pairsL cs).map (fun p => p.key)) = true ∧
    (∀ p ∈ pairsL cs, inRangeB lo hi p.key = true)
  | cs, b, lo, [], hi => by
    intro h _ _
    rcases wfChildrenB_nil_iff.mp h with ⟨c, rfl, hc⟩
    have := wf_pairs c b false lo hi hc
    simpa [pairsL] using this
  | cs, b, lo, k :: ks, hi => by
    intro h hs hin
    rcases wfChildrenB_cons_iff.mp h with ⟨c, cs', rfl, hc, hrest⟩
    rcases sortedB_cons.mp hs with ⟨hks, hs'⟩
    have hk := hin k (List.mem_cons_self _ _)
    rcases inRangeB_mp hk with ⟨hklo, hkhi⟩
    have hhead := wf_pairs c b false lo (some k) hc
    have htail := wf_pairs_children cs' b (some k) ks hi hrest hs' ?_
    · rcases hhead with ⟨hsort1, hin1⟩
      rcases htail with ⟨hsort2, hin2⟩
      constructor
      · rw [pairsL, List.map_append, sortedB_append]
        refine ⟨hsort1, hsort2, ?_⟩
        rintro x hx y hy
        rcases List.mem_map.mp hx with ⟨p, hp, rfl⟩
        rcases List.mem_map.mp hy with ⟨q, hq, rfl⟩
        have h1 := (inRangeB_mp (hin1 p hp)).2
        have h2 := (inRangeB_mp (hin2 q hq)).1
        exact keyLt_of_le_of_lt h1 h2
      · intro p hp
        rw [pairsL] at hp
        rcases List.mem_append.mp hp with hp | hp
        · rcases inRangeB_mp (hin1 p hp) with ⟨hplo, hphi⟩
          exact inRangeB_mk hplo (leHi_of_le hphi hkhi)
        · rcases inRangeB_mp (hin2 p hp) with ⟨hplo, hphi⟩
          exact inRangeB_mk (loLt_of_lt hklo hplo) hphi
    · intro k' hk'
      rcases inRangeB_mp (hin k' (List.mem_cons_of_mem _ hk')) with ⟨-, hk'hi⟩
      exact inRangeB_mk (hks k' hk') hk'hi
end

mutual
theorem wf_pairs_ne : ∀ (t : OTree) (b : Nat) (lo hi : Option Key), 2 ≤ b →
    wfB b false lo hi t = true → pairsA t ≠ []
  | .leaf o isR par ps, b, lo, hi, hb, h => by
    rcases wfB_leaf_iff.mp h with ⟨-, h2, -, -, -⟩
    rcases h2 with h2 | h2
    · simp at h2
    · intro hc
      simp only [pairsA] at hc
      rw [hc] at h2
      simp at h2
      omega
  | .internal o isR par cs ks, b, lo, hi, hb, h => by
    rcases wfB_internal_iff.mp h with ⟨-, -, -, -, -, -, -, h8⟩
    exact wf_children_ne cs b lo ks hi hb h8
theorem wf_children_ne : ∀ (cs : List OTree) (b : Nat) (lo : Option Key)
    (ks : List Key) (hi : Option Key), 2 ≤ b →
    wfChildrenB b lo ks cs hi = true → pairsL cs ≠ []
  | cs, b, lo, [], hi, hb => by
    intro h
    rcases wfChildrenB_nil_iff.mp h with ⟨c, rfl, hc⟩
    simp only [pairsL, List.append_nil]
    exact wf_pairs_ne c b lo hi hb hc
  | cs, b, lo, k :: ks, hi, hb => by
    intro h
    rcases wfChildrenB_cons_iff.mp h with ⟨c, cs', rfl, hc, hrest⟩
    rw [pairsL]
    intro hcon
    rcases List.append_eq_nil.mp hcon with ⟨h1, -⟩
    exact wf_pairs_ne c b lo (some k) hb hc h1
end

/-! ### Sorted insertion partitions -/

theorem sortedB_sublist {l₁ l₂ : List Key} (hsub : l₁.Sublist l₂)
    (h : sortedB l₂ = true) : sortedB l₁ = true :=
  sortedB_pairwise.mpr ((sortedB_pairwise.mp h).sublist hsub)

theorem sortedB_take {l : List Key} (n : Nat) (h : sortedB l = true) :
    sortedB (l.take n) = true :=
  sortedB_sublist (List.take_sublist n l) h

theorem sortedB_drop {l : List Key} (n : Nat) (h : sortedB l = true) :
    sortedB (l.drop n) = true :=
  sortedB_sublist (List.drop_sublist n l) h

theorem upperPart_eq_not_lower {ps : List KeyValuePair} {k : Key}
    (hfresh : ∀ p ∈ ps, p.key ≠ k) :
    upperPart ps k = ps.filter (fun p => !(keyLtB p.key k)) := by
  refine List.filter_congr ?_
  intro p hp
  have hne := hfresh p hp
  cases hc : keyLtB p.key k
  · cases hc2 : keyLtB k p.key
    · exact absurd (keyLt_antisymm hc2 hc).symm hne
    · rfl
  · rw [keyLt_asymm hc]
    rfl

theorem partition_perm {ps : List KeyValuePair} {kv : KeyValuePair}
    (hfresh : ∀ p ∈ ps, p.key ≠ kv.key) :
    (lowerPart ps kv.key ++ kv :: upperPart ps kv.key).Perm (kv :: ps) := by
  refine (List.perm_middle).trans (List.Perm.cons kv ?_)
  rw [upperPart_eq_not_lower hfresh]
  exact List.filter_append_perm _ ps

theorem insertIdx_eq_partition : ∀ {ps : List KeyValuePair} {kv : KeyValuePair},
    sortedB (ps.map (fun p => p.key)) = true →
    (∀ p ∈ ps, p.key ≠ kv.key) →
    ps.insertIdx (countLtP ps kv.key) kv =
      lowerPart ps kv.key ++ kv :: upperPart ps kv.key := by
  intro ps
  induction ps with
  | nil =>
    intro kv _ _
    simp [countLtP, lowerPart, upperPart]
  | cons p ps ih =>
    intro kv hs hfresh
    have hs' : sortedB (ps.map (fun q => q.key)) = true := by
      rw [List.map_cons] at hs
      exact sortedB_tail hs
    have hpks : ∀ q ∈ ps, keyLtB p.key q.key = true := by
      intro q hq
      rw [List.map_cons] at hs
      exact (sortedB_cons.mp hs).1 _ (List.mem_map.mpr ⟨q, hq, rfl⟩)
    by_cases hp : keyLtB p.key kv.key = true
    · have hcnt : countLtP (p :: ps) kv.key = countLtP ps kv.key + 1 := by
        simp [countLtP, List.countP_cons, hp]
      rw [hcnt, List.insertIdx_succ_cons,
        ih hs' (fun q hq => hfresh q (List.mem_cons_of_mem _ hq))]
      have hl : lowerPart (p :: ps) kv.key = p :: lowerPart ps kv.key := by
        simp [lowerPart, List.filter_cons, hp]
      have hu : upperPart (p :: ps) kv.key = upperPart ps kv.key := by
        simp [upperPart, List.filter_cons, keyLt_asymm hp]
      rw [hl, hu]
      rfl
    · have hp' : keyLtB p.key kv.key = false := by
        cases hc : keyLtB p.key kv.key
        · rfl
        · exact absurd hc hp
      have hkvp : keyLtB kv.key p.key = true := by
        cases hc : keyLtB kv.key p.key
        · exact absurd (keyLt_antisymm hp' hc)
            (hfresh p (List.mem_cons_self _ _))
        · rfl
      have hnone : ∀ q ∈ ps, keyLtB q.key kv.key = false := by
        intro q hq
        cases hc : keyLtB q.key kv.key
        · rfl
        · exact absurd (keyLt_trans (hpks q hq) hc) (by simp [hp'])
      have hcnt : countLtP (p :: ps) kv.key = 0 := by
        simp only [countLtP, List.countP_eq_zero]
        intro q hq
        rcases List.mem_cons.mp hq with rfl | hq
        · simp [hp']
        · simp [hnone q hq]
      have hl : lowerPart (p :: ps) kv.key = [] := by
        rw [lowerPart, List.filter_eq_nil_iff]
        intro q hq
        rcases List.mem_cons.mp hq with rfl | hq
        · simp [hp']
        · simp [hnone q hq]
      have hu : upperPart (p :: ps) kv.key = p :: ps := by
        rw [upperPart, List.filter_eq_self]
        intro q hq
        rcases List.mem_cons.mp hq with rfl | hq
        · exact hkvp
        · exact keyLt_trans hkvp (hpks q hq)
      rw [hcnt, hl, hu, List.insertIdx_zero]
      rfl

theorem partition_sorted {ps : List KeyValuePair} {kv : KeyValuePair}
    {lo hi : Option Key} (hs : sortedB (ps.map (fun p => p.key)) = true)
    (hin : inRangeB lo hi kv.key = true)
    (hall : ∀ p ∈ ps, inRangeB lo hi p.key = true) :
    sortedB ((lowerPart ps kv.key ++ kv :: upperPart ps kv.key).map
      (fun p => p.key)) = true ∧
    (∀ p ∈ lowerPart ps kv.key ++ kv :: upperPart ps kv.key,
      inRangeB lo hi p.key = true) := by
  have hlsub : (lowerPart ps kv.key).Sublist ps := List.filter_sublist _
  have husub : (upperPart ps kv.key).Sublist ps := List.filter_sublist _
  constructor
  · rw [List.map_append, sortedB_append]
    refine ⟨sortedB_sublist (hlsub.map _) hs, ?_, ?_⟩
    · rw [List.map_cons, sortedB_cons]
      refine ⟨?_, sortedB_sublist (husub.map _) hs⟩
      intro x hx
      rcases List.mem_map.mp hx with ⟨q, hq, rfl⟩
      exact (List.mem_filter.mp hq).2
    · intro x hx y hy
      rcases List.mem_map.mp hx with ⟨q, hq, rfl⟩
      have hqlt : keyLtB q.key kv.key = true := (List.mem_filter.mp hq).2
      rcases List.mem_cons.mp hy with rfl | hy
      · exact hqlt
      · rcases List.mem_map.mp hy with ⟨q2, hq2, rfl⟩
        exact keyLt_trans hqlt (List.mem_filter.mp hq2).2
  · intro q hq
    rcases List.mem_append.mp hq with hq | hq
    · exact hall q (hlsub.mem hq)
    · rcases List.mem_cons.mp hq with rfl | hq
      · exact hin
      · exact hall q (husub.mem hq)

/-! ### Splitting a full node -/

theorem sorted_lt_of_take {ks : List Key} (hs : sortedB ks = true) {m : Nat}
    {x : Key} (hm : m < ks.length) (hx : x ∈ ks.take m) :
    keyLtB x ks[m] = true := by
  rcases List.mem_take_iff_getElem.mp hx with ⟨i, hi, rfl⟩
  exact sortedB_getElem_lt hs (by omega) hm

theorem sorted_lt_of_drop {ks : List Key} (hs : sortedB ks = true) {m : Nat}
    {x : Key} (hm : m < ks.length) (hx : x ∈ ks.drop (m + 1)) :
    keyLtB ks[m] x = true := by
  rcases List.mem_drop_iff_getElem.mp hx with ⟨i, hi, rfl⟩
  exact sortedB_getElem_lt hs (by omega) (by omega)

theorem sortedP_keys_lt {ps : List KeyValuePair}
    (hs : sortedB (ps.map (fun p => p.key)) = true) {i m : Nat}
    (him : i < m) (hm : m < ps.length) : keyLtB ps[i].key ps[m].key = true := by
  have hil : i < ps.length := by omega
  have him2 : i < (ps.map (fun p => p.key)).length := by simpa using hil
  have hmm : m < (ps.map (fun p => p.key)).length := by simpa using hm
  have h1 : (ps.map (fun p => p.key))[i] = ps[i].key := List.getElem_map _
  have h2 : (ps.map (fun p => p.key))[m] = ps[m].key := List.getElem_map _
  rw [← h1, ← h2]
  exact sortedB_getElem_lt hs him hmm

theorem sortedP_lt_of_take {ps : List KeyValuePair}
    (hs : sortedB (ps.map (fun p => p.key)) = true) {m : Nat}
    {p : KeyValuePair} (hm : m < ps.length) (hp : p ∈ ps.take m) :
    keyLtB p.key ps[m].key = true := by
  rcases List.mem_take_iff_getElem.mp hp with ⟨i, hi, rfl⟩
  exact sortedP_keys_lt hs (by omega) hm

theorem sortedP_lt_of_drop {ps : List KeyValuePair}
    (hs : sortedB (ps.map (fun p => p.key)) = true) {m : Nat}
    {p : KeyValuePair} (hm : m < ps.length) (hp : p ∈ ps.drop (m + 1)) :
    keyLtB ps[m].key p.key = true := by
  rcases List.mem_drop_iff_getElem.mp hp with ⟨i, hi, rfl⟩
  exact sortedP_keys_lt hs (by omega) (by omega)

theorem split_leaf_parts {b : Nat} {lo hi : Option Key} {ps : List KeyValuePair}
    (o₁ o₂ : Offset) (p₁ p₂ : Option Offset)
    (hb : 2 ≤ b) (hlen : ps.length = 2 * b - 1)
    (hsort : sortedB (ps.map (fun p => p.key)) = true)
    (hin : ∀ p ∈ ps, inRangeB lo hi p.key = true)
    {medp : KeyValuePair} (hmed : ps[b - 1]? = some medp) :
    wfB b false lo (some medp.key) (.leaf o₁ false p₁ (ps.take b)) = true ∧
    wfB b false (some medp.key) hi (.leaf o₂ false p₂ (ps.drop b)) = true ∧
    loLtB lo medp.key = true ∧ leHiB medp.key hi = true := by
  have hblen : b - 1 < ps.length := by omega
  have hmed' : ps[b - 1] = medp := by
    rw [List.getElem?_eq_getElem hblen] at hmed
    exact Option.some.inj hmed
  have hmem : medp ∈ ps := hmed' ▸ List.getElem_mem hblen
  rcases inRangeB_mp (hin medp hmem) with ⟨hmlo, hmhi⟩
  have htake_le : ∀ p ∈ ps.take b, keyLeB p.key medp.key = true := by
    intro p hp
    rcases List.mem_take_iff_getElem.mp hp with ⟨i, hi2, rfl⟩
    by_cases hib : i = b - 1
    · subst hib
      rw [hmed']
      exact keyLe_refl _
    · have hlt : keyLtB ps[i].key ps[b-1].key = true :=
        sortedP_keys_lt hsort (by omega) hblen
      rw [hmed'] at hlt
      exact keyLe_of_lt hlt
  have hdrop_gt : ∀ p ∈ ps.drop b, keyLtB medp.key p.key = true := by
    intro p hp
    have hb' : b = (b - 1) + 1 := by omega
    rw [← hmed']
    exact sortedP_lt_of_drop hsort hblen (by rw [← hb']; exact hp)
  refine ⟨?_, ?_, hmlo, hmhi⟩
  · rw [wfB_leaf_iff]
    refine ⟨rfl, Or.inr ?_, ?_, ?_, ?_⟩
    · simp only [List.length_take]
      omega
    · simp only [List.length_take]
      omega
    · rw [List.map_take]
      exact sortedB_take b hsort
    · intro p hp
      rcases inRangeB_mp (hin p (List.mem_of_mem_take hp)) with ⟨hplo, -⟩
      exact inRangeB_mk hplo (by
        simp only [leHiB]
        exact htake_le p hp)
  · rw [wfB_leaf_iff]
    refine ⟨rfl, Or.inr ?_, ?_, ?_, ?_⟩
    · simp only [List.length_drop]
      omega
    · simp only [List.length_drop]
      omega
    · rw [List.map_drop]
      exact sortedB_drop b hsort
    · intro p hp
      rcases inRangeB_mp (hin p (List.mem_of_mem_drop hp)) with ⟨-, hphi⟩
      exact inRangeB_mk (by
        simp only [loLtB]
        exact hdrop_gt p hp) hphi

theorem split_internal_parts {b : Nat} {rt : Bool} {lo hi : Option Key}
    {o : Offset} {isR : Bool} {par : Option Offset}
    {cs : List OTree} {ks : List Key}
    (o₁ o₂ : Offset) (p₁ p₂ : Option Offset)
    (hb : 2 ≤ b) (hlen : ks.length = 2 * b - 1)
    (hwf : wfB b rt lo hi (.internal o isR par cs ks) = true)
    {med : Key} (hmed : ks[b - 1]? = some med) :
    wfB b false lo (some med)
      (.internal o₁ false p₁ (cs.take b) (ks.take (b - 1))) = true ∧
    wfB b false (some med) hi
      (.internal o₂ false p₂ (cs.drop b) (ks.drop b)) = true ∧
    loLtB lo med = true ∧ leHiB med hi = true := by
  rcases wfB_internal_iff.mp hwf with ⟨-, hlen2, -, -, hsort, hinr, hunif, hch⟩
  have hblen : b - 1 < ks.length := by omega
  have hmed' : ks[b - 1] = med := by
    rw [List.getElem?_eq_getElem hblen] at hmed
    exact Option.some.inj hmed
  have hmem : med ∈ ks := hmed' ▸ List.getElem_mem hblen
  rcases inRangeB_mp (hinr med hmem) with ⟨hmlo, hmhi⟩
  have hpre := wfChildrenB_prefix hblen hch
  have hsuf := wfChildrenB_suffix hblen hch
  rw [hmed'] at hpre hsuf
  have hb1 : b - 1 + 1 = b := by omega
  rw [hb1] at hpre hsuf
  refine ⟨?_, ?_, hmlo, hmhi⟩
  · rw [wfB_internal_iff]
    refine ⟨rfl, ?_, ?_, ?_, sortedB_take _ hsort, ?_, ?_, hpre⟩
    · simp only [List.length_take]
      omega
    · simp only [List.length_take]
      rw [if_neg (by simp)]
      omega
    · simp only [List.length_take]
      omega
    · intro k hk
      have hkmem : k ∈ ks := List.mem_of_mem_take hk
      rcases inRangeB_mp (hinr k hkmem) with ⟨hklo, -⟩
      refine inRangeB_mk hklo ?_
      simp only [leHiB]
      rw [← hmed']
      exact keyLe_of_lt (sorted_lt_of_take hsort hblen hk)
    · rw [uniform_iff_all_eq] at hunif ⊢
      intro x hx y hy
      exact hunif x (List.mem_of_mem_take hx) y (List.mem_of_mem_take hy)
  · rw [wfB_internal_iff]
    refine ⟨rfl, ?_, ?_, ?_, sortedB_drop _ hsort, ?_, ?_, hsuf⟩
    · simp only [List.length_drop]
      omega
    · simp only [List.length_drop]
      rw [if_neg (by simp)]
      omega
    · simp only [List.length_drop]
      omega
    · intro k hk
      have hkmem : k ∈ ks := List.mem_of_mem_drop hk
      rcases inRangeB_mp (hinr k hkmem) with ⟨-, hkhi⟩
      refine inRangeB_mk ?_ hkhi
      simp only [loLtB]
      rw [← hmed']
      refine sorted_lt_of_drop hsort hblen ?_
      rw [hb1]
      exact hk
    · rw [uniform_iff_all_eq] at hunif ⊢
      intro x hx y hy
      exact hunif x (List.mem_of_mem_drop hx) y (List.mem_of_mem_drop hy)

theorem pairsL_take_drop (cs : List OTree) (n : Nat) :
    pairsL (cs.take n) ++ pairsL (cs.drop n) = pairsL cs := by
  rw [← pairsL_append, List.take_append_drop]

/-! ### More list and decode support -/

theorem set_getElem_self_list {α : Type} :
    ∀ (l : List α) (i : Nat) (h : i < l.length), l.set i l[i] = l := by
  intro l
  induction l with
  | nil => intro i h; simp at h
  | cons a r ih =>
    intro i h
    cases i with
    | zero => simp
    | succ j => simp [ih j (by simpa using h)]

theorem map_insertIdx_list {α β : Type} (f : α → β) :
    ∀ (l : List α) (i : Nat) (a : α), i ≤ l.length →
      (l.insertIdx i a).map f = (l.map f).insertIdx i (f a) := by
  intro l
  induction l with
  | nil =>
    intro i a h
    simp only [List.length_nil, Nat.le_zero] at h
    subst h
    simp
  | cons x r ih =>
    intro i a h
    cases i with
    | zero => simp
    | succ j =>
      rw [List.insertIdx_succ_cons, List.map_cons, List.map_cons,
        List.insertIdx_succ_cons, ih j a (by simpa using h)]

theorem set_eq_take_cons_drop {α : Type} :
    ∀ (l : List α) (i : Nat) (a : α), i < l.length →
      l.set i a = l.take i ++ a :: l.drop (i + 1) := by
  intro l
  induction l with
  | nil => intro i a h; simp at h
  | cons x r ih =>
    intro i a h
    cases i with
    | zero => simp
    | succ j => simp [ih j a (by simpa using h)]

theorem list_take_cons_drop {α : Type} (l : List α) (i : Nat) (h : i < l.length) :
    l.take i ++ l[i] :: l.drop (i + 1) = l := by
  rw [List.cons_getElem_drop_succ, List.take_append_drop]

theorem set_insert_decomp {α : Type} :
    ∀ (l : List α) (i : Nat) (x y : α), i < l.length →
      (l.set i x).insertIdx (i + 1) y = l.take i ++ x :: y :: l.drop (i + 1) := by
  intro l
  induction l with
  | nil => intro i x y h; simp at h
  | cons a r ih =>
    intro i x y h
    cases i with
    | zero => simp
    | succ j =>
      rw [List.set_cons_succ, List.insertIdx_succ_cons, ih j x y (by simpa using h)]
      simp

theorem decodeL_take : ∀ {fuel : Nat} {pager : Pager} {cs : List Offset}
    {ts : List OTree} (n : Nat), decodeL fuel pager cs = some ts →
    decodeL fuel pager (cs.take n) = some (ts.take n) := by
  intro fuel pager cs
  induction cs generalizing fuel with
  | nil =>
    intro ts n h
    rw [decodeL_nil] at h
    cases h
    simp [decodeL_nil]
  | cons c cs ih =>
    intro ts n h
    rcases decodeL_cons_some.mp h with ⟨t, ts', h1, h2, rfl⟩
    cases n with
    | zero => simp [decodeL_nil]
    | succ m =>
      simp only [List.take_succ_cons]
      exact decodeL_cons_some.mpr ⟨t, ts'.take m, h1, ih m h2, rfl⟩

theorem decodeL_drop : ∀ {fuel : Nat} {pager : Pager} {cs : List Offset}
    {ts : List OTree} (n : Nat), decodeL fuel pager cs = some ts →
    decodeL fuel pager (cs.drop n) = some (ts.drop n) := by
  intro fuel pager cs
  induction cs generalizing fuel with
  | nil =>
    intro ts n h
    rw [decodeL_nil] at h
    cases h
    simp [decodeL_nil]
  | cons c cs ih =>
    intro ts n h
    rcases decodeL_cons_some.mp h with ⟨t, ts', h1, h2, rfl⟩
    cases n with
    | zero =>
      simp only [List.drop_zero]
      exact h
    | succ m =>
      simp only [List.drop_succ_cons]
      exact ih m h2

theorem decodeL_intro : ∀ {fuel : Nat} {pager : Pager} {ts : List OTree},
    (∀ t' ∈ ts, decodeT fuel pager (offOf t') = some t') →
    decodeL fuel pager (ts.map offOf) = some ts := by
  intro fuel pager ts
  induction ts with
  | nil => intro _; simp [decodeL_nil]
  | cons t ts ih =>
    intro h
    rw [List.map_cons]
    exact decodeL_cons_some.mpr ⟨t, ts, h t (List.mem_cons_self _ _),
      ih (fun t' ht' => h t' (List.mem_cons_of_mem _ ht')), rfl⟩

theorem decodeL_mem : ∀ {fuel : Nat} {pager : Pager} {cs : List Offset}
    {ts : List OTree}, decodeL fuel pager cs = some ts →
    ∀ t' ∈ ts, decodeT fuel pager (offOf t') = some t' := by
  intro fuel pager cs
  induction cs generalizing fuel with
  | nil =>
    intro ts h t' ht'
    rw [decodeL_nil] at h
    cases h
    simp at ht'
  | cons c cs ih =>
    intro ts h t' ht'
    rcases decodeL_cons_some.mp h with ⟨t, ts', h1, h2, rfl⟩
    rcases List.mem_cons.mp ht' with rfl | ht'
    · rw [decodeT_offOf h1]
      exact h1
    · exact ih h2 t' ht'

theorem offsA_sub_offsL {ts : List OTree} {t' : OTree} (ht' : t' ∈ ts) :
    ∀ o ∈ offsA t', o ∈ offsL ts := by
  intro o ho
  induction ts with
  | nil => simp at ht'
  | cons c cs ih =>
    rw [offsL]
    rcases List.mem_cons.mp ht' with rfl | hmem
    · exact List.mem_append_left _ ho
    · exact List.mem_append_right _ (ih hmem)

theorem pairsA_sub_pairsL {ts : List OTree} {t' : OTree} (ht' : t' ∈ ts) :
    ∀ p ∈ pairsA t', p ∈ pairsL ts := by
  intro p hp
  induction ts with
  | nil => simp at ht'
  | cons c cs ih =>
    rw [pairsL]
    rcases List.mem_cons.mp ht' with rfl | hmem
    · exact List.mem_append_left _ hp
    · exact List.mem_append_right _ (ih hmem)

theorem offsL_nodup_child {ts : List OTree} (h : (offsL ts).Nodup) {t' : OTree}
    (ht' : t' ∈ ts) : (offsA t').Nodup := by
  induction ts with
  | nil => simp at ht'
  | cons c cs ih =>
    rw [offsL, List.nodup_append] at h
    rcases List.mem_cons.mp ht' with rfl | hmem
    · exact h.1
    · exact ih h.2.1 hmem

theorem offsL_take_drop (cs : List OTree) (n : Nat) :
    offsL (cs.take n) ++ offsL (cs.drop n) = offsL cs := by
  rw [← offsL_append, List.take_append_drop]

theorem heightMaxL_take {cs : List OTree} (h : uniformHeights cs = true) {n : Nat}
    (hn : 0 < n) (hlen : n ≤ cs.length) :
    heightMaxL (cs.take n) = heightMaxL cs := by
  cases cs with
  | nil => simp at hlen; omega
  | cons c cs0 =>
    have hall : ∀ d ∈ c :: cs0, heightA d = heightA c := by
      intro d hd
      rcases List.mem_cons.mp hd with rfl | hd
      · rfl
      · exact (uniform_cons_iff.mp h) d hd
    rw [heightMaxL_of_all hall (by simp),
      heightMaxL_of_all (fun d hd => hall d (List.mem_of_mem_take hd)) ?_]
    obtain ⟨m, rfl⟩ : ∃ m, n = m + 1 := ⟨n - 1, by omega⟩
    simp

theorem heightMaxL_drop {cs : List OTree} (h : uniformHeights cs = true) {n : Nat}
    (hlen : n < cs.length) :
    heightMaxL (cs.drop n) = heightMaxL cs := by
  cases cs with
  | nil => simp at hlen
  | cons c cs0 =>
    have hall : ∀ d ∈ c :: cs0, heightA d = heightA c := by
      intro d hd
      rcases List.mem_cons.mp hd with rfl | hd
      · rfl
      · exact (uniform_cons_iff.mp h) d hd
    rw [heightMaxL_of_all hall (by simp),
      heightMaxL_of_all (fun d hd => hall d (List.mem_of_mem_drop hd)) ?_]
    intro hc
    have hc2 := List.drop_eq_nil_iff.mp hc
    simp only [List.length_cons] at hc2 hlen
    omega

theorem is_node_full_headNode (b : Nat) (t : OTree) :
    is_node_full b (headNode t) = .ok (decide (sizeEntries t = 2 * b - 1)) := by
  cases t <;> rfl

theorem childRange_of_count {ks : List Key} {lo hi : Option Key} {k : Key}
    (hs : sortedB ks = true) (hin : inRangeB lo hi k = true) :
    inRangeB (childLo lo ks (countLtK ks k)) (childHi hi ks (countLtK ks k)) k
      = true := by
  rcases inRangeB_mp hin with ⟨hlo, hhi⟩
  have hcle := countLtK_le ks k
  refine inRangeB_mk ?_ ?_
  · simp only [childLo]
    by_cases h0 : countLtK ks k = 0
    · rw [if_pos h0]
      exact hlo
    · rw [if_neg h0]
      have hj : countLtK ks k - 1 < ks.length := by omega
      rw [List.getElem?_eq_getElem hj]
      simp only [loLtB]
      exact (sorted_lt_boundary hs k _ hj).mpr (by omega)
  · simp only [childHi]
    by_cases hlen : countLtK ks k = ks.length
    · rw [if_pos hlen]
      exact hhi
    · rw [if_neg hlen]
      have hj : countLtK ks k < ks.length := by omega
      rw [List.getElem?_eq_getElem hj]
      simp only [leHiB, keyLe_eq_not_lt]
      have : keyLtB ks[countLtK ks k] k = false := by
        cases hc : keyLtB ks[countLtK ks k] k
        · rfl
        · have := (sorted_lt_boundary hs k _ hj).mp hc
          omega
      simp [this]

theorem pairsL_parts {b : Nat} {lo hi : Option Key} {ks : List Key} {ts : List OTree}
    (hch : wfChildrenB b lo ks ts hi = true) (hs : sortedB ks = true)
    (hin : ∀ k' ∈ ks, inRangeB lo hi k' = true) (k : Key)
    (hk : inRangeB lo hi k = true) :
    (∀ p ∈ pairsL (ts.take (countLtK ks k)), keyLtB p.key k = true) ∧
    (∀ p ∈ pairsL (ts.drop (countLtK ks k + 1)), keyLtB k p.key = true) := by
  have hile := countLtK_le ks k
  constructor
  · by_cases hi0 : countLtK ks k = 0
    · rw [hi0]
      intro p hp
      simp [List.take_zero, pairsL] at hp
    · have hj : countLtK ks k - 1 < ks.length := by omega
      have hj1 : countLtK ks k - 1 + 1 = countLtK ks k := by omega
      have hpre := wfChildrenB_prefix hj hch
      rw [hj1] at hpre
      have hbundle := wf_pairs_children _ b lo _ _ hpre (sortedB_take _ hs) ?_
      · intro p hp
        have hpr := (inRangeB_mp (hbundle.2 p hp)).2
        simp only [leHiB] at hpr
        have hklt : keyLtB ks[countLtK ks k - 1] k = true :=
          (sorted_lt_boundary hs k _ hj).mpr (by omega)
        exact keyLt_of_le_of_lt hpr hklt
      · intro x hx
        rcases inRangeB_mp (hin x (List.mem_of_mem_take hx)) with ⟨hxlo, -⟩
        refine inRangeB_mk hxlo ?_
        simp only [leHiB]
        exact keyLe_of_lt (sorted_lt_of_take hs hj hx)
  · by_cases hilen : countLtK ks k = ks.length
    · have hlen := wfChildrenB_len hch
      intro p hp
      rw [List.drop_eq_nil_of_le (by omega)] at hp
      simp [pairsL] at hp
    · have hj : countLtK ks k < ks.length := by omega
      have hsuf := wfChildrenB_suffix hj hch
      have hbundle := wf_pairs_children _ b _ _ _ hsuf (sortedB_drop _ hs) ?_
      · intro p hp
        have hpl := (inRangeB_mp (hbundle.2 p hp)).1
        simp only [loLtB] at hpl
        have hkle : keyLeB k ks[countLtK ks k] = true := by
          rw [keyLe_eq_not_lt]
          have : keyLtB ks[countLtK ks k] k = false := by
            cases hc : keyLtB ks[countLtK ks k] k
            · rfl
            · have := (sorted_lt_boundary hs k _ hj).mp hc
              omega
          simp [this]
        exact keyLt_of_le_of_lt hkle hpl
      · intro x hx
        rcases inRangeB_mp (hin x (List.mem_of_mem_drop hx)) with ⟨-, hxhi⟩
        refine inRangeB_mk ?_ hxhi
        simp only [loLtB]
        exact sorted_lt_of_drop hs hj hx

theorem decodeL_update :
    ∀ {fuel : Nat} {pager pager' : Pager} {cs : List Offset} {ts : List OTree}
      {i : Nat} {c' : OTree}
      (h : decodeL fuel pager cs = some ts)
      (hnd : (offsL ts).Nodup)
      (hlen : i < ts.length)
      (hagree : ∀ o, o ∈ offsL ts → o ∉ offsA ts[i] →
        pager'.pages[o]? = pager.pages[o]?)
      (hdec : decodeT fuel pager' (offOf ts[i]) = some c'),
      decodeL fuel pager' cs = some (ts.set i c') := by
  intro fuel pager pager' cs
  induction cs generalizing fuel with
  | nil =>
    intro ts i c' h hnd hi _ _
    rw [decodeL_nil] at h
    cases h
    simp at hi
  | cons c cs ih =>
    intro ts i c' h hnd hi hagree hdec
    rcases decodeL_cons_some.mp h with ⟨t, ts', h1, h2, rfl⟩
    rw [offsL] at hnd hagree
    rw [List.nodup_append] at hnd
    cases i with
    | zero =>
      simp only [List.getElem_cons_zero] at hagree hdec
      rw [List.set_cons_zero]
      refine decodeL_cons_some.mpr ⟨c', ts', ?_, ?_, rfl⟩
      · rw [← decodeT_offOf h1]
        exact hdec
      · refine decodeL_frame h2 ?_
        intro o ho
        refine hagree o (List.mem_append_right _ ho) ?_
        intro hcon
        exact (List.disjoint_left.mp hnd.2.2) hcon ho
    | succ j =>
      simp only [List.getElem_cons_succ] at hagree hdec
      rw [List.set_cons_succ]
      have hj : j < ts'.length := by simpa using hi
      refine decodeL_cons_some.mpr ⟨t, ts'.set j c', ?_, ?_, rfl⟩
      · refine decodeT_frame h1 ?_
        intro o ho
        refine hagree o (List.mem_append_left _ ho) ?_
        intro hcon
        have hoin : o ∈ offsL ts' :=
          offsA_sub_offsL (List.getElem_mem hj) o hcon
        exact (List.disjoint_left.mp hnd.2.2) ho hoin
      · refine ih h2 hnd.2.1 hj ?_ hdec
        intro o ho hno
        exact hagree o (List.mem_append_right _ ho) hno

/-! ### Structural helper lemmas -/

theorem heightA_pos (t : OTree) : 1 ≤ heightA t := by
  cases t <;> simp [heightA]

theorem uniformHeights_of_all {cs : List OTree} {H : Nat}
    (h : ∀ c ∈ cs, heightA c = H) : uniformHeights cs = true := by
  cases cs with
  | nil => rfl
  | cons c cs =>
    simp only [uniformHeights, List.all_eq_true]
    intro d hd
    rw [h d (List.mem_cons_of_mem _ hd), h c (List.mem_cons_self _ _)]
    exact beq_self_eq_true _

theorem nodup_splice {A X B Xn : List Nat} {n : Nat}
    (h : (A ++ (X ++ B)).Nodup) (hXn : Xn.Nodup)
    (hmem : ∀ o ∈ Xn, o ∈ X ∨ n ≤ o) (hAB : ∀ o, o ∈ A ∨ o ∈ B → o < n) :
    (A ++ (Xn ++ B)).Nodup := by
  rw [List.nodup_append] at h
  rcases h with ⟨hA, hXB, hdisj⟩
  rw [List.nodup_append] at hXB
  rcases hXB with ⟨hX, hB, hdXB⟩
  rw [List.nodup_append, List.nodup_append]
  refine ⟨hA, ⟨hXn, hB, ?_⟩, ?_⟩
  · intro o ho ho'
    rcases hmem o ho with hx | hn
    · exact hdXB hx ho'
    · have := hAB o (Or.inr ho')
      omega
  · intro o ho ho'
    rcases List.mem_append.mp ho' with hx | hb
    · rcases hmem o hx with hoX | hn
      · exact hdisj ho (List.mem_append_left _ hoX)
      · have := hAB o (Or.inl ho)
        omega
    · exact hdisj ho (List.mem_append_right _ hb)

theorem insertIdx_take_drop {α : Type} :
    ∀ (l : List α) (i : Nat) (a : α), i ≤ l.length →
      l.insertIdx i a = l.take i ++ a :: l.drop i
  | l, 0, a, _ => by simp [List.insertIdx_zero]
  | [], i + 1, a, h => by simp at h
  | x :: l, i + 1, a, h => by
    rw [List.insertIdx_succ_cons, insertIdx_take_drop l i a (by simpa using h)]
    simp

theorem sortedB_insertIdx {ks : List Key} {m : Key} {i : Nat}
    (hs : sortedB ks = true) (hile : i ≤ ks.length)
    (hlt : ∀ j (hj : j < ks.length), j < i → keyLtB ks[j] m = true)
    (hgt : ∀ j (hj : j < ks.length), i ≤ j → keyLtB m ks[j] = true) :
    sortedB (ks.insertIdx i m) = true := by
  rw [insertIdx_take_drop _ _ _ hile]
  rw [sortedB_append]
  refine ⟨sortedB_take _ hs, ?_, ?_⟩
  · rw [sortedB_cons]
    refine ⟨?_, sortedB_drop _ hs⟩
    intro x hx
    rcases List.mem_iff_getElem.mp hx with ⟨j, hj, rfl⟩
    rw [List.getElem_drop]
    exact hgt (i + j) (by simp at hj; omega) (by omega)
  · intro x hx y hy
    rcases List.mem_iff_getElem.mp hx with ⟨j, hj, rfl⟩
    have hjlen : j < ks.length := by
      have := List.length_take_le i ks
      omega
    rw [List.getElem_take]
    have hji : j < i := by
      simp only [List.length_take] at hj
      omega
    rcases List.mem_cons.mp hy with rfl | hy
    · exact hlt j hjlen hji
    · rcases List.mem_iff_getElem.mp hy with ⟨l, hl, rfl⟩
      rw [List.getElem_drop]
      exact sortedB_getElem_lt hs (by omega) (by simp at hl; omega)

theorem wf_range_key {b : Nat} {lo hi : Option Key} {t : OTree} (hb : 2 ≤ b)
    (h : wfB b false lo hi t = true) :
    ∃ x, loLtB lo x = true ∧ leHiB x hi = true := by
  have hne := wf_pairs_ne t b lo hi hb h
  have hall := (wf_pairs t b false lo hi h).2
  cases hps : pairsA t with
  | nil => exact absurd hps hne
  | cons p ps =>
    have := hall p (by rw [hps]; exact List.mem_cons_self _ _)
    exact ⟨p.key, inRangeB_mp this⟩

theorem length_le_of_nodup_lt {l : List Nat} {n : Nat} (hnd : l.Nodup)
    (hlt : ∀ x ∈ l, x < n) : l.length ≤ n := by
  classical
  have hsub : l.toFinset ⊆ Finset.range n := by
    intro x hx
    rw [Finset.mem_range]
    exact hlt x (List.mem_toFinset.mp hx)
  have := Finset.card_le_card hsub
  rw [Finset.card_range, List.toFinset_card_of_nodup hnd] at this
  exact this

theorem wf_size_le {b : Nat} {rt : Bool} {lo hi : Option Key} {t : OTree}
    (h : wfB b rt lo hi t = true) : sizeEntries t ≤ 2 * b - 1 := by
  cases t with
  | leaf o isR par ps =>
    rcases wfB_leaf_iff.mp h with ⟨-, -, h3, -, -⟩
    exact h3
  | internal o isR par cs ks =>
    rcases wfB_internal_iff.mp h with ⟨-, -, -, h4, -, -, -, -⟩
    exact h4

mutual
theorem heightA_le_offs : ∀ (t : OTree), heightA t ≤ (offsA t).length
  | .leaf o r p ps => by simp [heightA, offsA]
  | .internal o r p cs ks => by
    rw [heightA, offsA]
    simp only [List.length_cons]
    exact Nat.succ_le_succ (heightMaxL_le_offs cs)
theorem heightMaxL_le_offs : ∀ (cs : List OTree), heightMaxL cs ≤ (offsL cs).length
  | [] => by simp [heightMaxL, offsL]
  | c :: cs => by
    rw [heightMaxL, offsL]
    rw [List.length_append]
    have h1 := heightA_le_offs c
    have h2 := heightMaxL_le_offs cs
    omega
end

/-! ### The insert refinement -/

set_option maxHeartbeats 1000000 in
theorem split_reassemble
    {b : Nat} {pager pager' : Pager} {o : Offset} {r : Bool} {par : Option Offset}
    {ts : List OTree} {ks : List Key} {rt : Bool} {lo hi : Option Key}
    {kv : KeyValuePair} {dg : Nat} {med : Key} {CL CR : OTree}
    (hb : 2 ≤ b)
    (hrt : r = rt)
    (hclen : ts.length = ks.length + 1)
    (hklow : if rt = true then 1 ≤ ks.length else b - 1 ≤ ks.length)
    (hnf : ks.length < 2 * b - 1)
    (hks : sortedB ks = true)
    (hkin : ∀ k ∈ ks, inRangeB lo hi k = true)
    (huni : uniformHeights ts = true)
    (hch : wfChildrenB b lo ks ts hi = true)
    (hin : inRangeB lo hi kv.key = true)
    (hnd : (offsA (OTree.internal o r par ts ks)).Nodup)
    (hbound : ∀ o' ∈ offsA (OTree.internal o r par ts ks), o' < pager.pages.length)
    (hidxlt : countLtK ks kv.key < ts.length)
    (hdl : decodeL dg pager (ts.map offOf) = some ts)
    (hCLoff : offOf CL = offOf ts[countLtK ks kv.key])
    (hCRoff : offOf CR = pager.pages.length)
    (hdecCL : decodeT dg pager' (offOf ts[countLtK ks kv.key]) = some CL)
    (hdecCR : decodeT dg pager' pager.pages.length = some CR)
    (hwfCL : wfB b false (childLo lo ks (countLtK ks kv.key)) (some med) CL = true)
    (hwfCR : wfB b false (some med) (childHi hi ks (countLtK ks kv.key)) CR = true)
    (hhCL : heightA CL = heightA ts[countLtK ks kv.key])
    (hhCR : heightA CR = heightA ts[countLtK ks kv.key])
    (hpairsCLR : pairsA CL ++ pairsA CR =
      lowerPart (pairsA ts[countLtK ks kv.key]) kv.key ++ kv ::
        upperPart (pairsA ts[countLtK ks kv.key]) kv.key)
    (hndCLR : (offsA CL ++ offsA CR).Nodup)
    (hmemCLR : ∀ o' ∈ offsA CL ++ offsA CR,
      o' ∈ offsA ts[countLtK ks kv.key] ∨ pager.pages.length ≤ o')
    (hboundCLR : ∀ o' ∈ offsA CL ++ offsA CR, o' < pager'.pages.length)
    (hlen' : pager.pages.length + 1 ≤ pager'.pages.length)
    (hframe' : ∀ o', o' ∉ offsA ts[countLtK ks kv.key] → o' ≠ pager.pages.length →
      o' ≠ o → o' < pager.pages.length → pager'.pages[o']? = pager.pages[o']?)
    (hpago : pager'.pages[o]? = some
      ⟨.Internal ((ts.map offOf).insertIdx (countLtK ks kv.key + 1) pager.pages.length)
        (ks.insertIdx (countLtK ks kv.key) med), r, par⟩) :
    ∃ t', decodeT (dg + 1) pager' o = some t' ∧
      wfB b rt lo hi t' = true ∧
      pairsA t' = lowerPart (pairsL ts) kv.key ++ kv :: upperPart (pairsL ts) kv.key ∧
      heightA t' = heightMaxL ts + 1 ∧
      offOf t' = o ∧ isRootOf t' = r ∧ parentOf t' = par ∧
      (offsA t').Nodup ∧
      (∀ o' ∈ offsA t', o' ∈ offsA (OTree.internal o r par ts ks) ∨
        pager.pages.length ≤ o') ∧
      (∀ o' ∈ offsA t', o' < pager'.pages.length) ∧
      (∀ o', o' ∉ offsA (OTree.internal o r par ts ks) → o' < pager.pages.length →
        pager'.pages[o']? = pager.pages[o']?) := by
  have hile : countLtK ks kv.key ≤ ks.length := countLtK_le ks kv.key
  have hole : o < pager.pages.length := hbound o (by simp [offsA])
  have honot : o ∉ offsL ts ∧ (offsL ts).Nodup := by
    have := hnd
    rw [offsA, List.nodup_cons] at this
    exact this
  have hts_decomp : ts.take (countLtK ks kv.key) ++
      ts[countLtK ks kv.key] :: ts.drop (countLtK ks kv.key + 1) = ts :=
    list_take_cons_drop ts _ hidxlt
  have hoffs_decomp : offsL ts = offsL (ts.take (countLtK ks kv.key)) ++
      (offsA ts[countLtK ks kv.key] ++ offsL (ts.drop (countLtK ks kv.key + 1))) := by
    conv_lhs => rw [← hts_decomp]
    rw [offsL_append, offsL]
  have hpairs_decomp : pairsL ts = pairsL (ts.take (countLtK ks kv.key)) ++
      (pairsA ts[countLtK ks kv.key] ++ pairsL (ts.drop (countLtK ks kv.key + 1))) := by
    conv_lhs => rw [← hts_decomp]
    rw [pairsL_append, pairsL]
  -- frame agreement for the untouched children
  have hagreeTD : ∀ o' ∈ offsL ts, o' ∉ offsA ts[countLtK ks kv.key] →
      pager'.pages[o']? = pager.pages[o']? := by
    intro o' ho' hno'
    have hlt : o' < pager.pages.length := by
      refine hbound o' ?_
      rw [offsA]
      exact List.mem_cons_of_mem _ ho'
    have hne1 : o' ≠ pager.pages.length := Nat.ne_of_lt hlt
    have hne2 : o' ≠ o := by
      intro hcon
      subst hcon
      exact honot.1 ho'
    exact hframe' o' hno' hne1 hne2 hlt
  set i := countLtK ks kv.key with hidef
  set L := pager.pages.length with hLdef
  -- the median is strictly between its neighbouring separators
  obtain ⟨xL, hxL1, hxL2⟩ := wf_range_key hb hwfCL
  obtain ⟨xR, hxR1, hxR2⟩ := wf_range_key hb hwfCR
  have hmedlt : ∀ j (hj : j < ks.length), j < i → keyLtB ks[j] med = true := by
    intro j hj hji
    have hi1 : i - 1 < ks.length := by omega
    have hclo : childLo lo ks i = some ks[i - 1] := by
      rw [childLo, if_neg (by omega), List.getElem?_eq_getElem hi1]
    rw [hclo] at hxL1
    have hlast : keyLtB ks[i - 1] med = true :=
      keyLt_of_lt_of_le (by simpa [loLtB] using hxL1) (by simpa [leHiB] using hxL2)
    rcases Nat.lt_or_ge j (i - 1) with hlt | hge
    · exact keyLt_trans (sortedB_getElem_lt hks hlt hi1) hlast
    · have hj1 : j = i - 1 := by omega
      subst hj1
      exact hlast
  have hmedgt : ∀ j (hj : j < ks.length), i ≤ j → keyLtB med ks[j] = true := by
    intro j hj hij
    have hiklt : i < ks.length := by omega
    have hchi : childHi hi ks i = some ks[i] := by
      rw [childHi, if_neg (by omega), List.getElem?_eq_getElem hiklt]
    rw [hchi] at hxR2
    have hfirst : keyLtB med ks[i] = true :=
      keyLt_of_lt_of_le (by simpa [loLtB] using hxR1) (by simpa [leHiB] using hxR2)
    rcases Nat.lt_or_ge i j with hlt | hge
    · exact keyLt_trans hfirst (sortedB_getElem_lt hks hlt hj)
    · have hj1 : j = i := by omega
      subst hj1
      exact hfirst
  have hks'sorted : sortedB (ks.insertIdx i med) = true :=
    sortedB_insertIdx hks hile hmedlt hmedgt
  have hmedin : inRangeB lo hi med = true := by
    refine inRangeB_mk ?_ ?_
    · by_cases h0 : i = 0
      · rw [childLo, if_pos h0] at hxL1
        exact loLt_of_le hxL1 (by simpa [leHiB] using hxL2)
      · have hi1 : i - 1 < ks.length := by omega
        have hk1 := (inRangeB_mp (hkin ks[i - 1] (List.getElem_mem hi1))).1
        exact loLt_of_lt hk1 (hmedlt (i - 1) hi1 (by omega))
    · by_cases hlen : i = ks.length
      · rw [childHi, if_pos hlen] at hxR2
        exact leHi_of_lt (by simpa [loLtB] using hxR1) hxR2
      · have hiklt : i < ks.length := by omega
        have hk1 := (inRangeB_mp (hkin ks[i] (List.getElem_mem hiklt))).2
        exact leHi_of_lt (hmedgt i hiklt (by omega)) hk1
  have hkin' : ∀ k ∈ ks.insertIdx i med, inRangeB lo hi k = true := by
    intro k hk
    rw [insertIdx_take_drop _ _ _ hile] at hk
    rcases List.mem_append.mp hk with hk | hk
    · exact hkin k (List.mem_of_mem_take hk)
    · rcases List.mem_cons.mp hk with rfl | hk
      · exact hmedin
      · exact hkin k (List.mem_of_mem_drop hk)
  -- nodup decomposition of the child forest footprint
  have hndTXD := honot.2
  rw [hoffs_decomp, List.nodup_append] at hndTXD
  obtain ⟨hTnd, hXDnd, hTdisj⟩ := hndTXD
  rw [List.nodup_append] at hXDnd
  obtain ⟨hXnd, hDnd, hXDdisj⟩ := hXDnd
  -- decoding the reassembled children
  have hAdec : decodeL dg pager' ((ts.take i).map offOf) = some (ts.take i) := by
    have h1 := decodeL_take i hdl
    rw [← List.map_take] at h1
    refine decodeL_frame h1 ?_
    intro o' ho'
    refine hagreeTD o' ?_ ?_
    · rw [← offsL_take_drop ts i]
      exact List.mem_append_left _ ho'
    · intro hcon
      exact hTdisj ho' (List.mem_append_left _ hcon)
  have hDdec : decodeL dg pager' ((ts.drop (i + 1)).map offOf)
      = some (ts.drop (i + 1)) := by
    have h1 := decodeL_drop (i + 1) hdl
    rw [← List.map_drop] at h1
    refine decodeL_frame h1 ?_
    intro o' ho'
    refine hagreeTD o' ?_ ?_
    · rw [← offsL_take_drop ts (i + 1)]
      exact List.mem_append_right _ ho'
    · intro hcon
      exact hXDdisj hcon ho'
  have hcs' : (ts.map offOf).insertIdx (i + 1) L
      = (ts.take i).map offOf ++ offOf ts[i] :: L :: (ts.drop (i + 1)).map offOf := by
    have hidxm : i < (ts.map offOf).length := by
      rw [List.length_map]
      exact hidxlt
    have h1 := set_insert_decomp (ts.map offOf) i (ts.map offOf)[i] L hidxm
    rw [set_getElem_self_list] at h1
    rw [h1, List.getElem_map, List.map_take, List.map_drop]
  have hfulldec : decodeL dg pager' ((ts.map offOf).insertIdx (i + 1) L)
      = some (ts.take i ++ CL :: CR :: ts.drop (i + 1)) := by
    rw [hcs']
    refine decodeL_append hAdec ?_
    refine decodeL_cons_some.mpr ⟨CL, _, hdecCL, ?_, rfl⟩
    exact decodeL_cons_some.mpr ⟨CR, _, hdecCR, hDdec, rfl⟩
  have hdect' : decodeT (dg + 1) pager' o = some (.internal o r par
      (ts.take i ++ CL :: CR :: ts.drop (i + 1)) (ks.insertIdx i med)) := by
    rw [decodeT_succ, hpago]
    simp only [hfulldec]
  -- heights
  have hallH : ∀ c ∈ ts.take i ++ CL :: CR :: ts.drop (i + 1),
      heightA c = heightMaxL ts := by
    intro c hc
    rcases List.mem_append.mp hc with hc | hc
    · exact uniform_heights_eq huni (List.mem_of_mem_take hc)
    · rcases List.mem_cons.mp hc with rfl | hc
      · rw [hhCL]
        exact uniform_heights_eq huni (List.getElem_mem hidxlt)
      · rcases List.mem_cons.mp hc with rfl | hc
        · rw [hhCR]
          exact uniform_heights_eq huni (List.getElem_mem hidxlt)
        · exact uniform_heights_eq huni (List.mem_of_mem_drop hc)
  have hNTne : ts.take i ++ CL :: CR :: ts.drop (i + 1) ≠ [] :=
    List.ne_nil_of_mem (List.mem_append_right _ (List.mem_cons_self _ _))
  have hHeq : heightMaxL (ts.take i ++ CL :: CR :: ts.drop (i + 1)) = heightMaxL ts :=
    heightMaxL_of_all hallH hNTne
  -- lengths
  have hks'len : (ks.insertIdx i med).length = ks.length + 1 :=
    List.length_insertIdx i ks hile
  have hNTlen : (ts.take i ++ CL :: CR :: ts.drop (i + 1)).length = ts.length + 1 := by
    rw [List.length_append, List.length_take, List.length_cons, List.length_cons,
      List.length_drop]
    omega
  have hnewts : (ts.set i CL).insertIdx (i + 1) CR
      = ts.take i ++ CL :: CR :: ts.drop (i + 1) :=
    set_insert_decomp ts i CL CR hidxlt
  -- the pair partition
  have hparts := pairsL_parts hch hks hkin kv.key hin
  have hpairs' : pairsL (ts.take i ++ CL :: CR :: ts.drop (i + 1))
      = lowerPart (pairsL ts) kv.key ++ kv :: upperPart (pairsL ts) kv.key := by
    have hTlow : List.filter (fun p => keyLtB p.key kv.key) (pairsL (ts.take i))
        = pairsL (ts.take i) :=
      List.filter_eq_self.mpr (fun p hp => hparts.1 p hp)
    have hTup : List.filter (fun p => keyLtB kv.key p.key) (pairsL (ts.take i))
        = [] := by
      rw [List.filter_eq_nil_iff]
      intro p hp
      rw [Bool.not_eq_true]
      exact keyLt_asymm (hparts.1 p hp)
    have hDlow : List.filter (fun p => keyLtB p.key kv.key)
        (pairsL (ts.drop (i + 1))) = [] := by
      rw [List.filter_eq_nil_iff]
      intro p hp
      rw [Bool.not_eq_true]
      exact keyLt_asymm (hparts.2 p hp)
    have hDup : List.filter (fun p => keyLtB kv.key p.key)
        (pairsL (ts.drop (i + 1))) = pairsL (ts.drop (i + 1)) :=
      List.filter_eq_self.mpr (fun p hp => hparts.2 p hp)
    have hlow : lowerPart (pairsL ts) kv.key
        = pairsL (ts.take i) ++ lowerPart (pairsA ts[i]) kv.key := by
      rw [hpairs_decomp]
      simp only [lowerPart, List.filter_append]
      rw [hTlow, hDlow, List.append_nil]
    have hup : upperPart (pairsL ts) kv.key
        = upperPart (pairsA ts[i]) kv.key ++ pairsL (ts.drop (i + 1)) := by
      rw [hpairs_decomp]
      simp only [upperPart, List.filter_append]
      rw [hTup, hDup, List.nil_append]
    rw [pairsL_append, hlow, hup]
    simp only [pairsL, List.append_assoc]
    congr 1
    rw [← List.append_assoc, hpairsCLR]
    simp [List.append_assoc]
  -- footprint of the new forest
  have hoffsNT : offsL (ts.take i ++ CL :: CR :: ts.drop (i + 1))
      = offsL (ts.take i) ++ ((offsA CL ++ offsA CR) ++ offsL (ts.drop (i + 1))) := by
    rw [offsL_append, offsL, offsL]
    simp [List.append_assoc]
  have hTboundD : ∀ o', o' ∈ offsL (ts.take i) ∨ o' ∈ offsL (ts.drop (i + 1)) →
      o' < pager.pages.length := by
    intro o' ho'
    refine hbound o' ?_
    rw [offsA]
    right
    rcases ho' with ho' | ho'
    · rw [← offsL_take_drop ts i]
      exact List.mem_append_left _ ho'
    · rw [← offsL_take_drop ts (i + 1)]
      exact List.mem_append_right _ ho'
  have hndNT : (offsL (ts.take i ++ CL :: CR :: ts.drop (i + 1))).Nodup := by
    rw [hoffsNT]
    refine nodup_splice ?_ hndCLR hmemCLR ?_
    · rw [← hoffs_decomp]
      exact honot.2
    · exact hTboundD
  refine ⟨.internal o r par (ts.take i ++ CL :: CR :: ts.drop (i + 1))
    (ks.insertIdx i med), hdect', ?_, hpairs', ?_, rfl, rfl, rfl, ?_, ?_, ?_, ?_⟩
  · rw [wfB_internal_iff]
    refine ⟨hrt, ?_, ?_, ?_, hks'sorted, hkin', uniformHeights_of_all hallH, ?_⟩
    · rw [hNTlen, hks'len, hclen]
    · rw [hks'len]
      by_cases hrtv : rt = true
      · rw [if_pos hrtv] at hklow ⊢
        omega
      · rw [if_neg hrtv] at hklow ⊢
        omega
    · rw [hks'len]
      omega
    · rw [← hnewts]
      exact wfChildrenB_splitIns hch hidxlt hwfCL hwfCR
  · simp only [heightA]
    rw [hHeq]
  · rw [offsA, List.nodup_cons]
    refine ⟨?_, hndNT⟩
    intro hcon
    rw [hoffsNT] at hcon
    rcases List.mem_append.mp hcon with h | h
    · refine honot.1 ?_
      rw [← offsL_take_drop ts i]
      exact List.mem_append_left _ h
    · rcases List.mem_append.mp h with h | h
      · rcases hmemCLR o h with h2 | h2
        · refine honot.1 ?_
          rw [hoffs_decomp]
          exact List.mem_append_right _ (List.mem_append_left _ h2)
        · exact absurd hole (Nat.not_lt.mpr h2)
      · refine honot.1 ?_
        rw [← offsL_take_drop ts (i + 1)]
        exact List.mem_append_right _ h
  · intro o' ho'
    rw [offsA] at ho' ⊢
    rcases List.mem_cons.mp ho' with rfl | ho'
    · left
      exact List.mem_cons_self _ _
    rw [hoffsNT] at ho'
    rcases List.mem_append.mp ho' with h | h
    · left
      refine List.mem_cons_of_mem _ ?_
      rw [← offsL_take_drop ts i]
      exact List.mem_append_left _ h
    rcases List.mem_append.mp h with h | h
    · rcases hmemCLR o' h with h2 | h2
      · left
        refine List.mem_cons_of_mem _ ?_
        rw [hoffs_decomp]
        exact List.mem_append_right _ (List.mem_append_left _ h2)
      · right
        exact h2
    · left
      refine List.mem_cons_of_mem _ ?_
      rw [← offsL_take_drop ts (i + 1)]
      exact List.mem_append_right _ h
  · intro o' ho'
    rw [offsA] at ho'
    rcases List.mem_cons.mp ho' with rfl | ho'
    · exact Nat.lt_of_lt_of_le hole (by omega)
    rw [hoffsNT] at ho'
    rcases List.mem_append.mp ho' with h | h
    · exact Nat.lt_of_lt_of_le (hTboundD o' (Or.inl h)) (by omega)
    rcases List.mem_append.mp h with h | h
    · exact hboundCLR o' h
    · exact Nat.lt_of_lt_of_le (hTboundD o' (Or.inr h)) (by omega)
  · intro o' hno' hlt
    rw [offsA] at hno'
    have hne2 : o' ≠ o := fun hcon => hno' (hcon ▸ List.mem_cons_self _ _)
    have hnmem : o' ∉ offsL ts := fun hcon => hno' (List.mem_cons_of_mem _ hcon)
    refine hframe' o' ?_ (Nat.ne_of_lt hlt) hne2 hlt
    intro hcon
    refine hnmem ?_
    rw [hoffs_decomp]
    exact List.mem_append_right _ (List.mem_append_left _ hcon)

set_option maxHeartbeats 1000000 in
theorem insert_non_full_spec :
    ∀ (fuel : Nat) {b : Nat} {pager : Pager} {t : OTree} {rt : Bool}
      {lo hi : Option Key} {kv : KeyValuePair} {df : Nat},
      2 ≤ b →
      heightA t ≤ fuel →
      decodeT df pager (offOf t) = some t →
      wfB b rt lo hi t = true →
      sizeEntries t < 2 * b - 1 →
      inRangeB lo hi kv.key = true →
      (∀ p ∈ pairsA t, p.key ≠ kv.key) →
      (offsA t).Nodup →
      (∀ o ∈ offsA t, o < pager.pages.length) →
      ∃ pager' t',
        insert_non_full b fuel pager (headNode t) (offOf t) kv = .ok pager' ∧
        decodeT df pager' (offOf t) = some t' ∧
        wfB b rt lo hi t' = true ∧
        pairsA t' = lowerPart (pairsA t) kv.key ++ kv :: upperPart (pairsA t) kv.key ∧
        heightA t' = heightA t ∧
        offOf t' = offOf t ∧ isRootOf t' = isRootOf t ∧ parentOf t' = parentOf t ∧
        (offsA t').Nodup ∧
        (∀ o ∈ offsA t', o ∈ offsA t ∨ pager.pages.length ≤ o) ∧
        (∀ o ∈ offsA t', o < pager'.pages.length) ∧
        pager.pages.length ≤ pager'.pages.length ∧
        (∀ o, o ∉ offsA t → o < pager.pages.length →
          pager'.pages[o]? = pager.pages[o]?) ∧
        (∀ po isR par ts ks c, t = .internal po isR par ts ks →
          ts[countLtK ks kv.key]? = some c → sizeEntries c < 2 * b - 1 →
          pager'.pages[po]? = pager.pages[po]?) := by
  intro fuel
  induction fuel with
  | zero =>
    intro b pager t rt lo hi kv df hb hfuel hdec hwf hnf hin hfresh hnd hbound
    have := heightA_pos t
    omega
  | succ f ih =>
    intro b pager t rt lo hi kv df hb hfuel hdec hwf hnf hin hfresh hnd hbound
    obtain ⟨dg, rfl⟩ : ∃ dg, df = dg + 1 := by
      have := decodeT_pos hdec
      exact ⟨df - 1, by omega⟩
    cases t with
    | leaf o r par ps =>
      rcases wfB_leaf_iff.mp hwf with ⟨hrt, hlow, hhigh, hsort, hall⟩
      have hole : o < pager.pages.length := by
        refine hbound o ?_
        simp [offsA]
      have hidx : unwrapIdx (binSearchPairs ps kv.key) = countLtP ps kv.key :=
        binSearchPairs_idx kv.key hsort
      have hfr : ∀ p ∈ ps, p.key ≠ kv.key := by
        intro p hp
        exact hfresh p (by simpa [pairsA] using hp)
      have hpart := insertIdx_eq_partition hsort hfr
      refine ⟨pager.write_page_at_offset
          ⟨.Leaf (ps.insertIdx (countLtP ps kv.key) kv), r, par⟩ o,
        .leaf o r par (lowerPart ps kv.key ++ kv :: upperPart ps kv.key),
        ?_, ?_, ?_, ?_, ?_, ?_, ?_, ?_, ?_, ?_, ?_, ?_, ?_, ?_⟩
      · simp only [headNode, offOf, insert_non_full, hidx, hpart]
      · rw [offOf, decodeT_succ, write_at_get_self hole, hpart]
      · rw [wfB_leaf_iff]
        have hlen : (lowerPart ps kv.key ++ kv :: upperPart ps kv.key).length
            = ps.length + 1 := by
          rw [List.Perm.length_eq (partition_perm hfr)]
          simp
        have hps := partition_sorted hsort hin hall
        rcases hps with ⟨hps1, hps2⟩
        refine ⟨hrt, ?_, ?_, hps1, hps2⟩
        · rcases hlow with h | h
          · exact Or.inl h
          · right
            rw [hlen]
            omega
        · rw [hlen]
          simp only [pairsA, sizeEntries] at hnf ⊢
          omega
      · simp [pairsA]
      · simp [heightA]
      · rfl
      · rfl
      · rfl
      · simp [offsA]
      · intro o' ho'
        left
        simpa [offsA] using ho'
      · intro o' ho'
        rw [write_at_length]
        simp only [offsA, List.mem_singleton] at ho'
        subst ho'
        exact hole
      · rw [write_at_length]
      · intro o' ho' _
        refine write_at_get_ne ?_
        simpa [offsA] using ho'
      · intro po isR par' ts' ks' c heq
        exact absurd heq (by simp)
    | internal o r par ts ks =>
      rcases wfB_internal_iff.mp hwf with
        ⟨hrt, hclen, hklow, hkhigh, hks, hkin, huni, hch⟩
      have hole : o < pager.pages.length := hbound o (by simp [offsA])
      obtain ⟨honot, hndts⟩ : o ∉ offsL ts ∧ (offsL ts).Nodup := by
        have h := hnd
        rw [offsA, List.nodup_cons] at h
        exact h
      simp only [offOf] at hdec
      have hpg : pager.pages[o]? = some (headNode (.internal o r par ts ks)) :=
        decodeT_headNode hdec
      have hdl : decodeL dg pager (ts.map offOf) = some ts := by
        rcases decodeT_some.mp hdec with ⟨n, hn, hcase⟩
        rcases hcase with ⟨ps, hty, hteq⟩ | ⟨cs0, ks0, ts0, hty, hdl0, hteq⟩
        · cases hteq
        · injection hteq with h1 h2 h3 h4 h5
          subst h4
          subst h5
          have hcs0 : ts.map offOf = cs0 := decodeL_map_offOf hdl0
          rw [← hcs0] at hdl0
          exact hdl0
      have hidxks : unwrapIdx (binSearchKeys ks kv.key) = countLtK ks kv.key :=
        binSearchKeys_idx kv.key hks
      have hidxlt : countLtK ks kv.key < ts.length := by
        have := countLtK_le ks kv.key
        omega
      have hgetc : (ts.map offOf)[countLtK ks kv.key]?
          = some (offOf ts[countLtK ks kv.key]) := by
        rw [List.getElem?_eq_getElem (by rw [List.length_map]; exact hidxlt)]
        rw [List.getElem_map]
      have hcdec : decodeT dg pager (offOf ts[countLtK ks kv.key])
          = some ts[countLtK ks kv.key] :=
        decodeL_mem hdl _ (List.getElem_mem hidxlt)
      have hcpg : pager.pages[offOf ts[countLtK ks kv.key]]?
          = some (headNode ts[countLtK ks kv.key]) :=
        decodeT_headNode hcdec
      have hcwf := wfChildrenB_get hch (countLtK ks kv.key) hidxlt
      have hcheight : heightA ts[countLtK ks kv.key] = heightMaxL ts :=
        uniform_heights_eq huni (List.getElem_mem hidxlt)
      have hfuelc : heightA ts[countLtK ks kv.key] ≤ f := by
        simp only [heightA] at hfuel
        omega
      have hinc := childRange_of_count hks hin
      have hfreshc : ∀ p ∈ pairsA ts[countLtK ks kv.key], p.key ≠ kv.key := by
        intro p hp
        exact hfresh p (pairsA_sub_pairsL (List.getElem_mem hidxlt) p hp)
      have hndc : (offsA ts[countLtK ks kv.key]).Nodup :=
        offsL_nodup_child hndts (List.getElem_mem hidxlt)
      have hcsub : ∀ o' ∈ offsA ts[countLtK ks kv.key], o' ∈ offsL ts :=
        offsA_sub_offsL (List.getElem_mem hidxlt)
      have hboundc : ∀ o' ∈ offsA ts[countLtK ks kv.key], o' < pager.pages.length := by
        intro o' ho'
        refine hbound o' ?_
        rw [offsA]
        exact List.mem_cons_of_mem _ (hcsub o' ho')
      have honotc : o ∉ offsA ts[countLtK ks kv.key] := fun hcon =>
        honot (hcsub o hcon)
      have hszc : sizeEntries ts[countLtK ks kv.key] ≤ 2 * b - 1 := wf_size_le hcwf
      by_cases hfull : sizeEntries ts[countLtK ks kv.key] = 2 * b - 1
      case neg =>
        have hnfc : sizeEntries ts[countLtK ks kv.key] < 2 * b - 1 := by omega
        obtain ⟨pager', c', hok, hdecc, hwfc, hpairsc, hheightc, hoffc, hisrc, hparc,
          hndc', hmemc', hboundc', hlenc', hframec', -⟩ :=
          ih hb hfuelc hcdec hcwf hnfc hinc hfreshc hndc hboundc
        have hisfull : is_node_full b (headNode ts[countLtK ks kv.key])
            = .ok (decide (sizeEntries ts[countLtK ks kv.key] = 2 * b - 1)) :=
          is_node_full_headNode b _
        simp only [headNode] at hisfull
        have hstep : insert_non_full b (f + 1) pager
            (headNode (.internal o r par ts ks)) o kv
            = insert_non_full b f pager (headNode ts[countLtK ks kv.key])
                (offOf ts[countLtK ks kv.key]) kv := by
          simp only [headNode, insert_non_full, hidxks, hgetc, get_page_eq hcpg,
            hisfull, decide_eq_false hfull]
        have hframe_o : pager'.pages[o]? = pager.pages[o]? :=
          hframec' o honotc hole
        have hagree : ∀ o' ∈ offsL ts, o' ∉ offsA ts[countLtK ks kv.key] →
            pager'.pages[o']? = pager.pages[o']? := by
          intro o' ho' hno'
          refine hframec' o' hno' ?_
          refine hbound o' ?_
          rw [offsA]
          exact List.mem_cons_of_mem _ ho'
        have hdecL' : decodeL dg pager' (ts.map offOf)
            = some (ts.set (countLtK ks kv.key) c') :=
          decodeL_update hdl hndts hidxlt hagree hdecc
        have hset_decomp : ts.set (countLtK ks kv.key) c'
            = ts.take (countLtK ks kv.key) ++
              c' :: ts.drop (countLtK ks kv.key + 1) :=
          set_eq_take_cons_drop ts _ c' hidxlt
        have hts_decomp : ts.take (countLtK ks kv.key) ++
            ts[countLtK ks kv.key] :: ts.drop (countLtK ks kv.key + 1) = ts :=
          list_take_cons_drop ts _ hidxlt
        have hoffs_decomp : offsL ts = offsL (ts.take (countLtK ks kv.key)) ++
            (offsA ts[countLtK ks kv.key] ++
              offsL (ts.drop (countLtK ks kv.key + 1))) := by
          conv_lhs => rw [← hts_decomp]
          rw [offsL_append, offsL]
        have hpairs_decomp : pairsL ts = pairsL (ts.take (countLtK ks kv.key)) ++
            (pairsA ts[countLtK ks kv.key] ++
              pairsL (ts.drop (countLtK ks kv.key + 1))) := by
          conv_lhs => rw [← hts_decomp]
          rw [pairsL_append, pairsL]
        have hallH : ∀ c ∈ ts.set (countLtK ks kv.key) c',
            heightA c = heightMaxL ts := by
          intro c hc
          rcases List.mem_or_eq_of_mem_set hc with hc | rfl
          · exact uniform_heights_eq huni hc
          · rw [hheightc]
            exact hcheight
        have hsetne : ts.set (countLtK ks kv.key) c' ≠ [] := by
          have hlen0 : 0 < (ts.set (countLtK ks kv.key) c').length := by
            rw [List.length_set]
            omega
          intro hcon
          rw [hcon] at hlen0
          simp at hlen0
        have hparts := pairsL_parts hch hks hkin kv.key hin
        refine ⟨pager', .internal o r par (ts.set (countLtK ks kv.key) c') ks,
          by simp only [offOf]; rw [hstep]; exact hok, ?_, ?_, ?_, ?_, rfl, rfl, rfl,
          ?_, ?_, ?_, hlenc', ?_, ?_⟩
        · simp only [offOf]
          rw [decodeT_succ, hframe_o, hpg]
          simp only [headNode, hdecL']
        · rw [wfB_internal_iff]
          refine ⟨hrt, ?_, hklow, hkhigh, hks, hkin, uniformHeights_of_all hallH, ?_⟩
          · rw [List.length_set]
            exact hclen
          · exact wfChildrenB_set hch hidxlt hwfc
        · have hTlow : List.filter (fun p => keyLtB p.key kv.key)
              (pairsL (ts.take (countLtK ks kv.key)))
              = pairsL (ts.take (countLtK ks kv.key)) :=
            List.filter_eq_self.mpr (fun p hp => hparts.1 p hp)
          have hTup : List.filter (fun p => keyLtB kv.key p.key)
              (pairsL (ts.take (countLtK ks kv.key))) = [] := by
            rw [List.filter_eq_nil_iff]
            intro p hp
            rw [Bool.not_eq_true]
            exact keyLt_asymm (hparts.1 p hp)
          have hDlow : List.filter (fun p => keyLtB p.key kv.key)
              (pairsL (ts.drop (countLtK ks kv.key + 1))) = [] := by
            rw [List.filter_eq_nil_iff]
            intro p hp
            rw [Bool.not_eq_true]
            exact keyLt_asymm (hparts.2 p hp)
          have hDup : List.filter (fun p => keyLtB kv.key p.key)
              (pairsL (ts.drop (countLtK ks kv.key + 1)))
              = pairsL (ts.drop (countLtK ks kv.key + 1)) :=
            List.filter_eq_self.mpr (fun p hp => hparts.2 p hp)
          have hlow : lowerPart (pairsL ts) kv.key
              = pairsL (ts.take (countLtK ks kv.key)) ++
                lowerPart (pairsA ts[countLtK ks kv.key]) kv.key := by
            rw [hpairs_decomp]
            simp only [lowerPart, List.filter_append]
            rw [hTlow, hDlow, List.append_nil]
          have hup : upperPart (pairsL ts) kv.key
              = upperPart (pairsA ts[countLtK ks kv.key]) kv.key ++
                pairsL (ts.drop (countLtK ks kv.key + 1)) := by
            rw [hpairs_decomp]
            simp only [upperPart, List.filter_append]
            rw [hTup, hDup, List.nil_append]
          simp only [pairsA]
          rw [hset_decomp, pairsL_append, hlow, hup]
          simp only [pairsL, List.append_assoc]
          congr 1
          rw [hpairsc]
          simp [List.append_assoc, lowerPart, upperPart]
        · simp only [heightA]
          rw [heightMaxL_of_all hallH hsetne]
        · rw [offsA, List.nodup_cons]
          constructor
          · intro hcon
            rw [hset_decomp] at hcon
            rw [offsL_append, offsL] at hcon
            rcases List.mem_append.mp hcon with h | h
            · refine honot ?_
              rw [← offsL_take_drop ts (countLtK ks kv.key)]
              exact List.mem_append_left _ h
            rcases List.mem_append.mp h with h | h
            · rcases hmemc' o h with h2 | h2
              · exact honotc h2
              · exact absurd hole (Nat.not_lt.mpr h2)
            · refine honot ?_
              rw [← offsL_take_drop ts (countLtK ks kv.key + 1)]
              exact List.mem_append_right _ h
          · rw [hset_decomp, offsL_append, offsL]
            refine nodup_splice ?_ hndc' hmemc' ?_
            · rw [← hoffs_decomp]
              exact hndts
            · intro o' ho'
              refine hbound o' ?_
              rw [offsA]
              right
              rcases ho' with ho' | ho'
              · rw [← offsL_take_drop ts (countLtK ks kv.key)]
                exact List.mem_append_left _ ho'
              · rw [← offsL_take_drop ts (countLtK ks kv.key + 1)]
                exact List.mem_append_right _ ho'
        · intro o' ho'
          rw [offsA] at ho' ⊢
          rcases List.mem_cons.mp ho' with rfl | ho'
          · left
            exact List.mem_cons_self _ _
          rw [hset_decomp, offsL_append, offsL] at ho'
          rcases List.mem_append.mp ho' with h | h
          · left
            refine List.mem_cons_of_mem _ ?_
            rw [← offsL_take_drop ts (countLtK ks kv.key)]
            exact List.mem_append_left _ h
          rcases List.mem_append.mp h with h | h
          · rcases hmemc' o' h with h2 | h2
            · left
              exact List.mem_cons_of_mem _ (hcsub o' h2)
            · right
              exact h2
          · left
            refine List.mem_cons_of_mem _ ?_
            rw [← offsL_take_drop ts (countLtK ks kv.key + 1)]
            exact List.mem_append_right _ h
        · intro o' ho'
          rw [offsA] at ho'
          rcases List.mem_cons.mp ho' with rfl | ho'
          · exact Nat.lt_of_lt_of_le hole hlenc'
          rw [hset_decomp, offsL_append, offsL] at ho'
          rcases List.mem_append.mp ho' with h | h
          · refine Nat.lt_of_lt_of_le ?_ hlenc'
            refine hbound o' ?_
            rw [offsA]
            right
            rw [← offsL_take_drop ts (countLtK ks kv.key)]
            exact List.mem_append_left _ h
          rcases List.mem_append.mp h with h | h
          · exact hboundc' o' h
          · refine Nat.lt_of_lt_of_le ?_ hlenc'
            refine hbound o' ?_
            rw [offsA]
            right
            rw [← offsL_take_drop ts (countLtK ks kv.key + 1)]
            exact List.mem_append_right _ h
        · intro o' hno' hlt
          rw [offsA] at hno'
          refine hframec' o' ?_ hlt
          intro hcon
          exact hno' (List.mem_cons_of_mem _ (hcsub o' hcon))
        · intro po isR par2 ts2 ks2 c0 heq hc0 hsz
          injection heq with h1 h2 h3 h4 h5
          subst h1
          exact hframe_o
      case pos =>
        obtain ⟨dh, rfl⟩ : ∃ dh, dg = dh + 1 := by
          have := decodeT_pos hcdec
          exact ⟨dg - 1, by omega⟩
        have hoffmem : ∀ (u : OTree), offOf u ∈ offsA u := by
          intro u
          cases u <;> simp [offOf, offsA]
        obtain ⟨med, clT, crT, hsplit, hoffl, hoffr, hwfl, hwfr, hszl, hszr, hhl, hhr,
            hpairslr, hmemlr, hndlr, hdecl3, hdecr3⟩ :
            ∃ (med : Key) (clT crT : OTree),
              Node.split (headNode ts[countLtK ks kv.key]) b
                = .ok (med, headNode clT, headNode crT) ∧
              offOf clT = offOf ts[countLtK ks kv.key] ∧
              offOf crT = pager.pages.length ∧
              wfB b false (childLo lo ks (countLtK ks kv.key)) (some med) clT = true ∧
              wfB b false (some med) (childHi hi ks (countLtK ks kv.key)) crT = true ∧
              sizeEntries clT < 2 * b - 1 ∧ sizeEntries crT < 2 * b - 1 ∧
              heightA clT = heightA ts[countLtK ks kv.key] ∧
              heightA crT = heightA ts[countLtK ks kv.key] ∧
              pairsA clT ++ pairsA crT = pairsA ts[countLtK ks kv.key] ∧
              (∀ o' ∈ offsA clT ++ offsA crT,
                o' ∈ offsA ts[countLtK ks kv.key] ∨ o' = pager.pages.length) ∧
              (offsA clT ++ offsA crT).Nodup ∧
              decodeT (dh + 1)
                (((pager.write_page_at_offset (headNode clT)
                    (offOf ts[countLtK ks kv.key])).write_page
                    (headNode crT)).2.write_page_at_offset
                  ⟨.Internal ((ts.map offOf).insertIdx (countLtK ks kv.key + 1)
                      pager.pages.length)
                    (ks.insertIdx (countLtK ks kv.key) med), r, par⟩ o)
                (offOf ts[countLtK ks kv.key]) = some clT ∧
              decodeT (dh + 1)
                (((pager.write_page_at_offset (headNode clT)
                    (offOf ts[countLtK ks kv.key])).write_page
                    (headNode crT)).2.write_page_at_offset
                  ⟨.Internal ((ts.map offOf).insertIdx (countLtK ks kv.key + 1)
                      pager.pages.length)
                    (ks.insertIdx (countLtK ks kv.key) med), r, par⟩ o)
                pager.pages.length = some crT := by
          have hoffAmem : ∀ (u : OTree), offOf u ∈ offsA u := by
            intro u
            cases u <;> simp [offOf, offsA]
          cases hti : ts[countLtK ks kv.key] with
          | leaf co cr cpar cps =>
            rw [hti] at hcwf hcdec hfull hboundc honotc
            simp only [offOf] at hcdec
            rcases wfB_leaf_iff.mp hcwf with ⟨hcr, hlb, hub, hsortc, hallc⟩
            subst hcr
            simp only [sizeEntries] at hfull
            have hmedidx : b - 1 < cps.length := by omega
            have hmedget : cps[b - 1]? = some cps[b - 1] :=
              List.getElem?_eq_getElem hmedidx
            have hco_lt : co < pager.pages.length := hboundc co (by simp [offsA])
            have hconeo2 : co ≠ o := by
              intro hcon
              refine honotc ?_
              rw [← hcon]
              simp [offsA]
            obtain ⟨hwfl, hwfr, hlomed, hmedhi⟩ :=
              split_leaf_parts co pager.pages.length cpar cpar hb hfull hsortc
                (fun p hp => hallc p hp) hmedget
            refine ⟨cps[b - 1].key, .leaf co false cpar (cps.take b),
              .leaf pager.pages.length false cpar (cps.drop b),
              ?_, rfl, rfl, hwfl, hwfr, ?_, ?_, rfl, rfl, ?_, ?_, ?_, ?_, ?_⟩
            · simp only [headNode, Node.split, hmedget]
            · simp only [sizeEntries, List.length_take]
              omega
            · simp only [sizeEntries, List.length_drop]
              omega
            · simp only [pairsA]
              exact List.take_append_drop b cps
            · intro o' ho'
              simp only [offsA, List.cons_append, List.nil_append,
                List.mem_cons, List.mem_singleton] at ho'
              rcases ho' with rfl | ho'
              · left
                simp [offsA]
              rcases ho' with rfl | ho'
              · right
                rfl
              · simp at ho'
            · simp only [offsA, List.cons_append, List.nil_append]
              rw [List.nodup_cons]
              refine ⟨?_, List.nodup_singleton _⟩
              rw [List.mem_singleton]
              exact Nat.ne_of_lt hco_lt
            · simp only [offOf]
              have hpw : (((pager.write_page_at_offset
                  (headNode (OTree.leaf co false cpar (cps.take b))) co).write_page
                  (headNode (OTree.leaf pager.pages.length false cpar
                    (cps.drop b)))).2.write_page_at_offset
                  ⟨.Internal ((ts.map offOf).insertIdx (countLtK ks kv.key + 1)
                      pager.pages.length)
                    (ks.insertIdx (countLtK ks kv.key) cps[b - 1].key), r, par⟩
                  o).pages[co]? = some (headNode (OTree.leaf co false cpar
                    (cps.take b))) := by
                rw [write_at_get_ne hconeo2,
                  write_page_get_lt (by rw [write_at_length]; exact hco_lt),
                  write_at_get_self hco_lt]
              rw [decodeT_succ, hpw]
              simp only [headNode]
            · simp only [offOf]
              have hpw : (((pager.write_page_at_offset
                  (headNode (OTree.leaf co false cpar (cps.take b))) co).write_page
                  (headNode (OTree.leaf pager.pages.length false cpar
                    (cps.drop b)))).2.write_page_at_offset
                  ⟨.Internal ((ts.map offOf).insertIdx (countLtK ks kv.key + 1)
                      pager.pages.length)
                    (ks.insertIdx (countLtK ks kv.key) cps[b - 1].key), r, par⟩
                  o).pages[pager.pages.length]?
                  = some (headNode (OTree.leaf pager.pages.length false cpar
                    (cps.drop b))) := by
                rw [write_at_get_ne (Ne.symm (Nat.ne_of_lt hole))]
                have hlen1 : (pager.write_page_at_offset
                    (headNode (OTree.leaf co false cpar (cps.take b)))
                    co).pages.length = pager.pages.length :=
                  write_at_length _ _ _
                rw [← hlen1]
                exact write_page_get_new _ _
              rw [decodeT_succ, hpw]
              simp only [headNode]
          | internal co cr cpar ccs cks =>
            rw [hti] at hcwf hcdec hfull hboundc honotc hndc
            simp only [offOf] at hcdec
            rcases wfB_internal_iff.mp hcwf with
              ⟨hcr, hclen2, hklow2, hkhigh2, hks2, hkin2, huni2, hch2⟩
            subst hcr
            simp only [sizeEntries] at hfull
            have hcslen : ccs.length = 2 * b := by omega
            have hmedidx : b - 1 < cks.length := by omega
            have hmedget : cks[b - 1]? = some cks[b - 1] :=
              List.getElem?_eq_getElem hmedidx
            have hco_lt : co < pager.pages.length := hboundc co (by simp [offsA])
            have hconeo2 : co ≠ o := by
              intro hcon
              refine honotc ?_
              rw [← hcon]
              simp [offsA]
            have hndccs : co ∉ offsL ccs ∧ (offsL ccs).Nodup := by
              rw [offsA, List.nodup_cons] at hndc
              exact hndc
            have hdlc : decodeL dh pager (ccs.map offOf) = some ccs := by
              rcases decodeT_some.mp hcdec with ⟨n, hn, hcase⟩
              rcases hcase with ⟨ps, hty, hteq⟩ | ⟨cs0, ks0, ts0, hty, hdl0, hteq⟩
              · cases hteq
              · injection hteq with e1 e2 e3 e4 e5
                subst e4
                subst e5
                have hcs0 : ccs.map offOf = cs0 := decodeL_map_offOf hdl0
                rw [← hcs0] at hdl0
                exact hdl0
            obtain ⟨hwfl, hwfr, hlomed, hmedhi⟩ :=
              split_internal_parts co pager.pages.length cpar cpar hb hfull hcwf
                hmedget
            have hframe3 : ∀ o', o' ≠ co → o' ≠ pager.pages.length → o' ≠ o →
                o' < pager.pages.length →
                (((pager.write_page_at_offset
                  (headNode (OTree.internal co false cpar (ccs.take b)
                    (cks.take (b - 1)))) co).write_page
                  (headNode (OTree.internal pager.pages.length false cpar
                    (ccs.drop b) (cks.drop b)))).2.write_page_at_offset
                  ⟨.Internal ((ts.map offOf).insertIdx (countLtK ks kv.key + 1)
                      pager.pages.length)
                    (ks.insertIdx (countLtK ks kv.key) cks[b - 1]), r, par⟩
                  o).pages[o']? = pager.pages[o']? := by
              intro o' h1 h2 h3 h4
              rw [write_at_get_ne h3,
                write_page_get_lt (by rw [write_at_length]; exact h4),
                write_at_get_ne h1]
            have hdlc3 : decodeL dh
                (((pager.write_page_at_offset
                  (headNode (OTree.internal co false cpar (ccs.take b)
                    (cks.take (b - 1)))) co).write_page
                  (headNode (OTree.internal pager.pages.length false cpar
                    (ccs.drop b) (cks.drop b)))).2.write_page_at_offset
                  ⟨.Internal ((ts.map offOf).insertIdx (countLtK ks kv.key + 1)
                      pager.pages.length)
                    (ks.insertIdx (countLtK ks kv.key) cks[b - 1]), r, par⟩
                  o) (ccs.map offOf) = some ccs := by
              refine decodeL_frame hdlc ?_
              intro o' ho'
              have ho'lt : o' < pager.pages.length := by
                refine hboundc o' ?_
                rw [offsA]
                exact List.mem_cons_of_mem _ ho'
              refine hframe3 o' ?_ (Nat.ne_of_lt ho'lt) ?_ ho'lt
              · intro hcon
                rw [hcon] at ho'
                exact hndccs.1 ho'
              · intro hcon
                rw [hcon] at ho'
                refine honotc ?_
                rw [offsA]
                exact List.mem_cons_of_mem _ ho'
            have hpwco : (((pager.write_page_at_offset
                (headNode (OTree.internal co false cpar (ccs.take b)
                  (cks.take (b - 1)))) co).write_page
                (headNode (OTree.internal pager.pages.length false cpar
                  (ccs.drop b) (cks.drop b)))).2.write_page_at_offset
                ⟨.Internal ((ts.map offOf).insertIdx (countLtK ks kv.key + 1)
                    pager.pages.length)
                  (ks.insertIdx (countLtK ks kv.key) cks[b - 1]), r, par⟩
                o).pages[co]? = some (headNode (OTree.internal co false cpar
                  (ccs.take b) (cks.take (b - 1)))) := by
              rw [write_at_get_ne hconeo2,
                write_page_get_lt (by rw [write_at_length]; exact hco_lt),
                write_at_get_self hco_lt]
            have hpwL : (((pager.write_page_at_offset
                (headNode (OTree.internal co false cpar (ccs.take b)
                  (cks.take (b - 1)))) co).write_page
                (headNode (OTree.internal pager.pages.length false cpar
                  (ccs.drop b) (cks.drop b)))).2.write_page_at_offset
                ⟨.Internal ((ts.map offOf).insertIdx (countLtK ks kv.key + 1)
                    pager.pages.length)
                  (ks.insertIdx (countLtK ks kv.key) cks[b - 1]), r, par⟩
                o).pages[pager.pages.length]?
                = some (headNode (OTree.internal pager.pages.length false cpar
                  (ccs.drop b) (cks.drop b))) := by
              rw [write_at_get_ne (Ne.symm (Nat.ne_of_lt hole))]
              have hlen1 : (pager.write_page_at_offset
                  (headNode (OTree.internal co false cpar (ccs.take b)
                    (cks.take (b - 1)))) co).pages.length = pager.pages.length :=
                write_at_length _ _ _
              rw [← hlen1]
              exact write_page_get_new _ _
            refine ⟨cks[b - 1], .internal co false cpar (ccs.take b)
              (cks.take (b - 1)),
              .internal pager.pages.length false cpar (ccs.drop b) (cks.drop b),
              ?_, rfl, rfl, hwfl, hwfr, ?_, ?_, ?_, ?_, ?_, ?_, ?_, ?_, ?_⟩
            · simp only [headNode, Node.split, hmedget, List.map_take,
                List.map_drop]
            · simp only [sizeEntries, List.length_take]
              omega
            · simp only [sizeEntries, List.length_drop]
              omega
            · simp only [heightA]
              rw [heightMaxL_take huni2 (by omega) (by omega)]
            · simp only [heightA]
              rw [heightMaxL_drop huni2 (by omega)]
            · simp only [pairsA]
              exact pairsL_take_drop ccs b
            · intro o' ho'
              simp only [offsA, List.cons_append, List.mem_cons] at ho'
              rcases ho' with rfl | ho'
              · left
                simp [offsA]
              rcases List.mem_append.mp ho' with h | h
              · left
                rw [offsA]
                refine List.mem_cons_of_mem _ ?_
                rw [← offsL_take_drop ccs b]
                exact List.mem_append_left _ h
              rcases List.mem_cons.mp h with rfl | h
              · right
                rfl
              · left
                rw [offsA]
                refine List.mem_cons_of_mem _ ?_
                rw [← offsL_take_drop ccs b]
                exact List.mem_append_right _ h
            · simp only [offsA, List.cons_append]
              have hTsub : ∀ x ∈ offsL (ccs.take b), x ∈ offsL ccs := by
                intro x hx
                rw [← offsL_take_drop ccs b]
                exact List.mem_append_left _ hx
              have hDsub : ∀ x ∈ offsL (ccs.drop b), x ∈ offsL ccs := by
                intro x hx
                rw [← offsL_take_drop ccs b]
                exact List.mem_append_right _ hx
              have hbnd : ∀ x ∈ offsL ccs, x < pager.pages.length := by
                intro x hx
                refine hboundc x ?_
                rw [offsA]
                exact List.mem_cons_of_mem _ hx
              have hsplitnd : (offsL (ccs.take b) ++ offsL (ccs.drop b)).Nodup := by
                rw [offsL_take_drop]
                exact hndccs.2
              rw [List.nodup_append] at hsplitnd
              rw [List.nodup_cons]
              constructor
              · intro hcon
                rcases List.mem_append.mp hcon with h | h
                · exact hndccs.1 (hTsub co h)
                rcases List.mem_cons.mp h with h | h
                · exact absurd hco_lt (h ▸ Nat.lt_irrefl _)
                · exact hndccs.1 (hDsub co h)
              · rw [List.nodup_append]
                refine ⟨hsplitnd.1, ?_, ?_⟩
                · rw [List.nodup_cons]
                  refine ⟨?_, hsplitnd.2.1⟩
                  intro hcon
                  exact absurd (hbnd _ (hDsub _ hcon)) (Nat.lt_irrefl _)
                · intro x hx hcon
                  rcases List.mem_cons.mp hcon with h | hcon
                  · rw [h] at hx
                    exact absurd (hbnd _ (hTsub _ hx)) (Nat.lt_irrefl _)
                  · exact hsplitnd.2.2 hx hcon
            · have htake := decodeL_take b hdlc3
              rw [← List.map_take] at htake
              simp only [offOf]
              rw [decodeT_succ, hpwco]
              simp only [headNode] at htake ⊢
              rw [htake]
            · have hdrop := decodeL_drop b hdlc3
              rw [← List.map_drop] at hdrop
              simp only [offOf]
              rw [decodeT_succ, hpwL]
              simp only [headNode] at hdrop ⊢
              rw [hdrop]
        set P3 := ((pager.write_page_at_offset (headNode clT)
            (offOf ts[countLtK ks kv.key])).write_page
            (headNode crT)).2.write_page_at_offset
          ⟨.Internal ((ts.map offOf).insertIdx (countLtK ks kv.key + 1)
              pager.pages.length)
            (ks.insertIdx (countLtK ks kv.key) med), r, par⟩ o with hP3
        have hconeo : offOf ts[countLtK ks kv.key] ≠ o := by
          intro hcon
          exact honotc (hcon ▸ hoffmem ts[countLtK ks kv.key])
        have hcoff_lt : offOf ts[countLtK ks kv.key] < pager.pages.length :=
          hboundc _ (hoffmem _)
        have hP3len : P3.pages.length = pager.pages.length + 1 := by
          rw [hP3, write_at_length, write_page_length, write_at_length]
        have hP3_at : ∀ o', o' ≠ offOf ts[countLtK ks kv.key] →
            o' ≠ pager.pages.length → o' ≠ o → o' < pager.pages.length →
            P3.pages[o']? = pager.pages[o']? := by
          intro o' h1 h2 h3 h4
          rw [hP3, write_at_get_ne h3,
            write_page_get_lt (by rw [write_at_length]; exact h4),
            write_at_get_ne h1]
        have hP3_o : P3.pages[o]? = some
            ⟨.Internal ((ts.map offOf).insertIdx (countLtK ks kv.key + 1)
                pager.pages.length)
              (ks.insertIdx (countLtK ks kv.key) med), r, par⟩ := by
          rw [hP3]
          exact write_at_get_self
            (by rw [write_page_length, write_at_length]; exact Nat.lt_succ_of_lt hole)
        have hisfull : is_node_full b (headNode ts[countLtK ks kv.key])
            = .ok (decide (sizeEntries ts[countLtK ks kv.key] = 2 * b - 1)) :=
          is_node_full_headNode b _
        simp only [headNode] at hisfull
        have hsplit' := hsplit
        simp only [headNode] at hsplit'
        have hstep : insert_non_full b (f + 1) pager
            (headNode (.internal o r par ts ks)) o kv
            = (if keyLeB kv.key med = true then
                insert_non_full b f P3 (headNode clT)
                  (offOf ts[countLtK ks kv.key]) kv
              else insert_non_full b f P3 (headNode crT) pager.pages.length kv) := by
          rw [hP3]
          simp only [headNode, insert_non_full, hidxks, hgetc, get_page_eq hcpg,
            hisfull, decide_eq_true hfull, hsplit', write_page_fst, write_at_length]
        have hboundlr : ∀ o' ∈ offsA clT ++ offsA crT, o' < P3.pages.length := by
          intro o' ho'
          rw [hP3len]
          rcases hmemlr o' ho' with h | h
          · exact Nat.lt_succ_of_lt (hboundc o' h)
          · rw [h]
            exact Nat.lt_succ_self _
        have hndl : (offsA clT).Nodup := (List.nodup_append.mp hndlr).1
        have hndr : (offsA crT).Nodup := (List.nodup_append.mp hndlr).2.1
        have hdisjlr := (List.nodup_append.mp hndlr).2.2
        have hfresh_l : ∀ p ∈ pairsA clT, p.key ≠ kv.key := fun p hp =>
          hfreshc p (by rw [← hpairslr]; exact List.mem_append_left _ hp)
        have hfresh_r : ∀ p ∈ pairsA crT, p.key ≠ kv.key := fun p hp =>
          hfreshc p (by rw [← hpairslr]; exact List.mem_append_right _ hp)
        have hlekeys : ∀ p ∈ pairsA clT, keyLeB p.key med = true := by
          intro p hp
          have h1 := (wf_pairs clT b false _ _ hwfl).2 p hp
          have h2 := (inRangeB_mp h1).2
          simpa [leHiB] using h2
        have hgtkeys : ∀ p ∈ pairsA crT, keyLtB med p.key = true := by
          intro p hp
          have h1 := (wf_pairs crT b false _ _ hwfr).2 p hp
          have h2 := (inRangeB_mp h1).1
          simpa [loLtB] using h2
        have hnfk : ks.length < 2 * b - 1 := by
          simp only [sizeEntries] at hnf
          exact hnf
        by_cases hle : keyLeB kv.key med = true
        · obtain ⟨pager', c', hok, hdecc, hwfc, hpairsc, hheightc, hoffc, hisrc, hparc,
            hndc', hmemc', hboundc', hlenc', hframec', -⟩ :=
            ih hb (by rw [hhl]; exact hfuelc) (by rw [hoffl]; exact hdecl3) hwfl hszl
              (inRangeB_mk (inRangeB_mp hinc).1 (by simpa [leHiB] using hle))
              hfresh_l hndl
              (fun o' ho' => hboundlr o' (List.mem_append_left _ ho'))
          rw [hoffl] at hdecc hoffc
          have hCLoff : offOf c' = offOf ts[countLtK ks kv.key] := hoffc
          have hdecCR : decodeT (dh + 1) pager' pager.pages.length = some crT := by
            refine decodeT_frame hdecr3 ?_
            intro o' ho'
            refine hframec' o' ?_ (hboundlr o' (List.mem_append_right _ ho'))
            exact fun hcon => (List.disjoint_left.mp hdisjlr) hcon ho'
          have hlowX : lowerPart (pairsA ts[countLtK ks kv.key]) kv.key
              = lowerPart (pairsA clT) kv.key := by
            rw [← hpairslr]
            simp only [lowerPart, List.filter_append]
            rw [show List.filter (fun p => keyLtB p.key kv.key) (pairsA crT)
                = [] from ?_]
            · rw [List.append_nil]
            · rw [List.filter_eq_nil_iff]
              intro p hp
              rw [Bool.not_eq_true]
              exact keyLt_asymm (keyLt_of_le_of_lt hle (hgtkeys p hp))
          have hupX : upperPart (pairsA ts[countLtK ks kv.key]) kv.key
              = upperPart (pairsA clT) kv.key ++ pairsA crT := by
            rw [← hpairslr]
            simp only [upperPart, List.filter_append]
            rw [List.filter_eq_self.mpr
              (fun p hp => keyLt_of_le_of_lt hle (hgtkeys p hp))]
          have hpairsCLR : pairsA c' ++ pairsA crT
              = lowerPart (pairsA ts[countLtK ks kv.key]) kv.key ++ kv ::
                upperPart (pairsA ts[countLtK ks kv.key]) kv.key := by
            rw [hpairsc, hlowX, hupX]
            simp [List.append_assoc]
          have hndCLR : (offsA c' ++ offsA crT).Nodup := by
            have h0 : (([] : List Nat) ++ (offsA clT ++ offsA crT)).Nodup := by
              simpa using hndlr
            have h1 := nodup_splice h0 hndc' hmemc' ?_
            · simpa using h1
            · intro o' ho'
              rcases ho' with ho' | ho'
              · simp at ho'
              · exact hboundlr o' (List.mem_append_right _ ho')
          have hmemCLR : ∀ o' ∈ offsA c' ++ offsA crT,
              o' ∈ offsA ts[countLtK ks kv.key] ∨ pager.pages.length ≤ o' := by
            intro o' ho'
            rcases List.mem_append.mp ho' with h | h
            · rcases hmemc' o' h with h2 | h2
              · rcases hmemlr o' (List.mem_append_left _ h2) with h3 | h3
                · exact Or.inl h3
                · exact Or.inr (Nat.le_of_eq h3.symm)
              · right
                rw [hP3len] at h2
                exact Nat.le_of_succ_le h2
            · rcases hmemlr o' (List.mem_append_right _ h) with h3 | h3
              · exact Or.inl h3
              · exact Or.inr (Nat.le_of_eq h3.symm)
          have hboundCLR : ∀ o' ∈ offsA c' ++ offsA crT,
              o' < pager'.pages.length := by
            intro o' ho'
            rcases List.mem_append.mp ho' with h | h
            · exact hboundc' o' h
            · exact Nat.lt_of_lt_of_le (hboundlr o' (List.mem_append_right _ h))
                hlenc'
          have hlen'sr : pager.pages.length + 1 ≤ pager'.pages.length := by
            rw [← hP3len]
            exact hlenc'
          have hframe'sr : ∀ o', o' ∉ offsA ts[countLtK ks kv.key] →
              o' ≠ pager.pages.length → o' ≠ o → o' < pager.pages.length →
              pager'.pages[o']? = pager.pages[o']? := by
            intro o' h1 h2 h3 h4
            have hs1 : P3.pages[o']? = pager.pages[o']? := by
              refine hP3_at o' ?_ h2 h3 h4
              intro hcon
              exact h1 (hcon ▸ hoffmem _)
            have hnin : o' ∉ offsA clT := by
              intro hcon
              rcases hmemlr o' (List.mem_append_left _ hcon) with h5 | h5
              · exact h1 h5
              · exact h2 h5
            have hs2 : pager'.pages[o']? = P3.pages[o']? :=
              hframec' o' hnin (by rw [hP3len]; exact Nat.lt_succ_of_lt h4)
            rw [hs2, hs1]
          have hpago : pager'.pages[o]? = some
              ⟨.Internal ((ts.map offOf).insertIdx (countLtK ks kv.key + 1)
                  pager.pages.length)
                (ks.insertIdx (countLtK ks kv.key) med), r, par⟩ := by
            have hnin : o ∉ offsA clT := by
              intro hcon
              rcases hmemlr o (List.mem_append_left _ hcon) with h5 | h5
              · exact honotc h5
              · rw [h5] at hole
                exact absurd hole (Nat.lt_irrefl _)
            rw [hframec' o hnin (by rw [hP3len]; exact Nat.lt_succ_of_lt hole), hP3_o]
          obtain ⟨t', hdect', hwft', hpairst', hht', hofft', hisrt', hpart', hndt',
            hmemt', hboundt', hframet'⟩ :=
            split_reassemble hb hrt hclen hklow hnfk hks hkin huni hch hin hnd
              hbound hidxlt hdl hCLoff hoffr hdecc hdecCR hwfc hwfr
              (hheightc.trans hhl) hhr hpairsCLR hndCLR hmemCLR hboundCLR
              hlen'sr hframe'sr hpago
          refine ⟨pager', t', ?_, ?_, hwft', ?_, ?_, ?_, ?_, ?_, hndt', hmemt',
            hboundt', Nat.le_of_succ_le hlen'sr, hframet', ?_⟩
          · simp only [offOf]
            rw [hstep, if_pos hle, ← hoffl]
            exact hok
          · simp only [offOf]
            exact hdect'
          · simpa [pairsA] using hpairst'
          · simp only [heightA]
            exact hht'
          · simp only [offOf]
            exact hofft'
          · simp only [isRootOf]
            exact hisrt'
          · simp only [parentOf]
            exact hpart'
          · intro po isR par2 ts2 ks2 c0 heq hc0 hsz
            injection heq with h1 h2 h3 h4 h5
            subst h4
            subst h5
            rw [List.getElem?_eq_getElem hidxlt] at hc0
            injection hc0 with hc0
            rw [← hc0] at hsz
            exact absurd hsz (by omega)
        · obtain ⟨pager', c', hok, hdecc, hwfc, hpairsc, hheightc, hoffc, hisrc, hparc,
            hndc', hmemc', hboundc', hlenc', hframec', -⟩ :=
            ih hb (by rw [hhr]; exact hfuelc) (by rw [hoffr]; exact hdecr3) hwfr hszr
              (inRangeB_mk
                (by
                  have hgt : keyLtB med kv.key = true :=
                    keyLt_iff_not_le.mpr ((Bool.not_eq_true _).mp hle)
                  simpa [loLtB] using hgt)
                (inRangeB_mp hinc).2)
              hfresh_r hndr
              (fun o' ho' => hboundlr o' (List.mem_append_right _ ho'))
          rw [hoffr] at hdecc hoffc
          have hgt : keyLtB med kv.key = true :=
            keyLt_iff_not_le.mpr ((Bool.not_eq_true _).mp hle)
          have hdecCL : decodeT (dh + 1) pager'
              (offOf ts[countLtK ks kv.key]) = some clT := by
            refine decodeT_frame hdecl3 ?_
            intro o' ho'
            refine hframec' o' ?_ (hboundlr o' (List.mem_append_left _ ho'))
            exact fun hcon => (List.disjoint_left.mp hdisjlr) ho' hcon
          have hlowX : lowerPart (pairsA ts[countLtK ks kv.key]) kv.key
              = pairsA clT ++ lowerPart (pairsA crT) kv.key := by
            rw [← hpairslr]
            simp only [lowerPart, List.filter_append]
            rw [List.filter_eq_self.mpr
              (fun p hp => keyLt_of_le_of_lt (hlekeys p hp) hgt)]
          have hupX : upperPart (pairsA ts[countLtK ks kv.key]) kv.key
              = upperPart (pairsA crT) kv.key := by
            rw [← hpairslr]
            simp only [upperPart, List.filter_append]
            rw [show List.filter (fun p => keyLtB kv.key p.key) (pairsA clT)
                = [] from ?_]
            · rw [List.nil_append]
            · rw [List.filter_eq_nil_iff]
              intro p hp
              rw [Bool.not_eq_true]
              exact keyLt_asymm (keyLt_of_le_of_lt (hlekeys p hp) hgt)
          have hpairsCLR : pairsA clT ++ pairsA c'
              = lowerPart (pairsA ts[countLtK ks kv.key]) kv.key ++ kv ::
                upperPart (pairsA ts[countLtK ks kv.key]) kv.key := by
            rw [hpairsc, hlowX, hupX]
            simp [List.append_assoc]
          have hndCLR : (offsA clT ++ offsA c').Nodup := by
            have h0 : (offsA clT ++ (offsA crT ++ ([] : List Nat))).Nodup := by
              simpa using hndlr
            have h1 := nodup_splice h0 hndc' hmemc' ?_
            · simpa using h1
            · intro o' ho'
              rcases ho' with ho' | ho'
              · exact hboundlr o' (List.mem_append_left _ ho')
              · simp at ho'
          have hmemCLR : ∀ o' ∈ offsA clT ++ offsA c',
              o' ∈ offsA ts[countLtK ks kv.key] ∨ pager.pages.length ≤ o' := by
            intro o' ho'
            rcases List.mem_append.mp ho' with h | h
            · rcases hmemlr o' (List.mem_append_left _ h) with h3 | h3
              · exact Or.inl h3
              · exact Or.inr (Nat.le_of_eq h3.symm)
            · rcases hmemc' o' h with h2 | h2
              · rcases hmemlr o' (List.mem_append_right _ h2) with h3 | h3
                · exact Or.inl h3
                · exact Or.inr (Nat.le_of_eq h3.symm)
              · right
                rw [hP3len] at h2
                exact Nat.le_of_succ_le h2
          have hboundCLR : ∀ o' ∈ offsA clT ++ offsA c',
              o' < pager'.pages.length := by
            intro o' ho'
            rcases List.mem_append.mp ho' with h | h
            · exact Nat.lt_of_lt_of_le (hboundlr o' (List.mem_append_left _ h))
                hlenc'
            · exact hboundc' o' h
          have hlen'sr : pager.pages.length + 1 ≤ pager'.pages.length := by
            rw [← hP3len]
            exact hlenc'
          have hframe'sr : ∀ o', o' ∉ offsA ts[countLtK ks kv.key] →
              o' ≠ pager.pages.length → o' ≠ o → o' < pager.pages.length →
              pager'.pages[o']? = pager.pages[o']? := by
            intro o' h1 h2 h3 h4
            have hs1 : P3.pages[o']? = pager.pages[o']? := by
              refine hP3_at o' ?_ h2 h3 h4
              intro hcon
              exact h1 (hcon ▸ hoffmem _)
            have hnin : o' ∉ offsA crT := by
              intro hcon
              rcases hmemlr o' (List.mem_append_right _ hcon) with h5 | h5
              · exact h1 h5
              · exact h2 h5
            have hs2 : pager'.pages[o']? = P3.pages[o']? :=
              hframec' o' hnin (by rw [hP3len]; exact Nat.lt_succ_of_lt h4)
            rw [hs2, hs1]
          have hpago : pager'.pages[o]? = some
              ⟨.Internal ((ts.map offOf).insertIdx (countLtK ks kv.key + 1)
                  pager.pages.length)
                (ks.insertIdx (countLtK ks kv.key) med), r, par⟩ := by
            have hnin : o ∉ offsA crT := by
              intro hcon
              rcases hmemlr o (List.mem_append_right _ hcon) with h5 | h5
              · exact honotc h5
              · rw [h5] at hole
                exact absurd hole (Nat.lt_irrefl _)
            rw [hframec' o hnin (by rw [hP3len]; exact Nat.lt_succ_of_lt hole), hP3_o]
          obtain ⟨t', hdect', hwft', hpairst', hht', hofft', hisrt', hpart', hndt',
            hmemt', hboundt', hframet'⟩ :=
            split_reassemble hb hrt hclen hklow hnfk hks hkin huni hch hin hnd
              hbound hidxlt hdl hoffl hoffc hdecCL hdecc hwfl hwfc
              hhl (hheightc.trans hhr) hpairsCLR hndCLR hmemCLR hboundCLR
              hlen'sr hframe'sr hpago
          refine ⟨pager', t', ?_, ?_, hwft', ?_, ?_, ?_, ?_, ?_, hndt', hmemt',
            hboundt', Nat.le_of_succ_le hlen'sr, hframet', ?_⟩
          · simp only [offOf]
            rw [hstep, if_neg hle, ← hoffr]
            exact hok
          · simp only [offOf]
            exact hdect'
          · simpa [pairsA] using hpairst'
          · simp only [heightA]
            exact hht'
          · simp only [offOf]
            exact hofft'
          · simp only [isRootOf]
            exact hisrt'
          · simp only [parentOf]
            exact hpart'
          · intro po isR par2 ts2 ks2 c0 heq hc0 hsz
            injection heq with h1 h2 h3 h4 h5
            subst h4
            subst h5
            rw [List.getElem?_eq_getElem hidxlt] at hc0
            injection hc0 with hc0
            rw [← hc0] at hsz
            exact absurd hsz (by omega)

theorem headNode_is_root (u : OTree) : (headNode u).is_root = isRootOf u := by
  cases u <;> rfl

theorem headNode_parent (u : OTree) : (headNode u).parent_offset = parentOf u := by
  cases u <;> rfl

theorem inRangeB_none (k : Key) : inRangeB none none k = true := rfl

set_option maxHeartbeats 1000000 in
theorem insert_spec {t : BTree} {kv : KeyValuePair}
    (hinv : invB t = true) (hfresh : kv.key ∉ keysOf t) :
    ∃ t', t.insert kv = .ok t' ∧ invB t' = true ∧ t'.b = t.b ∧
      pairsOf t' = lowerPart (pairsOf t) kv.key ++ kv :: upperPart (pairsOf t) kv.key ∧
      (rootFullB t = false → heightOf t' = heightOf t ∧
        t'.root_offset = t.root_offset) ∧
      (rootFullB t = true →
        heightOf t' = heightOf t + 1 ∧
        t'.root_offset = t.pager.pages.length ∧
        (∃ med,
          (∃ root lN sN, t.pager.get_page t.root_offset = .ok root ∧
            Node.split ⟨root.node_type, false, some t.pager.pages.length⟩ t.b
              = .ok (med, lN, sN)) ∧
          t'.pager.pages[t.pager.pages.length]? = some
            ⟨.Internal [t.root_offset, t.pager.pages.length + 1] [med], true,
              none⟩) ∧
        (∃ oldN, t'.pager.pages[t.root_offset]? = some oldN ∧
          oldN.is_root = false ∧
          oldN.parent_offset = some t.pager.pages.length)) := by
  have hinv' := hinv
  rw [invB] at hinv'
  rw [Bool.and_eq_true] at hinv'
  obtain ⟨hb2', hrest⟩ := hinv'
  have hb2 : 2 ≤ t.b := by simpa using hb2'
  rcases hdr : decodedRoot t with _ | td
  · rw [hdr] at hrest
    simp at hrest
  rw [hdr] at hrest
  rw [Bool.and_eq_true, Bool.and_eq_true] at hrest
  obtain ⟨⟨hwf, hndA'⟩, hbndA'⟩ := hrest
  have hndA : (offsA td).Nodup := by simpa using hndA'
  have hbndA : ∀ o ∈ offsA td, o < t.pager.pages.length := by
    intro o ho
    have := List.all_eq_true.mp hbndA' o ho
    simpa using this
  have hdec : decodeT (t.pager.pages.length + 1) t.pager t.root_offset = some td := hdr
  have hoff_td : offOf td = t.root_offset := decodeT_offOf hdec
  have hdec2 : decodeT (t.pager.pages.length + 1) t.pager (offOf td) = some td := by
    rw [hoff_td]
    exact hdec
  have hpgroot : t.pager.pages[t.root_offset]? = some (headNode td) :=
    decodeT_headNode hdec
  have hpairsOf : pairsOf t = pairsA td := by
    rw [pairsOf, hdr]
  have hfr : ∀ p ∈ pairsA td, p.key ≠ kv.key := by
    intro p hp hcon
    refine hfresh ?_
    rw [keysOf, hpairsOf]
    exact List.mem_map.mpr ⟨p, hp, hcon⟩
  have hhle : heightA td ≤ t.pager.pages.length :=
    Nat.le_trans (heightA_le_offs td) (length_le_of_nodup_lt hndA hbndA)
  have hrf : rootFullB t = decide (sizeEntries td = 2 * t.b - 1) := by
    rw [rootFullB]
    simp only [get_page_eq hpgroot, is_node_full_headNode]
  have hheightOf : heightOf t = heightA td := by
    rw [heightOf, hdr]
  by_cases hfull : sizeEntries td = 2 * t.b - 1
  case neg =>
    have hnf : sizeEntries td < 2 * t.b - 1 := by
      have := wf_size_le hwf
      omega
    obtain ⟨pager', td', hok, hdec', hwf', hpairs', hh', hoff', hisr', hpar',
      hnd', hmem', hbound', hlen', hframe', -⟩ :=
      insert_non_full_spec (t.pager.pages.length + 1) hb2 (Nat.le_succ_of_le hhle)
        hdec2 hwf hnf (inRangeB_none kv.key) hfr hndA hbndA
    rw [hoff_td] at hok hdec' hoff'
    have hstep : t.insert kv = .ok ⟨pager', t.b, t.root_offset⟩ := by
      rw [BTree.insert]
      simp only [get_page_eq hpgroot, is_node_full_headNode,
        decide_eq_false hfull, hok]
    refine ⟨⟨pager', t.b, t.root_offset⟩, hstep, ?_, rfl, ?_, ?_, ?_⟩
    · rw [invB]
      have hdecm : decodedRoot ⟨pager', t.b, t.root_offset⟩ = some td' := by
        simp only [decodedRoot, treeFuel]
        exact decodeT_mono hdec' (by omega)
      rw [hdecm]
      rw [Bool.and_eq_true, Bool.and_eq_true, Bool.and_eq_true]
      refine ⟨by simpa using hb2, ⟨hwf', by simpa using hnd'⟩, ?_⟩
      rw [List.all_eq_true]
      intro o ho
      simpa using hbound' o ho
    · have hdecm : decodedRoot ⟨pager', t.b, t.root_offset⟩ = some td' := by
        simp only [decodedRoot, treeFuel]
        exact decodeT_mono hdec' (by omega)
      rw [pairsOf, hdecm, hpairsOf]
      exact hpairs'
    · intro _
      constructor
      · have hdecm : decodedRoot ⟨pager', t.b, t.root_offset⟩ = some td' := by
          simp only [decodedRoot, treeFuel]
          exact decodeT_mono hdec' (by omega)
        rw [heightOf, hdecm, hheightOf]
        exact hh'
      · rfl
    · intro hcon
      rw [hrf] at hcon
      rw [decide_eq_true_eq] at hcon
      exact absurd hcon hfull
  case pos =>
    obtain ⟨med, tdL, tdR, hsplit, hoffl, hoffr, hisrl, hparl, hisrr, hparr,
        hwfl, hwfr, hszl, hszr, hhl, hhr, hpairslr, hmemlr, hndlr,
        hdecl4, hdecr4⟩ :
        ∃ (med : Key) (tdL tdR : OTree),
          Node.split ⟨(headNode td).node_type, false, some t.pager.pages.length⟩
            t.b = .ok (med, headNode tdL, headNode tdR) ∧
          offOf tdL = t.root_offset ∧
          offOf tdR = t.pager.pages.length + 1 ∧
          isRootOf tdL = false ∧ parentOf tdL = some t.pager.pages.length ∧
          isRootOf tdR = false ∧ parentOf tdR = some t.pager.pages.length ∧
          wfB t.b false none (some med) tdL = true ∧
          wfB t.b false (some med) none tdR = true ∧
          sizeEntries tdL < 2 * t.b - 1 ∧ sizeEntries tdR < 2 * t.b - 1 ∧
          heightA tdL = heightA td ∧ heightA tdR = heightA td ∧
          pairsA tdL ++ pairsA tdR = pairsA td ∧
          (∀ o' ∈ offsA tdL ++ offsA tdR,
            o' ∈ offsA td ∨ o' = t.pager.pages.length + 1) ∧
          (offsA tdL ++ offsA tdR).Nodup ∧
          decodeT (t.pager.pages.length + 1)
            ((((t.pager.write_page
                (Node.new (.Internal [] []) true none)).2.write_page_at_offset
                (headNode tdL) t.root_offset).write_page
                (headNode tdR)).2.write_page_at_offset
              ⟨.Internal [t.root_offset, t.pager.pages.length + 1] [med], true,
                none⟩ t.pager.pages.length)
            t.root_offset = some tdL ∧
          decodeT (t.pager.pages.length + 1)
            ((((t.pager.write_page
                (Node.new (.Internal [] []) true none)).2.write_page_at_offset
                (headNode tdL) t.root_offset).write_page
                (headNode tdR)).2.write_page_at_offset
              ⟨.Internal [t.root_offset, t.pager.pages.length + 1] [med], true,
                none⟩ t.pager.pages.length)
            (t.pager.pages.length + 1) = some tdR := by
      have hRlt0 : t.root_offset < t.pager.pages.length := by
        refine hbndA t.root_offset ?_
        rw [← hoff_td]
        cases td <;> simp [offOf, offsA]
      cases hti : td with
      | leaf ro rr rp rps =>
        rw [hti] at hwf hfull hbndA
        simp only [offOf] at hoff_td
        rw [hti] at hoff_td
        simp only [offOf] at hoff_td
        subst hoff_td
        rcases wfB_leaf_iff.mp hwf with ⟨hrr, -, -, hsortc, hallc⟩
        subst hrr
        simp only [sizeEntries] at hfull
        have hmedidx : t.b - 1 < rps.length := by omega
        have hmedget : rps[t.b - 1]? = some rps[t.b - 1] :=
          List.getElem?_eq_getElem hmedidx
        obtain ⟨hwfl, hwfr, hlomed, hmedhi⟩ :=
          split_leaf_parts t.root_offset (t.pager.pages.length + 1)
            (some t.pager.pages.length) (some t.pager.pages.length) hb2 hfull
            hsortc (fun p hp => hallc p hp) hmedget
        have hpwR : ((((t.pager.write_page
            (Node.new (.Internal [] []) true none)).2.write_page_at_offset
            (headNode (OTree.leaf t.root_offset false
              (some t.pager.pages.length) (rps.take t.b)))
            t.root_offset).write_page
            (headNode (OTree.leaf (t.pager.pages.length + 1) false
              (some t.pager.pages.length) (rps.drop t.b)))).2.write_page_at_offset
            ⟨.Internal [t.root_offset, t.pager.pages.length + 1]
              [rps[t.b - 1].key], true, none⟩
            t.pager.pages.length).pages[t.root_offset]?
            = some (headNode (OTree.leaf t.root_offset false
              (some t.pager.pages.length) (rps.take t.b))) := by
          have hb1 : t.root_offset < ((t.pager.write_page
              (Node.new (.Internal [] []) true none)).2.write_page_at_offset
              (headNode (OTree.leaf t.root_offset false
                (some t.pager.pages.length) (rps.take t.b)))
              t.root_offset).pages.length := by
            rw [write_at_length, write_page_length]
            exact Nat.lt_succ_of_lt hRlt0
          have hb0 : t.root_offset < ((t.pager.write_page
              (Node.new (.Internal [] []) true none)).2).pages.length := by
            rw [write_page_length]
            exact Nat.lt_succ_of_lt hRlt0
          rw [write_at_get_ne (Nat.ne_of_lt hRlt0), write_page_get_lt hb1,
            write_at_get_self hb0]
        have hpwS : ((((t.pager.write_page
            (Node.new (.Internal [] []) true none)).2.write_page_at_offset
            (headNode (OTree.leaf t.root_offset false
              (some t.pager.pages.length) (rps.take t.b)))
            t.root_offset).write_page
            (headNode (OTree.leaf (t.pager.pages.length + 1) false
              (some t.pager.pages.length) (rps.drop t.b)))).2.write_page_at_offset
            ⟨.Internal [t.root_offset, t.pager.pages.length + 1]
              [rps[t.b - 1].key], true, none⟩
            t.pager.pages.length).pages[t.pager.pages.length + 1]?
            = some (headNode (OTree.leaf (t.pager.pages.length + 1) false
              (some t.pager.pages.length) (rps.drop t.b))) := by
          have hne : t.pager.pages.length + 1 ≠ t.pager.pages.length :=
            Nat.ne_of_gt (Nat.lt_succ_self _)
          rw [write_at_get_ne hne]
          have hlen2 : ((t.pager.write_page
              (Node.new (.Internal [] []) true none)).2.write_page_at_offset
              (headNode (OTree.leaf t.root_offset false
                (some t.pager.pages.length) (rps.take t.b)))
              t.root_offset).pages.length = t.pager.pages.length + 1 := by
            rw [write_at_length, write_page_length]
          rw [← hlen2]
          exact write_page_get_new _ _
        refine ⟨rps[t.b - 1].key,
          .leaf t.root_offset false (some t.pager.pages.length) (rps.take t.b),
          .leaf (t.pager.pages.length + 1) false (some t.pager.pages.length)
            (rps.drop t.b),
          ?_, rfl, rfl, rfl, rfl, rfl, rfl, hwfl, hwfr, ?_, ?_, rfl, rfl, ?_,
          ?_, ?_, ?_, ?_⟩
        · simp only [headNode, Node.split, hmedget]
        · simp only [sizeEntries, List.length_take]
          omega
        · simp only [sizeEntries, List.length_drop]
          omega
        · simp only [pairsA]
          exact List.take_append_drop t.b rps
        · intro o' ho'
          simp only [offsA, List.cons_append, List.nil_append,
            List.mem_cons] at ho'
          rcases ho' with rfl | ho'
          · left
            simp [offsA]
          rcases ho' with rfl | ho'
          · right
            rfl
          · simp at ho'
        · simp only [offsA, List.cons_append, List.nil_append]
          rw [List.nodup_cons]
          refine ⟨?_, List.nodup_singleton _⟩
          rw [List.mem_singleton]
          exact Nat.ne_of_lt (Nat.lt_succ_of_lt hRlt0)
        · rw [decodeT_succ, hpwR]
          simp only [headNode]
        · rw [decodeT_succ, hpwS]
          simp only [headNode]
      | internal ro rr rp rcs rks =>
        rw [hti] at hwf hfull hbndA hndA hdec
        simp only [offOf] at hoff_td
        rw [hti] at hoff_td
        simp only [offOf] at hoff_td
        subst hoff_td
        rcases wfB_internal_iff.mp hwf with
          ⟨hrr, hclen2, -, -, hks2, hkin2, huni2, hch2⟩
        subst hrr
        simp only [sizeEntries] at hfull
        have hcslen : rcs.length = 2 * t.b := by omega
        have hmedidx : t.b - 1 < rks.length := by omega
        have hmedget : rks[t.b - 1]? = some rks[t.b - 1] :=
          List.getElem?_eq_getElem hmedidx
        have hndrcs : t.root_offset ∉ offsL rcs ∧ (offsL rcs).Nodup := by
          rw [offsA, List.nodup_cons] at hndA
          exact hndA
        have hbndrcs : ∀ x ∈ offsL rcs, x < t.pager.pages.length := by
          intro x hx
          refine hbndA x ?_
          rw [offsA]
          exact List.mem_cons_of_mem _ hx
        have hdlc : decodeL t.pager.pages.length t.pager (rcs.map offOf)
            = some rcs := by
          rcases decodeT_some.mp hdec with ⟨n, hn, hcase⟩
          rcases hcase with ⟨ps, hty, hteq⟩ | ⟨cs0, ks0, ts0, hty, hdl0, hteq⟩
          · cases hteq
          · injection hteq with e1 e2 e3 e4 e5
            subst e4
            subst e5
            have hcs0 : rcs.map offOf = cs0 := decodeL_map_offOf hdl0
            rw [← hcs0] at hdl0
            exact hdl0
        obtain ⟨hwfl, hwfr, hlomed, hmedhi⟩ :=
          split_internal_parts t.root_offset (t.pager.pages.length + 1)
            (some t.pager.pages.length) (some t.pager.pages.length) hb2 hfull
            hwf hmedget
        have hframe4 : ∀ o', o' ≠ t.root_offset → o' ≠ t.pager.pages.length + 1 →
            o' < t.pager.pages.length →
            ((((t.pager.write_page
              (Node.new (.Internal [] []) true none)).2.write_page_at_offset
              (headNode (OTree.internal t.root_offset false
                (some t.pager.pages.length) (rcs.take t.b)
                (rks.take (t.b - 1))))
              t.root_offset).write_page
              (headNode (OTree.internal (t.pager.pages.length + 1) false
                (some t.pager.pages.length) (rcs.drop t.b)
                (rks.drop t.b)))).2.write_page_at_offset
              ⟨.Internal [t.root_offset, t.pager.pages.length + 1]
                [rks[t.b - 1]], true, none⟩
              t.pager.pages.length).pages[o']? = t.pager.pages[o']? := by
          intro o' h1 h2 h3
          have hb1 : o' < ((t.pager.write_page
              (Node.new (.Internal [] []) true none)).2.write_page_at_offset
              (headNode (OTree.internal t.root_offset false
                (some t.pager.pages.length) (rcs.take t.b)
                (rks.take (t.b - 1))))
              t.root_offset).pages.length := by
            rw [write_at_length, write_page_length]
            exact Nat.lt_succ_of_lt h3
          rw [write_at_get_ne (Nat.ne_of_lt h3), write_page_get_lt hb1,
            write_at_get_ne h1, write_page_get_lt h3]
        have hdlc4 : decodeL t.pager.pages.length
            ((((t.pager.write_page
              (Node.new (.Internal [] []) true none)).2.write_page_at_offset
              (headNode (OTree.internal t.root_offset false
                (some t.pager.pages.length) (rcs.take t.b)
                (rks.take (t.b - 1))))
              t.root_offset).write_page
              (headNode (OTree.internal (t.pager.pages.length + 1) false
                (some t.pager.pages.length) (rcs.drop t.b)
                (rks.drop t.b)))).2.write_page_at_offset
              ⟨.Internal [t.root_offset, t.pager.pages.length + 1]
                [rks[t.b - 1]], true, none⟩
              t.pager.pages.length) (rcs.map offOf) = some rcs := by
          refine decodeL_frame hdlc ?_
          intro o' ho'
          have ho'lt := hbndrcs o' ho'
          refine hframe4 o' ?_ (Nat.ne_of_lt (Nat.lt_succ_of_lt ho'lt)) ho'lt
          intro hcon
          rw [hcon] at ho'
          exact hndrcs.1 ho'
        have hpwR : ((((t.pager.write_page
            (Node.new (.Internal [] []) true none)).2.write_page_at_offset
            (headNode (OTree.internal t.root_offset false
              (some t.pager.pages.length) (rcs.take t.b)
              (rks.take (t.b - 1))))
            t.root_offset).write_page
            (headNode (OTree.internal (t.pager.pages.length + 1) false
              (some t.pager.pages.length) (rcs.drop t.b)
              (rks.drop t.b)))).2.write_page_at_offset
            ⟨.Internal [t.root_offset, t.pager.pages.length + 1]
              [rks[t.b - 1]], true, none⟩
            t.pager.pages.length).pages[t.root_offset]?
            = some (headNode (OTree.internal t.root_offset false
              (some t.pager.pages.length) (rcs.take t.b)
              (rks.take (t.b - 1)))) := by
          have hb1 : t.root_offset < ((t.pager.write_page
              (Node.new (.Internal [] []) true none)).2.write_page_at_offset
              (headNode (OTree.internal t.root_offset false
                (some t.pager.pages.length) (rcs.take t.b)
                (rks.take (t.b - 1))))
              t.root_offset).pages.length := by
            rw [write_at_length, write_page_length]
            exact Nat.lt_succ_of_lt hRlt0
          have hb0 : t.root_offset < ((t.pager.write_page
              (Node.new (.Internal [] []) true none)).2).pages.length := by
            rw [write_page_length]
            exact Nat.lt_succ_of_lt hRlt0
          rw [write_at_get_ne (Nat.ne_of_lt hRlt0), write_page_get_lt hb1,
            write_at_get_self hb0]
        have hpwS : ((((t.pager.write_page
            (Node.new (.Internal [] []) true none)).2.write_page_at_offset
            (headNode (OTree.internal t.root_offset false
              (some t.pager.pages.length) (rcs.take t.b)
              (rks.take (t.b - 1))))
            t.root_offset).write_page
            (headNode (OTree.internal (t.pager.pages.length + 1) false
              (some t.pager.pages.length) (rcs.drop t.b)
              (rks.drop t.b)))).2.write_page_at_offset
            ⟨.Internal [t.root_offset, t.pager.pages.length + 1]
              [rks[t.b - 1]], true, none⟩
            t.pager.pages.length).pages[t.pager.pages.length + 1]?
            = some (headNode (OTree.internal (t.pager.pages.length + 1) false
              (some t.pager.pages.length) (rcs.drop t.b)
              (rks.drop t.b))) := by
          have hne : t.pager.pages.length + 1 ≠ t.pager.pages.length :=
            Nat.ne_of_gt (Nat.lt_succ_self _)
          rw [write_at_get_ne hne]
          have hlen2 : ((t.pager.write_page
              (Node.new (.Internal [] []) true none)).2.write_page_at_offset
              (headNode (OTree.internal t.root_offset false
                (some t.pager.pages.length) (rcs.take t.b)
                (rks.take (t.b - 1))))
              t.root_offset).pages.length = t.pager.pages.length + 1 := by
            rw [write_at_length, write_page_length]
          rw [← hlen2]
          exact write_page_get_new _ _
        refine ⟨rks[t.b - 1],
          .internal t.root_offset false (some t.pager.pages.length)
            (rcs.take t.b) (rks.take (t.b - 1)),
          .internal (t.pager.pages.length + 1) false (some t.pager.pages.length)
            (rcs.drop t.b) (rks.drop t.b),
          ?_, rfl, rfl, rfl, rfl, rfl, rfl, hwfl, hwfr, ?_, ?_, ?_, ?_, ?_,
          ?_, ?_, ?_, ?_⟩
        · simp only [headNode, Node.split, hmedget, List.map_take,
            List.map_drop]
        · simp only [sizeEntries, List.length_take]
          omega
        · simp only [sizeEntries, List.length_drop]
          omega
        · simp only [heightA]
          rw [heightMaxL_take huni2 (by omega) (by omega)]
        · simp only [heightA]
          rw [heightMaxL_drop huni2 (by omega)]
        · simp only [pairsA]
          exact pairsL_take_drop rcs t.b
        · intro o' ho'
          simp only [offsA, List.cons_append, List.mem_cons] at ho'
          rcases ho' with rfl | ho'
          · left
            simp [offsA]
          rcases List.mem_append.mp ho' with h | h
          · left
            rw [offsA]
            refine List.mem_cons_of_mem _ ?_
            rw [← offsL_take_drop rcs t.b]
            exact List.mem_append_left _ h
          rcases List.mem_cons.mp h with rfl | h
          · right
            rfl
          · left
            rw [offsA]
            refine List.mem_cons_of_mem _ ?_
            rw [← offsL_take_drop rcs t.b]
            exact List.mem_append_right _ h
        · simp only [offsA, List.cons_append]
          have hTsub : ∀ x ∈ offsL (rcs.take t.b), x ∈ offsL rcs := by
            intro x hx
            rw [← offsL_take_drop rcs t.b]
            exact List.mem_append_left _ hx
          have hDsub : ∀ x ∈ offsL (rcs.drop t.b), x ∈ offsL rcs := by
            intro x hx
            rw [← offsL_take_drop rcs t.b]
            exact List.mem_append_right _ hx
          have hsplitnd : (offsL (rcs.take t.b) ++ offsL (rcs.drop t.b)).Nodup := by
            rw [offsL_take_drop]
            exact hndrcs.2
          rw [List.nodup_append] at hsplitnd
          rw [List.nodup_cons]
          constructor
          · intro hcon
            rcases List.mem_append.mp hcon with h | h
            · exact hndrcs.1 (hTsub _ h)
            rcases List.mem_cons.mp h with h | h
            · exact absurd hRlt0 (by rw [h]; exact Nat.lt_asymm (Nat.lt_succ_self _))
            · exact hndrcs.1 (hDsub _ h)
          · rw [List.nodup_append]
            refine ⟨hsplitnd.1, ?_, ?_⟩
            · rw [List.nodup_cons]
              refine ⟨?_, hsplitnd.2.1⟩
              intro hcon
              have := hbndrcs _ (hDsub _ hcon)
              exact absurd this (Nat.lt_asymm (Nat.lt_succ_self _))
            · intro x hx hcon
              rcases List.mem_cons.mp hcon with h | hcon
              · rw [h] at hx
                have := hbndrcs _ (hTsub _ hx)
                exact absurd this (Nat.lt_asymm (Nat.lt_succ_self _))
              · exact hsplitnd.2.2 hx hcon
        · have htake := decodeL_take t.b hdlc4
          rw [← List.map_take] at htake
          rw [decodeT_succ, hpwR]
          simp only [headNode] at htake ⊢
          rw [htake]
        · have hdrop := decodeL_drop t.b hdlc4
          rw [← List.map_drop] at hdrop
          rw [decodeT_succ, hpwS]
          simp only [headNode] at hdrop ⊢
          rw [hdrop]
    obtain ⟨P4, hP4⟩ : ∃ P4 : Pager, P4 = (((t.pager.write_page
        (Node.new (.Internal [] []) true none)).2.write_page_at_offset
        (headNode tdL) t.root_offset).write_page
        (headNode tdR)).2.write_page_at_offset
      ⟨.Internal [t.root_offset, t.pager.pages.length + 1] [med], true, none⟩
      t.pager.pages.length := ⟨_, rfl⟩
    rw [← hP4] at hdecl4 hdecr4
    have hRlt : t.root_offset < t.pager.pages.length := by
      refine hbndA t.root_offset ?_
      rw [← hoff_td]
      cases td <;> simp [offOf, offsA]
    have hP4len : P4.pages.length = t.pager.pages.length + 2 := by
      rw [hP4, write_at_length, write_page_length, write_at_length,
        write_page_length]
    have hP4_N : P4.pages[t.pager.pages.length]? = some
        ⟨.Internal [t.root_offset, t.pager.pages.length + 1] [med], true,
          none⟩ := by
      rw [hP4]
      refine write_at_get_self ?_
      rw [write_page_length, write_at_length, write_page_length]
      exact Nat.lt_succ_of_lt (Nat.lt_succ_self _)
    have hP4_R : P4.pages[t.root_offset]? = some (headNode tdL) :=
      decodeT_headNode hdecl4
    have hP4_S : P4.pages[t.pager.pages.length + 1]? = some (headNode tdR) :=
      decodeT_headNode hdecr4
    have hP4_frame : ∀ o', o' ≠ t.root_offset → o' < t.pager.pages.length →
        P4.pages[o']? = t.pager.pages[o']? := by
      intro o' h1 h2
      have hb1 : o' < ((t.pager.write_page
          (Node.new (.Internal [] []) true none)).2.write_page_at_offset
          (headNode tdL) t.root_offset).pages.length := by
        rw [write_at_length, write_page_length]
        exact Nat.lt_succ_of_lt h2
      rw [hP4, write_at_get_ne (Nat.ne_of_lt h2), write_page_get_lt hb1,
        write_at_get_ne h1, write_page_get_lt h2]
    have hbs : unwrapIdx (binSearchKeys [med] kv.key)
        = countLtK [med] kv.key :=
      binSearchKeys_idx kv.key (by simp [sortedB])
    have hdisjlr := (List.nodup_append.mp hndlr).2.2
    have hndl : (offsA tdL).Nodup := (List.nodup_append.mp hndlr).1
    have hndr : (offsA tdR).Nodup := (List.nodup_append.mp hndlr).2.1
    have hfresh_l : ∀ p ∈ pairsA tdL, p.key ≠ kv.key := fun p hp =>
      hfr p (by rw [← hpairslr]; exact List.mem_append_left _ hp)
    have hfresh_r : ∀ p ∈ pairsA tdR, p.key ≠ kv.key := fun p hp =>
      hfr p (by rw [← hpairslr]; exact List.mem_append_right _ hp)
    have hboundlr : ∀ o' ∈ offsA tdL ++ offsA tdR, o' < P4.pages.length := by
      intro o' ho'
      rw [hP4len]
      rcases hmemlr o' ho' with h | h
      · exact Nat.lt_succ_of_lt (Nat.lt_succ_of_lt (hbndA o' h))
      · rw [h]
        exact Nat.lt_succ_self _
    have hlekeys : ∀ p ∈ pairsA tdL, keyLeB p.key med = true := by
      intro p hp
      have h1 := (wf_pairs tdL t.b false _ _ hwfl).2 p hp
      have h2 := (inRangeB_mp h1).2
      simpa [leHiB] using h2
    have hgtkeys : ∀ p ∈ pairsA tdR, keyLtB med p.key = true := by
      intro p hp
      have h1 := (wf_pairs tdR t.b false _ _ hwfr).2 p hp
      have h2 := (inRangeB_mp h1).1
      simpa [loLtB] using h2
    by_cases hle : keyLeB kv.key med = true
    · -- descend into the left half of the old root
      have hmlt : keyLtB med kv.key = false := by
        cases hcc : keyLtB med kv.key
        · rfl
        · have := keyLt_iff_not_le.mp hcc
          rw [hle] at this
          cases this
      have hcnt : countLtK [med] kv.key = 0 := by
        simp [countLtK, List.countP_cons, hmlt]
      have hstep1 : insert_non_full t.b (t.pager.pages.length + 1) P4
          ⟨.Internal [t.root_offset, t.pager.pages.length + 1] [med], true,
            none⟩ t.pager.pages.length kv
          = insert_non_full t.b t.pager.pages.length P4 (headNode tdL)
            t.root_offset kv := by
        simp only [insert_non_full, hbs, hcnt, List.getElem?_cons_zero,
          get_page_eq hP4_R, is_node_full_headNode,
          decide_eq_false (Nat.ne_of_lt hszl)]
      obtain ⟨pager5, X, hok5, hdecX, hwfX, hpairsX, hhX, hoffX, hisrX, hparX,
        hndX, hmemX, hboundX, hlenX, hframeX, -⟩ :=
        insert_non_full_spec t.pager.pages.length hb2
          (by rw [hhl]; exact hhle) (by rw [hoffl]; exact hdecl4) hwfl hszl
          (inRangeB_mk rfl (by simpa [leHiB] using hle)) hfresh_l hndl
          (fun o' ho' => hboundlr o' (List.mem_append_left _ ho'))
      rw [hoffl] at hdecX hoffX hok5
      have hdecY : decodeT (t.pager.pages.length + 1) pager5
          (t.pager.pages.length + 1) = some tdR := by
        refine decodeT_frame hdecr4 ?_
        intro o' ho'
        refine hframeX o' ?_ (hboundlr o' (List.mem_append_right _ ho'))
        exact fun hcon => (List.disjoint_left.mp hdisjlr) hcon ho'
      have hNnotl : t.pager.pages.length ∉ offsA tdL := by
        intro hcon
        rcases hmemlr _ (List.mem_append_left _ hcon) with h | h
        · exact absurd (hbndA _ h) (Nat.lt_irrefl _)
        · exact absurd h (Nat.ne_of_lt (Nat.lt_succ_self _))
      have hpagesN : pager5.pages[t.pager.pages.length]? = some
          ⟨.Internal [t.root_offset, t.pager.pages.length + 1] [med], true,
            none⟩ := by
        rw [hframeX _ hNnotl (by rw [hP4len]; exact Nat.lt_succ_of_lt (Nat.lt_succ_self _)), hP4_N]
      have hdecN' : decodeT (t.pager.pages.length + 2) pager5
          t.pager.pages.length = some
          (.internal t.pager.pages.length true none [X, tdR] [med]) := by
        rw [decodeT_succ, hpagesN]
        have hl : decodeL (t.pager.pages.length + 1) pager5
            [t.root_offset, t.pager.pages.length + 1] = some [X, tdR] := by
          refine decodeL_cons_some.mpr ⟨X, _, hdecX, ?_, rfl⟩
          exact decodeL_cons_some.mpr ⟨tdR, _, hdecY, decodeL_nil _ _, rfl⟩
        simp only [hl]
      have hwfN' : wfB t.b true none none
          (.internal t.pager.pages.length true none [X, tdR] [med]) = true := by
        rw [wfB_internal_iff]
        refine ⟨rfl, rfl, ?_, ?_, by simp [sortedB], ?_, ?_, ?_⟩
        · simp
        · simp
          omega
        · intro k hk
          exact inRangeB_none k
        · rw [uniform_cons_iff]
          intro d hd
          rcases List.mem_cons.mp hd with rfl | hd
          · rw [hhr, hhX, hhl]
          · simp at hd
        · rw [wfChildrenB_cons_iff]
          refine ⟨X, [tdR], rfl, hwfX, ?_⟩
          rw [wfChildrenB_nil_iff]
          exact ⟨tdR, rfl, hwfr⟩
      have hlowX : lowerPart (pairsA td) kv.key
          = lowerPart (pairsA tdL) kv.key := by
        rw [← hpairslr]
        simp only [lowerPart, List.filter_append]
        rw [show List.filter (fun p => keyLtB p.key kv.key) (pairsA tdR)
            = [] from ?_]
        · rw [List.append_nil]
        · rw [List.filter_eq_nil_iff]
          intro p hp
          rw [Bool.not_eq_true]
          exact keyLt_asymm (keyLt_of_le_of_lt hle (hgtkeys p hp))
      have hupX : upperPart (pairsA td) kv.key
          = upperPart (pairsA tdL) kv.key ++ pairsA tdR := by
        rw [← hpairslr]
        simp only [upperPart, List.filter_append]
        rw [List.filter_eq_self.mpr
          (fun p hp => keyLt_of_le_of_lt hle (hgtkeys p hp))]
      have hpairsN' : pairsA
          (.internal t.pager.pages.length true none [X, tdR] [med])
          = lowerPart (pairsA td) kv.key ++ kv ::
            upperPart (pairsA td) kv.key := by
        simp only [pairsA, pairsL]
        rw [List.append_nil, hpairsX, hlowX, hupX]
        simp [List.append_assoc]
      have hndN' : (offsA
          (.internal t.pager.pages.length true none [X, tdR] [med])).Nodup := by
        rw [offsA, List.nodup_cons]
        constructor
        · intro hcon
          rw [offsL, offsL, offsL, List.append_nil] at hcon
          rcases List.mem_append.mp hcon with h | h
          · rcases hmemX _ h with h2 | h2
            · exact hNnotl h2
            · rw [hP4len] at h2
              exact absurd (Nat.lt_of_lt_of_le (Nat.lt_succ_of_lt
                (Nat.lt_succ_self _)) h2) (Nat.lt_irrefl _)
          · rcases hmemlr _ (List.mem_append_right _ h) with h2 | h2
            · exact absurd (hbndA _ h2) (Nat.lt_irrefl _)
            · exact absurd h2 (Nat.ne_of_lt (Nat.lt_succ_self _))
        · rw [offsL, offsL, offsL, List.append_nil]
          have h0 : (([] : List Nat) ++ (offsA tdL ++ offsA tdR)).Nodup := by
            simpa using hndlr
          have h1 := nodup_splice h0 hndX hmemX ?_
          · simpa using h1
          · intro o' ho'
            rcases ho' with ho' | ho'
            · simp at ho'
            · exact hboundlr o' (List.mem_append_right _ ho')
      have hheightN' : heightA
          (.internal t.pager.pages.length true none [X, tdR] [med])
          = heightA td + 1 := by
        simp only [heightA, heightMaxL]
        rw [hhX, hhl, hhr]
        omega
      have houter : insert_non_full t.b (t.pager.pages.length + 1) P4
          ⟨.Internal [t.root_offset, t.pager.pages.length + 1] [med], true,
            none⟩ t.pager.pages.length kv = .ok pager5 := by
        rw [hstep1]
        exact hok5
      have hins : t.insert kv = .ok ⟨pager5, t.b, t.pager.pages.length⟩ := by
        rw [hP4] at houter
        rw [BTree.insert]
        simp only [get_page_eq hpgroot, is_node_full_headNode,
          decide_eq_true hfull, write_page_fst, write_page_length,
          write_at_length, hsplit, houter]
      refine ⟨⟨pager5, t.b, t.pager.pages.length⟩, hins, ?_, rfl, ?_, ?_, ?_⟩
      · rw [invB]
        have hdecm : decodedRoot ⟨pager5, t.b, t.pager.pages.length⟩
            = some (.internal t.pager.pages.length true none [X, tdR] [med]) := by
          simp only [decodedRoot, treeFuel]
          refine decodeT_mono hdecN' ?_
          rw [hP4len] at hlenX
          omega
        rw [hdecm]
        rw [Bool.and_eq_true, Bool.and_eq_true, Bool.and_eq_true]
        refine ⟨by simpa using hb2, ⟨hwfN', by simpa using hndN'⟩, ?_⟩
        rw [List.all_eq_true]
        intro o ho
        simp only [decide_eq_true_eq]
        rw [offsA, offsL, offsL, offsL, List.append_nil] at ho
        rw [hP4len] at hlenX
        rcases List.mem_cons.mp ho with rfl | ho
        · exact Nat.lt_of_lt_of_le (Nat.lt_succ_of_lt (Nat.lt_succ_self _)) hlenX
        rcases List.mem_append.mp ho with h | h
        · exact hboundX _ h
        · exact Nat.lt_of_lt_of_le (hP4len ▸ hboundlr _ (List.mem_append_right _ h))
            hlenX
      · have hdecm : decodedRoot ⟨pager5, t.b, t.pager.pages.length⟩
            = some (.internal t.pager.pages.length true none [X, tdR] [med]) := by
          simp only [decodedRoot, treeFuel]
          refine decodeT_mono hdecN' ?_
          rw [hP4len] at hlenX
          omega
        rw [pairsOf, hdecm, hpairsOf]
        exact hpairsN'
      · intro hcon
        rw [hrf, decide_eq_true hfull] at hcon
        cases hcon
      · intro _
        have hdecm : decodedRoot ⟨pager5, t.b, t.pager.pages.length⟩
            = some (.internal t.pager.pages.length true none [X, tdR] [med]) := by
          simp only [decodedRoot, treeFuel]
          refine decodeT_mono hdecN' ?_
          rw [hP4len] at hlenX
          omega
        refine ⟨?_, rfl, ⟨med, ⟨⟨headNode td, headNode tdL, headNode tdR,
          get_page_eq hpgroot, hsplit⟩, hpagesN⟩⟩, ?_⟩
        · rw [heightOf, hdecm, hheightOf]
          exact hheightN'
        · refine ⟨headNode X, decodeT_headNode hdecX, ?_, ?_⟩
          · rw [headNode_is_root, hisrX, hisrl]
          · rw [headNode_parent, hparX, hparl]
    · -- descend into the sibling
      have hoffmem : ∀ (u : OTree), offOf u ∈ offsA u := by
        intro u
        cases u <;> simp [offOf, offsA]
      have hmgt : keyLtB med kv.key = true :=
        keyLt_iff_not_le.mpr ((Bool.not_eq_true _).mp hle)
      have hcnt : countLtK [med] kv.key = 1 := by
        simp [countLtK, List.countP_cons, hmgt]
      have hstep1 : insert_non_full t.b (t.pager.pages.length + 1) P4
          ⟨.Internal [t.root_offset, t.pager.pages.length + 1] [med], true,
            none⟩ t.pager.pages.length kv
          = insert_non_full t.b t.pager.pages.length P4 (headNode tdR)
            (t.pager.pages.length + 1) kv := by
        simp only [insert_non_full, hbs, hcnt, List.getElem?_cons_succ,
          List.getElem?_cons_zero, get_page_eq hP4_S, is_node_full_headNode,
          decide_eq_false (Nat.ne_of_lt hszr)]
      obtain ⟨pager5, X, hok5, hdecX, hwfX, hpairsX, hhX, hoffX, hisrX, hparX,
        hndX, hmemX, hboundX, hlenX, hframeX, -⟩ :=
        insert_non_full_spec t.pager.pages.length hb2
          (by rw [hhr]; exact hhle) (by rw [hoffr]; exact hdecr4) hwfr hszr
          (inRangeB_mk (by simpa [loLtB] using hmgt) rfl) hfresh_r hndr
          (fun o' ho' => hboundlr o' (List.mem_append_right _ ho'))
      rw [hoffr] at hdecX hoffX hok5
      have hdecY : decodeT (t.pager.pages.length + 1) pager5
          t.root_offset = some tdL := by
        refine decodeT_frame hdecl4 ?_
        intro o' ho'
        refine hframeX o' ?_ (hboundlr o' (List.mem_append_left _ ho'))
        exact fun hcon => (List.disjoint_left.mp hdisjlr) ho' hcon
      have hNnotr : t.pager.pages.length ∉ offsA tdR := by
        intro hcon
        rcases hmemlr _ (List.mem_append_right _ hcon) with h | h
        · exact absurd (hbndA _ h) (Nat.lt_irrefl _)
        · exact absurd h (Nat.ne_of_lt (Nat.lt_succ_self _))
      have hRnotr : t.root_offset ∉ offsA tdR :=
        (List.disjoint_left.mp hdisjlr) (hoffl ▸ hoffmem tdL)
      have hpagesN : pager5.pages[t.pager.pages.length]? = some
          ⟨.Internal [t.root_offset, t.pager.pages.length + 1] [med], true,
            none⟩ := by
        have hbN : t.pager.pages.length < P4.pages.length := by
          rw [hP4len]
          exact Nat.lt_succ_of_lt (Nat.lt_succ_self _)
        rw [hframeX _ hNnotr hbN, hP4_N]
      have hpagesR : pager5.pages[t.root_offset]? = some (headNode tdL) := by
        have hbR : t.root_offset < P4.pages.length := by
          rw [hP4len]
          exact Nat.lt_succ_of_lt (Nat.lt_succ_of_lt hRlt)
        rw [hframeX _ hRnotr hbR, hP4_R]
      have hdecN' : decodeT (t.pager.pages.length + 2) pager5
          t.pager.pages.length = some
          (.internal t.pager.pages.length true none [tdL, X] [med]) := by
        rw [decodeT_succ, hpagesN]
        have hl : decodeL (t.pager.pages.length + 1) pager5
            [t.root_offset, t.pager.pages.length + 1] = some [tdL, X] := by
          refine decodeL_cons_some.mpr ⟨tdL, _, hdecY, ?_, rfl⟩
          exact decodeL_cons_some.mpr ⟨X, _, hdecX, decodeL_nil _ _, rfl⟩
        simp only [hl]
      have hwfN' : wfB t.b true none none
          (.internal t.pager.pages.length true none [tdL, X] [med]) = true := by
        rw [wfB_internal_iff]
        refine ⟨rfl, rfl, ?_, ?_, by simp [sortedB], ?_, ?_, ?_⟩
        · simp
        · simp
          omega
        · intro k hk
          exact inRangeB_none k
        · rw [uniform_cons_iff]
          intro d hd
          rcases List.mem_cons.mp hd with rfl | hd
          · rw [hhX, hhr, hhl]
          · simp at hd
        · rw [wfChildrenB_cons_iff]
          refine ⟨tdL, [X], rfl, hwfl, ?_⟩
          rw [wfChildrenB_nil_iff]
          exact ⟨X, rfl, hwfX⟩
      have hlowX : lowerPart (pairsA td) kv.key
          = pairsA tdL ++ lowerPart (pairsA tdR) kv.key := by
        rw [← hpairslr]
        simp only [lowerPart, List.filter_append]
        rw [List.filter_eq_self.mpr
          (fun p hp => keyLt_of_le_of_lt (hlekeys p hp) hmgt)]
      have hupX : upperPart (pairsA td) kv.key
          = upperPart (pairsA tdR) kv.key := by
        rw [← hpairslr]
        simp only [upperPart, List.filter_append]
        rw [show List.filter (fun p => keyLtB kv.key p.key) (pairsA tdL)
            = [] from ?_]
        · rw [List.nil_append]
        · rw [List.filter_eq_nil_iff]
          intro p hp
          rw [Bool.not_eq_true]
          exact keyLt_asymm (keyLt_of_le_of_lt (hlekeys p hp) hmgt)
      have hpairsN' : pairsA
          (.internal t.pager.pages.length true none [tdL, X] [med])
          = lowerPart (pairsA td) kv.key ++ kv ::
            upperPart (pairsA td) kv.key := by
        simp only [pairsA, pairsL]
        rw [List.append_nil, hpairsX, hlowX, hupX]
        simp [List.append_assoc]
      have hndN' : (offsA
          (.internal t.pager.pages.length true none [tdL, X] [med])).Nodup := by
        rw [offsA, List.nodup_cons]
        constructor
        · intro hcon
          rw [offsL, offsL, offsL, List.append_nil] at hcon
          rcases List.mem_append.mp hcon with h | h
          · rcases hmemlr _ (List.mem_append_left _ h) with h2 | h2
            · exact absurd (hbndA _ h2) (Nat.lt_irrefl _)
            · exact absurd h2 (Nat.ne_of_lt (Nat.lt_succ_self _))
          · rcases hmemX _ h with h2 | h2
            · exact hNnotr h2
            · rw [hP4len] at h2
              exact absurd (Nat.lt_of_lt_of_le (Nat.lt_succ_of_lt
                (Nat.lt_succ_self _)) h2) (Nat.lt_irrefl _)
        · rw [offsL, offsL, offsL, List.append_nil]
          have h0 : (offsA tdL ++ (offsA tdR ++ ([] : List Nat))).Nodup := by
            simpa using hndlr
          have h1 := nodup_splice h0 hndX hmemX ?_
          · simpa using h1
          · intro o' ho'
            rcases ho' with ho' | ho'
            · exact hboundlr o' (List.mem_append_left _ ho')
            · simp at ho'
      have hheightN' : heightA
          (.internal t.pager.pages.length true none [tdL, X] [med])
          = heightA td + 1 := by
        simp only [heightA, heightMaxL]
        rw [hhX, hhr, hhl]
        omega
      have houter : insert_non_full t.b (t.pager.pages.length + 1) P4
          ⟨.Internal [t.root_offset, t.pager.pages.length + 1] [med], true,
            none⟩ t.pager.pages.length kv = .ok pager5 := by
        rw [hstep1]
        exact hok5
      have hins : t.insert kv = .ok ⟨pager5, t.b, t.pager.pages.length⟩ := by
        rw [hP4] at houter
        rw [BTree.insert]
        simp only [get_page_eq hpgroot, is_node_full_headNode,
          decide_eq_true hfull, write_page_fst, write_page_length,
          write_at_length, hsplit, houter]
      refine ⟨⟨pager5, t.b, t.pager.pages.length⟩, hins, ?_, rfl, ?_, ?_, ?_⟩
      · rw [invB]
        have hdecm : decodedRoot ⟨pager5, t.b, t.pager.pages.length⟩
            = some (.internal t.pager.pages.length true none [tdL, X] [med]) := by
          simp only [decodedRoot, treeFuel]
          refine decodeT_mono hdecN' ?_
          rw [hP4len] at hlenX
          omega
        rw [hdecm]
        rw [Bool.and_eq_true, Bool.and_eq_true, Bool.and_eq_true]
        refine ⟨by simpa using hb2, ⟨hwfN', by simpa using hndN'⟩, ?_⟩
        rw [List.all_eq_true]
        intro o ho
        simp only [decide_eq_true_eq]
        rw [offsA, offsL, offsL, offsL, List.append_nil] at ho
        rw [hP4len] at hlenX
        rcases List.mem_cons.mp ho with rfl | ho
        · exact Nat.lt_of_lt_of_le (Nat.lt_succ_of_lt (Nat.lt_succ_self _)) hlenX
        rcases List.mem_append.mp ho with h | h
        · exact Nat.lt_of_lt_of_le (hP4len ▸ hboundlr _ (List.mem_append_left _ h))
            hlenX
        · exact hboundX _ h
      · have hdecm : decodedRoot ⟨pager5, t.b, t.pager.pages.length⟩
            = some (.internal t.pager.pages.length true none [tdL, X] [med]) := by
          simp only [decodedRoot, treeFuel]
          refine decodeT_mono hdecN' ?_
          rw [hP4len] at hlenX
          omega
        rw [pairsOf, hdecm, hpairsOf]
        exact hpairsN'
      · intro hcon
        rw [hrf, decide_eq_true hfull] at hcon
        cases hcon
      · intro _
        have hdecm : decodedRoot ⟨pager5, t.b, t.pager.pages.length⟩
            = some (.internal t.pager.pages.length true none [tdL, X] [med]) := by
          simp only [decodedRoot, treeFuel]
          refine decodeT_mono hdecN' ?_
          rw [hP4len] at hlenX
          omega
        refine ⟨?_, rfl, ⟨med, ⟨⟨headNode td, headNode tdL, headNode tdR,
          get_page_eq hpgroot, hsplit⟩, hpagesN⟩⟩, ?_⟩
        · rw [heightOf, hdecm, hheightOf]
          exact hheightN'
        · refine ⟨headNode tdL, hpagesR, ?_, ?_⟩
          · rw [headNode_is_root, hisrl]
          · rw [headNode_parent, hparl]

theorem search_node_pager : ∀ (fuel : Nat) (pager : Pager) (node : Node) (k : Key),
    (search_node fuel pager node k).2 = pager
  | 0, _, _, _ => rfl
  | fuel + 1, pager, node, k => by
    rw [search_node]
    cases hnt : node.node_type with
    | Internal children ks =>
      cases hg : children[unwrapIdx (binSearchKeys ks k)]? with
      | none => simp only [hg]
      | some coff =>
        simp only [hg, Pager.get_pageS]
        cases hp : pager.get_page coff with
        | error e => simp only [hp]
        | ok child =>
          simp only [hp]
          exact search_node_pager fuel pager child k
    | Leaf ps =>
      cases hb : binSearchPairs ps k with
      | error i => simp only [hb]
      | ok i =>
        cases hq : ps[i]? with
        | none => simp only [hb, hq]
        | some p => simp only [hb, hq]
    | Unexpected => rfl

theorem search_node_spec :
    ∀ (fuel : Nat) {b : Nat} {pager : Pager} {t : OTree} {rt : Bool}
      {lo hi : Option Key} {k : Key} {df : Nat},
      2 ≤ b →
      heightA t ≤ fuel →
      decodeT df pager (offOf t) = some t →
      wfB b rt lo hi t = true →
      inRangeB lo hi k = true →
      (k ∈ (pairsA t).map (fun p => p.key) →
        ∃ p, p ∈ pairsA t ∧ p.key = k ∧
          (search_node fuel pager (headNode t) k).1 = .ok p) ∧
      (k ∉ (pairsA t).map (fun p => p.key) →
        (search_node fuel pager (headNode t) k).1 = .error .KeyNotFound) := by
  intro fuel
  induction fuel with
  | zero =>
    intro b pager t rt lo hi k df hb hfuel hdec hwf hin
    have := heightA_pos t
    omega
  | succ f ih =>
    intro b pager t rt lo hi k df hb hfuel hdec hwf hin
    obtain ⟨dg, rfl⟩ : ∃ dg, df = dg + 1 := by
      have := decodeT_pos hdec
      exact ⟨df - 1, by omega⟩
    cases t with
    | leaf o r par ps =>
      rcases wfB_leaf_iff.mp hwf with ⟨-, -, -, hsort, -⟩
      constructor
      · intro hk
        simp only [pairsA] at hk ⊢
        have hbs : binSearchPairs ps k = .ok (countLtP ps k) := by
          rw [binSearchPairs_eq k hsort, if_pos hk]
        have hfound := sorted_found hsort hk
        rw [← countLtP_eq_keys] at hfound
        rcases hfound with ⟨hflt, hfeq⟩
        rw [List.getElem?_map] at hfeq
        cases hp : ps[countLtP ps k]? with
        | none => rw [hp] at hfeq; simp at hfeq
        | some p =>
          rw [hp] at hfeq
          have hpk : p.key = k := by
            simpa using hfeq
          refine ⟨p, List.getElem?_mem hp, hpk, ?_⟩
          simp only [search_node, headNode]
          simp only [hbs, hp]
      · intro hk
        simp only [pairsA] at hk
        have hbs : binSearchPairs ps k = .error (countLtP ps k) := by
          rw [binSearchPairs_eq k hsort, if_neg hk]
        simp only [search_node, headNode]
        rw [hbs]
    | internal o r par ts ks =>
      rcases wfB_internal_iff.mp hwf with
        ⟨hrt, hclen, hklow, hkhigh, hks, hkin, huni, hch⟩
      simp only [offOf] at hdec
      have hdl : decodeL dg pager (ts.map offOf) = some ts := by
        rcases decodeT_some.mp hdec with ⟨n, hn, hcase⟩
        rcases hcase with ⟨ps, hty, hteq⟩ | ⟨cs0, ks0, ts0, hty, hdl0, hteq⟩
        · cases hteq
        · injection hteq with h1 h2 h3 h4 h5
          subst h4
          subst h5
          have hcs0 : ts.map offOf = cs0 := decodeL_map_offOf hdl0
          rw [← hcs0] at hdl0
          exact hdl0
      have hidxks : unwrapIdx (binSearchKeys ks k) = countLtK ks k :=
        binSearchKeys_idx k hks
      have hidxlt : countLtK ks k < ts.length := by
        have := countLtK_le ks k
        omega
      have hgetc : (ts.map offOf)[countLtK ks k]?
          = some (offOf ts[countLtK ks k]) := by
        rw [List.getElem?_eq_getElem (by rw [List.length_map]; exact hidxlt)]
        rw [List.getElem_map]
      have hcdec : decodeT dg pager (offOf ts[countLtK ks k])
          = some ts[countLtK ks k] :=
        decodeL_mem hdl _ (List.getElem_mem hidxlt)
      have hcpg : pager.pages[offOf ts[countLtK ks k]]?
          = some (headNode ts[countLtK ks k]) :=
        decodeT_headNode hcdec
      have hcwf := wfChildrenB_get hch (countLtK ks k) hidxlt
      have hcheight : heightA ts[countLtK ks k] = heightMaxL ts :=
        uniform_heights_eq huni (List.getElem_mem hidxlt)
      have hfuelc : heightA ts[countLtK ks k] ≤ f := by
        simp only [heightA] at hfuel
        omega
      have hinc := childRange_of_count hks hin
      have hstep : search_node (f + 1) pager (headNode (.internal o r par ts ks)) k
          = search_node f pager (headNode ts[countLtK ks k]) k := by
        simp only [headNode, search_node, hidxks, hgetc, Pager.get_pageS,
          get_page_eq hcpg]
      have hparts := pairsL_parts hch hks hkin k hin
      have hdecomp : pairsL ts = pairsL (ts.take (countLtK ks k)) ++
          (pairsA ts[countLtK ks k] ++ pairsL (ts.drop (countLtK ks k + 1))) := by
        conv_lhs => rw [← pairsL_take_drop ts (countLtK ks k)]
        congr 1
        rw [List.drop_eq_getElem_cons hidxlt, pairsL]
      have hiff : ∀ p, p ∈ pairsL ts → p.key = k →
          p ∈ pairsA ts[countLtK ks k] := by
        intro p hp hpk
        rw [hdecomp] at hp
        rcases List.mem_append.mp hp with hp | hp
        · have := hparts.1 p hp
          rw [hpk, keyLt_irrefl] at this
          cases this
        · rcases List.mem_append.mp hp with hp | hp
          · exact hp
          · have := hparts.2 p hp
            rw [hpk, keyLt_irrefl] at this
            cases this
      have ihc := ih hb hfuelc hcdec hcwf hinc
      constructor
      · intro hk
        simp only [pairsA] at hk ⊢
        rcases List.mem_map.mp hk with ⟨p, hp, hpk⟩
        have hpc : p ∈ pairsA ts[countLtK ks k] := hiff p hp hpk
        have hkc : k ∈ (pairsA ts[countLtK ks k]).map (fun p => p.key) :=
          List.mem_map.mpr ⟨p, hpc, hpk⟩
        rcases ihc.1 hkc with ⟨q, hq, hqk, hqeq⟩
        refine ⟨q, ?_, hqk, ?_⟩
        · rw [hdecomp]
          exact List.mem_append_right _ (List.mem_append_left _ hq)
        · rw [hstep]
          exact hqeq
      · intro hk
        simp only [pairsA] at hk
        have hkc : k ∉ (pairsA ts[countLtK ks k]).map (fun p => p.key) := by
          intro hcon
          rcases List.mem_map.mp hcon with ⟨p, hp, hpk⟩
          refine hk (List.mem_map.mpr ⟨p, ?_, hpk⟩)
          exact pairsA_sub_pairsL (List.getElem_mem hidxlt) p hp
        rw [hstep]
        exact ihc.2 hkc

theorem search_spec {t : BTree} {k : Key} (hinv : invB t = true) :
    (k ∈ keysOf t → ∃ p, p ∈ pairsOf t ∧ p.key = k ∧ (t.search k).1 = .ok p) ∧
    (k ∉ keysOf t → (t.search k).1 = .error .KeyNotFound) := by
  have hinv' := hinv
  rw [invB] at hinv'
  rw [Bool.and_eq_true] at hinv'
  obtain ⟨hb2', hrest⟩ := hinv'
  have hb2 : 2 ≤ t.b := by simpa using hb2'
  rcases hdr : decodedRoot t with _ | td
  · rw [hdr] at hrest
    simp at hrest
  rw [hdr] at hrest
  rw [Bool.and_eq_true, Bool.and_eq_true] at hrest
  obtain ⟨⟨hwf, hndA'⟩, hbndA'⟩ := hrest
  have hndA : (offsA td).Nodup := by simpa using hndA'
  have hbndA : ∀ o ∈ offsA td, o < t.pager.pages.length := by
    intro o ho
    have := List.all_eq_true.mp hbndA' o ho
    simpa using this
  have hdec : decodeT (t.pager.pages.length + 1) t.pager t.root_offset = some td :=
    hdr
  have hoff_td : offOf td = t.root_offset := decodeT_offOf hdec
  have hdec2 : decodeT (t.pager.pages.length + 1) t.pager (offOf td) = some td := by
    rw [hoff_td]
    exact hdec
  have hpgroot : t.pager.pages[t.root_offset]? = some (headNode td) :=
    decodeT_headNode hdec
  have hpairsOf : pairsOf t = pairsA td := by
    rw [pairsOf, hdr]
  have hhle : heightA td ≤ t.pager.pages.length :=
    Nat.le_trans (heightA_le_offs td) (length_le_of_nodup_lt hndA hbndA)
  have hspec := search_node_spec (t.pager.pages.length + 1) hb2
    (Nat.le_succ_of_le hhle) hdec2 hwf (inRangeB_none k)
  have hsearch : (t.search k).1
      = (search_node (t.pager.pages.length + 1) t.pager (headNode td) k).1 := by
    rw [BTree.search]
    simp only [Pager.get_pageS, get_page_eq hpgroot]
  constructor
  · intro hk
    rw [keysOf, hpairsOf] at hk
    rcases hspec.1 hk with ⟨p, hp, hpk, heq⟩
    refine ⟨p, ?_, hpk, ?_⟩
    · rw [hpairsOf]
      exact hp
    · rw [hsearch]
      exact heq
  · intro hk
    rw [keysOf, hpairsOf] at hk
    rw [hsearch]
    exact hspec.2 hk

theorem search_tree_eq (t : BTree) (k : Key) : (t.search k).2 = t := by
  rw [BTree.search]
  cases t with
  | mk pager b root_offset =>
    simp only [Pager.get_pageS]
    cases hp : pager.get_page root_offset with
    | error e => rfl
    | ok root =>
      simp only
      rw [search_node_pager]

theorem search_idempotent (t : BTree) (k : Key) :
    ((t.search k).2.search k).1 = (t.search k).1 := by
  rw [search_tree_eq]

/-! ### Subperm utilities -/

theorem subperm_append {α : Type} {l1 l2 r1 r2 : List α} (h1 : l1.Subperm l2)
    (h2 : r1.Subperm r2) : (l1 ++ r1).Subperm (l2 ++ r2) := by
  rcases h1 with ⟨u, hu, hus⟩
  rcases h2 with ⟨v, hv, hvs⟩
  exact ⟨u ++ v, hu.append hv, hus.append hvs⟩

theorem subperm_nodup {α : Type} {l1 l2 : List α} (h1 : l1.Subperm l2)
    (h2 : l2.Nodup) : l1.Nodup := by
  rcases h1 with ⟨u, hu, hus⟩
  exact hu.nodup (hus.nodup h2)

/-! ### wfDel characterizations -/

theorem wfDel_leaf_iff {b : Nat} {rt : Bool} {lo hi : Option Key} {o : Offset}
    {isR : Bool} {par : Option Offset} {ps : List KeyValuePair} :
    wfDel b rt lo hi (.leaf o isR par ps) = true ↔
      isR = rt ∧ (rt = true ∨ b - 2 ≤ ps.length) ∧ ps.length ≤ 2 * b - 1 ∧
      sortedB (ps.map (fun p => p.key)) = true ∧
      (∀ p ∈ ps, inRangeB lo hi p.key = true) := by
  rw [wfDel]
  simp only [Bool.and_eq_true, beq_iff_eq, Bool.or_eq_true, decide_eq_true_eq,
    allInRangeB, List.all_eq_true, List.mem_map, and_assoc]
  constructor
  · rintro ⟨h1, h2, h3, h4, h5⟩
    refine ⟨h1, h2, h3, h4, ?_⟩
    intro p hp
    exact h5 _ ⟨p, hp, rfl⟩
  · rintro ⟨h1, h2, h3, h4, h5⟩
    refine ⟨h1, h2, h3, h4, ?_⟩
    rintro x ⟨p, hp, rfl⟩
    exact h5 p hp

theorem wfDel_internal_iff {b : Nat} {rt : Bool} {lo hi : Option Key} {o : Offset}
    {isR : Bool} {par : Option Offset} {cs : List OTree} {ks : List Key} :
    wfDel b rt lo hi (.internal o isR par cs ks) = true ↔
      isR = rt ∧ cs.length = ks.length + 1 ∧
      (rt = true ∨ b - 2 ≤ ks.length) ∧
      ks.length ≤ 2 * b - 1 ∧ sortedB ks = true ∧
      (∀ k ∈ ks, inRangeB lo hi k = true) ∧
      uniformHeights cs = true ∧ wfChildrenB b lo ks cs hi = true := by
  rw [wfDel]
  simp only [Bool.and_eq_true, beq_iff_eq, Bool.or_eq_true, decide_eq_true_eq,
    allInRangeB, List.all_eq_true, and_assoc]

theorem wfB_to_wfDel {b : Nat} {rt : Bool} {lo hi : Option Key} {t : OTree}
    (h : wfB b rt lo hi t = true) : wfDel b rt lo hi t = true := by
  cases t with
  | leaf o isR par ps =>
    rcases wfB_leaf_iff.mp h with ⟨h1, h2, h3, h4, h5⟩
    refine wfDel_leaf_iff.mpr ⟨h1, ?_, h3, h4, h5⟩
    rcases h2 with h2 | h2
    · exact Or.inl h2
    · exact Or.inr (by omega)
  | internal o isR par cs ks =>
    rcases wfB_internal_iff.mp h with ⟨h1, h2, h3, h4, h5, h6, h7, h8⟩
    refine wfDel_internal_iff.mpr ⟨h1, h2, ?_, h4, h5, h6, h7, h8⟩
    by_cases hrt : rt = true
    · exact Or.inl hrt
    · rw [if_neg hrt] at h3
      exact Or.inr (by omega)

theorem wfDel_to_wfB {b : Nat} {lo hi : Option Key} {t : OTree}
    (h : wfDel b false lo hi t = true) (hsz : b - 1 ≤ sizeEntries t) :
    wfB b false lo hi t = true := by
  cases t with
  | leaf o isR par ps =>
    rcases wfDel_leaf_iff.mp h with ⟨h1, -, h3, h4, h5⟩
    exact wfB_leaf_iff.mpr ⟨h1, Or.inr hsz, h3, h4, h5⟩
  | internal o isR par cs ks =>
    rcases wfDel_internal_iff.mp h with ⟨h1, h2, -, h4, h5, h6, h7, h8⟩
    refine wfB_internal_iff.mpr ⟨h1, h2, ?_, h4, h5, h6, h7, h8⟩
    rw [if_neg (by simp)]
    simpa [sizeEntries] using hsz

theorem wfDel_root_leaf_to_wfB {b : Nat} {lo hi : Option Key} {o : Offset}
    {isR : Bool} {par : Option Offset} {ps : List KeyValuePair}
    (h : wfDel b true lo hi (.leaf o isR par ps) = true) :
    wfB b true lo hi (.leaf o isR par ps) = true := by
  rcases wfDel_leaf_iff.mp h with ⟨h1, -, h3, h4, h5⟩
  exact wfB_leaf_iff.mpr ⟨h1, Or.inl rfl, h3, h4, h5⟩

theorem wfDel_root_internal_to_wfB {b : Nat} {lo hi : Option Key} {o : Offset}
    {isR : Bool} {par : Option Offset} {cs : List OTree} {ks : List Key}
    (h : wfDel b true lo hi (.internal o isR par cs ks) = true) (hne : ks ≠ []) :
    wfB b true lo hi (.internal o isR par cs ks) = true := by
  rcases wfDel_internal_iff.mp h with ⟨h1, h2, -, h4, h5, h6, h7, h8⟩
  refine wfB_internal_iff.mpr ⟨h1, h2, ?_, h4, h5, h6, h7, h8⟩
  rw [if_pos rfl]
  exact List.length_pos.mpr hne

theorem wf_isRoot {b : Nat} {rt : Bool} {lo hi : Option Key} {t : OTree}
    (h : wfB b rt lo hi t = true) : isRootOf t = rt := by
  cases t with
  | leaf o isR par ps => exact (wfB_leaf_iff.mp h).1
  | internal o isR par cs ks => exact (wfB_internal_iff.mp h).1

theorem wfDel_isRoot {b : Nat} {rt : Bool} {lo hi : Option Key} {t : OTree}
    (h : wfDel b rt lo hi t = true) : isRootOf t = rt := by
  cases t with
  | leaf o isR par ps => exact (wfDel_leaf_iff.mp h).1
  | internal o isR par cs ks => exact (wfDel_internal_iff.mp h).1

theorem wf_size_ge {b : Nat} {lo hi : Option Key} {t : OTree}
    (h : wfB b false lo hi t = true) : b - 1 ≤ sizeEntries t := by
  cases t with
  | leaf o isR par ps =>
    rcases wfB_leaf_iff.mp h with ⟨-, h2, -, -, -⟩
    rcases h2 with h2 | h2
    · cases h2
    · exact h2
  | internal o isR par cs ks =>
    rcases wfB_internal_iff.mp h with ⟨-, -, h3, -, -, -, -, -⟩
    rw [if_neg (by simp)] at h3
    simpa [sizeEntries] using h3

theorem wfDel_size_ge {b : Nat} {lo hi : Option Key} {t : OTree}
    (h : wfDel b false lo hi t = true) : b - 2 ≤ sizeEntries t := by
  cases t with
  | leaf o isR par ps =>
    rcases wfDel_leaf_iff.mp h with ⟨-, h2, -, -, -⟩
    rcases h2 with h2 | h2
    · cases h2
    · exact h2
  | internal o isR par cs ks =>
    rcases wfDel_internal_iff.mp h with ⟨-, -, h3, -, -, -, -, -⟩
    rcases h3 with h3 | h3
    · cases h3
    · exact h3

theorem wfDel_size_le {b : Nat} {rt : Bool} {lo hi : Option Key} {t : OTree}
    (h : wfDel b rt lo hi t = true) : sizeEntries t ≤ 2 * b - 1 := by
  cases t with
  | leaf o isR par ps => exact (wfDel_leaf_iff.mp h).2.2.1
  | internal o isR par cs ks => exact (wfDel_internal_iff.mp h).2.2.2.1

theorem wfDel_not_underflow_wfB {b : Nat} {lo hi : Option Key} {t : OTree}
    (h : wfDel b false lo hi t = true) (hu : underflowA b t = false) :
    wfB b false lo hi t = true := by
  refine wfDel_to_wfB h ?_
  rw [underflowA, wfDel_isRoot h] at hu
  simp only [Bool.not_false, Bool.and_true, decide_eq_false_iff_not] at hu
  omega

theorem underflow_size {b : Nat} {lo hi : Option Key} {t : OTree} (hb : 2 ≤ b)
    (h : wfDel b false lo hi t = true) (hu : underflowA b t = true) :
    sizeEntries t = b - 2 := by
  have h1 := wfDel_size_ge h
  rw [underflowA, Bool.and_eq_true, decide_eq_true_eq] at hu
  omega

/-! ### Height and kind -/

theorem heightA_internal_ge {o : Offset} {r : Bool} {par : Option Offset}
    {cs : List OTree} {ks : List Key} (hne : cs ≠ []) :
    2 ≤ heightA (.internal o r par cs ks) := by
  cases cs with
  | nil => exact absurd rfl hne
  | cons c cs' =>
    rw [heightA, heightMaxL]
    have := heightA_pos c
    omega

/-! ### Sorted-sequence helpers -/

theorem sorted_le_getLast {ks : List Key} {m : Key} (hs : sortedB ks = true)
    (hlast : ks.getLast? = some m) : ∀ x ∈ ks, keyLeB x m = true := by
  intro x hx
  rw [List.getLast?_eq_getElem?] at hlast
  rcases List.getElem_of_mem hx with ⟨j, hj, rfl⟩
  have hlen : 0 < ks.length := by omega
  have hm : ks[ks.length - 1]? = some m := hlast
  rw [List.getElem?_eq_getElem (by omega)] at hm
  have hmeq : ks[ks.length - 1] = m := by
    injection hm
  by_cases hjl : j = ks.length - 1
  · subst hjl
    rw [hmeq]
    exact keyLe_refl _
  · have hjlt : j < ks.length - 1 := by omega
    rw [← hmeq]
    exact keyLe_of_lt (sortedB_getElem_lt hs hjlt (by omega))

theorem sortedB_set_nbhd {ks : List Key} {m : Key} {j : Nat}
    (hs : sortedB ks = true) (hj : j < ks.length)
    (hblo : ∀ (h0 : 0 < j), keyLtB ks[j - 1] m = true)
    (hbhi : ∀ (hj1 : j + 1 < ks.length), keyLtB m ks[j + 1] = true) :
    sortedB (ks.set j m) = true := by
  rw [set_eq_take_cons_drop _ _ _ hj, sortedB_append]
  refine ⟨sortedB_take _ hs, ?_, ?_⟩
  · rw [sortedB_cons]
    refine ⟨?_, sortedB_drop _ hs⟩
    intro x hx
    rcases List.mem_iff_getElem.mp hx with ⟨l, hl, rfl⟩
    rw [List.getElem_drop]
    have hlen : j + 1 + l < ks.length := by
      simp only [List.length_drop] at hl
      omega
    have h1 : keyLtB m ks[j + 1] = true := hbhi (by omega)
    by_cases hl0 : l = 0
    · subst hl0
      exact h1
    · exact keyLt_trans h1 (sortedB_getElem_lt hs (by omega) hlen)
  · intro x hx y hy
    rcases List.mem_iff_getElem.mp hx with ⟨l, hl, rfl⟩
    have hllen : l < ks.length := by
      have := List.length_take_le j ks
      omega
    have hlj : l < j := by
      simp only [List.length_take] at hl
      omega
    rw [List.getElem_take]
    have hxm : keyLtB ks[l] m = true := by
      have h0 : 0 < j := by omega
      by_cases hlj1 : l = j - 1
      · subst hlj1
        exact hblo h0
      · exact keyLt_trans (sortedB_getElem_lt hs (by omega) (by omega)) (hblo h0)
    rcases List.mem_cons.mp hy with rfl | hy
    · exact hxm
    · rcases List.mem_iff_getElem.mp hy with ⟨l2, hl2, rfl⟩
      rw [List.getElem_drop]
      have hstrict : j + 1 + l2 < ks.length := by
        simp only [List.length_drop] at hl2
        omega
      exact sortedB_getElem_lt hs (by omega) hstrict

/-! ### Range helpers -/

theorem childLo_lt_lo {lo hi : Option Key} {ks : List Key} {j : Nat} {x : Key}
    (hkin : ∀ k' ∈ ks, inRangeB lo hi k' = true)
    (hj : j ≤ ks.length)
    (h : loLtB (childLo lo ks j) x = true) : loLtB lo x = true := by
  rw [childLo] at h
  by_cases h0 : j = 0
  · rw [if_pos h0] at h
    exact h
  · rw [if_neg h0] at h
    have hjlt : j - 1 < ks.length := by omega
    rw [List.getElem?_eq_getElem hjlt] at h
    have hin := inRangeB_mp (hkin ks[j - 1] (List.getElem_mem hjlt))
    exact loLt_of_lt hin.1 h

theorem childHi_le_hi {lo hi : Option Key} {ks : List Key} {j : Nat} {x : Key}
    (hkin : ∀ k' ∈ ks, inRangeB lo hi k' = true)
    (hj : j ≤ ks.length)
    (h : leHiB x (childHi hi ks j) = true) : leHiB x hi = true := by
  rw [childHi] at h
  by_cases hlen : j = ks.length
  · rw [if_pos hlen] at h
    exact h
  · rw [if_neg hlen] at h
    have hjlt : j < ks.length := by omega
    rw [List.getElem?_eq_getElem hjlt] at h
    have hin := inRangeB_mp (hkin ks[j] (List.getElem_mem hjlt))
    exact leHi_of_le h hin.2

theorem childLo_lt_self {lo hi : Option Key} {ks : List Key} {j : Nat}
    (hs : sortedB ks = true) (hkin : ∀ k' ∈ ks, inRangeB lo hi k' = true)
    (hj : j < ks.length) : loLtB (childLo lo ks j) ks[j] = true := by
  rw [childLo]
  by_cases h0 : j = 0
  · rw [if_pos h0]
    exact (inRangeB_mp (hkin ks[j] (List.getElem_mem hj))).1
  · rw [if_neg h0]
    rw [List.getElem?_eq_getElem (by omega : j - 1 < ks.length)]
    exact sortedB_getElem_lt hs (by omega) hj

theorem self_le_childHi {lo hi : Option Key} {ks : List Key} {j : Nat}
    (hs : sortedB ks = true) (hkin : ∀ k' ∈ ks, inRangeB lo hi k' = true)
    (hj : j < ks.length) : leHiB ks[j] (childHi hi ks (j + 1)) = true := by
  rw [childHi]
  by_cases hlen : j + 1 = ks.length
  · rw [if_pos hlen]
    exact (inRangeB_mp (hkin ks[j] (List.getElem_mem hj))).2
  · rw [if_neg hlen]
    rw [List.getElem?_eq_getElem (by omega : j + 1 < ks.length)]
    exact keyLe_of_lt (sortedB_getElem_lt hs (by omega) (by omega))

theorem wfDel_range_key {b : Nat} {lo hi : Option Key} {t : OTree} (hb : 2 ≤ b)
    (hne : 1 ≤ sizeEntries t)
    (h : wfDel b false lo hi t = true) :
    ∃ x, loLtB lo x = true ∧ leHiB x hi = true := by
  cases t with
  | leaf o isR par ps =>
    rcases wfDel_leaf_iff.mp h with ⟨-, -, -, -, h5⟩
    cases ps with
    | nil => simp [sizeEntries] at hne
    | cons p ps' =>
      exact ⟨p.key, inRangeB_mp (h5 p (List.mem_cons_self _ _))⟩
  | internal o isR par cs ks =>
    rcases wfDel_internal_iff.mp h with ⟨-, -, -, -, -, h6, -, -⟩
    cases ks with
    | nil => simp [sizeEntries] at hne
    | cons k0 ks' =>
      exact ⟨k0, inRangeB_mp (h6 k0 (List.mem_cons_self _ _))⟩

/-! ### eraseKeyP -/

theorem eraseKeyP_append (l1 l2 : List KeyValuePair) (k : Key) :
    eraseKeyP (l1 ++ l2) k = eraseKeyP l1 k ++ eraseKeyP l2 k :=
  List.filter_append _ _

theorem eraseKeyP_eq_self {ps : List KeyValuePair} {k : Key}
    (h : ∀ p ∈ ps, p.key ≠ k) : eraseKeyP ps k = ps := by
  rw [eraseKeyP, List.filter_eq_self]
  intro p hp
  simp [h p hp]

theorem eraseKeyP_sorted {ps : List KeyValuePair} {k : Key}
    (hs : sortedB (ps.map (fun p => p.key)) = true)
    (hk : k ∈ ps.map (fun p => p.key)) :
    eraseKeyP ps k = ps.take (countLtP ps k) ++ ps.drop (countLtP ps k + 1) := by
  have hfound := sorted_found hs hk
  rw [← countLtP_eq_keys] at hfound
  rcases hfound with ⟨hflt, hfeq⟩
  have hlt : countLtP ps k < ps.length := by
    simpa using hflt
  rw [List.getElem?_map, List.getElem?_eq_getElem hlt] at hfeq
  have hck : ps[countLtP ps k].key = k := by
    simpa using hfeq
  conv_lhs => rw [← list_take_cons_drop ps (countLtP ps k) hlt]
  rw [eraseKeyP_append]
  have h1 : eraseKeyP (ps.take (countLtP ps k)) k = ps.take (countLtP ps k) := by
    refine eraseKeyP_eq_self ?_
    intro p hp
    rcases List.mem_iff_getElem.mp hp with ⟨l, hl, rfl⟩
    have hllen : l < ps.length := by
      have := List.length_take_le (countLtP ps k) ps
      omega
    have hlc : l < countLtP ps k := by
      simp only [List.length_take] at hl
      omega
    rw [List.getElem_take]
    have hmap : keyLtB (ps.map (fun p => p.key))[l] k = true := by
      refine (sorted_lt_boundary hs k l (by simpa using hllen)).mpr ?_
      rw [← countLtP_eq_keys]
      exact hlc
    rw [List.getElem_map] at hmap
    exact keyLt_ne hmap
  rw [h1]
  congr 1
  rw [eraseKeyP, List.filter_cons]
  rw [if_neg (by simp [hck])]
  refine eraseKeyP_eq_self ?_
  intro p hp
  rcases List.mem_iff_getElem.mp hp with ⟨l, hl, rfl⟩
  have hllen : countLtP ps k + 1 + l < ps.length := by
    simp only [List.length_drop] at hl
    omega
  rw [List.getElem_drop]
  intro hcon
  have hmlen : countLtP ps k + 1 + l < (ps.map (fun p => p.key)).length := by
    simpa using hllen
  have hmap : keyLtB (ps.map (fun p => p.key))[countLtP ps k]
      (ps.map (fun p => p.key))[countLtP ps k + 1 + l] = true := by
    refine sortedB_getElem_lt hs (by omega) (by simpa using hllen)
  rw [List.getElem_map, List.getElem_map, hck, hcon] at hmap
  rw [keyLt_irrefl] at hmap
  cases hmap

theorem eraseKeyP_length {ps : List KeyValuePair} {k : Key}
    (hs : sortedB (ps.map (fun p => p.key)) = true)
    (hk : k ∈ ps.map (fun p => p.key)) :
    (eraseKeyP ps k).length + 1 = ps.length := by
  have hlt : countLtP ps k < ps.length := by
    have := (sorted_found hs hk).1
    rw [← countLtP_eq_keys] at this
    simpa using this
  rw [eraseKeyP_sorted hs hk, List.length_append, List.length_take,
    List.length_drop]
  omega

theorem eraseIdx_take_drop {α : Type} :
    ∀ (l : List α) (i : Nat), i < l.length →
      l.eraseIdx i = l.take i ++ l.drop (i + 1)
  | [], i, h => by simp at h
  | x :: l, 0, _ => by simp [List.eraseIdx]
  | x :: l, i + 1, h => by
    rw [List.eraseIdx, List.take, List.drop, List.cons_append]
    rw [eraseIdx_take_drop l i (by simpa using h)]

/-! ### List splicing helpers -/

theorem set_set_decomp {α : Type} :
    ∀ (l : List α) (j : Nat) (x y : α), j + 1 < l.length →
      (l.set j x).set (j + 1) y = l.take j ++ x :: y :: l.drop (j + 2)
  | [], j, x, y, h => by simp at h
  | a :: l, 0, x, y, h => by
    simp only [List.set, List.take, List.drop, List.nil_append]
    rw [set_eq_take_cons_drop l 0 y (by simpa using h)]
    simp
  | a :: l, j + 1, x, y, h => by
    simp only [List.set, List.take, List.drop, List.cons_append]
    rw [set_set_decomp l j x y (by simpa using h)]

theorem take_succ_getElem {α : Type} (l : List α) (j : Nat) (h : j < l.length) :
    l.take (j + 1) = l.take j ++ [l[j]] :=
  (List.take_concat_get' l j h).symm

/-! ### Children-run surgery -/

theorem wfChildrenB_set_head {b : Nat} {ks : List Key} {cs : List OTree}
    {lo1 lo2 hi : Option Key} {c2 : OTree}
    (h : wfChildrenB b lo1 ks cs hi = true)
    (hc : wfB b false lo2 (childHi hi ks 0) c2 = true) :
    wfChildrenB b lo2 ks (cs.set 0 c2) hi = true := by
  cases ks with
  | nil =>
    rcases wfChildrenB_nil_iff.mp h with ⟨c, rfl, -⟩
    rw [childHi_nil] at hc
    exact wfChildrenB_nil_iff.mpr ⟨c2, by simp, hc⟩
  | cons k ks2 =>
    rcases wfChildrenB_cons_iff.mp h with ⟨c, cs2, rfl, -, hrest⟩
    rw [childHi_cons_zero] at hc
    exact wfChildrenB_cons_iff.mpr ⟨c2, cs2, by simp, hc, hrest⟩

theorem wfChildrenB_set2 {b : Nat} :
    ∀ {ks : List Key} {cs : List OTree} {lo hi : Option Key} {j : Nat}
      {m : Key} {l2 c2 : OTree},
      wfChildrenB b lo ks cs hi = true → j + 1 < cs.length →
      wfB b false (childLo lo ks j) (some m) l2 = true →
      wfB b false (some m) (childHi hi ks (j + 1)) c2 = true →
      wfChildrenB b lo (ks.set j m) ((cs.set j l2).set (j + 1) c2) hi = true := by
  intro ks
  induction ks with
  | nil =>
    intro cs lo hi j m l2 c2 h hj hl hc
    rcases wfChildrenB_nil_iff.mp h with ⟨c, rfl, -⟩
    simp at hj
  | cons k ks ih =>
    intro cs lo hi j m l2 c2 h hj hl hc
    rcases wfChildrenB_cons_iff.mp h with ⟨c, cs2, rfl, hc0, hrest⟩
    cases j with
    | zero =>
      rw [childLo_zero] at hl
      rw [childHi_succ] at hc
      simp only [List.set]
      exact wfChildrenB_cons_iff.mpr
        ⟨l2, cs2.set 0 c2, rfl, hl, wfChildrenB_set_head hrest hc⟩
    | succ j =>
      have hj2 : j + 1 < cs2.length := by simpa using hj
      rw [childLo_succ] at hl
      rw [childHi_succ] at hc
      refine wfChildrenB_cons_iff.mpr
        ⟨c, (cs2.set j l2).set (j + 1) c2, ?_, hc0, ih hrest hj2 hl hc⟩
      simp [List.set]

theorem wfChildrenB_merge {b : Nat} :
    ∀ {ks : List Key} {cs : List OTree} {lo hi : Option Key} {j : Nat}
      {mN : OTree},
      wfChildrenB b lo ks cs hi = true → j < ks.length →
      wfB b false (childLo lo ks j) (childHi hi ks (j + 1)) mN = true →
      wfChildrenB b lo (ks.take j ++ ks.drop (j + 1))
        (cs.take j ++ mN :: cs.drop (j + 2)) hi = true := by
  intro ks
  induction ks with
  | nil =>
    intro cs lo hi j mN h hj hm
    simp at hj
  | cons k ks ih =>
    intro cs lo hi j mN h hj hm
    rcases wfChildrenB_cons_iff.mp h with ⟨c, cs2, rfl, hc0, hrest⟩
    cases j with
    | zero =>
      rw [childLo_zero, childHi_succ] at hm
      simp only [List.take, List.drop, List.nil_append]
      cases ks with
      | nil =>
        rcases wfChildrenB_nil_iff.mp hrest with ⟨c1, rfl, -⟩
        rw [childHi_nil] at hm
        exact wfChildrenB_nil_iff.mpr ⟨mN, by simp, hm⟩
      | cons k1 ks2 =>
        rcases wfChildrenB_cons_iff.mp hrest with ⟨c1, cs3, rfl, -, hrest2⟩
        rw [childHi_cons_zero] at hm
        exact wfChildrenB_cons_iff.mpr ⟨mN, cs3, by simp, hm, hrest2⟩
    | succ j =>
      have hj2 : j < ks.length := by simpa using hj
      rw [childLo_succ, childHi_succ] at hm
      refine wfChildrenB_cons_iff.mpr
        ⟨c, cs2.take j ++ mN :: cs2.drop (j + 2), ?_, hc0, ih hrest hj2 hm⟩
      simp [List.take, List.drop]

/-! ### Sibling borrow: from the left -/

theorem leHi_some (x z : Key) : leHiB x (some z) = keyLeB x z := rfl

theorem loLt_some (x z : Key) : loLtB (some z) x = keyLtB z x := rfl

theorem internal_keys_lt_sep {b : Nat} {L : Option Key} {sepK : Key}
    {cs : List OTree} {ks : List Key} (hb : 2 ≤ b)
    (hch : wfChildrenB b L ks cs (some sepK) = true)
    (hs : sortedB ks = true) :
    ∀ x ∈ ks, keyLtB x sepK = true := by
  intro x hx
  have hlen := wfChildrenB_len hch
  have hne : ks ≠ [] := List.ne_nil_of_mem hx
  have hkpos : 0 < ks.length := List.length_pos.mpr hne
  have hlastlt : ks.length - 1 < ks.length := by omega
  have hlastc : ks.length < cs.length := by omega
  have hcwf := wfChildrenB_get hch ks.length hlastc
  have hlow : childLo L ks ks.length = some ks[ks.length - 1] := by
    rw [childLo, if_neg (by omega)]
    exact List.getElem?_eq_getElem hlastlt
  have hhigh : childHi (some sepK) ks ks.length = some sepK := by
    rw [childHi, if_pos rfl]
  rw [hlow, hhigh] at hcwf
  rcases wf_range_key hb hcwf with ⟨y, hy1, hy2⟩
  rw [loLt_some] at hy1
  rw [leHi_some] at hy2
  have hlt : keyLtB ks[ks.length - 1] sepK = true := keyLt_of_lt_of_le hy1 hy2
  rcases List.getElem_of_mem hx with ⟨j, hj, rfl⟩
  by_cases hjl : j = ks.length - 1
  · subst hjl
    exact hlt
  · exact keyLt_trans (sortedB_getElem_lt hs (by omega) hlastlt) hlt

set_option maxHeartbeats 1000000 in
theorem borrowFromLeft_spec {b : Nat} {L H : Option Key} {sep : Key}
    {lsib ci : OTree} (hb : 2 ≤ b)
    (hl : wfB b false L (some sep) lsib = true)
    (hc : wfDel b false (some sep) H ci = true)
    (hspare : b - 1 < sizeEntries lsib)
    (hsmall : sizeEntries ci < b - 1)
    (hh : heightA lsib = heightA ci)
    (hsepH : leHiB sep H = true) :
    ∃ l2 c2 m, borrowFromLeft ci lsib sep = some (l2, c2, m) ∧
      wfB b false L (some m) l2 = true ∧
      wfB b false (some m) H c2 = true ∧
      loLtB L m = true ∧ keyLtB m sep = true ∧
      pairsA l2 ++ pairsA c2 = pairsA lsib ++ pairsA ci ∧
      heightA l2 = heightA lsib ∧ heightA c2 = heightA ci ∧
      (offsA l2 ++ offsA c2).Perm (offsA lsib ++ offsA ci) ∧
      offOf l2 = offOf lsib ∧ offOf c2 = offOf ci := by
  cases lsib with
  | leaf lo1 lr lp lps =>
    cases ci with
    | internal co cr cp ccs cks =>
      exfalso
      rcases wfDel_internal_iff.mp hc with ⟨-, hclen, -, -, -, -, -, -⟩
      have hcne : ccs ≠ [] := by
        intro hcon
        rw [hcon] at hclen
        simp at hclen
      have h2 := @heightA_internal_ge co cr cp _ cks hcne
      rw [heightA] at hh
      omega
    | leaf co cr cp cps =>
      rcases wfB_leaf_iff.mp hl with ⟨hlr, -, hlle, hlS, hlin⟩
      rcases wfDel_leaf_iff.mp hc with ⟨hcr, hclow, -, hcS, hcin⟩
      have hclow2 : b - 2 ≤ cps.length := hclow.resolve_left (by simp)
      simp only [sizeEntries] at hspare hsmall
      have hlne : lps ≠ [] := by
        intro hcon
        rw [hcon] at hspare
        simp at hspare
      have hlpos : 0 < lps.length := List.length_pos.mpr hlne
      have hlps2 : 2 ≤ lps.length := by omega
      have hdl : lps.dropLast.length = lps.length - 1 := List.length_dropLast lps
      have hlast : lps.getLast? = some lps[lps.length - 1] := by
        rw [List.getLast?_eq_getLast lps hlne, List.getLast_eq_getElem]
      have hdlne : lps.dropLast ≠ [] := by
        intro hcon
        rw [hcon] at hdl
        simp at hdl
        omega
      have hdlast : lps.dropLast.getLast? = some lps[lps.length - 1 - 1] := by
        rw [List.getLast?_eq_getElem?, hdl]
        have h3 : lps.length - 1 - 1 < lps.dropLast.length := by
          rw [hdl]
          omega
        rw [List.getElem?_eq_getElem h3]
        rw [List.getElem_dropLast]
      have hqp : keyLtB lps[lps.length - 1 - 1].key lps[lps.length - 1].key
          = true := by
        have h := sortedB_getElem_lt hlS
          (show lps.length - 1 - 1 < lps.length - 1 by omega)
          (show lps.length - 1 < (lps.map (fun p => p.key)).length by
            rw [List.length_map]; omega)
        rw [List.getElem_map, List.getElem_map] at h
        exact h
      have hpin := inRangeB_mp (hlin _ (List.getElem_mem
        (show lps.length - 1 < lps.length by omega)))
      have hqin := inRangeB_mp (hlin _ (List.getElem_mem
        (show lps.length - 1 - 1 < lps.length by omega)))
      have hple : keyLeB lps[lps.length - 1].key sep = true := by
        rw [← leHi_some]
        exact hpin.2
      have hmsep : keyLtB lps[lps.length - 1 - 1].key sep = true :=
        keyLt_of_lt_of_le hqp hple
      refine ⟨.leaf lo1 lr lp lps.dropLast,
        .leaf co cr cp (lps[lps.length - 1] :: cps),
        lps[lps.length - 1 - 1].key, ?_, ?_, ?_, ?_, hmsep, ?_, rfl, rfl, ?_,
        rfl, rfl⟩
      · simp only [borrowFromLeft]
        rw [hlast, hdlast]
        rfl
      · refine wfB_leaf_iff.mpr ⟨hlr, Or.inr ?_, ?_, ?_, ?_⟩
        · rw [hdl]
          omega
        · rw [hdl]
          omega
        · exact sortedB_sublist (List.Sublist.map _ (List.dropLast_sublist lps))
            hlS
        · intro p2 hp2
          rcases List.mem_iff_getElem.mp hp2 with ⟨l, hldx, rfl⟩
          have hxl : l < lps.length - 1 := by
            rw [hdl] at hldx
            omega
          rw [List.getElem_dropLast]
          refine inRangeB_mk ?_ ?_
          · exact (inRangeB_mp (hlin _ (List.getElem_mem (by omega)))).1
          · rw [leHi_some]
            by_cases hleq : l = lps.length - 1 - 1
            · subst hleq
              exact keyLe_refl _
            · refine keyLe_of_lt ?_
              have h := sortedB_getElem_lt hlS
                (show l < lps.length - 1 - 1 by omega)
                (show lps.length - 1 - 1 < (lps.map (fun p => p.key)).length by
                  rw [List.length_map]; omega)
              rw [List.getElem_map, List.getElem_map] at h
              exact h
      · refine wfB_leaf_iff.mpr ⟨hcr, Or.inr ?_, ?_, ?_, ?_⟩
        · simp only [List.length_cons]
          omega
        · simp only [List.length_cons]
          omega
        · simp only [List.map_cons]
          rw [sortedB_cons]
          refine ⟨?_, hcS⟩
          intro x hx
          rcases List.mem_map.mp hx with ⟨q, hq, rfl⟩
          have hsq : keyLtB sep q.key = true := by
            rw [← loLt_some]
            exact (inRangeB_mp (hcin q hq)).1
          exact keyLt_of_le_of_lt hple hsq
        · intro p2 hp2
          rcases List.mem_cons.mp hp2 with rfl | hp2
          · refine inRangeB_mk ?_ ?_
            · rw [loLt_some]
              exact hqp
            · exact leHi_of_le hple hsepH
          · have hin2 := inRangeB_mp (hcin p2 hp2)
            refine inRangeB_mk ?_ ?_
            · rw [loLt_some]
              have hsq : keyLtB sep p2.key = true := by
                rw [← loLt_some]
                exact hin2.1
              exact keyLt_trans hmsep hsq
            · exact hin2.2
      · exact hqin.1
      · simp only [pairsA]
        rw [List.append_cons]
        congr 1
        have hgl2 : lps.getLast hlne = lps[lps.length - 1] := by
          rw [List.getLast_eq_getElem]
        rw [← hgl2]
        exact List.dropLast_append_getLast hlne
      · exact List.Perm.refl _
  | internal lo1 lr lp lcs lks =>
    cases ci with
    | leaf co cr cp cps =>
      exfalso
      rcases wfB_internal_iff.mp hl with ⟨-, hllen, -, -, -, -, -, -⟩
      have hlne : lcs ≠ [] := by
        intro hcon
        rw [hcon] at hllen
        simp at hllen
      have h2 := @heightA_internal_ge lo1 lr lp _ lks hlne
      rw [show heightA (OTree.leaf co cr cp cps) = 1 from rfl] at hh
      omega
    | internal co cr cp ccs cks =>
      rcases wfB_internal_iff.mp hl with
        ⟨hlr, hllen, hlb0, hlle, hlS, hlin, hluni, hlch⟩
      rcases wfDel_internal_iff.mp hc with
        ⟨hcr, hclen, hclow, hcle, hcS, hcin, hcuni, hcch⟩
      have hclow2 : b - 2 ≤ cks.length := hclow.resolve_left (by simp)
      simp only [sizeEntries] at hspare hsmall
      have hlkpos : 0 < lks.length := by omega
      have hlkne : lks ≠ [] := by
        intro hcon
        rw [hcon] at hlkpos
        simp at hlkpos
      have hlcne : lcs ≠ [] := by
        intro hcon
        rw [hcon] at hllen
        simp at hllen
      have hklast : lks.getLast? = some lks[lks.length - 1] := by
        rw [List.getLast?_eq_getLast lks hlkne, List.getLast_eq_getElem]
      have hclast : lcs.getLast? = some lcs[lks.length] := by
        have h6 : lcs.length - 1 = lks.length := by omega
        rw [List.getLast?_eq_getElem?, h6]
        exact List.getElem?_eq_getElem (by omega)
      have hlastwf := wfChildrenB_get hlch lks.length (by omega)
      have hlow : childLo L lks lks.length = some lks[lks.length - 1] := by
        rw [childLo, if_neg (by omega)]
        exact List.getElem?_eq_getElem (by omega)
      have hhigh : childHi (some sep) lks lks.length = some sep := by
        rw [childHi, if_pos rfl]
      rw [hlow, hhigh] at hlastwf
      rcases wf_range_key hb hlastwf with ⟨y, hy1, hy2⟩
      rw [loLt_some] at hy1
      rw [leHi_some] at hy2
      have hmsep : keyLtB lks[lks.length - 1] sep = true :=
        keyLt_of_lt_of_le hy1 hy2
      have hmin := inRangeB_mp (hlin _ (List.getElem_mem
        (show lks.length - 1 < lks.length by omega)))
      have hHm : heightMaxL lcs = heightMaxL ccs := by
        rw [heightA, heightA] at hh
        omega
      have hlcH : heightA lcs[lks.length] = heightMaxL lcs :=
        uniform_heights_eq hluni (List.getElem_mem (by omega))
      have hdlk : lks.dropLast.length = lks.length - 1 :=
        List.length_dropLast lks
      have hdlc : lcs.dropLast.length = lcs.length - 1 :=
        List.length_dropLast lcs
      have hgl : lcs.getLast hlcne = lcs[lks.length] := by
        have h1 : lcs.getLast? = some (lcs.getLast hlcne) :=
          List.getLast?_eq_getLast _ _
        rw [hclast] at h1
        injection h1 with h1
        exact h1.symm
      have hlcsd : lcs.dropLast ++ [lcs[lks.length]] = lcs := by
        rw [← hgl]
        exact List.dropLast_append_getLast hlcne
      refine ⟨.internal lo1 lr lp lcs.dropLast lks.dropLast,
        .internal co cr cp (lcs[lks.length] :: ccs) (sep :: cks),
        lks[lks.length - 1], ?_, ?_, ?_, hmin.1, hmsep, ?_, ?_, ?_, ?_,
        rfl, rfl⟩
      · simp only [borrowFromLeft]
        rw [hklast, hclast]
      · refine wfB_internal_iff.mpr ⟨hlr, ?_, ?_, ?_, ?_, ?_, ?_, ?_⟩
        · rw [hdlk, hdlc, hllen]
          omega
        · rw [if_neg (by simp), hdlk]
          omega
        · rw [hdlk]
          omega
        · exact sortedB_sublist (List.dropLast_sublist lks) hlS
        · intro x hx
          rcases List.mem_iff_getElem.mp hx with ⟨l, hldx, rfl⟩
          have hxl : l < lks.length - 1 := by
            rw [hdlk] at hldx
            omega
          rw [List.getElem_dropLast]
          refine inRangeB_mk ?_ ?_
          · exact (inRangeB_mp (hlin _ (List.getElem_mem (by omega)))).1
          · rw [leHi_some]
            exact keyLe_of_lt (sortedB_getElem_lt hlS (by omega) (by omega))
        · refine @uniformHeights_of_all _ (heightMaxL lcs) ?_
          intro d hd
          exact uniform_heights_eq hluni (List.mem_of_mem_dropLast hd)
        · exact wfChildrenB_dropLast hklast hlch
      · refine wfB_internal_iff.mpr ⟨hcr, ?_, ?_, ?_, ?_, ?_, ?_, ?_⟩
        · simp only [List.length_cons]
          omega
        · rw [if_neg (by simp)]
          simp only [List.length_cons]
          omega
        · simp only [List.length_cons]
          omega
        · rw [sortedB_cons]
          refine ⟨?_, hcS⟩
          intro x hx
          rw [← loLt_some]
          exact (inRangeB_mp (hcin x hx)).1
        · intro x hx
          rcases List.mem_cons.mp hx with rfl | hx
          · refine inRangeB_mk ?_ ?_
            · rw [loLt_some]
              exact hmsep
            · exact hsepH
          · have hin2 := inRangeB_mp (hcin x hx)
            refine inRangeB_mk ?_ ?_
            · rw [loLt_some]
              have hsx : keyLtB sep x = true := by
                rw [← loLt_some]
                exact hin2.1
              exact keyLt_trans hmsep hsx
            · exact hin2.2
        · refine @uniformHeights_of_all _ (heightMaxL ccs) ?_
          intro d hd
          rcases List.mem_cons.mp hd with rfl | hd
          · rw [hlcH, hHm]
          · exact uniform_heights_eq hcuni hd
        · refine wfChildrenB_cons_iff.mpr ⟨lcs[lks.length], ccs, rfl, ?_, hcch⟩
          exact hlastwf
      · rw [pairsA, pairsA, pairsA, pairsA]
        conv_rhs => rw [← hlcsd, pairsL_append]
        have hsing : pairsL [lcs[lks.length]] = pairsA lcs[lks.length] := by
          rw [pairsL, pairsL, List.append_nil]
        rw [hsing, pairsL, List.append_assoc]
      · rw [heightA, heightA]
        congr 1
        refine heightMaxL_of_all ?_ ?_
        · intro d hd
          exact uniform_heights_eq hluni (List.mem_of_mem_dropLast hd)
        · intro hcon
          rw [hcon] at hdlc
          simp at hdlc
          omega
      · rw [heightA, heightA, heightMaxL, hlcH, hHm, Nat.max_self]
        rw [heightA]
      · rw [offsA, offsA, offsA, offsA]
        have hofsl : offsL lcs = offsL lcs.dropLast ++ offsA lcs[lks.length]
            := by
          conv_lhs => rw [← hlcsd]
          rw [offsL_append]
          congr 1
          rw [offsL, offsL, List.append_nil]
        rw [hofsl, offsL]
        simp only [List.cons_append]
        refine List.Perm.cons _ ?_
        refine List.Perm.trans List.perm_middle ?_
        rw [← List.append_assoc]
        exact List.perm_middle.symm

/-! ### Sibling borrow: from the right -/

set_option maxHeartbeats 1000000 in
theorem borrowFromRight_spec {b : Nat} {L H : Option Key} {sep : Key}
    {ci rsib : OTree} (hb : 2 ≤ b)
    (hc : wfDel b false L (some sep) ci = true)
    (hr : wfB b false (some sep) H rsib = true)
    (hspare : b - 1 < sizeEntries rsib)
    (hsmall : sizeEntries ci < b - 1)
    (hh : heightA ci = heightA rsib)
    (hLsep : loLtB L sep = true) :
    ∃ c2 r2 m, borrowFromRight ci rsib sep = some (c2, r2, m) ∧
      wfB b false L (some m) c2 = true ∧
      wfB b false (some m) H r2 = true ∧
      keyLtB sep m = true ∧ leHiB m H = true ∧
      (∀ z, H = some z → keyLtB m z = true) ∧
      pairsA c2 ++ pairsA r2 = pairsA ci ++ pairsA rsib ∧
      heightA c2 = heightA ci ∧ heightA r2 = heightA rsib ∧
      (offsA c2 ++ offsA r2).Perm (offsA ci ++ offsA rsib) ∧
      offOf c2 = offOf ci ∧ offOf r2 = offOf rsib := by
  cases ci with
  | leaf co cr cp cps =>
    cases rsib with
    | internal ro rr rp rcs rks =>
      exfalso
      rcases wfB_internal_iff.mp hr with ⟨-, hrlen, -, -, -, -, -, -⟩
      have hrne : rcs ≠ [] := by
        intro hcon
        rw [hcon] at hrlen
        simp at hrlen
      have h2 := @heightA_internal_ge ro rr rp _ rks hrne
      rw [show heightA (OTree.leaf co cr cp cps) = 1 from rfl] at hh
      omega
    | leaf ro rr rp rps =>
      rcases wfDel_leaf_iff.mp hc with ⟨hcr, hclow, -, hcS, hcin⟩
      rcases wfB_leaf_iff.mp hr with ⟨hrr, -, hrle, hrS, hrin⟩
      have hclow2 : b - 2 ≤ cps.length := hclow.resolve_left (by simp)
      simp only [sizeEntries] at hspare hsmall
      cases rps with
      | nil =>
        exfalso
        simp at hspare
      | cons p rest =>
        have hrest2 : 1 ≤ rest.length := by
          simp only [List.length_cons] at hspare
          omega
        have hpin := inRangeB_mp (hrin p (List.mem_cons_self _ _))
        have hsepm : keyLtB sep p.key = true := by
          rw [← loLt_some]
          exact hpin.1
        have hconsS := sortedB_cons.mp (by simpa using hrS)
        have hmz : ∀ z, H = some z → keyLtB p.key z = true := by
          intro z hz
          cases rest with
          | nil => simp at hrest2
          | cons q rest2 =>
            have hpq : keyLtB p.key q.key = true := by
              refine hconsS.1 q.key ?_
              simp
            have hqz : keyLeB q.key z = true := by
              have := (inRangeB_mp (hrin q (by simp))).2
              rw [hz, leHi_some] at this
              exact this
            exact keyLt_of_lt_of_le hpq hqz
        refine ⟨.leaf co cr cp (cps ++ [p]), .leaf ro rr rp rest, p.key,
          rfl, ?_, ?_, hsepm, hpin.2, hmz, ?_, rfl, rfl, ?_, rfl, rfl⟩
        · refine wfB_leaf_iff.mpr ⟨hcr, Or.inr ?_, ?_, ?_, ?_⟩
          · simp only [List.length_append, List.length_cons, List.length_nil]
            omega
          · simp only [List.length_append, List.length_cons, List.length_nil]
            omega
          · rw [List.map_append]
            rw [sortedB_append]
            refine ⟨hcS, by simp [sortedB], ?_⟩
            intro x hx y hy
            rcases List.mem_map.mp hx with ⟨q, hq, rfl⟩
            simp only [List.map_cons, List.map_nil, List.mem_singleton] at hy
            subst hy
            have hqsep : keyLeB q.key sep = true := by
              have := (inRangeB_mp (hcin q hq)).2
              rw [leHi_some] at this
              exact this
            exact keyLt_of_le_of_lt hqsep hsepm
          · intro p2 hp2
            rcases List.mem_append.mp hp2 with hp2 | hp2
            · have hin2 := inRangeB_mp (hcin p2 hp2)
              refine inRangeB_mk hin2.1 ?_
              rw [leHi_some]
              have hqsep : keyLeB p2.key sep = true := by
                have := hin2.2
                rw [leHi_some] at this
                exact this
              exact keyLe_trans hqsep (keyLe_of_lt hsepm)
            · rw [List.mem_singleton] at hp2
              subst hp2
              refine inRangeB_mk ?_ ?_
              · exact loLt_of_lt hLsep hsepm
              · rw [leHi_some]
                exact keyLe_refl _
        · refine wfB_leaf_iff.mpr ⟨hrr, Or.inr ?_, ?_, ?_, ?_⟩
          · simp only [List.length_cons] at hspare
            omega
          · simp only [List.length_cons] at hrle
            omega
          · exact hconsS.2
          · intro p2 hp2
            refine inRangeB_mk ?_ ?_
            · rw [loLt_some]
              refine hconsS.1 p2.key ?_
              exact List.mem_map.mpr ⟨p2, hp2, rfl⟩
            · exact (inRangeB_mp (hrin p2 (List.mem_cons_of_mem _ hp2))).2
        · simp only [pairsA]
          rw [List.append_assoc]
          rfl
        · exact List.Perm.refl _
  | internal co cr cp ccs cks =>
    cases rsib with
    | leaf ro rr rp rps =>
      exfalso
      rcases wfDel_internal_iff.mp hc with ⟨-, hclen, -, -, -, -, -, -⟩
      have hcne : ccs ≠ [] := by
        intro hcon
        rw [hcon] at hclen
        simp at hclen
      have h2 := @heightA_internal_ge co cr cp _ cks hcne
      rw [show heightA (OTree.leaf ro rr rp rps) = 1 from rfl] at hh
      omega
    | internal ro rr rp rcs rks =>
      rcases wfDel_internal_iff.mp hc with
        ⟨hcr, hclen, hclow, hcle, hcS, hcin, hcuni, hcch⟩
      rcases wfB_internal_iff.mp hr with
        ⟨hrr, hrlen, hrb0, hrle, hrS, hrin, hruni, hrch⟩
      have hclow2 : b - 2 ≤ cks.length := hclow.resolve_left (by simp)
      simp only [sizeEntries] at hspare hsmall
      cases rks with
      | nil =>
        exfalso
        simp at hspare
      | cons fk rks2 =>
        cases rcs with
        | nil => simp at hrlen
        | cons fc rcs2 =>
          have hrks2 : 1 ≤ rks2.length := by
            simp only [List.length_cons] at hspare
            omega
          rcases wfChildrenB_cons_iff.mp hrch with ⟨fc0, rcs0, heq, hfc, hrch2⟩
          injection heq with heq1 heq2
          subst heq1
          subst heq2
          have hfkin := inRangeB_mp (hrin fk (List.mem_cons_self _ _))
          have hsepm : keyLtB sep fk = true := by
            rw [← loLt_some]
            exact hfkin.1
          have hconsS := sortedB_cons.mp hrS
          have hmz : ∀ z, H = some z → keyLtB fk z = true := by
            intro z hz
            cases rks2 with
            | nil => simp at hrks2
            | cons q rks3 =>
              have hpq : keyLtB fk q = true := hconsS.1 q (by simp)
              have hqz : keyLeB q z = true := by
                have := (inRangeB_mp (hrin q (by simp))).2
                rw [hz, leHi_some] at this
                exact this
              exact keyLt_of_lt_of_le hpq hqz
          have hHm : heightMaxL ccs = heightMaxL (fc :: rcs2) := by
            rw [heightA, heightA] at hh
            omega
          have hfcH : heightA fc = heightMaxL (fc :: rcs2) :=
            uniform_heights_eq hruni (List.mem_cons_self _ _)
          refine ⟨.internal co cr cp (ccs ++ [fc]) (cks ++ [sep]),
            .internal ro rr rp rcs2 rks2, fk,
            rfl, ?_, ?_, hsepm, hfkin.2, hmz, ?_, ?_, ?_, ?_, rfl, rfl⟩
          · refine wfB_internal_iff.mpr ⟨hcr, ?_, ?_, ?_, ?_, ?_, ?_, ?_⟩
            · simp only [List.length_append, List.length_cons, List.length_nil]
              omega
            · rw [if_neg (by simp)]
              simp only [List.length_append, List.length_cons, List.length_nil]
              omega
            · simp only [List.length_append, List.length_cons, List.length_nil]
              omega
            · rw [sortedB_append]
              refine ⟨hcS, by simp [sortedB], ?_⟩
              intro x hx y hy
              rw [List.mem_singleton] at hy
              subst hy
              exact internal_keys_lt_sep hb hcch hcS x hx
            · intro x hx
              rcases List.mem_append.mp hx with hx | hx
              · have hin2 := inRangeB_mp (hcin x hx)
                refine inRangeB_mk hin2.1 ?_
                rw [leHi_some]
                exact keyLe_of_lt
                  (keyLt_trans (internal_keys_lt_sep hb hcch hcS x hx) hsepm)
              · rw [List.mem_singleton] at hx
                subst hx
                refine inRangeB_mk hLsep ?_
                rw [leHi_some]
                exact keyLe_of_lt hsepm
            · refine @uniformHeights_of_all _ (heightMaxL ccs) ?_
              intro d hd
              rcases List.mem_append.mp hd with hd | hd
              · exact uniform_heights_eq hcuni hd
              · rw [List.mem_singleton] at hd
                subst hd
                rw [hfcH, hHm]
            · refine wfChildrenB_concat hcch ?_
              exact wfChildrenB_nil_iff.mpr ⟨fc, rfl, hfc⟩
          · refine wfB_internal_iff.mpr ⟨hrr, ?_, ?_, ?_, ?_, ?_, ?_, ?_⟩
            · have := wfChildrenB_len hrch2
              exact this
            · rw [if_neg (by simp)]
              simp only [List.length_cons] at hspare
              omega
            · simp only [List.length_cons] at hrle
              omega
            · exact hconsS.2
            · intro x hx
              refine inRangeB_mk ?_ ?_
              · rw [loLt_some]
                exact hconsS.1 x hx
              · exact (inRangeB_mp (hrin x (List.mem_cons_of_mem _ hx))).2
            · refine @uniformHeights_of_all _ (heightA fc) ?_
              intro d hd
              exact uniform_cons_iff.mp hruni d hd
            · exact hrch2
          · simp only [pairsA]
            rw [pairsL_append]
            have hsing : pairsL [fc] = pairsA fc := by
              rw [pairsL, pairsL, List.append_nil]
            rw [hsing, List.append_assoc, pairsL]
          · rw [heightA, heightA]
            congr 1
            refine heightMaxL_of_all ?_ (by simp)
            intro d hd
            rcases List.mem_append.mp hd with hd | hd
            · exact uniform_heights_eq hcuni hd
            · rw [List.mem_singleton] at hd
              subst hd
              rw [hfcH, hHm]
          · rw [heightA, heightA]
            congr 1
            rw [← hfcH]
            refine heightMaxL_of_all ?_ ?_
            · intro d hd
              exact uniform_cons_iff.mp hruni d hd
            · intro hcon
              have := wfChildrenB_len hrch2
              rw [hcon] at this
              simp at this
          · rw [offsA, offsA, offsA, offsA]
            have hofsc : offsL (ccs ++ [fc]) = offsL ccs ++ offsA fc := by
              rw [offsL_append]
              congr 1
              rw [offsL, offsL, List.append_nil]
            rw [hofsc, offsL]
            simp only [List.cons_append]
            refine List.Perm.cons _ ?_
            refine List.Perm.trans ?_ List.perm_middle.symm
            rw [← List.append_assoc]
            exact List.Perm.trans List.perm_middle (by rw [List.append_assoc])

/-! ### Sibling merge -/

set_option maxHeartbeats 1000000 in
theorem mergeNodes_spec {b : Nat} {L H : Option Key} {sep : Key} {l r : OTree}
    (hb : 2 ≤ b)
    (hl : wfDel b false L (some sep) l = true)
    (hr : wfDel b false (some sep) H r = true)
    (hsum : sizeEntries l + sizeEntries r ≤ 2 * b - 3)
    (hge : b - 1 ≤ sizeEntries l + sizeEntries r)
    (hh : heightA l = heightA r)
    (hLsep : loLtB L sep = true)
    (hsepH : leHiB sep H = true) :
    ∃ mN, mergeNodes l r sep = some mN ∧
      wfB b false L H mN = true ∧
      pairsA mN = pairsA l ++ pairsA r ∧
      heightA mN = heightA l ∧
      offOf mN = offOf l ∧ isRootOf mN = isRootOf l ∧ parentOf mN = parentOf l ∧
      (offsA mN).Sublist (offsA l ++ offsA r) := by
  cases l with
  | leaf lo1 lr lp lps =>
    cases r with
    | internal ro rr rp rcs rks =>
      exfalso
      rcases wfDel_internal_iff.mp hr with ⟨-, hrlen, -, -, -, -, -, -⟩
      have hrne : rcs ≠ [] := by
        intro hcon
        rw [hcon] at hrlen
        simp at hrlen
      have h2 := @heightA_internal_ge ro rr rp _ rks hrne
      rw [show heightA (OTree.leaf lo1 lr lp lps) = 1 from rfl] at hh
      omega
    | leaf ro rr rp rps =>
      rcases wfDel_leaf_iff.mp hl with ⟨hlr, -, -, hlS, hlin⟩
      rcases wfDel_leaf_iff.mp hr with ⟨-, -, -, hrS, hrin⟩
      simp only [sizeEntries] at hsum hge
      refine ⟨.leaf lo1 lr lp (lps ++ rps), rfl, ?_, ?_, rfl, rfl, rfl, rfl, ?_⟩
      · refine wfB_leaf_iff.mpr ⟨hlr, Or.inr ?_, ?_, ?_, ?_⟩
        · simp only [List.length_append]
          omega
        · simp only [List.length_append]
          omega
        · rw [List.map_append, sortedB_append]
          refine ⟨hlS, hrS, ?_⟩
          intro x hx y hy
          rcases List.mem_map.mp hx with ⟨p, hp, rfl⟩
          rcases List.mem_map.mp hy with ⟨q, hq, rfl⟩
          have hps : keyLeB p.key sep = true := by
            have := (inRangeB_mp (hlin p hp)).2
            rw [leHi_some] at this
            exact this
          have hsq : keyLtB sep q.key = true := by
            rw [← loLt_some]
            exact (inRangeB_mp (hrin q hq)).1
          exact keyLt_of_le_of_lt hps hsq
        · intro p hp
          rcases List.mem_append.mp hp with hp | hp
          · have hin2 := inRangeB_mp (hlin p hp)
            refine inRangeB_mk hin2.1 ?_
            have hps : keyLeB p.key sep = true := by
              have := hin2.2
              rw [leHi_some] at this
              exact this
            exact leHi_of_le hps hsepH
          · have hin2 := inRangeB_mp (hrin p hp)
            refine inRangeB_mk ?_ hin2.2
            have hsp : keyLtB sep p.key = true := by
              rw [← loLt_some]
              exact hin2.1
            exact loLt_of_lt hLsep hsp
      · simp only [pairsA]
      · rw [offsA, offsA, offsA]
        exact List.Sublist.cons₂ _ (List.nil_sublist _)
  | internal lo1 lr lp lcs lks =>
    cases r with
    | leaf ro rr rp rps =>
      exfalso
      rcases wfDel_internal_iff.mp hl with ⟨-, hllen, -, -, -, -, -, -⟩
      have hlne : lcs ≠ [] := by
        intro hcon
        rw [hcon] at hllen
        simp at hllen
      have h2 := @heightA_internal_ge lo1 lr lp _ lks hlne
      rw [show heightA (OTree.leaf ro rr rp rps) = 1 from rfl] at hh
      omega
    | internal ro rr rp rcs rks =>
      rcases wfDel_internal_iff.mp hl with
        ⟨hlr, hllen, -, -, hlS, hlin, hluni, hlch⟩
      rcases wfDel_internal_iff.mp hr with
        ⟨-, hrlen, -, -, hrS, hrin, hruni, hrch⟩
      simp only [sizeEntries] at hsum hge
      have hHm : heightMaxL lcs = heightMaxL rcs := by
        rw [heightA, heightA] at hh
        omega
      have hlcne : lcs ≠ [] := by
        intro hcon
        rw [hcon] at hllen
        simp at hllen
      refine ⟨.internal lo1 lr lp (lcs ++ rcs) (lks ++ sep :: rks), rfl,
        ?_, ?_, ?_, rfl, rfl, rfl, ?_⟩
      · refine wfB_internal_iff.mpr ⟨hlr, ?_, ?_, ?_, ?_, ?_, ?_, ?_⟩
        · simp only [List.length_append, List.length_cons]
          omega
        · rw [if_neg (by simp)]
          simp only [List.length_append, List.length_cons]
          omega
        · simp only [List.length_append, List.length_cons]
          omega
        · rw [sortedB_append]
          refine ⟨hlS, ?_, ?_⟩
          · rw [sortedB_cons]
            refine ⟨?_, hrS⟩
            intro x hx
            rw [← loLt_some]
            exact (inRangeB_mp (hrin x hx)).1
          · intro x hx y hy
            have hxsep : keyLtB x sep = true :=
              internal_keys_lt_sep hb hlch hlS x hx
            rcases List.mem_cons.mp hy with rfl | hy
            · exact hxsep
            · have hsy : keyLtB sep y = true := by
                rw [← loLt_some]
                exact (inRangeB_mp (hrin y hy)).1
              exact keyLt_trans hxsep hsy
        · intro x hx
          rcases List.mem_append.mp hx with hx | hx
          · have hin2 := inRangeB_mp (hlin x hx)
            refine inRangeB_mk hin2.1 ?_
            refine leHi_of_lt (internal_keys_lt_sep hb hlch hlS x hx) hsepH
          · rcases List.mem_cons.mp hx with rfl | hx
            · exact inRangeB_mk hLsep hsepH
            · have hin2 := inRangeB_mp (hrin x hx)
              refine inRangeB_mk ?_ hin2.2
              have hsx : keyLtB sep x = true := by
                rw [← loLt_some]
                exact hin2.1
              exact loLt_of_lt hLsep hsx
        · refine @uniformHeights_of_all _ (heightMaxL lcs) ?_
          intro d hd
          rcases List.mem_append.mp hd with hd | hd
          · exact uniform_heights_eq hluni hd
          · rw [hHm]
            exact uniform_heights_eq hruni hd
        · exact wfChildrenB_concat hlch hrch
      · simp only [pairsA]
        exact pairsL_append lcs rcs
      · rw [heightA, heightA]
        congr 1
        refine heightMaxL_of_all ?_ ?_
        · intro d hd
          rcases List.mem_append.mp hd with hd | hd
          · exact uniform_heights_eq hluni hd
          · rw [hHm]
            exact uniform_heights_eq hruni hd
        · intro hcon
          rw [List.append_eq_nil] at hcon
          exact hlcne hcon.1
      · rw [offsA, offsA, offsA, offsL_append]
        simp only [List.cons_append]
        refine List.Sublist.cons₂ _ ?_
        exact List.Sublist.append_left (List.sublist_cons_self _ _) _

/-! ### Underflow repair -/

set_option maxHeartbeats 2000000 in
theorem repair_spec {b : Nat} {o : Offset} {r : Bool} {par : Option Offset}
    {cs : List OTree} {ks : List Key} {rt : Bool} {lo hi : Option Key}
    {i : Nat} {ci2 : OTree}
    (hb : 2 ≤ b)
    (hwf : wfB b rt lo hi (.internal o r par cs ks) = true)
    (hilt : i < cs.length)
    (hcwf : wfDel b false (childLo lo ks i) (childHi hi ks i) ci2 = true)
    (hheight : heightA ci2 = heightMaxL cs)
    (hunder : underflowA b ci2 = true) :
    ∃ t2, repair b o r par cs ks i ci2 = .ok t2 ∧
      wfDel b rt lo hi t2 = true ∧
      pairsA t2 = pairsL (cs.take i) ++ pairsA ci2 ++ pairsL (cs.drop (i + 1)) ∧
      heightA t2 = heightA (.internal o r par cs ks) ∧
      offOf t2 = o ∧ isRootOf t2 = r ∧ parentOf t2 = par ∧
      (offsA t2).Subperm
        (o :: (offsL (cs.take i) ++ offsA ci2 ++ offsL (cs.drop (i + 1)))) := by
  rcases wfB_internal_iff.mp hwf with ⟨hreq, hlen, hb0, hle, hS, hin, huni, hch⟩
  have hkpos : 1 ≤ ks.length := by
    by_cases hrt : rt = true
    · rw [hrt, if_pos rfl] at hb0
      exact hb0
    · rw [if_neg hrt] at hb0
      omega
  have hile : i ≤ ks.length := by omega
  have hsz2 : sizeEntries ci2 = b - 2 := underflow_size hb hcwf hunder
  have hsmall : sizeEntries ci2 < b - 1 := by
    rw [underflowA, Bool.and_eq_true, decide_eq_true_eq] at hunder
    exact hunder.1
  have him1 : i - 1 < cs.length := by omega
  have hgl : cs[i - 1]? = some cs[i - 1] := List.getElem?_eq_getElem him1
  have hcH : heightA ci2 = heightMaxL cs := hheight
  by_cases hcond1p : 0 < i ∧ b - 1 < sizeEntries cs[i - 1]
  · -- borrow from the left sibling
    obtain ⟨hipos, hlspare⟩ := hcond1p
    have hi1 : i - 1 + 1 = i := by omega
    have hkm1 : i - 1 < ks.length := by omega
    have hgk : ks[i - 1]? = some ks[i - 1] := List.getElem?_eq_getElem hkm1
    have hlwf0 := wfChildrenB_get hch (i - 1) him1
    have hchiEq : childHi hi ks (i - 1) = some ks[i - 1] := by
      rw [childHi, if_neg (by omega)]
      exact hgk
    have hcloEq : childLo lo ks i = some ks[i - 1] := by
      rw [childLo, if_neg (by omega)]
      exact hgk
    rw [hchiEq] at hlwf0
    have hcwf2 : wfDel b false (some ks[i - 1]) (childHi hi ks i) ci2 = true := by
      rw [← hcloEq]
      exact hcwf
    have hhlc : heightA cs[i - 1] = heightA ci2 := by
      rw [hcH]
      exact uniform_heights_eq huni (List.getElem_mem him1)
    have hsepH : leHiB ks[i - 1] (childHi hi ks i) = true := by
      have h := @self_le_childHi lo _ _ _ hS hin hkm1
      rw [hi1] at h
      exact h
    obtain ⟨l2, c2, m, heq, hwl2, hwc2, hLm, hmsep, hpairs2, hh1, hh2, hperm,
      hofl, hofc⟩ := borrowFromLeft_spec hb hlwf0 hcwf2 hlspare hsmall hhlc hsepH
    refine ⟨.internal o r par ((cs.set (i - 1) l2).set i c2) (ks.set (i - 1) m),
      ?_, ?_, ?_, ?_, rfl, rfl, rfl, ?_⟩
    · rw [repair]
      split
      · simp only [hgl, hgk, heq]
      · rename_i hcond
        rw [hgl] at hcond
        simp [hipos, hlspare] at hcond
    · refine wfDel_internal_iff.mpr ⟨hreq, ?_, ?_, ?_, ?_, ?_, ?_, ?_⟩
      · simp only [List.length_set]
        exact hlen
      · rw [List.length_set]
        by_cases hrt : rt = true
        · exact Or.inl hrt
        · rw [if_neg hrt] at hb0
          exact Or.inr (by omega)
      · rw [List.length_set]
        exact hle
      · refine sortedB_set_nbhd hS hkm1 ?_ ?_
        · intro h0
          have hlm2 : loLtB (childLo lo ks (i - 1)) m = true := hLm
          rw [childLo, if_neg (by omega)] at hlm2
          rw [List.getElem?_eq_getElem (show i - 1 - 1 < ks.length by omega)]
            at hlm2
          exact hlm2
        · intro hj1
          exact keyLt_trans hmsep (sortedB_getElem_lt hS (by omega) hj1)
      · intro x hx
        rcases List.mem_or_eq_of_mem_set hx with hx | rfl
        · exact hin x hx
        · refine inRangeB_mk ?_ ?_
          · exact childLo_lt_lo hin (by omega) hLm
          · exact leHi_of_lt hmsep (inRangeB_mp (hin _ (List.getElem_mem
              hkm1))).2
      · refine @uniformHeights_of_all _ (heightMaxL cs) ?_
        intro d hd
        rcases List.mem_or_eq_of_mem_set hd with hd | rfl
        · rcases List.mem_or_eq_of_mem_set hd with hd | rfl
          · exact uniform_heights_eq huni hd
          · rw [hh1, ← hcH, ← hhlc]
        · rw [hh2, hcH]
      · have hwc3 : wfB b false (some m) (childHi hi ks (i - 1 + 1)) c2
            = true := by
          rw [hi1]
          exact hwc2
        have h := wfChildrenB_set2 hch (show i - 1 + 1 < cs.length by omega)
          hwl2 hwc3
        rw [hi1] at h
        exact h
    · have hdec := set_set_decomp cs (i - 1) l2 c2 (by omega)
      rw [hi1] at hdec
      have hi2 : i - 1 + 2 = i + 1 := by omega
      rw [hi2] at hdec
      rw [pairsA, hdec, pairsL_append, pairsL, pairsL]
      have htk : cs.take i = cs.take (i - 1) ++ [cs[i - 1]] := by
        conv_lhs => rw [← hi1]
        exact take_succ_getElem cs (i - 1) him1
      rw [htk, pairsL_append]
      have hsing : pairsL [cs[i - 1]] = pairsA cs[i - 1] := by
        rw [pairsL, pairsL, List.append_nil]
      rw [hsing]
      have hmid : pairsA l2 ++ (pairsA c2 ++ pairsL (cs.drop (i + 1)))
          = pairsA cs[i - 1] ++ (pairsA ci2 ++ pairsL (cs.drop (i + 1))) := by
        rw [← List.append_assoc, hpairs2, List.append_assoc]
      rw [hmid]
      simp only [List.append_assoc]
    · rw [heightA, heightA]
      congr 1
      refine heightMaxL_of_all ?_ ?_
      · intro d hd
        rcases List.mem_or_eq_of_mem_set hd with hd | rfl
        · rcases List.mem_or_eq_of_mem_set hd with hd | rfl
          · exact uniform_heights_eq huni hd
          · rw [hh1, ← hcH, ← hhlc]
        · rw [hh2, hcH]
      · intro hcon
        have : ((cs.set (i - 1) l2).set i c2).length = 0 := by
          rw [hcon]
          rfl
        simp only [List.length_set] at this
        omega
    · have hdec := set_set_decomp cs (i - 1) l2 c2 (by omega)
      rw [hi1] at hdec
      have hi2 : i - 1 + 2 = i + 1 := by omega
      rw [hi2] at hdec
      rw [offsA, hdec, offsL_append, offsL, offsL]
      have htk : cs.take i = cs.take (i - 1) ++ [cs[i - 1]] := by
        conv_lhs => rw [← hi1]
        exact take_succ_getElem cs (i - 1) him1
      rw [htk, offsL_append]
      have hsing : offsL [cs[i - 1]] = offsA cs[i - 1] := by
        rw [offsL, offsL, List.append_nil]
      rw [hsing]
      refine List.Perm.subperm ?_
      refine List.Perm.cons _ ?_
      have hmid : (offsA l2 ++ (offsA c2 ++ offsL (cs.drop (i + 1)))).Perm
          (offsA cs[i - 1] ++ (offsA ci2 ++ offsL (cs.drop (i + 1)))) := by
        rw [← List.append_assoc, ← List.append_assoc]
        exact hperm.append_right _
      refine List.Perm.trans (List.Perm.append_left _ hmid) ?_
      simp only [List.append_assoc]
      exact List.Perm.refl _
  · -- the left sibling cannot spare an entry
    by_cases hcond2p : ∃ rs, cs[i + 1]? = some rs ∧ b - 1 < sizeEntries rs
    · -- borrow from the right sibling
      obtain ⟨rs, hgr0, hrspare0⟩ := hcond2p
      have hnext : i + 1 < cs.length := by
        by_contra hge2
        rw [List.getElem?_eq_none (by omega)] at hgr0
        cases hgr0
      have hrs : rs = cs[i + 1] := by
        rw [List.getElem?_eq_getElem hnext] at hgr0
        injection hgr0 with h
        exact h.symm
      have hrspare : b - 1 < sizeEntries cs[i + 1] := by
        rw [← hrs]
        exact hrspare0
      have hkilt : i < ks.length := by omega
      have hgk : ks[i]? = some ks[i] := List.getElem?_eq_getElem hkilt
      have hgr : cs[i + 1]? = some cs[i + 1] := List.getElem?_eq_getElem hnext
      have hrwf0 := wfChildrenB_get hch (i + 1) hnext
      have hcloEq : childLo lo ks (i + 1) = some ks[i] := by
        rw [childLo, if_neg (by omega)]
        simp only [Nat.add_sub_cancel]
        exact hgk
      rw [hcloEq] at hrwf0
      have hchiEq : childHi hi ks i = some ks[i] := by
        rw [childHi, if_neg (by omega)]
        exact hgk
      have hcwf2 : wfDel b false (childLo lo ks i) (some ks[i]) ci2 = true := by
        rw [← hchiEq]
        exact hcwf
      have hhrc : heightA ci2 = heightA cs[i + 1] := by
        rw [hcH]
        exact (uniform_heights_eq huni (List.getElem_mem hnext)).symm
      have hLsep : loLtB (childLo lo ks i) ks[i] = true :=
        childLo_lt_self hS hin hkilt
      obtain ⟨c2, r2, m, heq, hwc2, hwr2, hsepm, hmH, hmz, hpairs2, hh1, hh2,
        hperm, hofc, hofr⟩ :=
        borrowFromRight_spec hb hcwf2 hrwf0 hrspare hsmall hhrc hLsep
      refine ⟨.internal o r par ((cs.set i c2).set (i + 1) r2) (ks.set i m),
        ?_, ?_, ?_, ?_, rfl, rfl, rfl, ?_⟩
      · rw [repair]
        split
        · rename_i hcond
          rw [hgl] at hcond
          simp only [Bool.and_eq_true, decide_eq_true_eq] at hcond
          exact absurd hcond hcond1p
        · split
          · simp only [hgr, hgk, heq]
          · rename_i hcond2
            rw [hgr] at hcond2
            simp [hrspare] at hcond2
      · refine wfDel_internal_iff.mpr ⟨hreq, ?_, ?_, ?_, ?_, ?_, ?_, ?_⟩
        · simp only [List.length_set]
          exact hlen
        · rw [List.length_set]
          by_cases hrt : rt = true
          · exact Or.inl hrt
          · rw [if_neg hrt] at hb0
            exact Or.inr (by omega)
        · rw [List.length_set]
          exact hle
        · refine sortedB_set_nbhd hS hkilt ?_ ?_
          · intro h0
            exact keyLt_trans (sortedB_getElem_lt hS (by omega) hkilt) hsepm
          · intro hj1
            refine hmz ks[i + 1] ?_
            rw [childHi, if_neg (by omega)]
            exact List.getElem?_eq_getElem hj1
        · intro x hx
          rcases List.mem_or_eq_of_mem_set hx with hx | rfl
          · exact hin x hx
          · refine inRangeB_mk ?_ ?_
            · exact loLt_of_lt
                (inRangeB_mp (hin _ (List.getElem_mem hkilt))).1 hsepm
            · exact childHi_le_hi hin (by omega) hmH
        · refine @uniformHeights_of_all _ (heightMaxL cs) ?_
          intro d hd
          rcases List.mem_or_eq_of_mem_set hd with hd | rfl
          · rcases List.mem_or_eq_of_mem_set hd with hd | rfl
            · exact uniform_heights_eq huni hd
            · rw [hh1, hcH]
          · rw [hh2, ← hcH, hhrc]
        · exact wfChildrenB_set2 hch (by omega) hwc2 hwr2
      · have hdec := set_set_decomp cs i c2 r2 (by omega)
        rw [pairsA, hdec, pairsL_append, pairsL, pairsL]
        rw [List.drop_eq_getElem_cons hnext, pairsL]
        have h12 : i + 1 + 1 = i + 2 := rfl
        rw [h12]
        have hmid : pairsA c2 ++ (pairsA r2 ++ pairsL (cs.drop (i + 2)))
            = pairsA ci2 ++ (pairsA cs[i + 1] ++ pairsL (cs.drop (i + 2)))
            := by
          rw [← List.append_assoc, hpairs2, List.append_assoc]
        rw [hmid]
        simp only [List.append_assoc]
      · rw [heightA, heightA]
        congr 1
        refine heightMaxL_of_all ?_ ?_
        · intro d hd
          rcases List.mem_or_eq_of_mem_set hd with hd | rfl
          · rcases List.mem_or_eq_of_mem_set hd with hd | rfl
            · exact uniform_heights_eq huni hd
            · rw [hh1, hcH]
          · rw [hh2, ← hcH, hhrc]
        · intro hcon
          have : ((cs.set i c2).set (i + 1) r2).length = 0 := by
            rw [hcon]
            rfl
          simp only [List.length_set] at this
          omega
      · have hdec := set_set_decomp cs i c2 r2 (by omega)
        rw [offsA, hdec, offsL_append, offsL, offsL]
        rw [List.drop_eq_getElem_cons hnext, offsL]
        have h12 : i + 1 + 1 = i + 2 := rfl
        rw [h12]
        refine List.Perm.subperm ?_
        refine List.Perm.cons _ ?_
        have hmid : (offsA c2 ++ (offsA r2 ++ offsL (cs.drop (i + 2)))).Perm
            (offsA ci2 ++ (offsA cs[i + 1] ++ offsL (cs.drop (i + 2)))) := by
          rw [← List.append_assoc, ← List.append_assoc]
          exact hperm.append_right _
        refine List.Perm.trans (List.Perm.append_left _ hmid) ?_
        simp only [List.append_assoc]
        exact List.Perm.refl _
    · -- no borrow possible: merge with a sibling
      have hnospare : ∀ (h1 : i + 1 < cs.length),
          ¬(b - 1 < sizeEntries cs[i + 1]) := by
        intro h1 hcon
        exact hcond2p ⟨cs[i + 1], List.getElem?_eq_getElem h1, hcon⟩
      by_cases hipos : 0 < i
      · -- merge with the left sibling
        have hkm1 : i - 1 < ks.length := by omega
        have hi1 : i - 1 + 1 = i := by omega
        have hgk : ks[i - 1]? = some ks[i - 1] := List.getElem?_eq_getElem
          (by omega)
        have hlwf0 := wfChildrenB_get hch (i - 1) him1
        have hchiEq : childHi hi ks (i - 1) = some ks[i - 1] := by
          rw [childHi, if_neg (by omega)]
          exact hgk
        rw [hchiEq] at hlwf0
        have hcloEq : childLo lo ks i = some ks[i - 1] := by
          rw [childLo, if_neg (by omega)]
          exact hgk
        have hcwf2 : wfDel b false (some ks[i - 1]) (childHi hi ks i) ci2
            = true := by
          rw [← hcloEq]
          exact hcwf
        have hlsz : sizeEntries cs[i - 1] = b - 1 := by
          have h1 := wf_size_ge hlwf0
          have h2 : ¬(b - 1 < sizeEntries cs[i - 1]) := fun hcon =>
            hcond1p ⟨hipos, hcon⟩
          omega
        have hldel := wfB_to_wfDel hlwf0
        have hsum : sizeEntries cs[i - 1] + sizeEntries ci2 ≤ 2 * b - 3 := by
          rw [hlsz, hsz2]
          omega
        have hge : b - 1 ≤ sizeEntries cs[i - 1] + sizeEntries ci2 := by
          rw [hlsz, hsz2]
          omega
        have hhlc : heightA cs[i - 1] = heightA ci2 := by
          rw [hcH]
          exact uniform_heights_eq huni (List.getElem_mem him1)
        have hLsep : loLtB (childLo lo ks (i - 1)) ks[i - 1] = true :=
          childLo_lt_self hS hin hkm1
        have hsepH : leHiB ks[i - 1] (childHi hi ks i) = true := by
          have h := @self_le_childHi lo _ _ _ hS hin hkm1
          rw [hi1] at h
          exact h
        obtain ⟨mN, heq, hwm, hpairsm, hhm, hofm, hisrm, hparm, hsubm⟩ :=
          mergeNodes_spec hb hldel hcwf2 hsum hge hhlc hLsep hsepH
        have htk : cs.take i = cs.take (i - 1) ++ [cs[i - 1]] := by
          conv_lhs => rw [← hi1]
          exact take_succ_getElem cs (i - 1) him1
        have hsing : pairsL [cs[i - 1]] = pairsA cs[i - 1] := by
          rw [pairsL, pairsL, List.append_nil]
        have hsingo : offsL [cs[i - 1]] = offsA cs[i - 1] := by
          rw [offsL, offsL, List.append_nil]
        refine ⟨.internal o r par (cs.take (i - 1) ++ mN :: cs.drop (i + 1))
          (ks.take (i - 1) ++ ks.drop i), ?_, ?_, ?_, ?_, rfl, rfl, rfl, ?_⟩
        · rw [repair]
          split
          · rename_i hcond
            rw [hgl] at hcond
            simp only [Bool.and_eq_true, decide_eq_true_eq] at hcond
            exact absurd hcond hcond1p
          · split
            · rename_i hcond2
              exfalso
              cases hnx : cs[i + 1]? with
              | none =>
                rw [hnx] at hcond2
                simp at hcond2
              | some rs2 =>
                rw [hnx] at hcond2
                simp only [decide_eq_true_eq] at hcond2
                exact hcond2p ⟨rs2, hnx, hcond2⟩
            · simp only [hgl, hgk, heq]
        · refine wfDel_internal_iff.mpr ⟨hreq, ?_, ?_, ?_, ?_, ?_, ?_, ?_⟩
          · simp only [List.length_append, List.length_take, List.length_drop,
              List.length_cons]
            omega
          · by_cases hrt : rt = true
            · exact Or.inl hrt
            · rw [if_neg hrt] at hb0
              refine Or.inr ?_
              simp only [List.length_append, List.length_take,
                List.length_drop]
              omega
          · simp only [List.length_append, List.length_take, List.length_drop]
            omega
          · have herase : ks.take (i - 1) ++ ks.drop i = ks.eraseIdx (i - 1)
                := by
              rw [eraseIdx_take_drop ks (i - 1) (by omega), hi1]
            rw [herase]
            exact sortedB_sublist (List.eraseIdx_sublist _ _) hS
          · intro x hx
            rcases List.mem_append.mp hx with hx | hx
            · exact hin x (List.mem_of_mem_take hx)
            · exact hin x (List.mem_of_mem_drop hx)
          · refine @uniformHeights_of_all _ (heightMaxL cs) ?_
            intro d hd
            rcases List.mem_append.mp hd with hd | hd
            · exact uniform_heights_eq huni (List.mem_of_mem_take hd)
            · rcases List.mem_cons.mp hd with rfl | hd
              · rw [hhm, hhlc, hcH]
              · exact uniform_heights_eq huni (List.mem_of_mem_drop hd)
          · have hm2 : wfB b false (childLo lo ks (i - 1))
                (childHi hi ks (i - 1 + 1)) mN = true := by
              rw [hi1]
              exact hwm
            have h := wfChildrenB_merge hch (show i - 1 < ks.length by omega)
              hm2
            rw [hi1] at h
            rw [show i - 1 + 2 = i + 1 from by omega] at h
            exact h
        · rw [pairsA, pairsL_append, pairsL, hpairsm]
          rw [htk, pairsL_append, hsing]
          simp only [List.append_assoc]
        · rw [heightA, heightA]
          congr 1
          refine heightMaxL_of_all ?_ ?_
          · intro d hd
            rcases List.mem_append.mp hd with hd | hd
            · exact uniform_heights_eq huni (List.mem_of_mem_take hd)
            · rcases List.mem_cons.mp hd with rfl | hd
              · rw [hhm, hhlc, hcH]
              · exact uniform_heights_eq huni (List.mem_of_mem_drop hd)
          · intro hcon
            rw [List.append_eq_nil] at hcon
            cases hcon.2
        · rw [offsA, offsL_append, offsL]
          rw [htk, offsL_append, hsingo]
          refine (List.subperm_cons _).mpr ?_
          simp only [← List.append_assoc]
          refine subperm_append ?_ (List.Subperm.refl _)
          rw [List.append_assoc]
          refine subperm_append (List.Subperm.refl _) ?_
          exact hsubm.subperm
      · -- merge with the right sibling (leftmost child)
        have hi0 : i = 0 := by omega
        subst hi0
        have h1lt : 1 < cs.length := by omega
        have hg1 : cs[1]? = some cs[1] := List.getElem?_eq_getElem h1lt
        have hg0 : ks[0]? = some ks[0] := List.getElem?_eq_getElem (by omega)
        have hrwf0 := wfChildrenB_get hch 1 h1lt
        have hcloEq : childLo lo ks 1 = some ks[0] := by
          rw [childLo, if_neg (by omega)]
          exact hg0
        rw [hcloEq] at hrwf0
        have hchiEq : childHi hi ks 0 = some ks[0] := by
          rw [childHi, if_neg (by omega)]
          exact hg0
        have hcwf2 : wfDel b false lo (some ks[0]) ci2 = true := by
          rw [← childLo_zero lo ks, ← hchiEq]
          exact hcwf
        have hrsz : sizeEntries cs[1] = b - 1 := by
          have hh1 := wf_size_ge hrwf0
          have hh2 : ¬(b - 1 < sizeEntries cs[1]) := by
            have h := hnospare (by omega)
            simpa using h
          omega
        have hrdel := wfB_to_wfDel hrwf0
        have hsum : sizeEntries ci2 + sizeEntries cs[1] ≤ 2 * b - 3 := by
          rw [hrsz, hsz2]
          omega
        have hge : b - 1 ≤ sizeEntries ci2 + sizeEntries cs[1] := by
          rw [hrsz, hsz2]
          omega
        have hhrc : heightA ci2 = heightA cs[1] := by
          rw [hcH]
          exact (uniform_heights_eq huni (List.getElem_mem h1lt)).symm
        have hLsep : loLtB lo ks[0] = true :=
          (inRangeB_mp (hin ks[0] (List.getElem_mem (by omega)))).1
        have hsepH : leHiB ks[0] (childHi hi ks 1) = true := by
          have h := @self_le_childHi lo _ _ _ hS hin
            (show 0 < ks.length by omega)
          exact h
        obtain ⟨mN, heq, hwm, hpairsm, hhm, hofm, hisrm, hparm, hsubm⟩ :=
          mergeNodes_spec hb hcwf2 hrdel hsum hge hhrc hLsep hsepH
        refine ⟨.internal o r par (mN :: cs.drop 2) (ks.drop 1),
          ?_, ?_, ?_, ?_, rfl, rfl, rfl, ?_⟩
        · rw [repair]
          split
          · rename_i hcond
            simp at hcond
          · split
            · rename_i hcond2
              exfalso
              cases hnx : cs[0 + 1]? with
              | none =>
                rw [hnx] at hcond2
                simp at hcond2
              | some rs2 =>
                rw [hnx] at hcond2
                simp only [decide_eq_true_eq] at hcond2
                exact hcond2p ⟨rs2, hnx, hcond2⟩
            · have hg1b : cs[0 + 1]? = some cs[1] := hg1
              simp only [hg1b, hg0, heq]
        · refine wfDel_internal_iff.mpr ⟨hreq, ?_, ?_, ?_, ?_, ?_, ?_, ?_⟩
          · simp only [List.length_cons, List.length_drop]
            omega
          · by_cases hrt : rt = true
            · exact Or.inl hrt
            · rw [if_neg hrt] at hb0
              refine Or.inr ?_
              simp only [List.length_drop]
              omega
          · simp only [List.length_drop]
            omega
          · exact sortedB_drop 1 hS
          · intro x hx
            exact hin x (List.mem_of_mem_drop hx)
          · refine @uniformHeights_of_all _ (heightMaxL cs) ?_
            intro d hd
            rcases List.mem_cons.mp hd with rfl | hd
            · rw [hhm, hcH]
            · exact uniform_heights_eq huni (List.mem_of_mem_drop hd)
          · have hm2 : wfB b false (childLo lo ks 0) (childHi hi ks (0 + 1))
                mN = true := by
              rw [childLo_zero]
              exact hwm
            have h := wfChildrenB_merge hch (show 0 < ks.length by omega) hm2
            simp only [List.take_zero, List.nil_append] at h
            exact h
        · rw [pairsA, pairsL, hpairsm]
          rw [List.take_zero, pairsL]
          rw [show (0 : Nat) + 1 = 1 from rfl]
          rw [List.drop_eq_getElem_cons h1lt, pairsL]
          rw [show (1 : Nat) + 1 = 2 from rfl]
          simp only [List.append_assoc, List.nil_append]
        · rw [heightA, heightA]
          congr 1
          refine heightMaxL_of_all ?_ ?_
          · intro d hd
            rcases List.mem_cons.mp hd with rfl | hd
            · rw [hhm, hcH]
            · exact uniform_heights_eq huni (List.mem_of_mem_drop hd)
          · intro hcon
            cases hcon
        · rw [offsA, offsL]
          rw [List.take_zero, offsL]
          rw [show (0 : Nat) + 1 = 1 from rfl]
          rw [List.drop_eq_getElem_cons h1lt, offsL]
          rw [show (1 : Nat) + 1 = 2 from rfl]
          refine (List.subperm_cons _).mpr ?_
          simp only [List.nil_append, ← List.append_assoc]
          refine subperm_append ?_ (List.Subperm.refl _)
          exact hsubm.subperm

set_option maxHeartbeats 1000000 in
theorem delA_spec :
    ∀ (fuel : Nat) {b : Nat} {t : OTree} {rt : Bool} {lo hi : Option Key}
      {k : Key},
      2 ≤ b →
      heightA t ≤ fuel →
      wfB b rt lo hi t = true →
      inRangeB lo hi k = true →
      ((k ∈ (pairsA t).map (fun p => p.key) →
        ∃ t2, delA b fuel t k = .ok t2 ∧
          wfDel b rt lo hi t2 = true ∧
          pairsA t2 = eraseKeyP (pairsA t) k ∧
          heightA t2 = heightA t ∧
          offOf t2 = offOf t ∧
          (offsA t2).Subperm (offsA t)) ∧
       (k ∉ (pairsA t).map (fun p => p.key) →
        delA b fuel t k = .error .KeyNotFound)) := by
  intro fuel
  induction fuel with
  | zero =>
    intro b t rt lo hi k hb hfuel hwf hin
    have := heightA_pos t
    omega
  | succ f ih =>
    intro b t rt lo hi k hb hfuel hwf hin
    cases t with
    | leaf o r par ps =>
      rcases wfB_leaf_iff.mp hwf with ⟨hrt, hlow, hhigh, hsort, hall⟩
      constructor
      · intro hk
        simp only [pairsA] at hk ⊢
        have hbs : binSearchPairs ps k = .ok (countLtP ps k) := by
          rw [binSearchPairs_eq k hsort, if_pos hk]
        have hclt : countLtP ps k < ps.length := by
          have := (sorted_found hsort hk).1
          rw [← countLtP_eq_keys] at this
          simpa using this
        refine ⟨.leaf o r par (ps.eraseIdx (countLtP ps k)), ?_, ?_, ?_, rfl,
          rfl, ?_⟩
        · simp only [delA, hbs]
        · refine wfDel_leaf_iff.mpr ⟨hrt, ?_, ?_, ?_, ?_⟩
          · rw [List.length_eraseIdx, if_pos hclt]
            rcases hlow with h | h
            · exact Or.inl h
            · exact Or.inr (by omega)
          · rw [List.length_eraseIdx, if_pos hclt]
            omega
          · exact sortedB_sublist
              (List.Sublist.map _ (List.eraseIdx_sublist ps (countLtP ps k)))
              hsort
          · intro p hp
            exact hall p ((List.eraseIdx_sublist ps (countLtP ps k)).subset hp)
        · simp only [pairsA]
          rw [eraseIdx_take_drop ps (countLtP ps k) hclt,
            ← eraseKeyP_sorted hsort hk]
        · exact List.Subperm.refl _
      · intro hk
        simp only [pairsA] at hk
        have hbs : binSearchPairs ps k = .error (countLtP ps k) := by
          rw [binSearchPairs_eq k hsort, if_neg hk]
        simp only [delA, hbs]
    | internal o r par cs ks =>
      rcases wfB_internal_iff.mp hwf with
        ⟨hrt, hclen, hklow, hkhigh, hks, hkin, huni, hch⟩
      have hidxks : unwrapIdx (binSearchKeys ks k) = countLtK ks k :=
        binSearchKeys_idx k hks
      have hidxlt : countLtK ks k < cs.length := by
        have := countLtK_le ks k
        omega
      have hgetc : cs[countLtK ks k]? = some cs[countLtK ks k] :=
        List.getElem?_eq_getElem hidxlt
      have hcwf := wfChildrenB_get hch (countLtK ks k) hidxlt
      have hcheight : heightA cs[countLtK ks k] = heightMaxL cs :=
        uniform_heights_eq huni (List.getElem_mem hidxlt)
      have hfuelc : heightA cs[countLtK ks k] ≤ f := by
        simp only [heightA] at hfuel
        omega
      have hinc := childRange_of_count hks hin
      have hparts := pairsL_parts hch hks hkin k hin
      have hdecomp : pairsL cs = pairsL (cs.take (countLtK ks k)) ++
          (pairsA cs[countLtK ks k] ++ pairsL (cs.drop (countLtK ks k + 1)))
          := by
        conv_lhs => rw [← pairsL_take_drop cs (countLtK ks k)]
        congr 1
        rw [List.drop_eq_getElem_cons hidxlt, pairsL]
      have hodecomp : offsL cs = offsL (cs.take (countLtK ks k)) ++
          (offsA cs[countLtK ks k] ++ offsL (cs.drop (countLtK ks k + 1)))
          := by
        conv_lhs => rw [← offsL_take_drop cs (countLtK ks k)]
        congr 1
        rw [List.drop_eq_getElem_cons hidxlt, offsL]
      have herase : eraseKeyP (pairsL cs) k =
          pairsL (cs.take (countLtK ks k)) ++
          (eraseKeyP (pairsA cs[countLtK ks k]) k ++
            pairsL (cs.drop (countLtK ks k + 1))) := by
        rw [hdecomp, eraseKeyP_append, eraseKeyP_append]
        congr 1
        · refine eraseKeyP_eq_self ?_
          intro p hp
          exact keyLt_ne (hparts.1 p hp)
        · congr 1
          refine eraseKeyP_eq_self ?_
          intro p hp
          exact (keyLt_ne (hparts.2 p hp)).symm
      have ihc := ih hb hfuelc hcwf hinc
      constructor
      · intro hk
        simp only [pairsA] at hk ⊢
        have hkc : k ∈ (pairsA cs[countLtK ks k]).map (fun p => p.key) := by
          rcases List.mem_map.mp hk with ⟨p, hp, hpk⟩
          refine List.mem_map.mpr ⟨p, ?_, hpk⟩
          rw [hdecomp] at hp
          rcases List.mem_append.mp hp with hp | hp
          · have := hparts.1 p hp
            rw [hpk, keyLt_irrefl] at this
            cases this
          · rcases List.mem_append.mp hp with hp | hp
            · exact hp
            · have := hparts.2 p hp
              rw [hpk, keyLt_irrefl] at this
              cases this
        obtain ⟨ci2, hok, hcwfd, hcpairs, hcheight2, hcoff, hcsub⟩ :=
          ihc.1 hkc
        by_cases hu : underflowA b ci2 = true
        · obtain ⟨t2, hrok, hrwf, hrpairs, hrheight, hroff, hrisr, hrpar,
            hrsub⟩ := repair_spec hb hwf hidxlt hcwfd
            (by rw [hcheight2]; exact hcheight) hu
          refine ⟨t2, ?_, hrwf, ?_, ?_, ?_, ?_⟩
          · simp only [delA, hidxks, hgetc, hok, hu, if_true]
            exact hrok
          · rw [hrpairs, hcpairs, herase]
            simp only [List.append_assoc]
          · rw [hrheight]
          · rw [hroff]
            rfl
          · refine hrsub.trans ?_
            rw [offsA, hodecomp]
            refine (List.subperm_cons _).mpr ?_
            simp only [← List.append_assoc]
            refine subperm_append ?_ (List.Subperm.refl _)
            exact subperm_append (List.Subperm.refl _) hcsub
        · have hufalse : underflowA b ci2 = false := by
            rw [Bool.not_eq_true] at hu
            exact hu
          have hciwfB := wfDel_not_underflow_wfB hcwfd hufalse
          refine ⟨.internal o r par (cs.set (countLtK ks k) ci2) ks, ?_, ?_,
            ?_, ?_, rfl, ?_⟩
          · simp only [delA, hidxks, hgetc, hok, hufalse]
            rfl
          · refine wfDel_internal_iff.mpr ⟨hrt, ?_, ?_, hkhigh, hks, hkin,
              ?_, ?_⟩
            · rw [List.length_set]
              exact hclen
            · by_cases hrtc : rt = true
              · exact Or.inl hrtc
              · rw [if_neg hrtc] at hklow
                exact Or.inr (by omega)
            · refine @uniformHeights_of_all _ (heightMaxL cs) ?_
              intro d hd
              rcases List.mem_or_eq_of_mem_set hd with hd | rfl
              · exact uniform_heights_eq huni hd
              · rw [hcheight2, hcheight]
            · exact wfChildrenB_set hch hidxlt hciwfB
          · simp only [pairsA]
            rw [set_eq_take_cons_drop cs (countLtK ks k) ci2 hidxlt,
              pairsL_append, pairsL, hcpairs, herase]
          · rw [heightA, heightA]
            congr 1
            refine heightMaxL_of_all ?_ ?_
            · intro d hd
              rcases List.mem_or_eq_of_mem_set hd with hd | rfl
              · exact uniform_heights_eq huni hd
              · rw [hcheight2, hcheight]
            · intro hcon
              have : (cs.set (countLtK ks k) ci2).length = 0 := by
                rw [hcon]
                rfl
              rw [List.length_set] at this
              omega
          · rw [offsA, offsA, hodecomp,
              set_eq_take_cons_drop cs (countLtK ks k) ci2 hidxlt,
              offsL_append, offsL]
            refine (List.subperm_cons _).mpr ?_
            simp only [← List.append_assoc]
            refine subperm_append ?_ (List.Subperm.refl _)
            exact subperm_append (List.Subperm.refl _) hcsub
      · intro hk
        simp only [pairsA] at hk
        have hkc : k ∉ (pairsA cs[countLtK ks k]).map (fun p => p.key) := by
          intro hcon
          rcases List.mem_map.mp hcon with ⟨p, hp, hpk⟩
          refine hk (List.mem_map.mpr ⟨p, ?_, hpk⟩)
          exact pairsA_sub_pairsL (List.getElem_mem hidxlt) p hp
        have herr := ihc.2 hkc
        simp only [delA, hidxks, hgetc, herr]

/-! ### Root-flag and write-back lemmas -/

theorem pairsA_setRootFlag (t : OTree) : pairsA (setRootFlag t) = pairsA t := by
  cases t <;> rfl

theorem offsA_setRootFlag (t : OTree) : offsA (setRootFlag t) = offsA t := by
  cases t <;> rfl

theorem heightA_setRootFlag (t : OTree) :
    heightA (setRootFlag t) = heightA t := by
  cases t <;> rfl

theorem offOf_setRootFlag (t : OTree) : offOf (setRootFlag t) = offOf t := by
  cases t <;> rfl

theorem wf_setRootFlag {b : Nat} {lo hi : Option Key} {t : OTree} (hb : 2 ≤ b)
    (h : wfB b false lo hi t = true) :
    wfB b true lo hi (setRootFlag t) = true := by
  cases t with
  | leaf o r par ps =>
    rcases wfB_leaf_iff.mp h with ⟨-, -, h3, h4, h5⟩
    exact wfB_leaf_iff.mpr ⟨rfl, Or.inl rfl, h3, h4, h5⟩
  | internal o r par cs ks =>
    rcases wfB_internal_iff.mp h with ⟨-, h2, h3, h4, h5, h6, h7, h8⟩
    rw [if_neg (by simp)] at h3
    refine wfB_internal_iff.mpr ⟨rfl, h2, ?_, h4, h5, h6, h7, h8⟩
    rw [if_pos rfl]
    omega

mutual
theorem writeBack_length : ∀ (p : Pager) (t : OTree),
    (writeBack p t).pages.length = p.pages.length
  | p, .leaf off r par ps => by
    rw [writeBack, write_at_length]
  | p, .internal off r par cs ks => by
    rw [writeBack, writeBackL_length, write_at_length]
theorem writeBackL_length : ∀ (p : Pager) (cs : List OTree),
    (writeBackL p cs).pages.length = p.pages.length
  | p, [] => rfl
  | p, c :: cs => by
    rw [writeBackL, writeBackL_length, writeBack_length]
end

mutual
theorem writeBack_frame : ∀ (p : Pager) (t : OTree) (o : Offset),
    o ∉ offsA t → (writeBack p t).pages[o]? = p.pages[o]?
  | p, .leaf off r par ps, o, ho => by
    rw [writeBack]
    refine write_at_get_ne ?_
    simpa [offsA] using ho
  | p, .internal off r par cs ks, o, ho => by
    rw [writeBack]
    have ho1 : o ∉ offsL cs := by
      intro hcon
      exact ho (by rw [offsA]; exact List.mem_cons_of_mem _ hcon)
    have ho2 : o ≠ off := by
      intro hcon
      exact ho (by rw [offsA, hcon]; exact List.mem_cons_self _ _)
    rw [writeBackL_frame _ _ _ ho1]
    exact write_at_get_ne ho2
theorem writeBackL_frame : ∀ (p : Pager) (cs : List OTree) (o : Offset),
    o ∉ offsL cs → (writeBackL p cs).pages[o]? = p.pages[o]?
  | p, [], o, _ => rfl
  | p, c :: cs, o, ho => by
    rw [writeBackL]
    have ho1 : o ∉ offsL cs := by
      intro hcon
      exact ho (by rw [offsL]; exact List.mem_append_right _ hcon)
    have ho2 : o ∉ offsA c := by
      intro hcon
      exact ho (by rw [offsL]; exact List.mem_append_left _ hcon)
    rw [writeBackL_frame _ _ _ ho1]
    exact writeBack_frame _ _ _ ho2
end

mutual
theorem writeBack_decode : ∀ (p : Pager) (t : OTree),
    (offsA t).Nodup → (∀ o ∈ offsA t, o < p.pages.length) →
    ∀ fuel, heightA t ≤ fuel →
    decodeT fuel (writeBack p t) (offOf t) = some t
  | p, .leaf off r par ps, hnd, hbnd, fuel, hfuel => by
    obtain ⟨g, rfl⟩ : ∃ g, fuel = g + 1 := by
      have := heightA_pos (OTree.leaf off r par ps)
      exact ⟨fuel - 1, by omega⟩
    rw [offOf, writeBack, decodeT_succ]
    rw [write_at_get_self (hbnd off (by simp [offsA]))]
  | p, .internal off r par cs ks, hnd, hbnd, fuel, hfuel => by
    obtain ⟨g, rfl⟩ : ∃ g, fuel = g + 1 := by
      have := heightA_pos (OTree.internal off r par cs ks)
      exact ⟨fuel - 1, by omega⟩
    rw [offOf, writeBack, decodeT_succ]
    have hnotoff : off ∉ offsL cs := by
      rw [offsA, List.nodup_cons] at hnd
      exact hnd.1
    have hndl : (offsL cs).Nodup := by
      rw [offsA, List.nodup_cons] at hnd
      exact hnd.2
    have hbndl : ∀ o ∈ offsL cs,
        o < (p.write_page_at_offset
          ⟨.Internal (cs.map offOf) ks, r, par⟩ off).pages.length := by
      intro o ho
      rw [write_at_length]
      exact hbnd o (by rw [offsA]; exact List.mem_cons_of_mem _ ho)
    have hfl : heightMaxL cs ≤ g := by
      rw [heightA] at hfuel
      omega
    have hdl := writeBackL_decode
      (p.write_page_at_offset ⟨.Internal (cs.map offOf) ks, r, par⟩ off)
      cs hndl hbndl g hfl
    rw [writeBackL_frame _ _ _ hnotoff]
    rw [write_at_get_self (hbnd off (by simp [offsA]))]
    simp only [hdl]
theorem writeBackL_decode : ∀ (p : Pager) (cs : List OTree),
    (offsL cs).Nodup → (∀ o ∈ offsL cs, o < p.pages.length) →
    ∀ fuel, heightMaxL cs ≤ fuel →
    decodeL fuel (writeBackL p cs) (cs.map offOf) = some cs
  | p, [], _, _, fuel, _ => by
    rw [writeBackL, List.map_nil, decodeL]
  | p, c :: cs, hnd, hbnd, fuel, hfuel => by
    rw [writeBackL, List.map_cons, decodeL]
    rw [offsL, List.nodup_append] at hnd
    have hndc : (offsA c).Nodup := hnd.1
    have hnds : (offsL cs).Nodup := hnd.2.1
    have hdisj : ∀ o ∈ offsA c, o ∉ offsL cs := fun o ho => hnd.2.2 ho
    have hbndc : ∀ o ∈ offsA c, o < p.pages.length := fun o ho =>
      hbnd o (by rw [offsL]; exact List.mem_append_left _ ho)
    have hbnds : ∀ o ∈ offsL cs, o < (writeBack p c).pages.length := by
      intro o ho
      rw [writeBack_length]
      exact hbnd o (by rw [offsL]; exact List.mem_append_right _ ho)
    have hfc : heightA c ≤ fuel := by
      rw [heightMaxL] at hfuel
      omega
    have hfs : heightMaxL cs ≤ fuel := by
      rw [heightMaxL] at hfuel
      omega
    have hdT : decodeT fuel (writeBack p c) (offOf c) = some c :=
      writeBack_decode p c hndc hbndc fuel hfc
    have hdT2 : decodeT fuel (writeBackL (writeBack p c) cs) (offOf c)
        = some c :=
      decodeT_frame hdT (fun o ho => writeBackL_frame _ _ _ (hdisj o ho))
    have hdL : decodeL fuel (writeBackL (writeBack p c) cs) (cs.map offOf)
        = some cs :=
      writeBackL_decode (writeBack p c) cs hnds hbnds fuel hfs
    simp only [hdT2, hdL]
end

/-! ### The delete entry point -/

set_option maxHeartbeats 1000000 in
theorem delete_spec {t : BTree} {k : Key} (hinv : invB t = true) :
    (k ∈ keysOf t →
      ∃ t2, t.delete k = .ok t2 ∧ invB t2 = true ∧ t2.b = t.b ∧
        t2.pager.pages.length = t.pager.pages.length ∧
        pairsOf t2 = eraseKeyP (pairsOf t) k ∧
        (pairsOf t2).length + 1 = (pairsOf t).length) ∧
    (k ∉ keysOf t → t.delete k = .error .KeyNotFound) := by
  have hinv2 := hinv
  rw [invB] at hinv2
  rw [Bool.and_eq_true] at hinv2
  obtain ⟨hb2a, hrest⟩ := hinv2
  have hb2 : 2 ≤ t.b := by simpa using hb2a
  rcases hdr : decodedRoot t with _ | td
  · rw [hdr] at hrest
    simp at hrest
  rw [hdr] at hrest
  rw [Bool.and_eq_true, Bool.and_eq_true] at hrest
  obtain ⟨⟨hwf, hndAa⟩, hbndAa⟩ := hrest
  have hndA : (offsA td).Nodup := by simpa using hndAa
  have hbndA : ∀ o ∈ offsA td, o < t.pager.pages.length := by
    intro o ho
    have := List.all_eq_true.mp hbndAa o ho
    simpa using this
  have hdec : decodeT (t.pager.pages.length + 1) t.pager t.root_offset
      = some td := hdr
  have hpairsOf : pairsOf t = pairsA td := by
    rw [pairsOf, hdr]
  have hsortP : sortedB ((pairsA td).map (fun p => p.key)) = true :=
    (wf_pairs td t.b true none none hwf).1
  have hhle : heightA td ≤ t.pager.pages.length :=
    Nat.le_trans (heightA_le_offs td) (length_le_of_nodup_lt hndA hbndA)
  have hspec := delA_spec (t.pager.pages.length + 1) hb2
    (Nat.le_succ_of_le hhle) hwf (inRangeB_none k)
  have hfinish : ∀ tfin : OTree, wfB t.b true none none tfin = true →
      pairsA tfin = eraseKeyP (pairsA td) k →
      (offsA tfin).Subperm (offsA td) →
      invB ⟨writeBack t.pager tfin, t.b, offOf tfin⟩ = true ∧
      pairsOf ⟨writeBack t.pager tfin, t.b, offOf tfin⟩
        = eraseKeyP (pairsOf t) k := by
    intro tfin hwfF hpairsF hsubF
    have hndF : (offsA tfin).Nodup := subperm_nodup hsubF hndA
    have hbndF : ∀ o ∈ offsA tfin, o < t.pager.pages.length := fun o ho =>
      hbndA o (hsubF.subset ho)
    have hhleF : heightA tfin ≤ t.pager.pages.length := by
      have h1 := heightA_le_offs tfin
      have h2 := hsubF.length_le
      have h3 := length_le_of_nodup_lt hndA hbndA
      omega
    have hdecF : decodeT (t.pager.pages.length + 1) (writeBack t.pager tfin)
        (offOf tfin) = some tfin :=
      writeBack_decode t.pager tfin hndF hbndF _ (Nat.le_succ_of_le hhleF)
    have hdrF : decodedRoot ⟨writeBack t.pager tfin, t.b, offOf tfin⟩
        = some tfin := by
      simp only [decodedRoot, treeFuel]
      rw [writeBack_length]
      exact hdecF
    constructor
    · rw [invB, hdrF]
      rw [Bool.and_eq_true, Bool.and_eq_true, Bool.and_eq_true]
      refine ⟨by simpa using hb2, ⟨hwfF, by simpa using hndF⟩, ?_⟩
      rw [List.all_eq_true]
      intro o ho
      have := hbndF o ho
      simp only [decide_eq_true_eq]
      rw [writeBack_length]
      exact this
    · simp only [pairsOf, hdrF, hdr]
      exact hpairsF
  constructor
  · intro hk
    have hk2 : k ∈ (pairsA td).map (fun p => p.key) := by
      rw [keysOf, hpairsOf] at hk
      exact hk
    obtain ⟨td2, hok, hwfd, hpairs2, hheight2, hoff2, hsub2⟩ := hspec.1 hk2
    have hlen2 : (eraseKeyP (pairsOf t) k).length + 1 = (pairsOf t).length
        := by
      rw [hpairsOf]
      exact eraseKeyP_length hsortP hk2
    rw [BTree.delete]
    simp only [hdec, hok]
    split
    · rename_i o2 r2 p2 c
      -- td2 is a root Internal node with a single child and no keys
      have hwfc : wfB t.b false none none c = true := by
        rcases wfDel_internal_iff.mp hwfd with ⟨-, -, -, -, -, -, -, h8⟩
        rcases wfChildrenB_nil_iff.mp h8 with ⟨c2, heq2, hc2⟩
        rw [(List.cons.inj heq2).1]
        exact hc2
      have hwfF : wfB t.b true none none (setRootFlag c) = true :=
        wf_setRootFlag hb2 hwfc
      have hpairsF : pairsA (setRootFlag c) = eraseKeyP (pairsA td) k := by
        rw [pairsA_setRootFlag, ← hpairs2]
        rw [pairsA, pairsL, pairsL, List.append_nil]
      have hsubF : (offsA (setRootFlag c)).Subperm (offsA td) := by
        refine List.Subperm.trans ?_ hsub2
        rw [offsA_setRootFlag, offsA, offsL, offsL, List.append_nil]
        exact (List.sublist_cons_self _ _).subperm
      obtain ⟨hinvF, hpairsOF⟩ := hfinish (setRootFlag c) hwfF hpairsF hsubF
      refine ⟨⟨writeBack t.pager (setRootFlag c), t.b, offOf (setRootFlag c)⟩,
        rfl, hinvF, rfl, ?_, hpairsOF, ?_⟩
      · exact writeBack_length _ _
      · rw [hpairsOF]
        exact hlen2
    · -- no root collapse
      have hwfF : wfB t.b true none none td2 = true := by
        cases td2 with
        | leaf o2 r2 par2 ps2 => exact wfDel_root_leaf_to_wfB hwfd
        | internal o2 r2 par2 cs2 ks2 =>
          refine wfDel_root_internal_to_wfB hwfd ?_
          intro hcon
          subst hcon
          rcases wfDel_internal_iff.mp hwfd with ⟨-, h2, -, -, -, -, -, -⟩
          rename_i hnC
          cases cs2 with
          | nil => simp at h2
          | cons c0 cs3 =>
            cases cs3 with
            | nil => exact hnC o2 r2 par2 c0 rfl
            | cons c1 cs4 => simp at h2
      obtain ⟨hinvF, hpairsOF⟩ := hfinish td2 hwfF hpairs2 hsub2
      refine ⟨⟨writeBack t.pager td2, t.b, offOf td2⟩, rfl, hinvF, rfl, ?_,
        hpairsOF, ?_⟩
      · exact writeBack_length _ _
      · rw [hpairsOF]
        exact hlen2
  · intro hk
    have hk2 : k ∉ (pairsA td).map (fun p => p.key) := by
      rw [keysOf, hpairsOf] at hk
      exact hk
    have herr := hspec.2 hk2
    rw [BTree.delete]
    simp only [hdec, herr]

/-! ### The order and branching invariants follow from the tree invariant -/

mutual
theorem wf_branchOK : ∀ (t : OTree) {b : Nat} {rt : Bool} {lo hi : Option Key},
    wfB b rt lo hi t = true → branchOKB b rt t = true
  | .leaf o r par ps, b, rt, lo, hi, h => by
    rcases wfB_leaf_iff.mp h with ⟨-, h2, h3, -, -⟩
    rw [branchOKB]
    rcases h2 with h2 | h2
    · rw [h2]
      rfl
    · cases rt with
      | true => rfl
      | false =>
        simp only [Bool.false_or, Bool.and_eq_true, decide_eq_true_eq]
        exact ⟨h2, h3⟩
  | .internal o r par cs ks, b, rt, lo, hi, h => by
    rcases wfB_internal_iff.mp h with ⟨-, h2, h3, h4, -, -, -, h8⟩
    rw [branchOKB, Bool.and_eq_true]
    refine ⟨?_, wfChildren_branchLB cs h8⟩
    cases rt with
    | true => rfl
    | false =>
      rw [if_neg (by simp)] at h3
      simp only [Bool.false_or, Bool.and_eq_true, decide_eq_true_eq]
      exact ⟨⟨h3, h4⟩, h2⟩
theorem wfChildren_branchLB : ∀ (cs : List OTree) {b : Nat} {lo hi : Option Key}
    {ks : List Key}, wfChildrenB b lo ks cs hi = true → branchLB b cs = true
  | [], b, lo, hi, ks, h => by
    cases ks with
    | nil => simp [wfChildrenB] at h
    | cons k ks2 => simp [wfChildrenB] at h
  | c :: cs2, b, lo, hi, ks, h => by
    cases ks with
    | nil =>
      rcases wfChildrenB_nil_iff.mp h with ⟨c2, heq, hc2⟩
      have h1 : c = c2 := (List.cons.inj heq).1
      have h2 : cs2 = [] := (List.cons.inj heq).2
      subst h2
      rw [branchLB, branchLB, Bool.and_true]
      rw [h1]
      exact wf_branchOK c2 hc2
    | cons k ks2 =>
      rcases wfChildrenB_cons_iff.mp h with ⟨c2, cs3, heq, hc2, hrest⟩
      have h1 : c = c2 := (List.cons.inj heq).1
      have h2 : cs2 = cs3 := (List.cons.inj heq).2
      subst h2
      rw [branchLB, Bool.and_eq_true]
      refine ⟨?_, wfChildren_branchLB cs2 hrest⟩
      rw [h1]
      exact wf_branchOK c2 hc2
end

theorem invB_orderInv {t : BTree} (hinv : invB t = true) :
    orderInvB t = true := by
  rw [invB, Bool.and_eq_true] at hinv
  obtain ⟨-, hrest⟩ := hinv
  rcases hdr : decodedRoot t with _ | td
  · rw [hdr] at hrest
    simp at hrest
  rw [hdr] at hrest
  rw [Bool.and_eq_true, Bool.and_eq_true] at hrest
  obtain ⟨⟨hwf, -⟩, -⟩ := hrest
  rw [orderInvB, keysOf, pairsOf, hdr]
  exact (wf_pairs td t.b true none none hwf).1

theorem invB_branchingInv {t : BTree} (hinv : invB t = true) :
    branchingInvB t = true := by
  rw [invB, Bool.and_eq_true] at hinv
  obtain ⟨-, hrest⟩ := hinv
  rcases hdr : decodedRoot t with _ | td
  · rw [hdr] at hrest
    simp at hrest
  rw [hdr] at hrest
  rw [Bool.and_eq_true, Bool.and_eq_true] at hrest
  obtain ⟨⟨hwf, -⟩, -⟩ := hrest
  rw [branchingInvB, hdr]
  exact wf_branchOK td hwf

/-! ### Invariant preservation across operation sequences -/

theorem applyOp_ins {t : BTree} {kv : KeyValuePair} (hinv : invB t = true)
    (hfresh : kv.key ∉ keysOf t) :
    invB (applyOp t (.ins kv)) = true ∧ (applyOp t (.ins kv)).b = t.b := by
  obtain ⟨t2, hok, hinv2, hb2, -, -, -⟩ := insert_spec hinv hfresh
  rw [applyOp, hok]
  exact ⟨hinv2, hb2⟩

theorem applyOp_del {t : BTree} {k : Key} (hinv : invB t = true) :
    invB (applyOp t (.del k)) = true ∧ (applyOp t (.del k)).b = t.b := by
  by_cases hk : k ∈ keysOf t
  · obtain ⟨t2, hok, hinv2, hb2, -, -, -⟩ := (delete_spec hinv).1 hk
    rw [applyOp, hok]
    exact ⟨hinv2, hb2⟩
  · have herr := (delete_spec hinv).2 hk
    rw [applyOp, herr]
    exact ⟨hinv, rfl⟩

theorem applyOps_invB : ∀ (ops : List Op) (t : BTree), invB t = true →
    validOpsB t ops = true → invB (applyOps t ops) = true
  | [], t, hinv, _ => hinv
  | .ins kv :: ops, t, hinv, hv => by
    rw [validOpsB, Bool.and_eq_true] at hv
    have hfresh : kv.key ∉ keysOf t := by
      have := hv.1
      simp only [Bool.not_eq_true', decide_eq_false_iff_not] at this
      exact this
    rw [applyOps]
    exact applyOps_invB ops _ (applyOp_ins hinv hfresh).1 hv.2
  | .del k :: ops, t, hinv, hv => by
    rw [validOpsB] at hv
    rw [applyOps]
    exact applyOps_invB ops _ (applyOp_del hinv).1 hv

/-! ### Batched insertion -/

theorem insertAll_spec : ∀ (kvs : List KeyValuePair) (t : BTree),
    invB t = true →
    (keysOf t ++ kvs.map (fun p => p.key)).Nodup →
    ∃ t2, insertAll t kvs = .ok t2 ∧ invB t2 = true ∧ t2.b = t.b ∧
      (pairsOf t2).Perm (pairsOf t ++ kvs)
  | [], t, hinv, hnd => ⟨t, rfl, hinv, rfl, by simp⟩
  | kv :: kvs, t, hinv, hnd => by
    have hnd2 := hnd
    rw [List.nodup_append] at hnd2
    have hfresh : kv.key ∉ keysOf t := by
      intro hcon
      exact hnd2.2.2 hcon (by simp)
    obtain ⟨t1, hok, hinv1, hb1, hpairs1, -, -⟩ := insert_spec hinv hfresh
    have hfr2 : ∀ p ∈ pairsOf t, p.key ≠ kv.key := by
      intro p hp hcon
      exact hfresh (by rw [keysOf]; exact List.mem_map.mpr ⟨p, hp, hcon⟩)
    have hperm1 : (pairsOf t1).Perm (kv :: pairsOf t) := by
      rw [hpairs1]
      exact partition_perm hfr2
    have hkperm : (keysOf t1).Perm (kv.key :: keysOf t) := by
      have := hperm1.map (fun p => p.key)
      simpa [keysOf] using this
    have hperm3 : (keysOf t ++ (kv.key :: kvs.map (fun p => p.key))).Perm
        (keysOf t1 ++ kvs.map (fun p => p.key)) := by
      refine List.Perm.trans List.perm_middle ?_
      have : (kv.key :: keysOf t).Perm (keysOf t1) := hkperm.symm
      exact this.append_right _
    have hnd3 : (keysOf t1 ++ kvs.map (fun p => p.key)).Nodup :=
      hperm3.nodup (by simpa using hnd)
    obtain ⟨t2, hok2, hinv2, hb2, hperm2⟩ := insertAll_spec kvs t1 hinv1 hnd3
    refine ⟨t2, ?_, hinv2, by rw [hb2, hb1], ?_⟩
    · rw [insertAll, hok]
      exact hok2
    · refine hperm2.trans ?_
      refine List.Perm.trans (hperm1.append_right kvs) ?_
      exact List.perm_middle.symm

/-! ### Codec round-trip: little-endian integers -/

theorem natToBytesLE_length : ∀ (w n : Nat), (natToBytesLE w n).length = w
  | 0, _ => rfl
  | w + 1, n => by
    rw [natToBytesLE, List.length_cons, natToBytesLE_length w]

theorem bytesToNatLE_natToBytesLE : ∀ (w n : Nat), n < 256 ^ w →
    bytesToNatLE (natToBytesLE w n) = n
  | 0, n, h => by
    rw [pow_zero] at h
    interval_cases n
    rfl
  | w + 1, n, h => by
    rw [natToBytesLE, bytesToNatLE]
    rw [bytesToNatLE_natToBytesLE w (n / 256) (by
      rw [Nat.div_lt_iff_lt_mul (by omega)]
      calc n < 256 ^ (w + 1) := h
        _ = 256 ^ w * 256 := by ring)]
    omega

/-! ### Codec round-trip: fixed-width cells -/

theorem padTo_length {w : Nat} {s : List Nat} (h : s.length ≤ w) :
    (padTo w s).length = w := by
  rw [padTo, List.length_append, List.length_replicate]
  omega

theorem takeWhile_append_replicate_zero :
    ∀ (s : List Nat) (k : Nat), (∀ x ∈ s, 0 < x) →
    (s ++ List.replicate k 0).takeWhile (fun x => x != 0) = s
  | [], 0, _ => rfl
  | [], k + 1, _ => by
    rw [List.nil_append, List.replicate, List.takeWhile_cons]
    simp
  | a :: s, k, h => by
    rw [List.cons_append, List.takeWhile_cons]
    have ha : 0 < a := h a (by simp)
    have hne : (a != 0) = true := by simpa using Nat.pos_iff_ne_zero.mp ha
    rw [hne, takeWhile_append_replicate_zero s k (fun x hx => h x (by simp [hx]))]
    simp

theorem stripPadding_padTo {w : Nat} {s : List Nat} (h : fitsCell w s = true) :
    stripPadding (padTo w s) = s := by
  rw [fitsCell, Bool.and_eq_true, List.all_eq_true] at h
  rw [stripPadding, padTo]
  refine takeWhile_append_replicate_zero s _ ?_
  intro x hx
  have := h.2 x hx
  rw [Bool.and_eq_true, decide_eq_true_eq, decide_eq_true_eq] at this
  exact this.1

/-! ### Reading cell runs back -/

theorem readPairs_flatMap : ∀ (ps : List KeyValuePair) (z : List Nat),
    (∀ p ∈ ps, fitsCell KEY_SIZE p.key = true ∧ fitsCell VALUE_SIZE p.value = true) →
    readPairs ps.length (ps.flatMap encodeKV ++ z) = ps
  | [], z, _ => rfl
  | p :: ps, z, h => by
    have hp := h p (by simp)
    have hk : (padTo KEY_SIZE p.key).length = KEY_SIZE := by
      refine padTo_length ?_
      rw [fitsCell, Bool.and_eq_true, decide_eq_true_eq] at hp
      exact hp.1.1
    have hv : (padTo VALUE_SIZE p.value).length = VALUE_SIZE := by
      refine padTo_length ?_
      have := hp.2
      rw [fitsCell, Bool.and_eq_true, decide_eq_true_eq] at this
      exact this.1
    rw [List.length_cons, List.flatMap_cons, readPairs]
    have harr : encodeKV p ++ ps.flatMap encodeKV ++ z
        = padTo KEY_SIZE p.key ++ (padTo VALUE_SIZE p.value ++
          (ps.flatMap encodeKV ++ z)) := by
      rw [encodeKV]
      simp [List.append_assoc]
    rw [harr]
    rw [List.take_left' hk, List.drop_left' hk]
    rw [List.take_left' hv]
    have hdrop : (padTo KEY_SIZE p.key ++ (padTo VALUE_SIZE p.value ++
        (ps.flatMap encodeKV ++ z))).drop (KEY_SIZE + VALUE_SIZE)
        = ps.flatMap encodeKV ++ z := by
      rw [← List.append_assoc]
      refine List.drop_left' ?_
      rw [List.length_append, hk, hv]
    rw [hdrop]
    rw [stripPadding_padTo hp.1, stripPadding_padTo hp.2]
    rw [readPairs_flatMap ps z (fun q hq => h q (by simp [hq]))]

theorem readOffsets_flatMap : ∀ (cs : List Offset) (z : List Nat),
    (∀ o ∈ cs, o < 256 ^ PTR_SIZE) →
    readOffsets cs.length (cs.flatMap (natToBytesLE PTR_SIZE) ++ z) = cs
  | [], z, _ => rfl
  | c :: cs, z, h => by
    rw [List.length_cons, List.flatMap_cons, readOffsets, List.append_assoc]
    rw [List.take_left' (natToBytesLE_length PTR_SIZE c)]
    rw [List.drop_left' (natToBytesLE_length PTR_SIZE c)]
    rw [bytesToNatLE_natToBytesLE PTR_SIZE c (h c (by simp))]
    rw [readOffsets_flatMap cs z (fun o ho => h o (by simp [ho]))]

theorem readKeys_flatMap : ∀ (ks : List Key) (z : List Nat),
    (∀ k ∈ ks, fitsCell KEY_SIZE k = true) →
    readKeys ks.length (ks.flatMap (padTo KEY_SIZE) ++ z) = ks
  | [], z, _ => rfl
  | k :: ks, z, h => by
    have hk := h k (by simp)
    have hlen : (padTo KEY_SIZE k).length = KEY_SIZE := by
      refine padTo_length ?_
      rw [fitsCell, Bool.and_eq_true, decide_eq_true_eq] at hk
      exact hk.1
    rw [List.length_cons, List.flatMap_cons, readKeys, List.append_assoc]
    rw [List.take_left' hlen, List.drop_left' hlen]
    rw [stripPadding_padTo hk]
    rw [readKeys_flatMap ks z (fun q hq => h q (by simp [hq]))]

theorem flatMap_length_uniform {α : Type} (f : α → List Nat) (k : Nat) :
    ∀ (l : List α), (∀ x ∈ l, (f x).length = k) → (l.flatMap f).length = l.length * k
  | [], _ => by simp
  | a :: l, h => by
    rw [List.flatMap_cons, List.length_append, h a (by simp),
      flatMap_length_uniform f k l (fun x hx => h x (by simp [hx]))]
    rw [List.length_cons]
    ring

/-! ### Parent pointer round-trip -/

theorem parentRep_roundtrip {po : Option Offset} (h : parentOk po = true) :
    bytesToNatLE (natToBytesLE PTR_SIZE (parentRep po)) = parentRep po := by
  refine bytesToNatLE_natToBytesLE PTR_SIZE _ ?_
  cases po with
  | none =>
    rw [parentRep]
    norm_num [PTR_SIZE]
  | some o =>
    rw [parentOk, Bool.and_eq_true, decide_eq_true_eq, decide_eq_true_eq] at h
    exact h.2

theorem parentRep_case {po : Option Offset} (h : parentOk po = true) :
    (if parentRep po = 0 then (none : Option Offset) else some (parentRep po)) = po := by
  cases po with
  | none => rfl
  | some o =>
    rw [parentOk, Bool.and_eq_true, decide_eq_true_eq] at h
    obtain ⟨h1, -⟩ := h
    have hne : ¬(o = 0) := by
      intro hc
      rw [hc] at h1
      exact Nat.lt_irrefl 0 h1
    rw [parentRep, if_neg hne]

/-! ### The round-trip theorem -/

theorem rootByte_case (ir : Bool) : ((if ir then 1 else 0 : Nat) == 1) = ir := by
  cases ir <;> rfl

theorem decode_encode_leaf (ps : List KeyValuePair) (ir : Bool) (po : Option Offset)
    (hpok : parentOk po = true)
    (hall : ∀ p ∈ ps, fitsCell KEY_SIZE p.key = true ∧ fitsCell VALUE_SIZE p.value = true)
    (hfit : LEAF_NODE_HEADER_SIZE + ps.length * (KEY_SIZE + VALUE_SIZE) ≤ PAGE_SIZE) :
    decodeNode (padPage ((if ir then 1 else 0) :: 1 ::
      natToBytesLE PTR_SIZE (parentRep po) ++ natToBytesLE PTR_SIZE ps.length ++
      ps.flatMap encodeKV)) = .ok ⟨.Leaf ps, ir, po⟩ := by
  have hplen : ps.length < 256 ^ PTR_SIZE := by
    have h2 : (256 : Nat) ^ PTR_SIZE = 18446744073709551616 := by
      rw [PTR_SIZE]
      norm_num
    rw [h2]
    have hfit2 := hfit
    rw [LEAF_NODE_HEADER_SIZE, COMMON_NODE_HEADER_SIZE, PTR_SIZE, KEY_SIZE, VALUE_SIZE,
      PAGE_SIZE] at hfit2
    omega
  have hpp : padPage ((if ir then 1 else 0) :: 1 ::
      natToBytesLE PTR_SIZE (parentRep po) ++ natToBytesLE PTR_SIZE ps.length ++
      ps.flatMap encodeKV) = (if ir then 1 else 0) :: 1 ::
      ((natToBytesLE PTR_SIZE (parentRep po) ++ natToBytesLE PTR_SIZE ps.length ++
      ps.flatMap encodeKV) ++ List.replicate (PAGE_SIZE -
        ((if ir then 1 else 0) :: 1 ::
        natToBytesLE PTR_SIZE (parentRep po) ++ natToBytesLE PTR_SIZE ps.length ++
        ps.flatMap encodeKV).length) 0) := rfl
  rw [hpp]
  rw [decodeNode]
  have hrest : (natToBytesLE PTR_SIZE (parentRep po) ++ natToBytesLE PTR_SIZE ps.length ++
      ps.flatMap encodeKV) ++ List.replicate (PAGE_SIZE -
        ((if ir then 1 else 0) :: 1 ::
        natToBytesLE PTR_SIZE (parentRep po) ++ natToBytesLE PTR_SIZE ps.length ++
        ps.flatMap encodeKV).length) 0
      = natToBytesLE PTR_SIZE (parentRep po) ++ (natToBytesLE PTR_SIZE ps.length ++
        (ps.flatMap encodeKV ++ List.replicate (PAGE_SIZE -
        ((if ir then 1 else 0) :: 1 ::
        natToBytesLE PTR_SIZE (parentRep po) ++ natToBytesLE PTR_SIZE ps.length ++
        ps.flatMap encodeKV).length) 0)) := by
    simp [List.append_assoc]
  rw [hrest]
  simp only [List.take_left' (natToBytesLE_length PTR_SIZE (parentRep po)),
    List.drop_left' (natToBytesLE_length PTR_SIZE (parentRep po)),
    List.take_left' (natToBytesLE_length PTR_SIZE ps.length),
    List.drop_left' (natToBytesLE_length PTR_SIZE ps.length)]
  rw [parentRep_roundtrip hpok]
  rw [bytesToNatLE_natToBytesLE PTR_SIZE ps.length hplen]
  rw [if_pos True.intro, if_pos hfit]
  rw [readPairs_flatMap ps _ hall]
  rw [parentRep_case hpok, rootByte_case ir]

theorem decode_encode_internal (cs : List Offset) (ks : List Key) (ir : Bool)
    (po : Option Offset)
    (hpok : parentOk po = true)
    (hck : cs.length = ks.length + 1)
    (hcs : ∀ o ∈ cs, o < 256 ^ PTR_SIZE)
    (hks : ∀ k ∈ ks, fitsCell KEY_SIZE k = true)
    (hfit : INTERNAL_NODE_HEADER_SIZE + cs.length * PTR_SIZE +
      (cs.length - 1) * KEY_SIZE ≤ PAGE_SIZE) :
    decodeNode (padPage ((if ir then 1 else 0) :: 0 ::
      natToBytesLE PTR_SIZE (parentRep po) ++ natToBytesLE PTR_SIZE cs.length ++
      cs.flatMap (natToBytesLE PTR_SIZE) ++ ks.flatMap (padTo KEY_SIZE)))
      = .ok ⟨.Internal cs ks, ir, po⟩ := by
  have hclen : cs.length < 256 ^ PTR_SIZE := by
    have h2 : (256 : Nat) ^ PTR_SIZE = 18446744073709551616 := by
      rw [PTR_SIZE]
      norm_num
    rw [h2]
    have hfit2 := hfit
    rw [INTERNAL_NODE_HEADER_SIZE, COMMON_NODE_HEADER_SIZE, PTR_SIZE, KEY_SIZE,
      PAGE_SIZE] at hfit2
    omega
  have hpp : padPage ((if ir then 1 else 0) :: 0 ::
      natToBytesLE PTR_SIZE (parentRep po) ++ natToBytesLE PTR_SIZE cs.length ++
      cs.flatMap (natToBytesLE PTR_SIZE) ++ ks.flatMap (padTo KEY_SIZE))
      = (if ir then 1 else 0) :: 0 ::
      ((natToBytesLE PTR_SIZE (parentRep po) ++ natToBytesLE PTR_SIZE cs.length ++
      cs.flatMap (natToBytesLE PTR_SIZE) ++ ks.flatMap (padTo KEY_SIZE)) ++
      List.replicate (PAGE_SIZE - ((if ir then 1 else 0) :: 0 ::
        natToBytesLE PTR_SIZE (parentRep po) ++ natToBytesLE PTR_SIZE cs.length ++
        cs.flatMap (natToBytesLE PTR_SIZE) ++ ks.flatMap (padTo KEY_SIZE)).length) 0) := rfl
  rw [hpp]
  rw [decodeNode]
  have hrest : (natToBytesLE PTR_SIZE (parentRep po) ++ natToBytesLE PTR_SIZE cs.length ++
      cs.flatMap (natToBytesLE PTR_SIZE) ++ ks.flatMap (padTo KEY_SIZE)) ++
      List.replicate (PAGE_SIZE - ((if ir then 1 else 0) :: 0 ::
        natToBytesLE PTR_SIZE (parentRep po) ++ natToBytesLE PTR_SIZE cs.length ++
        cs.flatMap (natToBytesLE PTR_SIZE) ++ ks.flatMap (padTo KEY_SIZE)).length) 0
      = natToBytesLE PTR_SIZE (parentRep po) ++ (natToBytesLE PTR_SIZE cs.length ++
        (cs.flatMap (natToBytesLE PTR_SIZE) ++ (ks.flatMap (padTo KEY_SIZE) ++
        List.replicate (PAGE_SIZE - ((if ir then 1 else 0) :: 0 ::
        natToBytesLE PTR_SIZE (parentRep po) ++ natToBytesLE PTR_SIZE cs.length ++
        cs.flatMap (natToBytesLE PTR_SIZE) ++ ks.flatMap (padTo KEY_SIZE)).length) 0))) := by
    simp [List.append_assoc]
  rw [hrest]
  simp only [List.take_left' (natToBytesLE_length PTR_SIZE (parentRep po)),
    List.drop_left' (natToBytesLE_length PTR_SIZE (parentRep po)),
    List.take_left' (natToBytesLE_length PTR_SIZE cs.length),
    List.drop_left' (natToBytesLE_length PTR_SIZE cs.length)]
  rw [parentRep_roundtrip hpok]
  rw [bytesToNatLE_natToBytesLE PTR_SIZE cs.length hclen]
  rw [if_neg (by omega : ¬(0 = 1)), if_pos True.intro, if_pos hfit]
  have hcdrop : (cs.flatMap (natToBytesLE PTR_SIZE) ++ (ks.flatMap (padTo KEY_SIZE) ++
      List.replicate (PAGE_SIZE - ((if ir then 1 else 0) :: 0 ::
      natToBytesLE PTR_SIZE (parentRep po) ++ natToBytesLE PTR_SIZE cs.length ++
      cs.flatMap (natToBytesLE PTR_SIZE) ++ ks.flatMap (padTo KEY_SIZE)).length) 0)).drop
      (cs.length * PTR_SIZE)
      = ks.flatMap (padTo KEY_SIZE) ++
      List.replicate (PAGE_SIZE - ((if ir then 1 else 0) :: 0 ::
      natToBytesLE PTR_SIZE (parentRep po) ++ natToBytesLE PTR_SIZE cs.length ++
      cs.flatMap (natToBytesLE PTR_SIZE) ++ ks.flatMap (padTo KEY_SIZE)).length) 0 := by
    refine List.drop_left' ?_
    exact flatMap_length_uniform _ PTR_SIZE cs (fun o _ => natToBytesLE_length PTR_SIZE o)
  rw [hcdrop]
  rw [readOffsets_flatMap cs _ hcs]
  have hkslen : cs.length - 1 = ks.length := by omega
  rw [hkslen]
  rw [readKeys_flatMap ks _ hks]
  rw [parentRep_case hpok, rootByte_case ir]

theorem codec_roundtrip {n : Node} (hv : validNode n = true) :
    ∃ page, encodeNode n = .ok page ∧ decodeNode page = .ok n ∧
      page.length = PAGE_SIZE := by
  obtain ⟨nt, ir, po⟩ := n
  rw [validNode, Bool.and_eq_true] at hv
  obtain ⟨hpok, hv⟩ := hv
  cases nt with
  | Leaf ps =>
    simp only at hv
    rw [Bool.and_eq_true, decide_eq_true_eq, List.all_eq_true] at hv
    obtain ⟨hall', hfit⟩ := hv
    have hall : ∀ p ∈ ps, fitsCell KEY_SIZE p.key = true ∧
        fitsCell VALUE_SIZE p.value = true := by
      intro p hp
      have := hall' p hp
      rw [Bool.and_eq_true] at this
      exact this
    have henc : encodeNode ⟨.Leaf ps, ir, po⟩
        = if LEAF_NODE_HEADER_SIZE + ps.length * (KEY_SIZE + VALUE_SIZE) ≤ PAGE_SIZE then
            .ok (padPage ((if ir then 1 else 0) :: 1 ::
              natToBytesLE PTR_SIZE (parentRep po) ++ natToBytesLE PTR_SIZE ps.length ++
              ps.flatMap encodeKV))
          else .error .UnexpectedError := rfl
    rw [if_pos hfit] at henc
    refine ⟨_, henc, decode_encode_leaf ps ir po hpok hall hfit, ?_⟩
    rw [padPage, List.length_append, List.length_replicate]
    have hbody : ((if ir then 1 else 0) :: 1 ::
        natToBytesLE PTR_SIZE (parentRep po) ++ natToBytesLE PTR_SIZE ps.length ++
        ps.flatMap encodeKV).length ≤ PAGE_SIZE := by
      have hflm : (ps.flatMap encodeKV).length = ps.length * (KEY_SIZE + VALUE_SIZE) := by
        refine flatMap_length_uniform _ _ ps ?_
        intro p hp
        rw [encodeKV, List.length_append,
          padTo_length (by
            have := (hall p hp).1
            rw [fitsCell, Bool.and_eq_true, decide_eq_true_eq] at this
            exact this.1),
          padTo_length (by
            have := (hall p hp).2
            rw [fitsCell, Bool.and_eq_true, decide_eq_true_eq] at this
            exact this.1)]
      simp only [List.length_cons, List.length_append,
        natToBytesLE_length, hflm]
      rw [LEAF_NODE_HEADER_SIZE, COMMON_NODE_HEADER_SIZE] at hfit
      omega
    exact Nat.add_sub_cancel' hbody
  | Internal cs ks =>
    simp only at hv
    rw [Bool.and_eq_true, Bool.and_eq_true, Bool.and_eq_true,
      decide_eq_true_eq, decide_eq_true_eq, List.all_eq_true, List.all_eq_true] at hv
    obtain ⟨⟨⟨hck, hcs'⟩, hks'⟩, hfit⟩ := hv
    have hcs : ∀ o ∈ cs, o < 256 ^ PTR_SIZE := by
      intro o ho
      have := hcs' o ho
      rw [decide_eq_true_eq] at this
      exact this
    have henc : encodeNode ⟨.Internal cs ks, ir, po⟩
        = if INTERNAL_NODE_HEADER_SIZE + cs.length * PTR_SIZE +
            (cs.length - 1) * KEY_SIZE ≤ PAGE_SIZE then
            .ok (padPage ((if ir then 1 else 0) :: 0 ::
              natToBytesLE PTR_SIZE (parentRep po) ++ natToBytesLE PTR_SIZE cs.length ++
              cs.flatMap (natToBytesLE PTR_SIZE) ++ ks.flatMap (padTo KEY_SIZE)))
          else .error .UnexpectedError := rfl
    rw [if_pos hfit] at henc
    refine ⟨_, henc, decode_encode_internal cs ks ir po hpok hck hcs hks' hfit, ?_⟩
    rw [padPage, List.length_append, List.length_replicate]
    have hbody : ((if ir then 1 else 0) :: 0 ::
        natToBytesLE PTR_SIZE (parentRep po) ++ natToBytesLE PTR_SIZE cs.length ++
        cs.flatMap (natToBytesLE PTR_SIZE) ++ ks.flatMap (padTo KEY_SIZE)).length
        ≤ PAGE_SIZE := by
      have hflc : (cs.flatMap (natToBytesLE PTR_SIZE)).length = cs.length * PTR_SIZE :=
        flatMap_length_uniform _ PTR_SIZE cs (fun o _ => natToBytesLE_length PTR_SIZE o)
      have hflk : (ks.flatMap (padTo KEY_SIZE)).length = ks.length * KEY_SIZE := by
        refine flatMap_length_uniform _ _ ks ?_
        intro k hk
        refine padTo_length ?_
        have := hks' k hk
        rw [fitsCell, Bool.and_eq_true, decide_eq_true_eq] at this
        exact this.1
      simp only [List.length_cons, List.length_append, natToBytesLE_length, hflc, hflk]
      rw [INTERNAL_NODE_HEADER_SIZE, COMMON_NODE_HEADER_SIZE] at hfit
      have hck2 : cs.length - 1 = ks.length := by omega
      rw [hck2] at hfit
      omega
    exact Nat.add_sub_cancel' hbody
  | Unexpected =>
    simp at hv

/-! ### Building a fresh tree -/

theorem build_ok (bld : BTreeBuilder) (file : Pager)
    (hpath : bld.path ≠ "") (hb : bld.b ≠ 0) :
    BTreeBuilder.build bld file =
      .ok ⟨⟨file.pages ++ [Node.new (.Leaf []) true none]⟩, bld.b,
        file.pages.length⟩ := by
  rw [BTreeBuilder.build, if_neg hpath, if_neg hb]
  rfl

theorem build_inv {bld : BTreeBuilder} {file : Pager} {t0 : BTree}
    (hbuild : BTreeBuilder.build bld file = .ok t0) :
    bld.path ≠ "" ∧ bld.b ≠ 0 ∧
      t0 = ⟨⟨file.pages ++ [Node.new (.Leaf []) true none]⟩, bld.b,
        file.pages.length⟩ := by
  rw [BTreeBuilder.build] at hbuild
  by_cases hp : bld.path = ""
  · rw [if_pos hp] at hbuild
    cases hbuild
  rw [if_neg hp] at hbuild
  by_cases hb : bld.b = 0
  · rw [if_pos hb] at hbuild
    cases hbuild
  rw [if_neg hb] at hbuild
  refine ⟨hp, hb, ?_⟩
  injection hbuild with h
  exact h.symm

theorem built_decodedRoot (file : Pager) (b : Nat) :
    decodedRoot ⟨⟨file.pages ++ [Node.new (.Leaf []) true none]⟩, b,
      file.pages.length⟩ = some (.leaf file.pages.length true none []) := by
  rw [decodedRoot, treeFuel]
  have hlen : (⟨file.pages ++ [Node.new (.Leaf []) true none]⟩ :
      Pager).pages.length + 1 = (file.pages.length + 1) + 1 := by
    simp
  rw [hlen, decodeT_succ]
  rw [List.getElem?_concat_length]
  rfl

theorem built_pairsOf (file : Pager) (b : Nat) :
    pairsOf ⟨⟨file.pages ++ [Node.new (.Leaf []) true none]⟩, b,
      file.pages.length⟩ = [] := by
  rw [pairsOf, built_decodedRoot]
  rfl

theorem built_keysOf (file : Pager) (b : Nat) :
    keysOf ⟨⟨file.pages ++ [Node.new (.Leaf []) true none]⟩, b,
      file.pages.length⟩ = [] := by
  rw [keysOf, built_pairsOf]
  rfl

theorem built_invB (file : Pager) (b : Nat) (hb : 2 ≤ b) :
    invB ⟨⟨file.pages ++ [Node.new (.Leaf []) true none]⟩, b,
      file.pages.length⟩ = true := by
  rw [invB, built_decodedRoot]
  rw [Bool.and_eq_true, Bool.and_eq_true, Bool.and_eq_true]
  refine ⟨by simpa using hb, ⟨?_, by simp [offsA]⟩, ?_⟩
  · rw [wfB]
    simp [sortedB, allInRangeB]
  · rw [List.all_eq_true]
    intro o ho
    simp only [offsA, List.mem_singleton] at ho
    subst ho
    simp

theorem empty_root_search (file : Pager) (b : Nat) (k : Key) :
    ((⟨⟨file.pages ++ [Node.new (.Leaf []) true none]⟩, b,
      file.pages.length⟩ : BTree).search k).1 = .error .KeyNotFound := by
  have hget : (⟨file.pages ++ [Node.new (.Leaf []) true none]⟩ :
      Pager).get_page file.pages.length = .ok (Node.new (.Leaf []) true none) :=
    get_page_eq (List.getElem?_concat_length _ _)
  rw [BTree.search]
  simp only [Pager.get_pageS, hget]
  have hlen : (⟨file.pages ++ [Node.new (.Leaf []) true none]⟩ :
      Pager).pages.length + 1 = (file.pages.length + 1) + 1 := by
    simp
  rw [hlen, search_node]
  rfl

/-! ### A list with pairwise-distinct keys determines each pair by its key -/

theorem eq_of_nodup_keys {ps : List KeyValuePair}
    (hnd : (ps.map (fun p => p.key)).Nodup) {p q : KeyValuePair}
    (hp : p ∈ ps) (hq : q ∈ ps) (hk : p.key = q.key) : p = q :=
  List.inj_on_of_nodup_map hnd hp hq hk

/-! ### The claims -/

/-- C1 (amended: the branching parameter must be at least 2; `build` accepts
`b = 1`, for which a split can promote duplicate separator keys and a search for
a present key can fail, see the counterexample): for every sequence of
insertions with pairwise-distinct keys starting from a freshly built tree with
`2 ≤ b`, a subsequent search for each inserted key returns its associated
key-value pair, and a search for any key not in the sequence returns the
`KeyNotFound` error. -/
theorem claim_C1 {path : String} {b : Nat} {file : Pager} {t0 t1 : BTree}
    {kvs : List KeyValuePair}
    (hb : 2 ≤ b)
    (hbuild : BTreeBuilder.build ⟨path, b⟩ file = .ok t0)
    (hnd : (kvs.map (fun p => p.key)).Nodup)
    (hins : insertAll t0 kvs = .ok t1) :
    (∀ kv ∈ kvs, (t1.search kv.key).1 = .ok kv) ∧
    (∀ k : Key, k ∉ kvs.map (fun p => p.key) →
      (t1.search k).1 = .error .KeyNotFound) := by
  obtain ⟨-, -, rfl⟩ := build_inv hbuild
  have hinv0 : invB ⟨⟨file.pages ++ [Node.new (.Leaf []) true none]⟩, b,
      file.pages.length⟩ = true := built_invB file b hb
  have hp0 := built_pairsOf file b
  have hk0 := built_keysOf file b
  have hnd2 : (keysOf ⟨⟨file.pages ++ [Node.new (.Leaf []) true none]⟩, b,
      file.pages.length⟩ ++ kvs.map (fun p => p.key)).Nodup := by
    rw [hk0, List.nil_append]
    exact hnd
  obtain ⟨t1', hok, hinv1, -, hperm⟩ := insertAll_spec kvs _ hinv0 hnd2
  rw [hins] at hok
  injection hok with hok
  subst hok
  rw [hp0, List.nil_append] at hperm
  have hkp : (keysOf t1).Perm (kvs.map (fun p => p.key)) := by
    rw [keysOf]
    exact hperm.map _
  have hnd1 : ((pairsOf t1).map (fun p => p.key)).Nodup := by
    have := hkp.symm.nodup hnd
    rw [keysOf] at this
    exact this
  constructor
  · intro kv hkv
    have hmem : kv ∈ pairsOf t1 := hperm.mem_iff.mpr hkv
    have hkmem : kv.key ∈ keysOf t1 := by
      rw [keysOf]
      exact List.mem_map.mpr ⟨kv, hmem, rfl⟩
    obtain ⟨p, hp, hpk, heq⟩ := (search_spec hinv1).1 hkmem
    have hpe : p = kv := eq_of_nodup_keys hnd1 hp hmem hpk
    rw [hpe] at heq
    exact heq
  · intro k hk
    have hknot : k ∉ keysOf t1 := fun hc => hk (hkp.mem_iff.mp hc)
    exact (search_spec hinv1).2 hknot

/-- C2 (amended: two restrictions are required, both exhibited by the
counterexample.  First, op sequences must be valid — every inserted key absent
from the tree at the moment of its insert, per spec §3's "inserting a present
key is undefined behavior": an unrestricted duplicate insert succeeds and
breaks the strict leaf order.  Second, the branching parameter must be at
least 2, as the whole-tree invariant requires: `build` accepts `b = 1`, and
from a fresh `b = 1` tree the valid fresh-key sequence insert `[1]` then
insert `[0]` leaves a non-root leaf holding `2 > 2b-1 = 1` pairs, breaking the
branching bounds): starting from a tree satisfying the whole-tree invariant —
branching parameter at least 2 and a well-formed decoded root — after any
valid sequence of operations the in-order concatenation of all leaf pairs is
strictly ascending by key, every non-root Internal node has between `b-1` and
`2b-1` keys with `len(children) = len(keys)+1`, and every non-root Leaf has
between `b-1` and `2b-1` pairs. -/
theorem claim_C2 {t : BTree} {ops : List Op} (hinv : invB t = true)
    (hval : validOpsB t ops = true) :
    orderInvB (applyOps t ops) = true ∧ branchingInvB (applyOps t ops) = true :=
  have h := applyOps_invB ops t hinv hval
  ⟨invB_orderInv h, invB_branchingInv h⟩

/-- C3: on a well-formed tree, insert succeeds on a fresh key; when the root is
full, and only then, the height grows by one, the new root is a brand-new
Internal node at the end of the file whose final contents are exactly the two
children `[old_root_offset, sibling_offset]` and the single separator key
promoted by splitting the (reparented, demoted) old root, the old root is
rewritten at its original offset with `is_root = false` and parent pointing at
the new root, and the new root's offset becomes the tree's root offset; when
the root is not full the height and the root offset are unchanged. -/
theorem claim_C3 {t : BTree} {kv : KeyValuePair}
    (hinv : invB t = true) (hfresh : kv.key ∉ keysOf t) :
    ∃ t', t.insert kv = .ok t' ∧
      (rootFullB t = false → heightOf t' = heightOf t ∧
        t'.root_offset = t.root_offset) ∧
      (rootFullB t = true →
        heightOf t' = heightOf t + 1 ∧
        t'.root_offset = t.pager.pages.length ∧
        (∃ med,
          (∃ root lN sN, t.pager.get_page t.root_offset = .ok root ∧
            Node.split ⟨root.node_type, false, some t.pager.pages.length⟩ t.b
              = .ok (med, lN, sN)) ∧
          t'.pager.pages[t.pager.pages.length]? = some
            ⟨.Internal [t.root_offset, t.pager.pages.length + 1] [med], true,
              none⟩) ∧
        (∃ oldN, t'.pager.pages[t.root_offset]? = some oldN ∧
          oldN.is_root = false ∧
          oldN.parent_offset = some t.pager.pages.length)) := by
  obtain ⟨t', hok, -, -, -, hnotfull, hfull⟩ := insert_spec hinv hfresh
  exact ⟨t', hok, hnotfull, hfull⟩

/-- C4: a node is considered full exactly when a Leaf holds `2b-1` pairs or an
Internal node holds `2b-1` keys; and when the child selected by the descent is
full, one step of `insert_non_full` splits it and continues: the left half is
persisted at the child's offset, the sibling is appended, the promoted median
key is inserted into the parent's keys at the child's index and the sibling's
offset into the parent's children at the next index, the parent is persisted,
and the descent continues into the retained left half if the inserted key is
less than or equal to the median and into the new sibling otherwise. -/
theorem claim_C4 {b fuel : Nat} {pager : Pager} {node : Node} {off : Offset}
    {kv : KeyValuePair} {cs : List Offset} {ks : List Key} {coff : Offset}
    {child : Node} {med : Key} {childL sibling : Node}
    (hnt : node.node_type = .Internal cs ks)
    (hcoff : cs[unwrapIdx (binSearchKeys ks kv.key)]? = some coff)
    (hget : pager.get_page coff = .ok child)
    (hfull : is_node_full b child = .ok true)
    (hsplit : child.split b = .ok (med, childL, sibling)) :
    (∀ (n : Node) (ps : List KeyValuePair), n.node_type = .Leaf ps →
      is_node_full b n = .ok (decide (ps.length = 2 * b - 1))) ∧
    (∀ (n : Node) (cs2 : List Offset) (ks2 : List Key),
      n.node_type = .Internal cs2 ks2 →
      is_node_full b n = .ok (decide (ks2.length = 2 * b - 1))) ∧
    insert_non_full b (fuel + 1) pager node off kv =
      (let idx := unwrapIdx (binSearchKeys ks kv.key)
       let pager1 := pager.write_page_at_offset childL coff
       let alloc := pager1.write_page sibling
       let pager3 := alloc.2.write_page_at_offset
         ⟨.Internal (cs.insertIdx (idx + 1) alloc.1) (ks.insertIdx idx med),
          node.is_root, node.parent_offset⟩ off
       if keyLeB kv.key med then insert_non_full b fuel pager3 childL coff kv
       else insert_non_full b fuel pager3 sibling alloc.1 kv) := by
  refine ⟨?_, ?_, ?_⟩
  · intro n ps hn
    rw [is_node_full, hn]
  · intro n cs2 ks2 hn
    rw [is_node_full, hn]
  · rw [insert_non_full, hnt]
    simp only [hcoff, hget, hfull, hsplit]

/-- C5: deleting a key that is present reduces the number of stored pairs by
exactly one, the remaining pairs being exactly those whose key differs from the
deleted one (so every other association is unchanged); deleting an absent key
returns the `KeyNotFound` error. -/
theorem claim_C5 {t : BTree} {k : Key} (hinv : invB t = true) :
    (k ∈ keysOf t → ∃ t2, t.delete k = .ok t2 ∧
      pairsOf t2 = eraseKeyP (pairsOf t) k ∧
      (pairsOf t2).length + 1 = (pairsOf t).length) ∧
    (k ∉ keysOf t → t.delete k = .error .KeyNotFound) := by
  refine ⟨fun hk => ?_, (delete_spec hinv).2⟩
  obtain ⟨t2, hok, -, -, -, hpairs, hlen⟩ := (delete_spec hinv).1 hk
  exact ⟨t2, hok, hpairs, hlen⟩

/-- C6: for every valid Node value, encoding succeeds with a `PAGE_SIZE`-byte
page and decoding that page yields the original node back (encode-then-decode
is the identity on valid nodes). -/
theorem claim_C6 {n : Node} (hv : validNode n = true) :
    ∃ page, encodeNode n = .ok page ∧ decodeNode page = .ok n ∧
      page.length = PAGE_SIZE :=
  codec_roundtrip hv

/-- C7 (amended: the insert is not rejected — the binary-search insertion point
is taken with `unwrap_or_else(|x| x)`, which merges the found case, so the new
pair is inserted at the found index and the leaf does end up with two pairs of
equal keys, the newer first): inserting a second pair with an already-stored
key into a freshly built tree succeeds and stores both pairs. -/
theorem claim_C7 (k : Key) (v1 v2 : List Nat) :
    ∃ t0 t1 t2 : BTree,
      BTreeBuilder.build ⟨"/tmp/db", 2⟩ ⟨[]⟩ = .ok t0 ∧
      t0.insert ⟨k, v1⟩ = .ok t1 ∧
      t1.insert ⟨k, v2⟩ = .ok t2 ∧
      pairsOf t2 = [⟨k, v2⟩, ⟨k, v1⟩] := by
  refine ⟨⟨⟨[Node.new (.Leaf []) true none]⟩, 2, 0⟩,
    ⟨⟨[⟨.Leaf [⟨k, v1⟩], true, none⟩]⟩, 2, 0⟩,
    ⟨⟨[⟨.Leaf [⟨k, v2⟩, ⟨k, v1⟩], true, none⟩]⟩, 2, 0⟩, ?_, ?_, ?_, ?_⟩
  · rfl
  · rfl
  · have hbs : binSearchPairs [⟨k, v1⟩] k = .ok 0 := by
      have h0 : countLtP [(⟨k, v1⟩ : KeyValuePair)] k = 0 := by
        simp [countLtP, keyLt_irrefl]
      rw [binSearchPairs_eq k (by rfl), if_pos (by simp), h0]
    rw [BTree.insert]
    have hget : (⟨[⟨.Leaf [⟨k, v1⟩], true, none⟩]⟩ : Pager).get_page 0
        = .ok ⟨.Leaf [⟨k, v1⟩], true, none⟩ := rfl
    simp only [hget]
    have hnf : is_node_full 2 ⟨.Leaf [⟨k, v1⟩], true, none⟩ = .ok false := rfl
    rw [hnf]
    rw [insert_non_full]
    simp only [hbs]
    rfl
  · rw [pairsOf, decodedRoot, treeFuel, decodeT_succ]
    rfl

/-- C8 (amended: the bound `MAX_BRANCHING_FACTOR` is never consulted — any `b`
above it is accepted, see the counterexample): `BTreeBuilder::build` returns a
configuration error, before performing any file I/O, exactly when the path is
empty or `b` is zero; otherwise it succeeds and the new tree consists of a
single empty root Leaf appended to the backing file via `write_page`, at the
offset the tree's root offset is set to. -/
theorem claim_C8 (bld : BTreeBuilder) (file : Pager) :
    ((∃ e, BTreeBuilder.build bld file = .error e) ↔
      bld.path = "" ∨ bld.b = 0) ∧
    (bld.path ≠ "" → bld.b ≠ 0 →
      BTreeBuilder.build bld file =
        .ok ⟨⟨file.pages ++ [Node.new (.Leaf []) true none]⟩, bld.b,
          file.pages.length⟩) := by
  constructor
  · constructor
    · rintro ⟨e, he⟩
      by_contra hc
      push_neg at hc
      rw [build_ok bld file hc.1 hc.2] at he
      cases he
    · rintro (hp | hb)
      · exact ⟨.UnexpectedError, by rw [BTreeBuilder.build, if_pos hp]⟩
      · by_cases hp : bld.path = ""
        · exact ⟨.UnexpectedError, by rw [BTreeBuilder.build, if_pos hp]⟩
        · exact ⟨.UnexpectedError,
            by rw [BTreeBuilder.build, if_neg hp, if_pos hb]⟩
  · exact build_ok bld file

/-- C9: search writes nothing — the tree state after a search is the very tree
searched — and two consecutive searches for the same key return identical
results. -/
theorem claim_C9 (t : BTree) (k : Key) :
    (t.search k).2 = t ∧ ((t.search k).2.search k).1 = (t.search k).1 :=
  ⟨search_tree_eq t k, search_idempotent t k⟩

/-- C10: whenever `build` succeeds — whatever the backing file already
contains — it appends one fresh empty root Leaf, points the root offset at it,
and a search for every key on the new tree returns the `KeyNotFound` error: no
previously stored pair is reachable. -/
theorem claim_C10 {bld : BTreeBuilder} {file : Pager} {t0 : BTree}
    (hbuild : BTreeBuilder.build bld file = .ok t0) :
    t0.pager.pages = file.pages ++ [Node.new (.Leaf []) true none] ∧
    t0.root_offset = file.pages.length ∧
    ∀ k : Key, (t0.search k).1 = .error .KeyNotFound := by
  obtain ⟨-, -, rfl⟩ := build_inv hbuild
  exact ⟨rfl, rfl, fun k => empty_root_search file bld.b k⟩

/-! ### Concrete one-page trees -/

theorem leaf_root_decodedRoot (ps : List KeyValuePair) (b : Nat) :
    decodedRoot ⟨⟨[⟨.Leaf ps, true, none⟩]⟩, b, 0⟩
      = some (.leaf 0 true none ps) := by
  rw [decodedRoot, treeFuel, decodeT_succ]
  rfl

theorem leaf_root_pairsOf (ps : List KeyValuePair) (b : Nat) :
    pairsOf ⟨⟨[⟨.Leaf ps, true, none⟩]⟩, b, 0⟩ = ps := by
  rw [pairsOf, leaf_root_decodedRoot]
  rfl

theorem leaf_root_keysOf (ps : List KeyValuePair) (b : Nat) :
    keysOf ⟨⟨[⟨.Leaf ps, true, none⟩]⟩, b, 0⟩ = ps.map (fun p => p.key) := by
  rw [keysOf, leaf_root_pairsOf]

theorem leaf_root_invB (ps : List KeyValuePair) (b : Nat) (hb : 2 ≤ b)
    (hlen : ps.length ≤ 2 * b - 1)
    (hs : sortedB (ps.map (fun p => p.key)) = true) :
    invB ⟨⟨[⟨.Leaf ps, true, none⟩]⟩, b, 0⟩ = true := by
  rw [invB, leaf_root_decodedRoot]
  rw [Bool.and_eq_true, Bool.and_eq_true, Bool.and_eq_true]
  refine ⟨by simpa using hb, ⟨?_, by simp [offsA]⟩, by simp [offsA]⟩
  rw [wfB]
  simp only [Bool.and_eq_true, decide_eq_true_eq]
  refine ⟨⟨⟨⟨by simp, by simp⟩, hlen⟩, hs⟩, ?_⟩
  rw [allInRangeB, List.all_eq_true]
  intro k hk
  exact inRangeB_none k

/-! ### Small binary searches, computed through the loop -/

theorem bsLoop_one (f : Nat → Ordering) (base : Nat) : bsLoop f base 1 = base := by
  rw [bsLoop, if_neg (by omega)]

theorem binarySearchBy_one_eq (f : Nat → Ordering) (hf : f 0 = .eq) :
    binarySearchBy f 1 = .ok 0 := by
  rw [binarySearchBy, if_neg (by omega), bsLoop_one, hf]

theorem binarySearchBy_one_gt (f : Nat → Ordering) (hf : f 0 = .gt) :
    binarySearchBy f 1 = .error 0 := by
  rw [binarySearchBy, if_neg (by omega), bsLoop_one, hf]

theorem binarySearchBy_two_eq (f : Nat → Ordering) (hf : f 1 = .eq) :
    binarySearchBy f 2 = .ok 1 := by
  have h0 : bsLoop f 0 2 = 1 := by
    rw [bsLoop, if_pos (by omega)]
    rw [show (0 : Nat) + 2 / 2 = 1 from by norm_num, hf]
    rw [if_neg (by simp)]
    rw [show (2 : Nat) - 2 / 2 = 1 from by norm_num]
    exact bsLoop_one f 1
  rw [binarySearchBy, if_neg (by omega), h0, hf]

/-! ### Witnesses -/

theorem claim_C1_witness :
    (2 ≤ 2) ∧
    BTreeBuilder.build ⟨"/tmp/db", 2⟩ ⟨[]⟩ =
      .ok ⟨⟨[⟨.Leaf [], true, none⟩]⟩, 2, 0⟩ ∧
    ([(⟨[1], [7]⟩ : KeyValuePair)].map (fun p => p.key)).Nodup ∧
    insertAll ⟨⟨[⟨.Leaf [], true, none⟩]⟩, 2, 0⟩ [⟨[1], [7]⟩] =
      .ok ⟨⟨[⟨.Leaf [⟨[1], [7]⟩], true, none⟩]⟩, 2, 0⟩ ∧
    ((∀ kv ∈ [(⟨[1], [7]⟩ : KeyValuePair)],
        ((⟨⟨[⟨.Leaf [⟨[1], [7]⟩], true, none⟩]⟩, 2, 0⟩ : BTree).search kv.key).1
          = .ok kv) ∧
     (∀ k : Key, k ∉ [(⟨[1], [7]⟩ : KeyValuePair)].map (fun p => p.key) →
        ((⟨⟨[⟨.Leaf [⟨[1], [7]⟩], true, none⟩]⟩, 2, 0⟩ : BTree).search k).1
          = .error .KeyNotFound)) := by
  have hbuild : BTreeBuilder.build ⟨"/tmp/db", 2⟩ ⟨[]⟩ =
      .ok (⟨⟨[⟨.Leaf [], true, none⟩]⟩, 2, 0⟩ : BTree) := rfl
  have hins : insertAll (⟨⟨[⟨.Leaf [], true, none⟩]⟩, 2, 0⟩ : BTree) [⟨[1], [7]⟩] =
      .ok ⟨⟨[⟨.Leaf [⟨[1], [7]⟩], true, none⟩]⟩, 2, 0⟩ := rfl
  exact ⟨by omega, hbuild, by decide, hins,
    claim_C1 (by omega) hbuild (by decide) hins⟩

theorem claim_C2_witness :
    invB (⟨⟨[⟨.Leaf [], true, none⟩]⟩, 2, 0⟩ : BTree) = true ∧
    validOpsB ⟨⟨[⟨.Leaf [], true, none⟩]⟩, 2, 0⟩ [.ins ⟨[1], [7]⟩] = true ∧
    (orderInvB (applyOps ⟨⟨[⟨.Leaf [], true, none⟩]⟩, 2, 0⟩
        [.ins ⟨[1], [7]⟩]) = true ∧
     branchingInvB (applyOps ⟨⟨[⟨.Leaf [], true, none⟩]⟩, 2, 0⟩
        [.ins ⟨[1], [7]⟩]) = true) := by
  have hinv : invB (⟨⟨[⟨.Leaf [], true, none⟩]⟩, 2, 0⟩ : BTree) = true :=
    leaf_root_invB [] 2 (by omega) (by decide) rfl
  have hval : validOpsB ⟨⟨[⟨.Leaf [], true, none⟩]⟩, 2, 0⟩
      [.ins ⟨[1], [7]⟩] = true := by
    rw [validOpsB, validOpsB]
    have hk : keysOf (⟨⟨[⟨.Leaf [], true, none⟩]⟩, 2, 0⟩ : BTree) = [] :=
      leaf_root_keysOf [] 2
    rw [hk]
    rfl
  exact ⟨hinv, hval, claim_C2 hinv hval⟩

theorem claim_C3_witness :
    invB (⟨⟨[⟨.Leaf [⟨[1], [7]⟩, ⟨[2], [8]⟩, ⟨[3], [9]⟩], true, none⟩]⟩, 2, 0⟩ :
      BTree) = true ∧
    ([4] ∉ keysOf (⟨⟨[⟨.Leaf [⟨[1], [7]⟩, ⟨[2], [8]⟩, ⟨[3], [9]⟩], true,
      none⟩]⟩, 2, 0⟩ : BTree)) ∧
    (∃ t', (⟨⟨[⟨.Leaf [⟨[1], [7]⟩, ⟨[2], [8]⟩, ⟨[3], [9]⟩], true, none⟩]⟩, 2, 0⟩ :
        BTree).insert ⟨[4], [10]⟩ = .ok t' ∧
      (rootFullB (⟨⟨[⟨.Leaf [⟨[1], [7]⟩, ⟨[2], [8]⟩, ⟨[3], [9]⟩], true, none⟩]⟩,
          2, 0⟩ : BTree) = false →
        heightOf t' = heightOf (⟨⟨[⟨.Leaf [⟨[1], [7]⟩, ⟨[2], [8]⟩, ⟨[3], [9]⟩],
          true, none⟩]⟩, 2, 0⟩ : BTree) ∧ t'.root_offset = 0) ∧
      (rootFullB (⟨⟨[⟨.Leaf [⟨[1], [7]⟩, ⟨[2], [8]⟩, ⟨[3], [9]⟩], true, none⟩]⟩,
          2, 0⟩ : BTree) = true →
        heightOf t' = heightOf (⟨⟨[⟨.Leaf [⟨[1], [7]⟩, ⟨[2], [8]⟩, ⟨[3], [9]⟩],
          true, none⟩]⟩, 2, 0⟩ : BTree) + 1 ∧
        t'.root_offset = 1 ∧
        (∃ med,
          (∃ root lN sN, (⟨[⟨.Leaf [⟨[1], [7]⟩, ⟨[2], [8]⟩, ⟨[3], [9]⟩], true,
              none⟩]⟩ : Pager).get_page 0 = .ok root ∧
            Node.split ⟨root.node_type, false, some 1⟩ 2 = .ok (med, lN, sN)) ∧
          t'.pager.pages[1]? = some ⟨.Internal [0, 2] [med], true, none⟩) ∧
        (∃ oldN, t'.pager.pages[0]? = some oldN ∧ oldN.is_root = false ∧
          oldN.parent_offset = some 1))) := by
  have hinv : invB (⟨⟨[⟨.Leaf [⟨[1], [7]⟩, ⟨[2], [8]⟩, ⟨[3], [9]⟩], true,
      none⟩]⟩, 2, 0⟩ : BTree) = true :=
    leaf_root_invB [⟨[1], [7]⟩, ⟨[2], [8]⟩, ⟨[3], [9]⟩] 2 (by omega) (by decide)
      (by decide)
  have hfr : [4] ∉ keysOf (⟨⟨[⟨.Leaf [⟨[1], [7]⟩, ⟨[2], [8]⟩, ⟨[3], [9]⟩], true,
      none⟩]⟩, 2, 0⟩ : BTree) := by
    rw [leaf_root_keysOf]
    decide
  exact ⟨hinv, hfr, claim_C3 hinv hfr⟩

theorem claim_C4_witness :
    ((⟨.Internal [0] [], true, none⟩ : Node).node_type = .Internal [0] []) ∧
    (([0] : List Offset)[unwrapIdx (binSearchKeys []
        (⟨[2], [5]⟩ : KeyValuePair).key)]? = some 0) ∧
    ((⟨[⟨.Leaf [⟨[1], [7]⟩, ⟨[2], [8]⟩, ⟨[3], [9]⟩], false, some 1⟩,
        ⟨.Internal [0] [], true, none⟩]⟩ : Pager).get_page 0 =
      .ok ⟨.Leaf [⟨[1], [7]⟩, ⟨[2], [8]⟩, ⟨[3], [9]⟩], false, some 1⟩) ∧
    (is_node_full 2 ⟨.Leaf [⟨[1], [7]⟩, ⟨[2], [8]⟩, ⟨[3], [9]⟩], false, some 1⟩
      = .ok true) ∧
    (Node.split ⟨.Leaf [⟨[1], [7]⟩, ⟨[2], [8]⟩, ⟨[3], [9]⟩], false, some 1⟩ 2
      = .ok ([2], ⟨.Leaf [⟨[1], [7]⟩, ⟨[2], [8]⟩], false, some 1⟩,
        ⟨.Leaf [⟨[3], [9]⟩], false, some 1⟩)) ∧
    ((∀ (n : Node) (ps : List KeyValuePair), n.node_type = .Leaf ps →
        is_node_full 2 n = .ok (decide (ps.length = 2 * 2 - 1))) ∧
     (∀ (n : Node) (cs2 : List Offset) (ks2 : List Key),
        n.node_type = .Internal cs2 ks2 →
        is_node_full 2 n = .ok (decide (ks2.length = 2 * 2 - 1))) ∧
     insert_non_full 2 (0 + 1)
        ⟨[⟨.Leaf [⟨[1], [7]⟩, ⟨[2], [8]⟩, ⟨[3], [9]⟩], false, some 1⟩,
          ⟨.Internal [0] [], true, none⟩]⟩
        ⟨.Internal [0] [], true, none⟩ 1 ⟨[2], [5]⟩ =
      insert_non_full 2 0
        ⟨[⟨.Leaf [⟨[1], [7]⟩, ⟨[2], [8]⟩], false, some 1⟩,
          ⟨.Internal [0, 2] [[2]], true, none⟩,
          ⟨.Leaf [⟨[3], [9]⟩], false, some 1⟩]⟩
        ⟨.Leaf [⟨[1], [7]⟩, ⟨[2], [8]⟩], false, some 1⟩ 0 ⟨[2], [5]⟩) := by
  have hnt : (⟨.Internal [0] [], true, none⟩ : Node).node_type
      = .Internal [0] [] := rfl
  have hcoff : ([0] : List Offset)[unwrapIdx (binSearchKeys []
      (⟨[2], [5]⟩ : KeyValuePair).key)]? = some 0 := rfl
  have hget : (⟨[⟨.Leaf [⟨[1], [7]⟩, ⟨[2], [8]⟩, ⟨[3], [9]⟩], false, some 1⟩,
      ⟨.Internal [0] [], true, none⟩]⟩ : Pager).get_page 0 =
      .ok ⟨.Leaf [⟨[1], [7]⟩, ⟨[2], [8]⟩, ⟨[3], [9]⟩], false, some 1⟩ := rfl
  have hfull : is_node_full 2
      ⟨.Leaf [⟨[1], [7]⟩, ⟨[2], [8]⟩, ⟨[3], [9]⟩], false, some 1⟩ = .ok true := rfl
  have hsplit : Node.split
      ⟨.Leaf [⟨[1], [7]⟩, ⟨[2], [8]⟩, ⟨[3], [9]⟩], false, some 1⟩ 2
      = .ok ([2], ⟨.Leaf [⟨[1], [7]⟩, ⟨[2], [8]⟩], false, some 1⟩,
        ⟨.Leaf [⟨[3], [9]⟩], false, some 1⟩) := rfl
  exact ⟨hnt, hcoff, hget, hfull, hsplit,
    claim_C4 hnt hcoff hget hfull hsplit⟩

theorem claim_C5_witness :
    invB (⟨⟨[⟨.Leaf [⟨[1], [7]⟩], true, none⟩]⟩, 2, 0⟩ : BTree) = true ∧
    (([1] ∈ keysOf (⟨⟨[⟨.Leaf [⟨[1], [7]⟩], true, none⟩]⟩, 2, 0⟩ : BTree) →
      ∃ t2, (⟨⟨[⟨.Leaf [⟨[1], [7]⟩], true, none⟩]⟩, 2, 0⟩ : BTree).delete [1]
          = .ok t2 ∧
        pairsOf t2 = eraseKeyP (pairsOf (⟨⟨[⟨.Leaf [⟨[1], [7]⟩], true,
          none⟩]⟩, 2, 0⟩ : BTree)) [1] ∧
        (pairsOf t2).length + 1 =
          (pairsOf (⟨⟨[⟨.Leaf [⟨[1], [7]⟩], true, none⟩]⟩, 2, 0⟩ :
            BTree)).length) ∧
     ([1] ∉ keysOf (⟨⟨[⟨.Leaf [⟨[1], [7]⟩], true, none⟩]⟩, 2, 0⟩ : BTree) →
      (⟨⟨[⟨.Leaf [⟨[1], [7]⟩], true, none⟩]⟩, 2, 0⟩ : BTree).delete [1]
        = .error .KeyNotFound)) := by
  have hinv : invB (⟨⟨[⟨.Leaf [⟨[1], [7]⟩], true, none⟩]⟩, 2, 0⟩ : BTree)
      = true :=
    leaf_root_invB [⟨[1], [7]⟩] 2 (by omega) (by decide) (by decide)
  exact ⟨hinv, claim_C5 hinv⟩

theorem claim_C6_witness :
    validNode ⟨.Leaf [⟨[1], [2]⟩], true, none⟩ = true ∧
    (∃ page, encodeNode ⟨.Leaf [⟨[1], [2]⟩], true, none⟩ = .ok page ∧
      decodeNode page = .ok ⟨.Leaf [⟨[1], [2]⟩], true, none⟩ ∧
      page.length = PAGE_SIZE) :=
  ⟨by decide, claim_C6 (by decide)⟩

theorem claim_C10_witness :
    BTreeBuilder.build ⟨"/tmp/db", 1⟩ ⟨[⟨.Leaf [⟨[3], [5]⟩], true, none⟩]⟩ =
      .ok ⟨⟨[⟨.Leaf [⟨[3], [5]⟩], true, none⟩, ⟨.Leaf [], true, none⟩]⟩, 1, 1⟩ ∧
    ((⟨⟨[⟨.Leaf [⟨[3], [5]⟩], true, none⟩, ⟨.Leaf [], true, none⟩]⟩, 1, 1⟩ :
        BTree).pager.pages =
      [⟨.Leaf [⟨[3], [5]⟩], true, none⟩] ++ [Node.new (.Leaf []) true none] ∧
     (⟨⟨[⟨.Leaf [⟨[3], [5]⟩], true, none⟩, ⟨.Leaf [], true, none⟩]⟩, 1, 1⟩ :
        BTree).root_offset = 1 ∧
     ∀ k : Key, ((⟨⟨[⟨.Leaf [⟨[3], [5]⟩], true, none⟩, ⟨.Leaf [], true,
        none⟩]⟩, 1, 1⟩ : BTree).search k).1 = .error .KeyNotFound) := by
  have hbuild : BTreeBuilder.build ⟨"/tmp/db", 1⟩
      ⟨[⟨.Leaf [⟨[3], [5]⟩], true, none⟩]⟩ =
      .ok (⟨⟨[⟨.Leaf [⟨[3], [5]⟩], true, none⟩, ⟨.Leaf [], true, none⟩]⟩, 1, 1⟩ :
        BTree) := rfl
  exact ⟨hbuild, claim_C10 hbuild⟩

/-! ### Counterexamples -/

theorem claim_C8_cex :
    BTreeBuilder.build ⟨"/tmp/db", 300⟩ ⟨[]⟩ =
      .ok ⟨⟨[⟨.Leaf [], true, none⟩]⟩, 300, 0⟩ ∧
    MAX_BRANCHING_FACTOR < 300 :=
  ⟨rfl, by decide⟩

theorem claim_C7_cex :
    BTreeBuilder.build ⟨"/tmp/db", 2⟩ ⟨[]⟩ =
      .ok ⟨⟨[⟨.Leaf [], true, none⟩]⟩, 2, 0⟩ ∧
    (⟨⟨[⟨.Leaf [], true, none⟩]⟩, 2, 0⟩ : BTree).insert ⟨[1], [7]⟩ =
      .ok ⟨⟨[⟨.Leaf [⟨[1], [7]⟩], true, none⟩]⟩, 2, 0⟩ ∧
    (⟨⟨[⟨.Leaf [⟨[1], [7]⟩], true, none⟩]⟩, 2, 0⟩ : BTree).insert ⟨[1], [9]⟩ =
      .ok ⟨⟨[⟨.Leaf [⟨[1], [9]⟩, ⟨[1], [7]⟩], true, none⟩]⟩, 2, 0⟩ ∧
    pairsOf ⟨⟨[⟨.Leaf [⟨[1], [9]⟩, ⟨[1], [7]⟩], true, none⟩]⟩, 2, 0⟩ =
      [⟨[1], [9]⟩, ⟨[1], [7]⟩] := by
  refine ⟨rfl, rfl, ?_, leaf_root_pairsOf _ 2⟩
  have hbs : binSearchPairs [⟨[1], [7]⟩] ([1] : Key) = .ok 0 := by
    rw [binSearchPairs_eq_keys, binSearchKeys]
    exact binarySearchBy_one_eq _ rfl
  rw [BTree.insert]
  have hget : (⟨[⟨.Leaf [⟨[1], [7]⟩], true, none⟩]⟩ : Pager).get_page 0
      = .ok ⟨.Leaf [⟨[1], [7]⟩], true, none⟩ := rfl
  simp only [hget]
  have hnf : is_node_full 2 ⟨.Leaf [⟨[1], [7]⟩], true, none⟩ = .ok false := rfl
  rw [hnf]
  rw [insert_non_full]
  simp only [hbs]
  rfl

theorem claim_C2_cex :
    (invB (⟨⟨[⟨.Leaf [], true, none⟩]⟩, 2, 0⟩ : BTree) = true ∧
     orderInvB (applyOps ⟨⟨[⟨.Leaf [], true, none⟩]⟩, 2, 0⟩
       [.ins ⟨[1], [7]⟩, .ins ⟨[1], [9]⟩]) = false) ∧
    (orderInvB (⟨⟨[⟨.Leaf [], true, none⟩]⟩, 1, 0⟩ : BTree) = true ∧
     branchingInvB (⟨⟨[⟨.Leaf [], true, none⟩]⟩, 1, 0⟩ : BTree) = true ∧
     validOpsB ⟨⟨[⟨.Leaf [], true, none⟩]⟩, 1, 0⟩
       [.ins ⟨[1], [101]⟩, .ins ⟨[0], [100]⟩] = true ∧
     branchingInvB (applyOps ⟨⟨[⟨.Leaf [], true, none⟩]⟩, 1, 0⟩
       [.ins ⟨[1], [101]⟩, .ins ⟨[0], [100]⟩]) = false) := by
  constructor
  · refine ⟨leaf_root_invB [] 2 (by omega) (by decide) rfl, ?_⟩
    have h1 : applyOp (⟨⟨[⟨.Leaf [], true, none⟩]⟩, 2, 0⟩ : BTree)
        (.ins ⟨[1], [7]⟩) = ⟨⟨[⟨.Leaf [⟨[1], [7]⟩], true, none⟩]⟩, 2, 0⟩ := rfl
    have hins2 : (⟨⟨[⟨.Leaf [⟨[1], [7]⟩], true, none⟩]⟩, 2, 0⟩ : BTree).insert
        ⟨[1], [9]⟩ = .ok ⟨⟨[⟨.Leaf [⟨[1], [9]⟩, ⟨[1], [7]⟩], true, none⟩]⟩, 2, 0⟩ := by
      have hbs : binSearchPairs [⟨[1], [7]⟩] ([1] : Key) = .ok 0 := by
        rw [binSearchPairs_eq_keys, binSearchKeys]
        exact binarySearchBy_one_eq _ rfl
      rw [BTree.insert]
      have hget : (⟨[⟨.Leaf [⟨[1], [7]⟩], true, none⟩]⟩ : Pager).get_page 0
          = .ok ⟨.Leaf [⟨[1], [7]⟩], true, none⟩ := rfl
      simp only [hget]
      have hnf : is_node_full 2 ⟨.Leaf [⟨[1], [7]⟩], true, none⟩ = .ok false := rfl
      rw [hnf]
      rw [insert_non_full]
      simp only [hbs]
      rfl
    have h2 : applyOp (⟨⟨[⟨.Leaf [⟨[1], [7]⟩], true, none⟩]⟩, 2, 0⟩ : BTree)
        (.ins ⟨[1], [9]⟩) = ⟨⟨[⟨.Leaf [⟨[1], [9]⟩, ⟨[1], [7]⟩], true, none⟩]⟩, 2, 0⟩ := by
      rw [applyOp, hins2]
    rw [applyOps, h1, applyOps, h2, applyOps]
    rw [orderInvB]
    have hk : keysOf (⟨⟨[⟨.Leaf [⟨[1], [9]⟩, ⟨[1], [7]⟩], true, none⟩]⟩, 2, 0⟩ :
        BTree) = [[1], [1]] := by
      rw [leaf_root_keysOf]
      rfl
    rw [hk]
    rfl
  have h1 : applyOp (⟨⟨[⟨.Leaf [], true, none⟩]⟩, 1, 0⟩ : BTree)
      (.ins ⟨[1], [101]⟩) = ⟨⟨[⟨.Leaf [⟨[1], [101]⟩], true, none⟩]⟩, 1, 0⟩ := rfl
  have hbk : binSearchKeys [[1]] ([0] : Key) = .error 0 := by
    rw [binSearchKeys]
    exact binarySearchBy_one_gt _ rfl
  have hbp : binSearchPairs [⟨[1], [101]⟩] ([0] : Key) = .error 0 := by
    rw [binSearchPairs_eq_keys, binSearchKeys]
    exact binarySearchBy_one_gt _ rfl
  have hinf : insert_non_full 1 (1 + 1)
      ⟨[⟨.Leaf [⟨[1], [101]⟩], false, some 1⟩,
        ⟨.Internal [0, 2] [[1]], true, none⟩,
        ⟨.Leaf [], false, some 1⟩]⟩
      ⟨.Internal [0, 2] [[1]], true, none⟩ 1 ⟨[0], [100]⟩ =
      .ok ⟨[⟨.Leaf [⟨[0], [100]⟩, ⟨[1], [101]⟩], false, some 1⟩,
            ⟨.Internal [0, 3, 2] [[1], [1]], true, none⟩,
            ⟨.Leaf [], false, some 1⟩,
            ⟨.Leaf [], false, some 1⟩]⟩ := by
    rw [insert_non_full]
    simp only [hbk]
    show insert_non_full 1 (0 + 1)
        ⟨[⟨.Leaf [⟨[1], [101]⟩], false, some 1⟩,
          ⟨.Internal [0, 3, 2] [[1], [1]], true, none⟩,
          ⟨.Leaf [], false, some 1⟩,
          ⟨.Leaf [], false, some 1⟩]⟩
        ⟨.Leaf [⟨[1], [101]⟩], false, some 1⟩ 0 ⟨[0], [100]⟩ =
      .ok ⟨[⟨.Leaf [⟨[0], [100]⟩, ⟨[1], [101]⟩], false, some 1⟩,
            ⟨.Internal [0, 3, 2] [[1], [1]], true, none⟩,
            ⟨.Leaf [], false, some 1⟩,
            ⟨.Leaf [], false, some 1⟩]⟩
    rw [insert_non_full]
    simp only [hbp]
    rfl
  have hi2 : (⟨⟨[⟨.Leaf [⟨[1], [101]⟩], true, none⟩]⟩, 1, 0⟩ : BTree).insert
      ⟨[0], [100]⟩ =
      .ok ⟨⟨[⟨.Leaf [⟨[0], [100]⟩, ⟨[1], [101]⟩], false, some 1⟩,
             ⟨.Internal [0, 3, 2] [[1], [1]], true, none⟩,
             ⟨.Leaf [], false, some 1⟩,
             ⟨.Leaf [], false, some 1⟩]⟩, 1, 1⟩ := by
    show (match insert_non_full 1 (1 + 1)
        ⟨[⟨.Leaf [⟨[1], [101]⟩], false, some 1⟩,
          ⟨.Internal [0, 2] [[1]], true, none⟩,
          ⟨.Leaf [], false, some 1⟩]⟩
        ⟨.Internal [0, 2] [[1]], true, none⟩ 1 (⟨[0], [100]⟩ : KeyValuePair) with
      | .error e => (.error e : Except Error BTree)
      | .ok pager5 => .ok ⟨pager5, 1, 1⟩) =
      .ok ⟨⟨[⟨.Leaf [⟨[0], [100]⟩, ⟨[1], [101]⟩], false, some 1⟩,
             ⟨.Internal [0, 3, 2] [[1], [1]], true, none⟩,
             ⟨.Leaf [], false, some 1⟩,
             ⟨.Leaf [], false, some 1⟩]⟩, 1, 1⟩
    rw [hinf]
  have h2 : applyOp (⟨⟨[⟨.Leaf [⟨[1], [101]⟩], true, none⟩]⟩, 1, 0⟩ : BTree)
      (.ins ⟨[0], [100]⟩) =
      ⟨⟨[⟨.Leaf [⟨[0], [100]⟩, ⟨[1], [101]⟩], false, some 1⟩,
         ⟨.Internal [0, 3, 2] [[1], [1]], true, none⟩,
         ⟨.Leaf [], false, some 1⟩,
         ⟨.Leaf [], false, some 1⟩]⟩, 1, 1⟩ := by
    rw [applyOp, hi2]
  refine ⟨?_, ?_, ?_, ?_⟩
  · rw [orderInvB, leaf_root_keysOf]
    rfl
  · rw [branchingInvB, leaf_root_decodedRoot]
    show branchOKB 1 true (.leaf 0 true none []) = true
    rw [branchOKB]
    rfl
  · rw [validOpsB, h1, validOpsB, validOpsB]
    rw [leaf_root_keysOf, leaf_root_keysOf]
    rfl
  · rw [applyOps, h1, applyOps, h2, applyOps]
    have hd0 : decodeT (3 + 1)
        ⟨[⟨.Leaf [⟨[0], [100]⟩, ⟨[1], [101]⟩], false, some 1⟩,
          ⟨.Internal [0, 3, 2] [[1], [1]], true, none⟩,
          ⟨.Leaf [], false, some 1⟩,
          ⟨.Leaf [], false, some 1⟩]⟩ 0 =
        some (.leaf 0 false (some 1) [⟨[0], [100]⟩, ⟨[1], [101]⟩]) := by
      rw [decodeT_succ]
      rfl
    have hd3 : decodeT (3 + 1)
        ⟨[⟨.Leaf [⟨[0], [100]⟩, ⟨[1], [101]⟩], false, some 1⟩,
          ⟨.Internal [0, 3, 2] [[1], [1]], true, none⟩,
          ⟨.Leaf [], false, some 1⟩,
          ⟨.Leaf [], false, some 1⟩]⟩ 3 =
        some (.leaf 3 false (some 1) []) := by
      rw [decodeT_succ]
      rfl
    have hd2 : decodeT (3 + 1)
        ⟨[⟨.Leaf [⟨[0], [100]⟩, ⟨[1], [101]⟩], false, some 1⟩,
          ⟨.Internal [0, 3, 2] [[1], [1]], true, none⟩,
          ⟨.Leaf [], false, some 1⟩,
          ⟨.Leaf [], false, some 1⟩]⟩ 2 =
        some (.leaf 2 false (some 1) []) := by
      rw [decodeT_succ]
      rfl
    have hdl : decodeL (3 + 1)
        ⟨[⟨.Leaf [⟨[0], [100]⟩, ⟨[1], [101]⟩], false, some 1⟩,
          ⟨.Internal [0, 3, 2] [[1], [1]], true, none⟩,
          ⟨.Leaf [], false, some 1⟩,
          ⟨.Leaf [], false, some 1⟩]⟩ [0, 3, 2] =
        some [.leaf 0 false (some 1) [⟨[0], [100]⟩, ⟨[1], [101]⟩],
          .leaf 3 false (some 1) [], .leaf 2 false (some 1) []] := by
      rw [decodeL_cons, hd0, decodeL_cons, hd3, decodeL_cons, hd2, decodeL_nil]
    have hdr : decodedRoot
        (⟨⟨[⟨.Leaf [⟨[0], [100]⟩, ⟨[1], [101]⟩], false, some 1⟩,
           ⟨.Internal [0, 3, 2] [[1], [1]], true, none⟩,
           ⟨.Leaf [], false, some 1⟩,
           ⟨.Leaf [], false, some 1⟩]⟩, 1, 1⟩ : BTree) =
        some (.internal 1 true none
          [.leaf 0 false (some 1) [⟨[0], [100]⟩, ⟨[1], [101]⟩],
           .leaf 3 false (some 1) [], .leaf 2 false (some 1) []] [[1], [1]]) := by
      rw [decodedRoot, treeFuel, decodeT_succ]
      show (match decodeL (3 + 1)
          ⟨[⟨.Leaf [⟨[0], [100]⟩, ⟨[1], [101]⟩], false, some 1⟩,
            ⟨.Internal [0, 3, 2] [[1], [1]], true, none⟩,
            ⟨.Leaf [], false, some 1⟩,
            ⟨.Leaf [], false, some 1⟩]⟩ [0, 3, 2] with
        | none => (none : Option OTree)
        | some ts => some (.internal 1 true none ts [[1], [1]])) =
        some (.internal 1 true none
          [.leaf 0 false (some 1) [⟨[0], [100]⟩, ⟨[1], [101]⟩],
           .leaf 3 false (some 1) [], .leaf 2 false (some 1) []] [[1], [1]])
      rw [hdl]
    rw [branchingInvB, hdr]
    show branchOKB 1 true (.internal 1 true none
        [.leaf 0 false (some 1) [⟨[0], [100]⟩, ⟨[1], [101]⟩],
         .leaf 3 false (some 1) [], .leaf 2 false (some 1) []] [[1], [1]]) = false
    rw [branchOKB, branchLB, branchOKB]
    rfl

theorem claim_C1_cex :
    ([(⟨[1], [101]⟩ : KeyValuePair), ⟨[0], [100]⟩].map (fun p => p.key)).Nodup ∧
    BTreeBuilder.build ⟨"/tmp/db", 1⟩ ⟨[]⟩ =
      .ok ⟨⟨[⟨.Leaf [], true, none⟩]⟩, 1, 0⟩ ∧
    insertAll ⟨⟨[⟨.Leaf [], true, none⟩]⟩, 1, 0⟩
      [⟨[1], [101]⟩, ⟨[0], [100]⟩] =
      .ok ⟨⟨[⟨.Leaf [⟨[0], [100]⟩, ⟨[1], [101]⟩], false, some 1⟩,
             ⟨.Internal [0, 3, 2] [[1], [1]], true, none⟩,
             ⟨.Leaf [], false, some 1⟩,
             ⟨.Leaf [], false, some 1⟩]⟩, 1, 1⟩ ∧
    ((⟨⟨[⟨.Leaf [⟨[0], [100]⟩, ⟨[1], [101]⟩], false, some 1⟩,
        ⟨.Internal [0, 3, 2] [[1], [1]], true, none⟩,
        ⟨.Leaf [], false, some 1⟩,
        ⟨.Leaf [], false, some 1⟩]⟩, 1, 1⟩ : BTree).search [1]).1
      = .error .KeyNotFound := by
  have hi1 : (⟨⟨[⟨.Leaf [], true, none⟩]⟩, 1, 0⟩ : BTree).insert ⟨[1], [101]⟩
      = .ok ⟨⟨[⟨.Leaf [⟨[1], [101]⟩], true, none⟩]⟩, 1, 0⟩ := rfl
  have hbk : binSearchKeys [[1]] ([0] : Key) = .error 0 := by
    rw [binSearchKeys]
    exact binarySearchBy_one_gt _ rfl
  have hbp : binSearchPairs [⟨[1], [101]⟩] ([0] : Key) = .error 0 := by
    rw [binSearchPairs_eq_keys, binSearchKeys]
    exact binarySearchBy_one_gt _ rfl
  have hinf : insert_non_full 1 (1 + 1)
      ⟨[⟨.Leaf [⟨[1], [101]⟩], false, some 1⟩,
        ⟨.Internal [0, 2] [[1]], true, none⟩,
        ⟨.Leaf [], false, some 1⟩]⟩
      ⟨.Internal [0, 2] [[1]], true, none⟩ 1 ⟨[0], [100]⟩ =
      .ok ⟨[⟨.Leaf [⟨[0], [100]⟩, ⟨[1], [101]⟩], false, some 1⟩,
            ⟨.Internal [0, 3, 2] [[1], [1]], true, none⟩,
            ⟨.Leaf [], false, some 1⟩,
            ⟨.Leaf [], false, some 1⟩]⟩ := by
    rw [insert_non_full]
    simp only [hbk]
    show insert_non_full 1 (0 + 1)
        ⟨[⟨.Leaf [⟨[1], [101]⟩], false, some 1⟩,
          ⟨.Internal [0, 3, 2] [[1], [1]], true, none⟩,
          ⟨.Leaf [], false, some 1⟩,
          ⟨.Leaf [], false, some 1⟩]⟩
        ⟨.Leaf [⟨[1], [101]⟩], false, some 1⟩ 0 ⟨[0], [100]⟩ =
      .ok ⟨[⟨.Leaf [⟨[0], [100]⟩, ⟨[1], [101]⟩], false, some 1⟩,
            ⟨.Internal [0, 3, 2] [[1], [1]], true, none⟩,
            ⟨.Leaf [], false, some 1⟩,
            ⟨.Leaf [], false, some 1⟩]⟩
    rw [insert_non_full]
    simp only [hbp]
    rfl
  have hi2 : (⟨⟨[⟨.Leaf [⟨[1], [101]⟩], true, none⟩]⟩, 1, 0⟩ : BTree).insert
      ⟨[0], [100]⟩ =
      .ok ⟨⟨[⟨.Leaf [⟨[0], [100]⟩, ⟨[1], [101]⟩], false, some 1⟩,
             ⟨.Internal [0, 3, 2] [[1], [1]], true, none⟩,
             ⟨.Leaf [], false, some 1⟩,
             ⟨.Leaf [], false, some 1⟩]⟩, 1, 1⟩ := by
    show (match insert_non_full 1 (1 + 1)
        ⟨[⟨.Leaf [⟨[1], [101]⟩], false, some 1⟩,
          ⟨.Internal [0, 2] [[1]], true, none⟩,
          ⟨.Leaf [], false, some 1⟩]⟩
        ⟨.Internal [0, 2] [[1]], true, none⟩ 1 (⟨[0], [100]⟩ : KeyValuePair) with
      | .error e => (.error e : Except Error BTree)
      | .ok pager5 => .ok ⟨pager5, 1, 1⟩) =
      .ok ⟨⟨[⟨.Leaf [⟨[0], [100]⟩, ⟨[1], [101]⟩], false, some 1⟩,
             ⟨.Internal [0, 3, 2] [[1], [1]], true, none⟩,
             ⟨.Leaf [], false, some 1⟩,
             ⟨.Leaf [], false, some 1⟩]⟩, 1, 1⟩
    rw [hinf]
  have hbk2 : binSearchKeys [[1], [1]] ([1] : Key) = .ok 1 := by
    rw [binSearchKeys]
    exact binarySearchBy_two_eq _ rfl
  refine ⟨by decide, rfl, ?_, ?_⟩
  · rw [insertAll]
    simp only [hi1]
    rw [insertAll]
    simp only [hi2]
    rw [insertAll]
  · rw [BTree.search]
    show (search_node (4 + 1)
        ⟨[⟨.Leaf [⟨[0], [100]⟩, ⟨[1], [101]⟩], false, some 1⟩,
          ⟨.Internal [0, 3, 2] [[1], [1]], true, none⟩,
          ⟨.Leaf [], false, some 1⟩,
          ⟨.Leaf [], false, some 1⟩]⟩
        ⟨.Internal [0, 3, 2] [[1], [1]], true, none⟩ [1]).1
      = .error .KeyNotFound
    rw [search_node]
    simp only [hbk2]
    show (search_node (3 + 1)
        ⟨[⟨.Leaf [⟨[0], [100]⟩, ⟨[1], [101]⟩], false, some 1⟩,
          ⟨.Internal [0, 3, 2] [[1], [1]], true, none⟩,
          ⟨.Leaf [], false, some 1⟩,
          ⟨.Leaf [], false, some 1⟩]⟩
        ⟨.Leaf [], false, some 1⟩ [1]).1
      = .error .KeyNotFound
    rw [search_node]
    rfl

end BTV
